import Mathlib

/-!
# Changeset emission core of `crap` (src/emission.c, src/rlog_parse.c)

A shallow embedding of the emission scheduler.  C objects live in stores
indexed by their address; a pointer is an index, a nullable pointer an
`Option`.  Intrusive linked lists (`cs_sibling`, `sibling`, `parent`) stay
pointer chains and every loop that walks one carries a fuel counter, so a
cyclic chain shows up as `fault.out_of_fuel` instead of a non-terminating
definition.  Diagnostics written to stderr are not part of the model.

The counters `unready_count` and `changes` are `size_t` in C.  They only ever
count distinct live objects or array entries, which are bounded by the address
space, so they are natural numbers here.
-/

namespace Crap

/-- Ways in which a call can fail to return. -/
inductive fault where
  | assertion
  | aborted
  | null_deref
  | out_of_fuel
  deriving DecidableEq, Repr

/-- The three changeset variants (`ct_commit`, `ct_implicit_merge`, `ct_tag`). -/
inductive changeset_type where
  | ct_commit
  | ct_implicit_merge
  | ct_tag
  deriving DecidableEq, Repr

/-- A `changeset_t *`: either a changeset allocated by the database or the
changeset embedded in a tag (`&tag->changeset`). -/
inductive cs_ref where
  | heap (n : Nat)
  | of_tag (t : Nat)
  deriving DecidableEq, Repr

/-- The sentinel `SIZE_MAX` stored in `ready_index` of a version that is not
in the ready-versions heap. -/
def SIZE_MAX : Nat := 2 ^ 64 - 1

/-- One revision of one file (`version_t`).  `file` is the index
`v->file - db->files`; `branch` is the tag reached through
`v->branch->tag`, or `none` when `v->branch` is null. -/
structure version_t where
  file : Nat
  version : String
  author : String
  commitid : String
  log : String
  time : Int
  parent : Option Nat
  children : Option Nat
  sibling : Option Nat
  cs_sibling : Option Nat
  branch : Option Nat
  commit : cs_ref
  dead : Bool
  implicit_merge : Bool
  ready_index : Nat

/-- A changeset (`changeset_t`); `children` is the array
`children .. children_end`. -/
structure changeset_t where
  type : changeset_type
  time : Int
  unready_count : Nat
  versions : Option Nat
  parent : Option cs_ref
  children : List cs_ref

/-- A tag or branch (`tag_t`) with its embedded changeset.  `hash` is the
digest recorded for the tag in the fingerprint index. -/
structure tag_t where
  tag : String
  branch_versions : Option (Nat → Option Nat)
  is_released : Bool
  exact_match : Bool
  hash : Nat
  changeset : changeset_t

/-- A file (`file_t`); `versions` holds the addresses of the entries of the
array `versions .. versions_end`. -/
structure file_t where
  rcs_path : String
  versions : List Nat

/-- The database (`database_t`).  `changesets` is the array of changeset
pointers, `cs_mem` the memory they point into and `cs_alloc` the next
unused changeset address. -/
structure database_t where
  files : List file_t
  versions : Nat → version_t
  tags : Nat → tag_t
  tags_end : Nat
  changesets : List cs_ref
  cs_mem : Nat → changeset_t
  cs_alloc : Nat
  ready_changesets : List cs_ref
  ready_tags : List Nat

/-- Store update at one address. -/
def upd {β : Type} (f : Nat → β) (i : Nat) (x : β) : Nat → β :=
  fun j => if j = i then x else f j

/-- Dereference a changeset pointer. -/
def database_t.cs (db : database_t) : cs_ref → changeset_t
  | .heap n => db.cs_mem n
  | .of_tag t => (db.tags t).changeset

/-- Store a changeset through a pointer. -/
def database_t.set_cs (db : database_t) (p : cs_ref) (c : changeset_t) : database_t :=
  match p with
  | .heap n => { db with cs_mem := upd db.cs_mem n c }
  | .of_tag t => { db with tags := upd db.tags t { db.tags t with changeset := c } }

/-! ## Priority heap -/

/-- Modelled from the spec: heap.c is not under src/.  The heap is kept as the
list of its entries in priority order. -/
def heap_empty {α : Type} (h : List α) : Bool := h.isEmpty

/-- Modelled from the spec: heap.c is not under src/.  The front entry, null
on an empty heap. -/
def heap_front {α : Type} (h : List α) : Option α := h.head?

/-- Modelled from the spec: heap.c is not under src/.  Insertion keeps the
entries ordered by time; among equal times the earlier insertion stays in
front (the stable tie-break). -/
def heap_insert {α : Type} (time : α → Int) : List α → α → List α
  | [], x => [x]
  | y :: ys, x => if time x < time y then x :: y :: ys else y :: heap_insert time ys x

/-- Modelled from the spec: heap.c is not under src/.  Pop returns the front
entry and the remaining heap. -/
def heap_pop {α : Type} (h : List α) : Option α × List α := (h.head?, h.tail)

/-- Write each heap entry its position into `ready_index`. -/
def set_indices (vs : Nat → version_t) : List Nat → Nat → (Nat → version_t)
  | [], _ => vs
  | v :: rest, i => set_indices (upd vs v { vs v with ready_index := i }) rest (i + 1)

/-- Modelled from the spec: heap.c is not under src/.  Insert into the
ready-versions heap; every entry stores its current index. -/
def version_heap_insert (db : database_t) (h : List Nat) (v : Nat) : database_t × List Nat :=
  let h1 := heap_insert (fun x => (db.versions x).time) h v
  ({ db with versions := set_indices db.versions h1 0 }, h1)

/-- Modelled from the spec: heap.c is not under src/.  Remove an entry from
the ready-versions heap if it is present; its index becomes the sentinel. -/
def version_heap_remove (db : database_t) (h : List Nat) (v : Nat) : database_t × List Nat :=
  if v ∈ h then
    let h1 := h.erase v
    ({ db with versions :=
        set_indices (upd db.versions v { db.versions v with ready_index := SIZE_MAX }) h1 0 }, h1)
  else (db, h)

/-! ## Readiness accounting (emission.c:12-46) -/

/-- Embedding of `changeset_release` (emission.c:12). -/
def changeset_release (db : database_t) (cs : cs_ref) : Except fault database_t :=
  if (db.cs cs).unready_count = 0 then .error .assertion
  else
    let db1 := db.set_cs cs { db.cs cs with unready_count := (db.cs cs).unready_count - 1 }
    if (db1.cs cs).unready_count = 0 then
      .ok { db1 with ready_changesets :=
              heap_insert (fun c => (db1.cs c).time) db1.ready_changesets cs }
    else .ok db1

/-- Embedding of `version_release` (emission.c:20); `version_heap` is the
optional ready-versions heap. -/
def version_release (db : database_t) (version_heap : Option (List Nat)) (version : Nat) :
    Except fault (database_t × Option (List Nat)) :=
  match version_heap with
  | some h =>
      let r := version_heap_insert db h version
      match changeset_release r.1 (r.1.versions version).commit with
      | .error e => .error e
      | .ok db2 => .ok (db2, some r.2)
  | none =>
      match changeset_release db (db.versions version).commit with
      | .error e => .error e
      | .ok db2 => .ok (db2, none)

/-- The inner loop of `changeset_emitted` (emission.c:39-40): release the
versions of the chain `v, v->sibling, ...`. -/
def release_children (db : database_t) (rv : Option (List Nat)) :
    Nat → Option Nat → Except fault (database_t × Option (List Nat))
  | _, none => .ok (db, rv)
  | 0, some _ => .error .out_of_fuel
  | n + 1, some v =>
      match version_release db rv v with
      | .error e => .error e
      | .ok r => release_children r.1 r.2 n (r.1.versions v).sibling

/-- The loop over the versions of a commit in `changeset_emitted`
(emission.c:36-41); `fuel` bounds each inner loop. -/
def emit_versions (fuel : Nat) (db : database_t) (rv : Option (List Nat)) :
    Nat → Option Nat → Except fault (database_t × Option (List Nat))
  | _, none => .ok (db, rv)
  | 0, some _ => .error .out_of_fuel
  | n + 1, some i =>
      let r :=
        match rv with
        | some h => ((version_heap_remove db h i).1, some (version_heap_remove db h i).2)
        | none => (db, none)
      match release_children r.1 r.2 fuel (r.1.versions i).children with
      | .error e => .error e
      | .ok r2 => emit_versions fuel r2.1 r2.2 n (r2.1.versions i).cs_sibling

/-- The loop over `changeset->children` in `changeset_emitted`
(emission.c:43-45). -/
def release_changesets (db : database_t) : List cs_ref → Except fault database_t
  | [] => .ok db
  | c :: rest =>
      match changeset_release db c with
      | .error e => .error e
      | .ok db1 => release_changesets db1 rest

/-- Embedding of `changeset_emitted` (emission.c:30). -/
def changeset_emitted (fuel : Nat) (db : database_t) (ready_versions : Option (List Nat))
    (changeset : cs_ref) : Except fault (database_t × Option (List Nat)) :=
  let r :=
    if (db.cs changeset).type = .ct_commit then
      emit_versions fuel db ready_versions fuel (db.cs changeset).versions
    else .ok (db, ready_versions)
  match r with
  | .error e => .error e
  | .ok r1 =>
      match release_changesets r1.1 (r1.1.cs changeset).children with
      | .error e => .error e
      | .ok db2 => .ok (db2, r1.2)

/-! ## Branch-state tracking and tag matching (emission.c:49-134) -/

/-- Replace the `branch_versions` array of tag `t`. -/
def database_t.set_branch (db : database_t) (t : Nat) (b : Nat → Option Nat) : database_t :=
  { db with tags := upd db.tags t { db.tags t with branch_versions := some b } }

/-- The loop of `changeset_update_branch_versions` (emission.c:72-80); `t` is
the tag whose array `branch` points to. -/
def branch_loop (t : Nat) (implicit_merge : Bool) (db : database_t) (changes : Nat) :
    Nat → Option Nat → Except fault (Nat × database_t)
  | _, none => .ok (changes, db)
  | 0, some _ => .error .out_of_fuel
  | n + 1, some i =>
      if implicit_merge && !(db.versions i).implicit_merge then
        branch_loop t implicit_merge db changes n (db.versions i).cs_sibling
      else
        match (db.tags t).branch_versions with
        | none => .error .null_deref
        | some branch =>
            let v := if (db.versions i).dead then none else some i
            if branch (db.versions i).file ≠ v then
              branch_loop t implicit_merge
                (db.set_branch t (upd branch (db.versions i).file v)) (changes + 1)
                n (db.versions i).cs_sibling
            else
              branch_loop t implicit_merge db changes n (db.versions i).cs_sibling

/-- Embedding of `changeset_update_branch_versions` (emission.c:49). -/
def changeset_update_branch_versions (fuel : Nat) (db : database_t) (changeset : cs_ref) :
    Except fault (Nat × database_t) :=
  if (db.cs changeset).type = .ct_implicit_merge then
    if (db.tags 0).tag ≠ "" then .error .assertion
    else if (db.tags 0).branch_versions.isNone then .error .assertion
    else
      match (db.cs changeset).parent with
      | none => .error .null_deref
      | some p => branch_loop 0 true db 0 fuel (db.cs p).versions
  else
    match (db.cs changeset).versions with
    | none => .error .null_deref
    | some v0 =>
        match (db.versions v0).branch with
        | none => .ok (0, db)
        | some t => branch_loop t false db 0 fuel (db.cs changeset).versions

/-- The input of the digest (emission.c:104-107): the non-null, non-dead
slots of the array in file order. -/
def branch_state (db : database_t) (branch : Nat → Option Nat) : List Nat :=
  (List.range db.files.length).filterMap
    (fun f => match branch f with
      | some v => if (db.versions v).dead then none else some v
      | none => none)

/-- Modelled from the spec: database.c is not under src/.  The tags whose
recorded digest equals `hash`, in index order. -/
def database_tag_hash_find (db : database_t) (hash : Nat) : List Nat :=
  (List.range db.tags_end).filter (fun t => (db.tags t).hash = hash)

/-- Modelled from the spec: changeset.c is not under src/.  The child gets
`parent` as its parent and is appended to the parent's children. -/
def changeset_add_child (db : database_t) (parent child : cs_ref) : database_t :=
  let db1 := db.set_cs child { db.cs child with parent := some parent }
  db1.set_cs parent { db1.cs parent with children := (db1.cs parent).children ++ [child] }

/-- The loop over the matching tags in `changeset_update_branch_hash`
(emission.c:114-131). -/
def tag_loop (changeset : cs_ref) : database_t → List Nat → database_t
  | db, [] => db
  | db, i :: rest =>
      let db1 :=
        if (db.tags i).changeset.parent.isNone then
          changeset_add_child
            { db with tags := upd db.tags i { db.tags i with exact_match := true } }
            changeset (.of_tag i)
        else db
      let db2 :=
        if !(db1.tags i).is_released then
          { db1 with
            tags := upd db1.tags i { db1.tags i with is_released := true }
            ready_tags :=
              heap_insert (fun t => (db1.tags t).changeset.time) db1.ready_tags i }
        else db1
      tag_loop changeset db2 rest

/-- Embedding of `changeset_update_branch_hash` (emission.c:86); `sha1` is the
digest function of the external library, applied to the sequence of live
version pointers. -/
def changeset_update_branch_hash (sha1 : List Nat → Nat) (fuel : Nat) (db : database_t)
    (changeset : cs_ref) : Except fault (Nat × database_t) :=
  match changeset_update_branch_versions fuel db changeset with
  | .error e => .error e
  | .ok (changes, db1) =>
      if changes = 0 then .ok (0, db1)
      else
        let branch : Except fault (Nat → Option Nat) :=
          if (db1.cs changeset).type = .ct_commit then
            match (db1.cs changeset).versions with
            | none => .error .null_deref
            | some v0 =>
                match (db1.versions v0).branch with
                | none => .error .null_deref
                | some t =>
                    match (db1.tags t).branch_versions with
                    | none => .error .null_deref
                    | some b => .ok b
          else if (db1.cs changeset).type = .ct_implicit_merge then
            match (db1.tags 0).branch_versions with
            | none => .error .null_deref
            | some b => .ok b
          else .error .aborted
        match branch with
        | .error e => .error e
        | .ok b =>
            .ok (changes,
              tag_loop changeset db1 (database_tag_hash_find db1 (sha1 (branch_state db1 b))))

/-! ## Cycle detection and split (emission.c:137-239) -/

/-- The inner loop of `preceed` (emission.c:145-147): walk the parent chain
up to the first version with a non-sentinel `ready_index`. -/
def preceed_up (db : database_t) : Nat → Option Nat → Except fault (Option Nat)
  | _, none => .ok none
  | 0, some _ => .error .out_of_fuel
  | n + 1, some v =>
      if (db.versions v).ready_index ≠ SIZE_MAX then .ok (some v)
      else preceed_up db n (db.versions v).parent

/-- The outer loop of `preceed` (emission.c:143-149); falling off the end of
the list is the `abort ()`. -/
def preceed_loop (fuel : Nat) (db : database_t) : Nat → Option Nat → Except fault Nat
  | _, none => .error .aborted
  | 0, some _ => .error .out_of_fuel
  | n + 1, some csv =>
      if (db.versions csv).ready_index = SIZE_MAX then
        match preceed_up db fuel (db.versions csv).parent with
        | .error e => .error e
        | .ok (some v) => .ok v
        | .ok none => preceed_loop fuel db n (db.versions csv).cs_sibling
      else preceed_loop fuel db n (db.versions csv).cs_sibling

/-- Embedding of `preceed` (emission.c:137). -/
def preceed (fuel : Nat) (db : database_t) (v : Nat) : Except fault Nat :=
  preceed_loop fuel db fuel (db.cs (db.versions v).commit).versions

/-- The do-while loop of `cycle_find` (emission.c:207-211), also written out
in `next_changeset_split` (emission.c:225-229). -/
def cycle_find_loop (fuel : Nat) (db : database_t) : Nat → Nat → Nat → Except fault Nat
  | 0, _, _ => .error .out_of_fuel
  | n + 1, slow, fast =>
      match preceed fuel db slow with
      | .error e => .error e
      | .ok slow1 =>
          match preceed fuel db fast with
          | .error e => .error e
          | .ok fast0 =>
              match preceed fuel db fast0 with
              | .error e => .error e
              | .ok fast1 =>
                  if slow1 = fast1 then .ok slow1 else cycle_find_loop fuel db n slow1 fast1

/-- Embedding of `cycle_find` (emission.c:203). -/
def cycle_find (fuel : Nat) (db : database_t) (v : Nat) : Except fault Nat :=
  cycle_find_loop fuel db fuel v v

/-- Modelled from the spec: database.c is not under src/.  A new changeset is
allocated from the arena of the database, with no versions, no parent, no
children and an unready count of zero, and joins the changeset array. -/
def database_new_changeset (db : database_t) : cs_ref × database_t :=
  (.heap db.cs_alloc,
   { db with
     cs_mem := upd db.cs_mem db.cs_alloc
       { type := .ct_commit, time := 0, unready_count := 0, versions := none,
         parent := none, children := [] }
     cs_alloc := db.cs_alloc + 1
     changesets := db.changesets ++ [.heap db.cs_alloc] })

/-- A `version_t **` as used by `cycle_split`: the address of the `versions`
field of a changeset or of the `cs_sibling` field of a version. -/
inductive version_slot where
  | head (c : cs_ref)
  | next (v : Nat)
  deriving DecidableEq, Repr

/-- The assignment `*slot = val`. -/
def database_t.store_slot (db : database_t) (slot : version_slot) (val : Option Nat) :
    database_t :=
  match slot with
  | .head c => db.set_cs c { db.cs c with versions := val }
  | .next v => { db with versions := upd db.versions v { db.versions v with cs_sibling := val } }

/-- The partition loop of `cycle_split` (emission.c:168-181). -/
def cycle_split_loop (nw : cs_ref) (db : database_t) (cs_v new_v : version_slot) :
    Nat → Option Nat → Except fault (database_t × version_slot × version_slot)
  | _, none => .ok (db, cs_v, new_v)
  | 0, some _ => .error .out_of_fuel
  | n + 1, some v =>
      if (db.versions v).implicit_merge then .error .assertion
      else if (db.versions v).ready_index = SIZE_MAX then
        let db1 := db.store_slot cs_v (some v)
        cycle_split_loop nw db1 (.next v) new_v n (db1.versions v).cs_sibling
      else
        let db1 := { db with versions := upd db.versions v { db.versions v with commit := nw } }
        let db2 := db1.store_slot new_v (some v)
        cycle_split_loop nw db2 cs_v (.next v) n (db2.versions v).cs_sibling

/-- Embedding of `cycle_split` (emission.c:153); the new changeset is returned
along with the database. -/
def cycle_split (fuel : Nat) (db : database_t) (cs : cs_ref) :
    Except fault (cs_ref × database_t) :=
  let a := database_new_changeset db
  let nw := a.1
  let db1 := a.2.set_cs nw { a.2.cs nw with type := .ct_commit }
  let db2 := db1.set_cs nw { db1.cs nw with time := (db1.cs cs).time }
  match cycle_split_loop nw db2 (.head cs) (.head nw) fuel (db2.cs cs).versions with
  | .error e => .error e
  | .ok (db3, cs_v, new_v) =>
      let db4 := db3.store_slot cs_v none
      let db5 := db4.store_slot new_v none
      if (db5.cs cs).versions.isNone then .error .assertion
      else if (db5.cs nw).versions.isNone then .error .assertion
      else
        .ok (nw, { db5 with ready_changesets :=
                    heap_insert (fun c => (db5.cs c).time) db5.ready_changesets nw })

/-- Embedding of `next_changeset_split` (emission.c:216); `none` is the null
result. -/
def next_changeset_split (fuel : Nat) (db : database_t) (ready_versions : List Nat) :
    Except fault (Option cs_ref × database_t) :=
  if heap_empty ready_versions then .ok (none, db)
  else
    let split : Except fault database_t :=
      if heap_empty db.ready_changesets then
        match heap_front ready_versions with
        | none => .error .null_deref
        | some front =>
            match cycle_find_loop fuel db fuel front front with
            | .error e => .error e
            | .ok _ =>
                match cycle_find fuel db front with
                | .error e => .error e
                | .ok w =>
                    match cycle_split fuel db (db.versions w).commit with
                    | .error e => .error e
                    | .ok r =>
                        if heap_empty r.2.ready_changesets then .error .assertion
                        else .ok r.2
      else .ok db
    match split with
    | .error e => .error e
    | .ok db1 =>
        .ok ((heap_pop db1.ready_changesets).1,
             { db1 with ready_changesets := (heap_pop db1.ready_changesets).2 })

/-- Embedding of `next_changeset` (emission.c:242). -/
def next_changeset (db : database_t) : Option cs_ref × database_t :=
  if heap_empty db.ready_changesets then (none, db)
  else
    ((heap_pop db.ready_changesets).1,
     { db with ready_changesets := (heap_pop db.ready_changesets).2 })

/-! ## Preparation (emission.c:251-268) -/

/-- The statement `++cs->unready_count`; the count is a `size_t` and wraps
around after `SIZE_MAX`. -/
def database_t.incr (db : database_t) (cs : cs_ref) : database_t :=
  db.set_cs cs { db.cs cs with unready_count := ((db.cs cs).unready_count + 1) % (SIZE_MAX + 1) }

/-- The loop over the versions of one commit in `prepare_for_emission`
(emission.c:256-257). -/
def count_versions (i : cs_ref) (db : database_t) : Nat → Option Nat → Except fault database_t
  | _, none => .ok db
  | 0, some _ => .error .out_of_fuel
  | n + 1, some j => count_versions i (db.incr i) n ((db.incr i).versions j).cs_sibling

/-- The loop over the children of one changeset in `prepare_for_emission`
(emission.c:259-260). -/
def count_children : database_t → List cs_ref → database_t
  | db, [] => db
  | db, j :: rest => count_children (db.incr j) rest

/-- The loop over `db->changesets` in `prepare_for_emission`
(emission.c:254-261). -/
def prepare_counts (fuel : Nat) : database_t → List cs_ref → Except fault database_t
  | db, [] => .ok db
  | db, i :: rest =>
      let r :=
        if (db.cs i).type = .ct_commit then count_versions i db fuel (db.cs i).versions
        else .ok db
      match r with
      | .error e => .error e
      | .ok db1 => prepare_counts fuel (count_children db1 (db1.cs i).children) rest

/-- The loop over the versions of one file in `prepare_for_emission`
(emission.c:265-267). -/
def release_roots (db : database_t) (rv : Option (List Nat)) :
    List Nat → Except fault (database_t × Option (List Nat))
  | [] => .ok (db, rv)
  | j :: rest =>
      if (db.versions j).parent.isNone then
        match version_release db rv j with
        | .error e => .error e
        | .ok r => release_roots r.1 r.2 rest
      else release_roots db rv rest

/-- The loop over the files in `prepare_for_emission` (emission.c:264-267). -/
def release_files (db : database_t) (rv : Option (List Nat)) :
    List file_t → Except fault (database_t × Option (List Nat))
  | [] => .ok (db, rv)
  | f :: rest =>
      match release_roots db rv f.versions with
      | .error e => .error e
      | .ok r => release_files r.1 r.2 rest

/-- Embedding of `prepare_for_emission` (emission.c:251). -/
def prepare_for_emission (fuel : Nat) (db : database_t) (ready_versions : Option (List Nat)) :
    Except fault (database_t × Option (List Nat)) :=
  match prepare_counts fuel db db.changesets with
  | .error e => .error e
  | .ok db1 => release_files db1 ready_versions db1.files

/-! ## The emission loop (rlog_parse.c:138-155) -/

/-- State of the emission loop: database, optional ready-versions heap, the
changesets returned by `next_changeset` so far, and whether the loop stopped
(`some none` after the null result, `some (some e)` after a fault). -/
structure emission_state where
  db : database_t
  rv : Option (List Nat)
  emitted : List cs_ref
  stopped : Option (Option fault)

/-- The loop `while ((changeset = next_changeset (&db))) { ...;
changeset_emitted (&db, ready_versions, changeset); }` run for at most `n`
iterations.  The record printed between the two calls is not part of the
scheduler state. -/
def emission_loop (fuel : Nat) : Nat → emission_state → emission_state
  | 0, s => s
  | n + 1, s =>
      match next_changeset s.db with
      | (none, db1) => { s with db := db1, stopped := some none }
      | (some c, db1) =>
          match changeset_emitted fuel db1 s.rv c with
          | .error e =>
              { db := db1, rv := s.rv, emitted := s.emitted ++ [c], stopped := some (some e) }
          | .ok r =>
              emission_loop fuel n
                { db := r.1, rv := r.2, emitted := s.emitted ++ [c], stopped := none }

/-! ## Example databases -/

/-- A version with every pointer null, owned by changeset 0. -/
def version_nil : version_t :=
  { file := 0, version := "", author := "", commitid := "", log := "", time := 0,
    parent := none, children := none, sibling := none, cs_sibling := none, branch := none,
    commit := .heap 0, dead := false, implicit_merge := false, ready_index := SIZE_MAX }

/-- An empty commit changeset. -/
def changeset_nil : changeset_t :=
  { type := .ct_commit, time := 0, unready_count := 0, versions := none, parent := none,
    children := [] }

/-- A tag that is not a branch, with an empty tag changeset. -/
def tag_nil : tag_t :=
  { tag := "", branch_versions := none, is_released := false, exact_match := false, hash := 0,
    changeset := { changeset_nil with type := .ct_tag } }

/-- A database without files, versions or changesets. -/
def database_nil : database_t :=
  { files := [], versions := fun _ => version_nil, tags := fun _ => tag_nil, tags_end := 0,
    changesets := [], cs_mem := fun _ => changeset_nil, cs_alloc := 0,
    ready_changesets := [], ready_tags := [] }

/-- Two changesets: changeset 0 waits for two releases, changeset 1 for one. -/
def release_db : database_t :=
  { database_nil with
    changesets := [.heap 0, .heap 1]
    cs_mem := fun i => match i with
      | 0 => { changeset_nil with unready_count := 2 }
      | 1 => { changeset_nil with unready_count := 1, time := 5 }
      | _ => changeset_nil
    cs_alloc := 2 }

/-! ## Views of the pointer graph -/

/-- The nodes of the null-terminated chain that starts at `start` and follows
`next`; `none` when the chain is longer than `fuel`. -/
def chain (next : Nat → Option Nat) : Nat → Option Nat → Option (List Nat)
  | _, none => some []
  | 0, some _ => none
  | n + 1, some v => (chain next n (next v)).map (fun l => v :: l)

/-- The versions of a changeset: the chain `cs->versions`, `->cs_sibling`, ... -/
def cs_versions (fuel : Nat) (db : database_t) (c : cs_ref) : List Nat :=
  (chain (fun v => (db.versions v).cs_sibling) fuel (db.cs c).versions).getD []

/-- The child versions of a version: the chain `v->children`, `->sibling`, ... -/
def children_of (fuel : Nat) (db : database_t) (v : Nat) : List Nat :=
  (chain (fun x => (db.versions x).sibling) fuel (db.versions v).children).getD []

/-- The version list of `c` and the child lists of its versions end within
`fuel` steps. -/
def chains_end (fuel : Nat) (db : database_t) (c : cs_ref) : Prop :=
  (chain (fun v => (db.versions v).cs_sibling) fuel (db.cs c).versions).isSome ∧
  ∀ i ∈ cs_versions fuel db c,
    (chain (fun x => (db.versions x).sibling) fuel (db.versions i).children).isSome

/-- The changesets released when `c` is emitted, one entry per release: the
owners of the child versions of the versions of a commit, then `c->children`. -/
def release_targets (fuel : Nat) (db : database_t) (c : cs_ref) : List cs_ref :=
  (if (db.cs c).type = .ct_commit then
    ((cs_versions fuel db c).flatMap (children_of fuel db)).map (fun k => (db.versions k).commit)
   else []) ++ (db.cs c).children

/-- The database with every `ready_index` blanked: what the scheduler sees of
it. -/
def strip (db : database_t) : database_t :=
  { db with versions := fun v => { db.versions v with ready_index := 0 } }

/-- The version store with every `ready_index` blanked: the pointer graph of
the versions. -/
def vgraph (db : database_t) : Nat → version_t := (strip db).versions

/-- The changeset store with every `unready_count` blanked: types, times,
version lists, parents and children arrays. -/
def cgraph (db : database_t) : cs_ref → changeset_t :=
  fun c => { db.cs c with unready_count := 0 }

/-- Two databases hold the same graph: they differ at most in unready counts,
`ready_index` fields, heaps and tag flags. -/
def same_graph (a b : database_t) : Prop :=
  vgraph a = vgraph b ∧ cgraph a = cgraph b ∧ a.files = b.files ∧ a.changesets = b.changesets

/-- The number of releases of `d` caused by emitting `cs`: the child versions
of the versions of `cs` that `d` owns, counted only for a commit, plus the
occurrences of `d` in `cs->children`. -/
def released_by (fuel : Nat) (db : database_t) (cs d : cs_ref) : Nat :=
  (if (db.cs cs).type = .ct_commit then
    ((cs_versions fuel db cs).flatMap (children_of fuel db)).countP
      (fun v => (db.versions v).commit = d)
   else 0) + (db.cs cs).children.count d

/-- The ready-versions heap after emitting a commit: for each version of the
commit in list order, the version is removed and then its child versions are
inserted. -/
def heap_after_emitted (fuel : Nat) (db : database_t) (cs : cs_ref) (h : List Nat) : List Nat :=
  (cs_versions fuel db cs).foldl (fun h i =>
    (children_of fuel db i).foldl (heap_insert (fun x => (db.versions x).time)) (h.erase i)) h

instance (fuel : Nat) (db : database_t) (c : cs_ref) : Decidable (chains_end fuel db c) := by
  unfold chains_end
  infer_instance

/-- Changeset 0 is a commit of version 0, whose child version 1 belongs to
changeset 1; changeset 2 is listed in the children array of changeset 0. -/
def emitted_db : database_t :=
  { database_nil with
    files := [{ rcs_path := "F", versions := [0, 1] }]
    versions := fun i => match i with
      | 0 => { version_nil with children := some 1, commit := .heap 0, ready_index := 0 }
      | 1 => { version_nil with parent := some 0, commit := .heap 1 }
      | _ => version_nil
    changesets := [.heap 0, .heap 1, .heap 2]
    cs_mem := fun i => match i with
      | 0 => { changeset_nil with versions := some 0, children := [.heap 2] }
      | 1 => { changeset_nil with versions := some 1, unready_count := 1, time := 1 }
      | 2 => { changeset_nil with type := .ct_tag, unready_count := 2, time := 2 }
      | _ => changeset_nil
    cs_alloc := 3 }

/-- All versions of the database: the entries of the version arrays of the
files, in the order in which `prepare_for_emission` visits them. -/
def all_versions (db : database_t) : List Nat :=
  db.files.flatMap (fun f => f.versions)

/-- The owners of the root versions (`parent == NULL`), one entry per root
version. -/
def root_targets (db : database_t) : List cs_ref :=
  ((all_versions db).filter (fun j => (db.versions j).parent.isNone)).map
    (fun j => (db.versions j).commit)

/-- The amount the counting loop of `prepare_for_emission` adds to the count
of `d` over the changeset array `D`: the length of the version list of `d` for
each occurrence of `d` that is a commit, plus the occurrences of `d` in the
children arrays. -/
def base_count (fuel : Nat) (db : database_t) (D : List cs_ref) (d : cs_ref) : Nat :=
  (D.map (fun i =>
    (if (db.cs i).type = .ct_commit ∧ i = d then (cs_versions fuel db i).length else 0)
      + (db.cs i).children.count d)).sum

/-- The count `c` after `n` increments of a `size_t`. -/
def wadd (c : Nat) : Nat → Nat
  | 0 => c
  | n + 1 => (wadd c n + 1) % (SIZE_MAX + 1)

/-- Database `b` is database `a` with the count of every changeset `d`
incremented `δ d` times. -/
def raised (a b : database_t) (δ : cs_ref → Nat) : Prop :=
  b.versions = a.versions ∧ b.files = a.files ∧ b.changesets = a.changesets ∧
  b.ready_changesets = a.ready_changesets ∧
  ∀ d, b.cs d = { a.cs d with unready_count := wadd (a.cs d).unready_count (δ d) }

/-- The changesets the scheduler can reach: the entries of the changeset array
and the entries of their children arrays. -/
def known (db : database_t) : List cs_ref :=
  db.changesets ++ db.changesets.flatMap (fun i => (db.cs i).children)

/-- No count wraps around in the counting loop of `prepare_for_emission`: the
count held before plus the amount the loop adds does not exceed `SIZE_MAX`. -/
def counts_fit (fuel : Nat) (db : database_t) : Prop :=
  ∀ c ∈ known db, (db.cs c).unready_count + base_count fuel db db.changesets c ≤ SIZE_MAX

instance (fuel : Nat) (db : database_t) : Decidable (counts_fit fuel db) := by
  unfold counts_fit
  infer_instance

/-- One file with one root version, owned by the commit changeset 0 whose
unready count before preparation is `k`. -/
def prior_db (k : Nat) : database_t :=
  { database_nil with
    files := [{ rcs_path := "F", versions := [0] }]
    versions := fun _ => { version_nil with commit := .heap 0 }
    changesets := [.heap 0]
    cs_mem := fun _ => { changeset_nil with versions := some 0, unready_count := k }
    cs_alloc := 1 }

/-! ## The data-model invariants -/

/-- The data-model invariants of the graph: the version arrays and the
changeset array have no duplicates; every version is owned by a commit of the
changeset array and its parent is a version of the database; the version list
of every commit ends and holds exactly the versions it owns, each once; the
child list of every version ends and holds exactly the versions whose parent
it is, each once. -/
def well_formed (fuel : Nat) (db : database_t) : Prop :=
  (all_versions db).Nodup ∧ db.changesets.Nodup ∧
  (∀ v ∈ all_versions db,
    (db.versions v).commit ∈ db.changesets ∧
    (db.cs (db.versions v).commit).type = .ct_commit ∧
    ∀ p ∈ (db.versions v).parent, p ∈ all_versions db) ∧
  (∀ c ∈ db.changesets, (db.cs c).type = .ct_commit →
    (chain (fun v => (db.versions v).cs_sibling) fuel (db.cs c).versions).isSome ∧
    (cs_versions fuel db c).Perm
      ((all_versions db).filter (fun v => decide ((db.versions v).commit = c)))) ∧
  (∀ v ∈ all_versions db,
    (chain (fun x => (db.versions x).sibling) fuel (db.versions v).children).isSome ∧
    (children_of fuel db v).Perm
      ((all_versions db).filter (fun k => decide ((db.versions k).parent = some v))))

instance (fuel : Nat) (db : database_t) : Decidable (well_formed fuel db) := by
  unfold well_formed
  infer_instance

/-- The state before preparation: nothing is ready and the count of every
changeset the scheduler can reach is zero. -/
def fresh (db : database_t) : Prop :=
  db.ready_changesets = [] ∧ ∀ c ∈ known db, (db.cs c).unready_count = 0

instance (db : database_t) : Decidable (fresh db) := by
  unfold fresh
  infer_instance

/-- The sum of the unready counts over the changesets of `L`. -/
def total_unready (db : database_t) (L : List cs_ref) : Nat :=
  (L.map (fun c => (db.cs c).unready_count)).sum

/-- The number of entries of the children arrays of the changesets of `L`. -/
def child_edges_of (db : database_t) (L : List cs_ref) : Nat :=
  (L.map (fun c => (db.cs c).children.length)).sum

/-- One file with one root version in commit 0; the changeset of tag 0, which
is embedded in the tag and not an entry of the changeset array, lists commit 0
in its children array. -/
def tagparent_db : database_t :=
  { database_nil with
    files := [{ rcs_path := "A", versions := [0] }]
    versions := fun _ => { version_nil with commit := .heap 0 }
    tags := fun _ =>
      { tag_nil with changeset := { changeset_nil with type := .ct_tag, children := [.heap 0] } }
    tags_end := 1
    changesets := [.heap 0]
    cs_mem := fun _ => { changeset_nil with versions := some 0, time := 1 }
    cs_alloc := 1 }

/-- One file with one root version in commit 0, which lists the changeset of
tag 0 in its children array; the tag changeset has no children. -/
def leaf_tag_db : database_t :=
  { database_nil with
    files := [{ rcs_path := "A", versions := [0] }]
    versions := fun _ => { version_nil with commit := .heap 0 }
    tags := fun _ => { tag_nil with changeset := { changeset_nil with type := .ct_tag } }
    tags_end := 1
    changesets := [.heap 0]
    cs_mem := fun i => match i with
      | 0 => { changeset_nil with versions := some 0, time := 1, children := [.of_tag 0] }
      | _ => changeset_nil
    cs_alloc := 1 }

/-- One file with two versions in a line, each in its own commit; the count of
the second commit is `SIZE_MAX` before preparation. -/
def wrap_db : database_t :=
  { database_nil with
    files := [{ rcs_path := "A", versions := [0, 1] }]
    versions := fun i => match i with
      | 0 => { version_nil with children := some 1, commit := .heap 0 }
      | _ => { version_nil with parent := some 0, commit := .heap 1 }
    changesets := [.heap 0, .heap 1]
    cs_mem := fun i => match i with
      | 0 => { changeset_nil with versions := some 0, time := 1 }
      | _ => { changeset_nil with versions := some 1, time := 2, unready_count := SIZE_MAX }
    cs_alloc := 2 }

/-- The number of versions with a parent in the version lists of the commits
of the changeset array. -/
def nonroot_versions (fuel : Nat) (db : database_t) : Nat :=
  ((db.changesets.filter (fun c => decide ((db.cs c).type = .ct_commit))).map
    (fun c => (cs_versions fuel db c).countP (fun v => (db.versions v).parent.isSome))).sum

/-- The number of child edges the counting loop sees: the entries of the
children arrays of the changeset array. -/
def child_edges (db : database_t) : Nat :=
  (db.changesets.map (fun c => (db.cs c).children.length)).sum

/-- The releases of `c` still to come when the changesets `E` have been
emitted: those caused by the changesets of the array that are not in `E`. -/
def pending (fuel : Nat) (db : database_t) (E : List cs_ref) (c : cs_ref) : Nat :=
  ((db.changesets.filter (fun d => decide (d ∉ E))).map
    (fun d => released_by fuel db d c)).sum

/-- Every strict predecessor of `c` is in `pre`: the owner of the parent of
each version that `c` owns, and every changeset of the array that lists `c` in
its children array. -/
def predecessors_in (db : database_t) (c : cs_ref) (pre : List cs_ref) : Prop :=
  (∀ v ∈ all_versions db, (db.versions v).commit = c →
    ∀ p, (db.versions v).parent = some p → (db.versions p).commit ∈ pre) ∧
  (∀ d ∈ db.changesets, c ∈ (db.cs d).children → d ∈ pre)

/-- Emitting `e` releases nothing: `e` has no children, and when it is a
commit its version list ends and its versions have no child versions. -/
def quiet (fuel : Nat) (db : database_t) (e : cs_ref) : Prop :=
  release_targets fuel db e = [] ∧ ((db.cs e).type = .ct_commit → chains_end fuel db e)

instance (fuel : Nat) (db : database_t) (e : cs_ref) : Decidable (quiet fuel db e) := by
  unfold quiet
  infer_instance

/-- The releases of `e` were counted by `prepare_for_emission`: `e` is an entry
of the changeset array, or it releases nothing. -/
def accounted (fuel : Nat) (db : database_t) (e : cs_ref) : Prop :=
  e ∈ db.changesets ∨ quiet fuel db e

instance (fuel : Nat) (db : database_t) (e : cs_ref) : Decidable (accounted fuel db e) := by
  unfold accounted
  infer_instance

/-- The sequence `E` respects the dependencies as long as the releases of the
earlier entries were counted: every entry that follows only such entries is
a changeset the scheduler can reach and comes after all its strict
predecessors. -/
def dependency_ordered (fuel : Nat) (db : database_t) (E : List cs_ref) : Prop :=
  ∀ pre c post, E = pre ++ c :: post → (∀ e ∈ pre, accounted fuel db e) →
    c ∈ known db ∧ predecessors_in db c pre

/-- The ready heap of `s` is consistent with the emitted changesets `E`: no
entry twice, every entry a changeset of the list `D` that was not emitted,
and every ready or emitted changeset has count zero. -/
def ready_inv (D : List cs_ref) (s : database_t) (E : List cs_ref) : Prop :=
  s.ready_changesets.Nodup ∧
  (∀ c ∈ s.ready_changesets, c ∈ D ∧ c ∉ E) ∧
  (∀ c, c ∈ s.ready_changesets ∨ c ∈ E → (s.cs c).unready_count = 0)

/-- The scheduler invariant between two iterations of the emission loop, for
the graph `g` the loop started from. -/
def sched_inv (fuel : Nat) (g s : database_t) (E : List cs_ref) : Prop :=
  same_graph s g ∧ E.Nodup ∧ (∀ e ∈ E, e ∈ known g) ∧
  ready_inv (known g) s E ∧
  ∀ c, (s.cs c).unready_count = (g.cs c).unready_count + pending fuel g E c

/-- The state after `prepare_for_emission`, when it returns. -/
def prepared (fuel : Nat) (db : database_t) (rv : Option (List Nat)) :
    database_t × Option (List Nat) :=
  match prepare_for_emission fuel db rv with
  | .ok r => r
  | .error _ => (db, rv)

/-- The changesets returned by the first `n` iterations of the emission loop
that follows `prepare_for_emission`. -/
def emission_trace (fuel n : Nat) (db : database_t) (rv : Option (List Nat)) : List cs_ref :=
  (emission_loop fuel n
    { db := (prepared fuel db rv).1, rv := (prepared fuel db rv).2, emitted := [],
      stopped := none }).emitted

/-- The root version 0 is in the ready-versions heap; its commit (changeset 0)
is listed in the children array of the changeset of tag 0 and still waits for
that release; no changeset is ready. -/
def blocked_db : database_t :=
  { database_nil with
    files := [{ rcs_path := "F", versions := [0] }]
    versions := fun _ => { version_nil with commit := .heap 0, ready_index := 0 }
    tags := fun _ =>
      { tag_nil with changeset := { changeset_nil with type := .ct_tag, children := [.heap 0] } }
    tags_end := 1
    changesets := [.heap 0]
    cs_mem := fun _ => { changeset_nil with versions := some 0, unready_count := 1 }
    cs_alloc := 1 }

/-! ## Views of the branch update -/

/-- The value written for version `i`: null for a dead version, the version
itself otherwise. -/
def slot_value (db : database_t) (i : Nat) : Option Nat :=
  if (db.versions i).dead then none else some i

/-- The versions of a list that the loop of
`changeset_update_branch_versions` does not skip. -/
def effective_of (db : database_t) (implicit_merge : Bool) (L : List Nat) : List Nat :=
  L.filter (fun i => !(implicit_merge && !(db.versions i).implicit_merge))

/-- Writing the versions of a list into an array, in order, and counting the
writes that change a slot. -/
def write_slots (db : database_t) : (Nat → Option Nat) × Nat → List Nat → (Nat → Option Nat) × Nat
  | s, [] => s
  | s, i :: rest =>
      if s.1 (db.versions i).file ≠ slot_value db i then
        write_slots db (upd s.1 (db.versions i).file (slot_value db i), s.2 + 1) rest
      else write_slots db s rest

/-- The effective versions of a changeset: the flagged versions of the parent
for an implicit merge, the versions of the changeset otherwise. -/
def effective_versions (fuel : Nat) (db : database_t) (cs : cs_ref) : List Nat :=
  if (db.cs cs).type = .ct_implicit_merge then
    match (db.cs cs).parent with
    | some p => effective_of db true (cs_versions fuel db p)
    | none => []
  else cs_versions fuel db cs

/-- The tag whose snapshot a changeset is written to: tag 0 for an implicit
merge, the branch of the first version otherwise (`none` for a changeset
without versions or on an anonymous branch). -/
def target_tag (db : database_t) (cs : cs_ref) : Option Nat :=
  if (db.cs cs).type = .ct_implicit_merge then some 0
  else
    match (db.cs cs).versions with
    | some v0 => (db.versions v0).branch
    | none => none

/-- The content of slot `f` of the snapshot of tag `t` (null when the tag has
no array). -/
def slot (db : database_t) (t f : Nat) : Option Nat :=
  match (db.tags t).branch_versions with
  | some b => b f
  | none => none

/-- Changeset 0 is a commit on the branch of tag 0 with two live versions
(0 and 1) of the same file 0; the snapshot of tag 0 is empty. -/
def same_file_db : database_t :=
  { database_nil with
    files := [{ rcs_path := "F", versions := [0, 1] }]
    versions := fun i => match i with
      | 0 => { version_nil with cs_sibling := some 1, branch := some 0 }
      | _ => { version_nil with branch := some 0 }
    tags := fun _ => { tag_nil with branch_versions := some (fun _ => none) }
    tags_end := 1
    changesets := [.heap 0]
    cs_mem := fun _ => { changeset_nil with versions := some 0 }
    cs_alloc := 1 }

/-- Changeset 0 is a commit on the branch of tag 0 with one live version of
file 0 and one dead version of file 1; the snapshot of tag 0 holds version 7
in slot 1 and nothing else. -/
def branch_db : database_t :=
  { database_nil with
    files := [{ rcs_path := "F", versions := [0] }, { rcs_path := "G", versions := [1] }]
    versions := fun i => match i with
      | 0 => { version_nil with cs_sibling := some 1, branch := some 0 }
      | 1 => { version_nil with file := 1, branch := some 0, dead := true }
      | _ => version_nil
    tags := fun _ =>
      { tag_nil with branch_versions := some (fun f => if f = 1 then some 7 else none) }
    tags_end := 1
    changesets := [.heap 0]
    cs_mem := fun _ => { changeset_nil with versions := some 0 }
    cs_alloc := 1 }

/-- One iteration of the loop over the matching tags
(emission.c:116-130), for the tag `i`. -/
def tag_step (changeset : cs_ref) (db : database_t) (i : Nat) : database_t :=
  let db1 :=
    if (db.tags i).changeset.parent.isNone then
      changeset_add_child
        { db with tags := upd db.tags i { db.tags i with exact_match := true } }
        changeset (.of_tag i)
    else db
  if !(db1.tags i).is_released then
    { db1 with
      tags := upd db1.tags i { db1.tags i with is_released := true }
      ready_tags := heap_insert (fun t => (db1.tags t).changeset.time) db1.ready_tags i }
  else db1

/-! ## Printing an implicit merge (rlog_parse.c:50-68) -/

/-- The line `"\t%s %s\n"` printed for the version `i`: the path of its file
and its version string.  A file index outside the file array is a bad
pointer. -/
def file_line (db : database_t) (i : Nat) : Except fault String :=
  match db.files.get? (db.versions i).file with
  | none => .error .null_deref
  | some f => .ok ("\t" ++ f.rcs_path ++ " " ++ (db.versions i).version)

/-- The loop of `print_implicit_merge` (rlog_parse.c:61-63) over the chain
that starts at `v`; the test reads the flag of `v`, as the source does. -/
def print_merge_lines (db : database_t) (v : Nat) :
    Nat → Option Nat → Except fault (List String)
  | _, none => .ok []
  | 0, some _ => .error .out_of_fuel
  | n + 1, some i =>
      if (db.versions v).implicit_merge then
        match file_line db i with
        | .error e => .error e
        | .ok l =>
            match print_merge_lines db v n (db.versions i).cs_sibling with
            | .error e => .error e
            | .ok ls => .ok (l :: ls)
      else print_merge_lines db v n (db.versions i).cs_sibling

/-- Embedding of `print_implicit_merge` (rlog_parse.c:50): the lines written
to stdout.  `format_date` is the date formatting of the C library. -/
def print_implicit_merge (format_date : Int → String) (fuel : Nat) (db : database_t)
    (cs : cs_ref) : Except fault (List String) :=
  match (db.cs cs).parent with
  | none => .error .null_deref
  | some p =>
      match (db.cs p).versions with
      | none => .error .null_deref
      | some v =>
          match (db.versions v).branch with
          | none => .error .null_deref
          | some t =>
              match (db.cs cs).versions with
              | none => .error .null_deref
              | some w =>
                  match print_merge_lines db v fuel (some v) with
                  | .error e => .error e
                  | .ok ls =>
                      .ok ([format_date (db.cs cs).time ++ " " ++ (db.tags t).tag ++ " "
                              ++ (db.versions v).author ++ " " ++ (db.versions v).commitid,
                            (db.versions w).log] ++ ls ++ [""])

/-- The file lines the record of an implicit merge should hold: one for each
flagged version of the parent commit `p`, in list order. -/
def flagged_lines (fuel : Nat) (db : database_t) (p : cs_ref) : List (Except fault String) :=
  ((cs_versions fuel db p).filter (fun i => (db.versions i).implicit_merge)).map (file_line db)

/-- A vendor-branch commit (changeset 0) of version 0 of file `A`, flagged
`implicit_merge`, and version 1 of file `B`, not flagged; changeset 1 is its
implicit merge. -/
def merge_db : database_t :=
  { database_nil with
    files := [{ rcs_path := "A", versions := [0] }, { rcs_path := "B", versions := [1] }]
    versions := fun i => match i with
      | 0 => { version_nil with
               version := "1.1"
               cs_sibling := some 1, branch := some 0, implicit_merge := true }
      | 1 => { version_nil with
               version := "1.2"
               file := 1, branch := some 0 }
      | _ => version_nil
    tags := fun _ => { tag_nil with branch_versions := some (fun _ => none) }
    tags_end := 1
    changesets := [.heap 0, .heap 1]
    cs_mem := fun i => match i with
      | 0 => { changeset_nil with versions := some 0, children := [.heap 1] }
      | 1 => { changeset_nil with
               type := .ct_implicit_merge, versions := some 0, parent := some (.heap 0) }
      | _ => changeset_nil
    cs_alloc := 2 }

/-! ## Ready heap and counts -/

/-- Every changeset on the ready heap or among the emitted ones `E` has count
zero. -/
def zero_inv (s : database_t) (E : List cs_ref) : Prop :=
  ∀ c, c ∈ s.ready_changesets ∨ c ∈ E → (s.cs c).unready_count = 0

/-- Every changeset of the class `M` with count zero is on the ready heap or
among the emitted ones `E`. -/
def complete_inv (M : cs_ref → Prop) (s : database_t) (E : List cs_ref) : Prop :=
  ∀ c, M c → (s.cs c).unready_count = 0 → c ∈ s.ready_changesets ∨ c ∈ E

/-- The parent of version `k` has not been released yet: `k` has a parent and
the changeset owning the parent is not among the emitted ones `E`.  A root
version counts as released. -/
def parent_unemitted (db : database_t) (E : List cs_ref) (k : Nat) : Bool :=
  match (db.versions k).parent with
  | none => false
  | some q => decide ((db.versions q).commit ∉ E)

/-- The state after `prepare_for_emission` and the first `n` iterations of the
emission loop. -/
def emission_run (fuel n : Nat) (db : database_t) (rv : Option (List Nat)) : emission_state :=
  emission_loop fuel n
    { db := (prepared fuel db rv).1, rv := (prepared fuel db rv).2, emitted := [],
      stopped := none }

/-- The state after the counting loop of `prepare_for_emission`, before the
root versions are released. -/
def counted (fuel : Nat) (db : database_t) : database_t :=
  match prepare_counts fuel db db.changesets with
  | .ok db1 => db1
  | .error _ => db

/-- Two files A and B whose versions 1.1 are grouped into one commit. -/
def two_file_db : database_t :=
  { database_nil with
    files := [{ rcs_path := "A", versions := [0] }, { rcs_path := "B", versions := [1] }]
    versions := fun i => match i with
      | 0 => { version_nil with file := 0, cs_sibling := some 1 }
      | _ => { version_nil with file := 1 }
    changesets := [.heap 0]
    cs_mem := fun _ => { changeset_nil with versions := some 0, time := 1 }
    cs_alloc := 1 }

/-- The commit of every version is a commit-type changeset whose version list
ends and holds that version exactly once. -/
def listed_once (fuel : Nat) (db : database_t) : Prop :=
  ∀ v ∈ all_versions db,
    (db.cs (db.versions v).commit).type = .ct_commit ∧
    (chain (fun x => (db.versions x).cs_sibling) fuel
      (db.cs (db.versions v).commit).versions).isSome ∧
    (cs_versions fuel db (db.versions v).commit).count v = 1

/-- Every version is in the child list of exactly its parent: once in the
child list of its parent and in no other child list. -/
def child_listed (fuel : Nat) (db : database_t) : Prop :=
  ∀ p ∈ all_versions db,
    (chain (fun x => (db.versions x).sibling) fuel (db.versions p).children).isSome ∧
    ∀ v ∈ all_versions db,
      (children_of fuel db p).count v = if (db.versions v).parent = some p then 1 else 0

instance (fuel : Nat) (db : database_t) : Decidable (listed_once fuel db) := by
  unfold listed_once
  infer_instance

instance (fuel : Nat) (db : database_t) : Decidable (child_listed fuel db) := by
  unfold child_listed
  infer_instance

/-- Two files with one root version each, owned by the commits 0 and 1 of the
changeset array.  Commit 0 lists the changeset of tag 0 in its children array;
that tag changeset, which is embedded in the tag and not an entry of the
changeset array, lists commit 1 in its children array. -/
def tag_edge_db : database_t :=
  { database_nil with
    files := [{ rcs_path := "A", versions := [0] }, { rcs_path := "B", versions := [1] }]
    versions := fun i => match i with
      | 0 => { version_nil with file := 0, commit := .heap 0 }
      | _ => { version_nil with file := 1, commit := .heap 1 }
    tags := fun _ =>
      { tag_nil with changeset := { changeset_nil with type := .ct_tag, children := [.heap 1] } }
    tags_end := 1
    changesets := [.heap 0, .heap 1]
    cs_mem := fun i => match i with
      | 0 => { changeset_nil with versions := some 0, time := 1, children := [.of_tag 0] }
      | _ => { changeset_nil with versions := some 1, time := 2 }
    cs_alloc := 2 }

/-! ## Cycle split -/

/-- Database `a` and `b` agree on what the scheduler keeps per changeset (count,
time, type), on the ready heap, on the arena and on the files. -/
def same_sched (a b : database_t) : Prop :=
  (∀ c, (a.cs c).unready_count = (b.cs c).unready_count) ∧
  (∀ c, (a.cs c).time = (b.cs c).time) ∧ (∀ c, (a.cs c).type = (b.cs c).type) ∧
  a.ready_changesets = b.ready_changesets ∧ a.cs_alloc = b.cs_alloc ∧ a.files = b.files

/-- The database on which the partition loop of `cycle_split` starts: the new
changeset is allocated and has its type and time set. -/
def split_start (db : database_t) (cs : cs_ref) : database_t :=
  let a := database_new_changeset db
  let db1 := a.2.set_cs a.1 { a.2.cs a.1 with type := .ct_commit }
  db1.set_cs a.1 { db1.cs a.1 with time := (db1.cs cs).time }

/-! ## Emission operations -/

/-- The operations of the emission core that change the scheduler state. -/
inductive emission_op where
  | release (cs : cs_ref)
  | release_version (v : Nat)
  | emitted (cs : cs_ref)
  | next
  | next_split

/-- One operation on the state; `none` when the operation does not return
(a fault), or when `next_changeset_split` is used without a ready-versions
heap.  A changeset returned by `next_changeset` or `next_changeset_split`
joins the emitted sequence. -/
def apply_op (fuel : Nat) (s : emission_state) : emission_op → Option emission_state
  | .release cs =>
      match changeset_release s.db cs with
      | .ok d => some { s with db := d }
      | .error _ => none
  | .release_version v =>
      match version_release s.db s.rv v with
      | .ok r => some { s with db := r.1, rv := r.2 }
      | .error _ => none
  | .emitted cs =>
      match changeset_emitted fuel s.db s.rv cs with
      | .ok r => some { s with db := r.1, rv := r.2 }
      | .error _ => none
  | .next =>
      some { s with db := (next_changeset s.db).2,
                    emitted := s.emitted ++ (next_changeset s.db).1.toList }
  | .next_split =>
      match s.rv with
      | none => none
      | some h =>
          match next_changeset_split fuel s.db h with
          | .ok r => some { s with db := r.2, emitted := s.emitted ++ r.1.toList }
          | .error _ => none

/-- A sequence of operations, left to right. -/
def run_ops (fuel : Nat) : emission_state → List emission_op → Option emission_state
  | s, [] => some s
  | s, op :: rest =>
      match apply_op fuel s op with
      | some s1 => run_ops fuel s1 rest
      | none => none

/-- The changesets that something releases or that a split created: those
whose count the counting loop of `prepare_for_emission` on `g` raises, and the
arena slots from `a0` on that are allocated in `s`. -/
def marked (fuel : Nat) (g : database_t) (a0 : Nat) (s : database_t) (c : cs_ref) : Prop :=
  base_count fuel g g.changesets c ≠ 0 ∨ ∃ n, c = .heap n ∧ a0 ≤ n ∧ n < s.cs_alloc

/-- The commit of `two_file_db` and one tag whose changeset waits for
nothing. -/
def lone_tag_db : database_t :=
  { two_file_db with tags_end := 1 }

/-- Two files with two versions each in two commits that block each other:
commit 0 holds A 1.1 and B 1.2, commit 1 holds B 1.1 and A 1.2. -/
def cycle_db : database_t :=
  { database_nil with
    files := [{ rcs_path := "A", versions := [0, 1] }, { rcs_path := "B", versions := [2, 3] }]
    versions := fun i => match i with
      | 0 => { version_nil with children := some 1, cs_sibling := some 3, commit := .heap 0 }
      | 1 => { version_nil with parent := some 0, commit := .heap 1 }
      | 2 => { version_nil with
               file := 1, children := some 3, cs_sibling := some 1, commit := .heap 1 }
      | _ => { version_nil with file := 1, parent := some 2, commit := .heap 0 }
    changesets := [.heap 0, .heap 1]
    cs_mem := fun i => match i with
      | 0 => { changeset_nil with versions := some 0, time := 1 }
      | _ => { changeset_nil with versions := some 2, time := 2 }
    cs_alloc := 2 }

/-- The invariant of the emission operations: ready and emitted changesets have
count zero, and a marked changeset with count zero is ready or emitted. -/
def op_inv (fuel : Nat) (g : database_t) (a0 : Nat) (s : emission_state) : Prop :=
  zero_inv s.db s.emitted ∧ complete_inv (marked fuel g a0 s.db) s.db s.emitted ∧
  a0 ≤ s.db.cs_alloc

/-- The operations that emit `cycle_db`: each changeset is taken with
`next_changeset_split` and then emitted; the first call splits commit 0. -/
def cycle_ops : List emission_op :=
  [.next_split, .emitted (.heap 2), .next_split, .emitted (.heap 1), .next_split,
   .emitted (.heap 0)]

/-- The state after `prepare_for_emission` followed by the operations `ops`;
the prepared state itself when an operation does not return. -/
def run_state (fuel : Nat) (db : database_t) (rv : Option (List Nat))
    (ops : List emission_op) : emission_state :=
  (run_ops fuel
    { db := (prepared fuel db rv).1, rv := (prepared fuel db rv).2, emitted := [],
      stopped := none } ops).getD
    { db := (prepared fuel db rv).1, rv := (prepared fuel db rv).2, emitted := [],
      stopped := none }

/-- The list `L` is the pointer chain that starts at `s` and follows `next`
to null. -/
def is_chain (next : Nat → Option Nat) : Option Nat → List Nat → Prop
  | s, [] => s = none
  | s, v :: rest => s = some v ∧ is_chain next (next v) rest

/-- The value `*slot`. -/
def slot_get (db : database_t) : version_slot → Option Nat
  | .head c => (db.cs c).versions
  | .next v => (db.versions v).cs_sibling

/-- The slot `s` points to the first entry of `A`, and every entry of `A` but
the last points to the next one through `cs_sibling`. -/
def linked (db : database_t) : version_slot → List Nat → Prop
  | _, [] => True
  | s, a :: rest => slot_get db s = some a ∧ linked db (.next a) rest

/-- The slot after the list `A` that starts at slot `s`: the `cs_sibling`
field of the last entry, or `s` itself for the empty list. -/
def end_slot (s : version_slot) (A : List Nat) : version_slot :=
  match A.getLast? with
  | none => s
  | some a => .next a

/-- The slots that `linked` reads. -/
def read_slots : version_slot → List Nat → List version_slot
  | _, [] => []
  | s, a :: rest => s :: read_slots (.next a) rest

/-- Version `v` is blocked: its `ready_index` is the sentinel. -/
def blocked (db : database_t) (v : Nat) : Bool :=
  decide ((db.versions v).ready_index = SIZE_MAX)

/-- The version stores of `a` and `b` agree on every field other than
`cs_sibling` and `commit`. -/
def same_but_links (a b : database_t) : Prop :=
  ∀ x, ({ a.versions x with cs_sibling := none, commit := .heap 0 } : version_t)
    = { b.versions x with cs_sibling := none, commit := .heap 0 }

/-- The version `preceed (... preceed (v))`, with `k` applications. -/
def preceed_iter (fuel : Nat) (db : database_t) : Nat → Nat → Except fault Nat
  | 0, v => .ok v
  | k + 1, v =>
      match preceed fuel db v with
      | .error e => .error e
      | .ok u => preceed_iter fuel db k u

/-- The function `preceed` made total: a version on which `preceed` does not
return is mapped to itself. -/
def preceed_fn (fuel : Nat) (db : database_t) (v : Nat) : Nat :=
  match preceed fuel db v with
  | .ok u => u
  | .error _ => v

/-! ## preceed, as a search -/

/-- The proper ancestors of a version along the parent links, nearest
first. -/
def ancestors (fuel : Nat) (db : database_t) (x : Nat) : List Nat :=
  (chain (fun y => (db.versions y).parent) fuel (db.versions x).parent).getD []

/-- The nearest proper ancestor of `csv` whose `ready_index` is not the
sentinel. -/
def nearest_ready (fuel : Nat) (db : database_t) (csv : Nat) : Option Nat :=
  (ancestors fuel db csv).find? (fun x => !blocked db x)

/-- What `preceed (v)` looks for: the nearest ancestor without the sentinel of
the first blocked version, in list order, of the commit of `v` that has such
an ancestor. -/
def preceed_spec (fuel : Nat) (db : database_t) (v : Nat) : Option Nat :=
  ((cs_versions fuel db (db.versions v).commit).filter (blocked db)).findSome?
    (nearest_ready fuel db)

/-- The state of the versions during the main pass, when the changesets `E`
have been emitted: parents are versions of the database, and a version is in
the ready-versions heap (its `ready_index` is not the sentinel) exactly when it
has been released (it is a root, or the changeset of its parent has been
emitted) and its own changeset has not been emitted. -/
def main_pass_state (db : database_t) (E : List cs_ref) : Prop :=
  ∀ x ∈ all_versions db,
    (∀ p ∈ (db.versions x).parent, p ∈ all_versions db) ∧
    ((db.versions x).ready_index ≠ SIZE_MAX ↔
      ((db.versions x).commit ∉ E ∧
        ∀ p ∈ (db.versions x).parent, (db.versions p).commit ∈ E))

instance (db : database_t) (E : List cs_ref) : Decidable (main_pass_state db E) := by
  unfold main_pass_state
  infer_instance

/-! ## Linear history -/

/-- Three commits and a tag.  Commit 0 holds the root version of file A and
lists the changeset of tag 0 in its children array; the tag changeset, which
is not an entry of the changeset array, lists commit 2.  Commit 1 holds the
root version of file B, and commit 2 the version of B that follows it. -/
def tag_order_db : database_t :=
  { database_nil with
    files := [{ rcs_path := "A", versions := [0] }, { rcs_path := "B", versions := [1, 2] }]
    versions := fun i => match i with
      | 0 => { version_nil with file := 0, commit := .heap 0 }
      | 1 => { version_nil with file := 1, children := some 2, commit := .heap 1 }
      | _ => { version_nil with file := 1, parent := some 1, commit := .heap 2 }
    tags := fun _ =>
      { tag_nil with
        changeset := { changeset_nil with type := .ct_tag, time := 2, children := [.heap 2] } }
    tags_end := 1
    changesets := [.heap 0, .heap 1, .heap 2]
    cs_mem := fun i => match i with
      | 0 => { changeset_nil with versions := some 0, time := 1, children := [.of_tag 0] }
      | 1 => { changeset_nil with versions := some 1, time := 5 }
      | _ => { changeset_nil with versions := some 2, time := 3 }
    cs_alloc := 3 }

theorem upd_apply {β : Type} (f : Nat → β) (i : Nat) (x : β) (j : Nat) :
    upd f i x j = if j = i then x else f j := rfl

theorem cs_set_cs (db : database_t) (p q : cs_ref) (c : changeset_t) :
    (db.set_cs p c).cs q = if q = p then c else db.cs q := by
  cases p <;> cases q <;> simp only [database_t.set_cs, database_t.cs, upd] <;>
    split_ifs <;> simp_all

theorem cs_set_cs_self (db : database_t) (p : cs_ref) (c : changeset_t) :
    (db.set_cs p c).cs p = c := by simp [cs_set_cs]

theorem cs_set_cs_ne (db : database_t) (p q : cs_ref) (c : changeset_t) (h : q ≠ p) :
    (db.set_cs p c).cs q = db.cs q := by simp [cs_set_cs, h]

theorem set_cs_versions (db : database_t) (p : cs_ref) (c : changeset_t) :
    (db.set_cs p c).versions = db.versions := by cases p <;> rfl

theorem set_cs_files (db : database_t) (p : cs_ref) (c : changeset_t) :
    (db.set_cs p c).files = db.files := by cases p <;> rfl

theorem set_cs_changesets (db : database_t) (p : cs_ref) (c : changeset_t) :
    (db.set_cs p c).changesets = db.changesets := by cases p <;> rfl

theorem set_cs_ready_changesets (db : database_t) (p : cs_ref) (c : changeset_t) :
    (db.set_cs p c).ready_changesets = db.ready_changesets := by cases p <;> rfl

theorem set_cs_ready_tags (db : database_t) (p : cs_ref) (c : changeset_t) :
    (db.set_cs p c).ready_tags = db.ready_tags := by cases p <;> rfl

theorem set_cs_tags_end (db : database_t) (p : cs_ref) (c : changeset_t) :
    (db.set_cs p c).tags_end = db.tags_end := by cases p <;> rfl

/-! ## Heap -/

theorem heap_insert_perm {α : Type} (time : α → Int) (h : List α) (x : α) :
    (heap_insert time h x).Perm (x :: h) := by
  induction h with
  | nil => simp [heap_insert]
  | cons y ys ih =>
    simp only [heap_insert]
    split_ifs
    · exact List.Perm.refl _
    · exact (List.Perm.cons y ih).trans (List.Perm.swap x y ys)

theorem mem_heap_insert {α : Type} (time : α → Int) (h : List α) (x y : α) :
    y ∈ heap_insert time h x ↔ y = x ∨ y ∈ h := by
  rw [(heap_insert_perm time h x).mem_iff]; simp

/-! ## changeset_release -/

theorem changeset_release_zero (db : database_t) (cs : cs_ref)
    (h : (db.cs cs).unready_count = 0) : changeset_release db cs = .error .assertion := by
  simp [changeset_release, h]

theorem changeset_release_pos (db : database_t) (cs : cs_ref)
    (h : (db.cs cs).unready_count ≠ 0) :
    changeset_release db cs =
      .ok (if (db.cs cs).unready_count = 1 then
            { db.set_cs cs { db.cs cs with unready_count := (db.cs cs).unready_count - 1 } with
              ready_changesets :=
                heap_insert (fun c => (db.cs c).time) db.ready_changesets cs }
           else db.set_cs cs { db.cs cs with unready_count := (db.cs cs).unready_count - 1 }) := by
  have ht : (fun c => ((db.set_cs cs
      { db.cs cs with unready_count := (db.cs cs).unready_count - 1 }).cs c).time)
      = fun c => (db.cs c).time := by
    funext c
    rw [cs_set_cs]; split_ifs with hc
    · subst hc; rfl
    · rfl
  have h1 : (db.cs cs).unready_count - 1 = 0 ↔ (db.cs cs).unready_count = 1 := by omega
  simp only [changeset_release, h, if_false, cs_set_cs_self, ht, set_cs_ready_changesets, h1]
  split_ifs <;> rfl

theorem cs_with_ready (db : database_t) (h : List cs_ref) (c : cs_ref) :
    ({ db with ready_changesets := h } : database_t).cs c = db.cs c := by
  cases c <;> rfl

/-- What a returning `changeset_release` leaves behind. -/
theorem changeset_release_ok (db db' : database_t) (cs : cs_ref)
    (h : changeset_release db cs = .ok db') :
    (db.cs cs).unready_count ≠ 0 ∧
    db'.versions = db.versions ∧ db'.files = db.files ∧ db'.changesets = db.changesets ∧
    db'.ready_tags = db.ready_tags ∧ db'.tags_end = db.tags_end ∧
    (∀ d, db'.cs d =
      if d = cs then { db.cs cs with unready_count := (db.cs cs).unready_count - 1 }
      else db.cs d) ∧
    db'.ready_changesets =
      if (db.cs cs).unready_count = 1 then
        heap_insert (fun c => (db.cs c).time) db.ready_changesets cs
      else db.ready_changesets := by
  by_cases h0 : (db.cs cs).unready_count = 0
  · rw [changeset_release_zero db cs h0] at h; cases h
  · rw [changeset_release_pos db cs h0] at h
    injection h with h
    subst h
    refine ⟨h0, ?_⟩
    by_cases h1 : (db.cs cs).unready_count = 1
    · rw [if_pos h1, if_pos h1]
      refine ⟨set_cs_versions _ _ _, set_cs_files _ _ _, set_cs_changesets _ _ _,
        set_cs_ready_tags _ _ _, set_cs_tags_end _ _ _, ?_, rfl⟩
      intro d
      rw [cs_with_ready, cs_set_cs]
    · rw [if_neg h1, if_neg h1]
      refine ⟨set_cs_versions _ _ _, set_cs_files _ _ _, set_cs_changesets _ _ _,
        set_cs_ready_tags _ _ _, set_cs_tags_end _ _ _, ?_, set_cs_ready_changesets _ _ _⟩
      intro d
      rw [cs_set_cs]

/-- C2: `changeset_release` fails exactly when the unready count of `cs` is
zero on entry, and then by the assertion.  Otherwise it returns; the count of
`cs` has dropped by exactly one, every other count is unchanged, `cs` has been
inserted into the ready heap when its new count is zero, and the ready heap is
unchanged when the new count is not zero. -/
theorem changeset_release_contract (db : database_t) (cs : cs_ref) :
    ((∃ e, changeset_release db cs = .error e) ↔ (db.cs cs).unready_count = 0) ∧
    (∀ e, changeset_release db cs = .error e → e = .assertion) ∧
    ((db.cs cs).unready_count ≠ 0 → ∃ db', changeset_release db cs = .ok db') ∧
    (∀ db', changeset_release db cs = .ok db' →
      (db'.cs cs).unready_count + 1 = (db.cs cs).unready_count ∧
      (∀ d, d ≠ cs → (db'.cs d).unready_count = (db.cs d).unready_count) ∧
      ((db'.cs cs).unready_count = 0 →
        db'.ready_changesets
          = heap_insert (fun c => (db.cs c).time) db.ready_changesets cs ∧
        db'.ready_changesets.Perm (cs :: db.ready_changesets)) ∧
      ((db'.cs cs).unready_count ≠ 0 → db'.ready_changesets = db.ready_changesets)) := by
  refine ⟨?_, ?_, ?_, ?_⟩
  · constructor
    · rintro ⟨e, he⟩
      by_contra h0
      rw [changeset_release_pos db cs h0] at he; cases he
    · intro h0; exact ⟨_, changeset_release_zero db cs h0⟩
  · intro e he
    by_cases h0 : (db.cs cs).unready_count = 0
    · rw [changeset_release_zero db cs h0] at he; cases he; rfl
    · rw [changeset_release_pos db cs h0] at he; cases he
  · intro h0; exact ⟨_, changeset_release_pos db cs h0⟩
  · intro db' hd
    obtain ⟨h0, -, -, -, -, -, hcs, hr⟩ := changeset_release_ok db db' cs hd
    have hself : (db'.cs cs).unready_count = (db.cs cs).unready_count - 1 := by
      rw [hcs cs, if_pos rfl]
    refine ⟨by omega, ?_, ?_, ?_⟩
    · intro d hne; rw [hcs d, if_neg hne]
    · intro hz
      have h1 : (db.cs cs).unready_count = 1 := by omega
      rw [hr, if_pos h1]
      exact ⟨rfl, heap_insert_perm _ _ _⟩
    · intro hz
      have h1 : (db.cs cs).unready_count ≠ 1 := by omega
      rw [hr, if_neg h1]

/-- Witness for C2: changeset 0 of `release_db` has count 2; the release
returns and leaves count 1 without touching the ready heap. -/
theorem changeset_release_contract_witness :
    (release_db.cs (.heap 0)).unready_count ≠ 0 ∧
    ∃ db', changeset_release release_db (.heap 0) = .ok db' ∧
      (db'.cs (.heap 0)).unready_count + 1 = (release_db.cs (.heap 0)).unready_count ∧
      db'.ready_changesets = release_db.ready_changesets := by
  have h := changeset_release_contract release_db (.heap 0)
  obtain ⟨db', hd⟩ := h.2.2.1 (by decide)
  have h1 := (h.2.2.2 db' hd).1
  have h2 : (release_db.cs (.heap 0)).unready_count = 2 := rfl
  exact ⟨by decide, db', hd, h1, (h.2.2.2 db' hd).2.2.2 (by omega)⟩

/-! ## The ready-versions heap only touches `ready_index` -/

theorem cs_strip (db : database_t) (c : cs_ref) : (strip db).cs c = db.cs c := by
  cases c <;> rfl

theorem strip_set_cs (db : database_t) (p : cs_ref) (c : changeset_t) :
    strip (db.set_cs p c) = (strip db).set_cs p c := by
  cases p <;> rfl

theorem blank_set_indices (vs : Nat → version_t) (h : List Nat) (i : Nat) (x : Nat) :
    ({ set_indices vs h i x with ready_index := 0 } : version_t)
      = { vs x with ready_index := 0 } := by
  induction h generalizing vs i with
  | nil => rfl
  | cons v rest ih =>
    simp only [set_indices]
    rw [ih]
    simp only [upd]
    split_ifs with hx
    · subst hx; rfl
    · rfl

theorem strip_version_heap_insert (db : database_t) (h : List Nat) (v : Nat) :
    strip (version_heap_insert db h v).1 = strip db := by
  simp only [version_heap_insert, strip]
  congr 1
  funext x
  exact blank_set_indices _ _ _ _

theorem strip_version_heap_remove (db : database_t) (h : List Nat) (v : Nat) :
    strip (version_heap_remove db h v).1 = strip db := by
  simp only [version_heap_remove]
  split_ifs with hv
  · simp only [strip]
    congr 1
    funext x
    rw [blank_set_indices]
    simp only [upd]
    split_ifs with hx
    · subst hx; rfl
    · rfl
  · rfl

theorem version_heap_remove_snd (db : database_t) (h : List Nat) (v : Nat) :
    (version_heap_remove db h v).2 = h.erase v := by
  simp only [version_heap_remove]
  split_ifs with hv
  · rfl
  · exact (List.erase_of_not_mem hv).symm

theorem vgraph_of_strip {a b : database_t} (h : strip a = strip b) : vgraph a = vgraph b :=
  congrArg database_t.versions h

theorem vgraph_of_versions {a b : database_t} (h : a.versions = b.versions) :
    vgraph a = vgraph b := by
  simp only [vgraph, strip, h]

theorem strip_versions_eq {a b : database_t} (h : vgraph a = vgraph b) (x : Nat) :
    ({ a.versions x with ready_index := 0 } : version_t) = { b.versions x with ready_index := 0 } :=
  congrFun h x

theorem vgraph_commit {a b : database_t} (h : vgraph a = vgraph b) (x : Nat) :
    (a.versions x).commit = (b.versions x).commit := by
  have h1 := congrArg version_t.commit (strip_versions_eq h x)
  exact h1

theorem vgraph_sibling {a b : database_t} (h : vgraph a = vgraph b) (x : Nat) :
    (a.versions x).sibling = (b.versions x).sibling := by
  have h1 := congrArg version_t.sibling (strip_versions_eq h x)
  exact h1

theorem vgraph_cs_sibling {a b : database_t} (h : vgraph a = vgraph b) (x : Nat) :
    (a.versions x).cs_sibling = (b.versions x).cs_sibling := by
  have h1 := congrArg version_t.cs_sibling (strip_versions_eq h x)
  exact h1

theorem vgraph_children {a b : database_t} (h : vgraph a = vgraph b) (x : Nat) :
    (a.versions x).children = (b.versions x).children := by
  have h1 := congrArg version_t.children (strip_versions_eq h x)
  exact h1

theorem vgraph_parent {a b : database_t} (h : vgraph a = vgraph b) (x : Nat) :
    (a.versions x).parent = (b.versions x).parent := by
  have h1 := congrArg version_t.parent (strip_versions_eq h x)
  exact h1

theorem vgraph_time {a b : database_t} (h : vgraph a = vgraph b) (x : Nat) :
    (a.versions x).time = (b.versions x).time := by
  have h1 := congrArg version_t.time (strip_versions_eq h x)
  exact h1

theorem strip_cs {a b : database_t} (h : strip a = strip b) (c : cs_ref) : a.cs c = b.cs c := by
  rw [← cs_strip a, ← cs_strip b, h]

theorem strip_ready {a b : database_t} (h : strip a = strip b) :
    a.ready_changesets = b.ready_changesets := by
  have h1 := congrArg database_t.ready_changesets h
  exact h1

theorem strip_files {a b : database_t} (h : strip a = strip b) : a.files = b.files := by
  have h1 := congrArg database_t.files h
  exact h1

theorem strip_changesets {a b : database_t} (h : strip a = strip b) :
    a.changesets = b.changesets := by
  have h1 := congrArg database_t.changesets h
  exact h1

/-- `changeset_release` neither reads nor writes a `ready_index`. -/
theorem changeset_release_strip (db : database_t) (c : cs_ref) :
    changeset_release (strip db) c = (changeset_release db c).map strip := by
  by_cases h0 : (db.cs c).unready_count = 0
  · rw [changeset_release_zero db c h0, changeset_release_zero (strip db) c (by rw [cs_strip]; exact h0)]
    rfl
  · rw [changeset_release_pos db c h0,
      changeset_release_pos (strip db) c (by rw [cs_strip]; exact h0)]
    simp only [cs_strip, Except.map]
    congr 1
    split_ifs
    · cases c <;> rfl
    · cases c <;> rfl

/-! ## Releases seen through `strip` -/

theorem release_changesets_nil (db : database_t) : release_changesets db [] = .ok db := rfl

theorem release_changesets_cons (db : database_t) (c : cs_ref) (rest : List cs_ref) :
    release_changesets db (c :: rest) =
      match changeset_release db c with
      | .error e => .error e
      | .ok db1 => release_changesets db1 rest := rfl

theorem release_changesets_append (db : database_t) (a b : List cs_ref) :
    release_changesets db (a ++ b) =
      match release_changesets db a with
      | .error e => .error e
      | .ok db1 => release_changesets db1 b := by
  induction a generalizing db with
  | nil => rfl
  | cons c rest ih =>
    simp only [List.cons_append, release_changesets_cons]
    cases changeset_release db c with
    | error e => rfl
    | ok db1 => exact ih db1

theorem version_release_strip (db : database_t) (rv : Option (List Nat)) (v : Nat) :
    (version_release db rv v).map (fun r => strip r.1)
      = changeset_release (strip db) (db.versions v).commit := by
  cases rv with
  | none =>
    simp only [version_release]
    rw [changeset_release_strip]
    cases changeset_release db (db.versions v).commit <;> rfl
  | some h =>
    simp only [version_release]
    rw [vgraph_commit (vgraph_of_strip (strip_version_heap_insert db h v)) v,
      ← strip_version_heap_insert db h v, changeset_release_strip]
    cases changeset_release (version_heap_insert db h v).1 (db.versions v).commit <;> rfl

theorem version_release_snd (db : database_t) (rv : Option (List Nat)) (v : Nat)
    (r : database_t × Option (List Nat)) (h : version_release db rv v = .ok r) :
    r.2 = rv.map (fun hp => heap_insert (fun x => (db.versions x).time) hp v) := by
  cases rv with
  | none =>
    simp only [version_release] at h
    cases hc : changeset_release db (db.versions v).commit with
    | error e => rw [hc] at h; cases h
    | ok d => rw [hc] at h; cases h; rfl
  | some hp =>
    simp only [version_release] at h
    cases hc : changeset_release (version_heap_insert db hp v).1
        (((version_heap_insert db hp v).1.versions v).commit) with
    | error e => rw [hc] at h; cases h
    | ok d => rw [hc] at h; cases h; rfl

theorem version_release_vgraph (db : database_t) (rv : Option (List Nat)) (v : Nat)
    (r : database_t × Option (List Nat)) (h : version_release db rv v = .ok r) :
    vgraph r.1 = vgraph db := by
  have hs := version_release_strip db rv v
  rw [h] at hs
  have hs2 : changeset_release (strip db) (db.versions v).commit = .ok (strip r.1) := hs.symm
  have hv := (changeset_release_ok _ _ _ hs2).2.1
  show (strip r.1).versions = (strip db).versions
  exact hv

/-! ## Loops over chains -/

theorem chain_congr (f g : Nat → Option Nat) (h : ∀ x, f x = g x) (n : Nat) (s : Option Nat) :
    chain f n s = chain g n s := by
  have : f = g := funext h
  rw [this]

theorem chain_none (next : Nat → Option Nat) (n : Nat) : chain next n none = some [] := by
  cases n <;> rfl

theorem chain_zero_some (next : Nat → Option Nat) (v : Nat) : chain next 0 (some v) = none := rfl

theorem chain_succ_some (next : Nat → Option Nat) (n v : Nat) :
    chain next (n + 1) (some v) = (chain next n (next v)).map (fun l => v :: l) := rfl

theorem release_children_none (db : database_t) (rv : Option (List Nat)) (n : Nat) :
    release_children db rv n none = .ok (db, rv) := by
  cases n <;> rfl

theorem release_children_succ (db : database_t) (rv : Option (List Nat)) (n v : Nat) :
    release_children db rv (n + 1) (some v) =
      match version_release db rv v with
      | .error e => .error e
      | .ok r => release_children r.1 r.2 n (r.1.versions v).sibling := rfl

/-- The inner loop of `changeset_emitted` releases the owners of the chain's
versions in order; the heap gains the versions. -/
theorem release_children_strip (n : Nat) :
    ∀ (db : database_t) (rv : Option (List Nat)) (start : Option Nat) (L : List Nat),
      chain (fun x => (db.versions x).sibling) n start = some L →
      (release_children db rv n start).map (fun r => strip r.1)
        = release_changesets (strip db) (L.map (fun k => (db.versions k).commit)) ∧
      ∀ r, release_children db rv n start = .ok r →
        vgraph r.1 = vgraph db ∧
        r.2 = rv.map (fun hp => L.foldl (heap_insert (fun x => (db.versions x).time)) hp) := by
  induction n with
  | zero =>
    intro db rv start L hL
    cases start with
    | none =>
      rw [chain_none] at hL
      injection hL with hL
      subst hL
      refine ⟨rfl, ?_⟩
      intro r hr
      rw [release_children_none] at hr
      injection hr with hr
      subst hr
      exact ⟨rfl, by cases rv <;> rfl⟩
    | some v => rw [chain_zero_some] at hL; cases hL
  | succ n ih =>
    intro db rv start L hL
    cases start with
    | none =>
      rw [chain_none] at hL
      injection hL with hL
      subst hL
      refine ⟨rfl, ?_⟩
      intro r hr
      rw [release_children_none] at hr
      injection hr with hr
      subst hr
      exact ⟨rfl, by cases rv <;> rfl⟩
    | some v =>
      rw [chain_succ_some] at hL
      cases hc : chain (fun x => (db.versions x).sibling) n ((db.versions v).sibling) with
      | none => rw [hc] at hL; cases hL
      | some L1 =>
        rw [hc] at hL
        injection hL with hL
        subst hL
        rw [release_children_succ]
        have hs := version_release_strip db rv v
        cases hv : version_release db rv v with
        | error e =>
          rw [hv] at hs
          simp only [List.map_cons, release_changesets_cons]
          rw [← hs]
          exact ⟨rfl, fun r hr => by cases hr⟩
        | ok r1 =>
          rw [hv] at hs
          have hg := version_release_vgraph db rv v r1 hv
          have hc1 : chain (fun x => (r1.1.versions x).sibling) n ((r1.1.versions v).sibling)
              = some L1 := by
            rw [vgraph_sibling hg v,
              chain_congr _ (fun x => (db.versions x).sibling) (fun x => vgraph_sibling hg x)]
            exact hc
          obtain ⟨ih1, ih2⟩ := ih r1.1 r1.2 ((r1.1.versions v).sibling) L1 hc1
          have hm : L1.map (fun k => (r1.1.versions k).commit)
              = L1.map (fun k => (db.versions k).commit) := by
            apply List.map_congr_left
            intro k _
            exact vgraph_commit hg k
          constructor
          · simp only [List.map_cons, release_changesets_cons]
            rw [← hs]
            show _ = release_changesets (strip r1.1) _
            rw [← hm]
            exact ih1
          · intro r hr
            obtain ⟨h1, h2⟩ := ih2 r hr
            refine ⟨h1.trans hg, ?_⟩
            rw [h2, version_release_snd db rv v r1 hv]
            have ht : (fun x => (r1.1.versions x).time) = fun x => (db.versions x).time :=
              funext (fun x => vgraph_time hg x)
            rw [ht]
            cases rv <;> rfl

/-- A returning inner loop walked a chain that ends within the fuel. -/
theorem release_children_ok_chain (n : Nat) :
    ∀ (db : database_t) (rv : Option (List Nat)) (start : Option Nat)
      (r : database_t × Option (List Nat)),
      release_children db rv n start = .ok r →
      (chain (fun x => (db.versions x).sibling) n start).isSome := by
  induction n with
  | zero =>
    intro db rv start r hr
    cases start with
    | none => rfl
    | some v => cases hr
  | succ n ih =>
    intro db rv start r hr
    cases start with
    | none => rfl
    | some v =>
      rw [release_children_succ] at hr
      cases hv : version_release db rv v with
      | error e => rw [hv] at hr; cases hr
      | ok r1 =>
        rw [hv] at hr
        have hg := version_release_vgraph db rv v r1 hv
        have := ih _ _ _ _ hr
        rw [vgraph_sibling hg v,
          chain_congr _ (fun x => (db.versions x).sibling) (fun x => vgraph_sibling hg x)] at this
        rw [chain_succ_some]
        cases hc : chain (fun x => (db.versions x).sibling) n ((db.versions v).sibling) with
        | none => rw [hc] at this; cases this
        | some L => rfl

theorem children_of_vgraph {a b : database_t} (h : vgraph a = vgraph b) (fuel i : Nat) :
    children_of fuel a i = children_of fuel b i := by
  simp only [children_of]
  rw [vgraph_children h i,
    chain_congr _ (fun x => (b.versions x).sibling) (fun x => vgraph_sibling h x)]

theorem children_chain_vgraph {a b : database_t} (h : vgraph a = vgraph b) (fuel i : Nat) :
    chain (fun x => (a.versions x).sibling) fuel (a.versions i).children
      = chain (fun x => (b.versions x).sibling) fuel (b.versions i).children := by
  rw [vgraph_children h i,
    chain_congr _ (fun x => (b.versions x).sibling) (fun x => vgraph_sibling h x)]

theorem emit_versions_none (fuel : Nat) (db : database_t) (rv : Option (List Nat)) (n : Nat) :
    emit_versions fuel db rv n none = .ok (db, rv) := by
  cases n <;> rfl

theorem emit_versions_succ (fuel : Nat) (db : database_t) (rv : Option (List Nat)) (n i : Nat) :
    emit_versions fuel db rv (n + 1) (some i) =
      match release_children
          (match rv with
            | some h => ((version_heap_remove db h i).1, some (version_heap_remove db h i).2)
            | none => (db, none)).1
          (match rv with
            | some h => ((version_heap_remove db h i).1, some (version_heap_remove db h i).2)
            | none => (db, none)).2 fuel
          ((match rv with
            | some h => ((version_heap_remove db h i).1, some (version_heap_remove db h i).2)
            | none => (db, none)).1.versions i).children with
      | .error e => .error e
      | .ok r2 => emit_versions fuel r2.1 r2.2 n (r2.1.versions i).cs_sibling := rfl

/-- The state after the optional `heap_remove` of one iteration. -/
theorem remove_step (db : database_t) (rv : Option (List Nat)) (i : Nat) :
    strip (match rv with
      | some h => ((version_heap_remove db h i).1, some (version_heap_remove db h i).2)
      | none => (db, none)).1 = strip db ∧
    (match rv with
      | some h => ((version_heap_remove db h i).1, some (version_heap_remove db h i).2)
      | none => (db, none)).2 = rv.map (fun h => h.erase i) := by
  cases rv with
  | none => exact ⟨rfl, rfl⟩
  | some h =>
    refine ⟨strip_version_heap_remove db h i, ?_⟩
    show some (version_heap_remove db h i).2 = some (h.erase i)
    rw [version_heap_remove_snd]

/-- The loop over the versions of a commit releases, for each version in
order, the owners of its child versions. -/
theorem emit_versions_strip (fuel : Nat) (n : Nat) :
    ∀ (db : database_t) (rv : Option (List Nat)) (start : Option Nat) (L : List Nat),
      chain (fun x => (db.versions x).cs_sibling) n start = some L →
      (∀ i ∈ L, (chain (fun x => (db.versions x).sibling) fuel (db.versions i).children).isSome) →
      (emit_versions fuel db rv n start).map (fun r => strip r.1)
        = release_changesets (strip db)
            ((L.flatMap (children_of fuel db)).map (fun k => (db.versions k).commit)) ∧
      ∀ r, emit_versions fuel db rv n start = .ok r →
        vgraph r.1 = vgraph db ∧
        r.2 = rv.map (fun hp => L.foldl (fun h i =>
          (children_of fuel db i).foldl (heap_insert (fun x => (db.versions x).time)) (h.erase i))
          hp) := by
  induction n with
  | zero =>
    intro db rv start L hL hK
    cases start with
    | none =>
      rw [chain_none] at hL
      injection hL with hL
      subst hL
      refine ⟨rfl, ?_⟩
      intro r hr
      rw [emit_versions_none] at hr
      injection hr with hr
      subst hr
      exact ⟨rfl, by cases rv <;> rfl⟩
    | some v => rw [chain_zero_some] at hL; cases hL
  | succ n ih =>
    intro db rv start L hL hK
    cases start with
    | none =>
      rw [chain_none] at hL
      injection hL with hL
      subst hL
      refine ⟨rfl, ?_⟩
      intro r hr
      rw [emit_versions_none] at hr
      injection hr with hr
      subst hr
      exact ⟨rfl, by cases rv <;> rfl⟩
    | some i =>
      rw [chain_succ_some] at hL
      cases hc : chain (fun x => (db.versions x).cs_sibling) n ((db.versions i).cs_sibling) with
      | none => rw [hc] at hL; cases hL
      | some L1 =>
        rw [hc] at hL
        injection hL with hL
        subst hL
        rw [emit_versions_succ]
        obtain ⟨hrm1, hrm2⟩ := remove_step db rv i
        generalize (match rv with
          | some h => ((version_heap_remove db h i).1, some (version_heap_remove db h i).2)
          | none => (db, none)) = r0 at hrm1 hrm2 ⊢
        have hg0 : vgraph r0.1 = vgraph db := vgraph_of_strip hrm1
        have hKi := hK i (List.mem_cons_self _ _)
        obtain ⟨Ki, hKi'⟩ := Option.isSome_iff_exists.mp hKi
        have hco : children_of fuel db i = Ki := by
          simp only [children_of, hKi', Option.getD_some]
        have hch0 : chain (fun x => (r0.1.versions x).sibling) fuel (r0.1.versions i).children
            = some Ki := by
          rw [children_chain_vgraph hg0]; exact hKi'
        obtain ⟨hrc1, hrc2⟩ := release_children_strip fuel r0.1 r0.2 _ Ki hch0
        have hm0 : Ki.map (fun k => (r0.1.versions k).commit)
            = Ki.map (fun k => (db.versions k).commit) :=
          List.map_congr_left (fun k _ => vgraph_commit hg0 k)
        rw [hrm1, hm0] at hrc1
        simp only [List.flatMap_cons, List.map_append, release_changesets_append, hco]
        rw [← hrc1]
        cases hrel : release_children r0.1 r0.2 fuel (r0.1.versions i).children with
        | error e => exact ⟨rfl, fun r hr => by cases hr⟩
        | ok r2 =>
          obtain ⟨hg2, hh2⟩ := hrc2 r2 hrel
          have hg : vgraph r2.1 = vgraph db := hg2.trans hg0
          have hc1 : chain (fun x => (r2.1.versions x).cs_sibling) n
              ((r2.1.versions i).cs_sibling) = some L1 := by
            rw [vgraph_cs_sibling hg i,
              chain_congr _ (fun x => (db.versions x).cs_sibling)
                (fun x => vgraph_cs_sibling hg x)]
            exact hc
          have hK1 : ∀ j ∈ L1, (chain (fun x => (r2.1.versions x).sibling) fuel
              (r2.1.versions j).children).isSome := by
            intro j hj
            rw [children_chain_vgraph hg]
            exact hK j (List.mem_cons_of_mem _ hj)
          obtain ⟨ih1, ih2⟩ := ih r2.1 r2.2 _ L1 hc1 hK1
          have hco2 : children_of fuel r2.1 = children_of fuel db :=
            funext (fun j => children_of_vgraph hg fuel j)
          have hm : (L1.flatMap (children_of fuel r2.1)).map (fun k => (r2.1.versions k).commit)
              = (L1.flatMap (children_of fuel db)).map (fun k => (db.versions k).commit) := by
            rw [hco2]
            exact List.map_congr_left (fun k _ => vgraph_commit hg k)
          rw [hm] at ih1
          constructor
          · exact ih1
          · intro r hr
            obtain ⟨h1, h2⟩ := ih2 r hr
            refine ⟨h1.trans hg, ?_⟩
            have ht : (fun x => (r2.1.versions x).time) = fun x => (db.versions x).time :=
              funext (fun x => vgraph_time hg x)
            have ht0 : (fun x => (r0.1.versions x).time) = fun x => (db.versions x).time :=
              funext (fun x => vgraph_time hg0 x)
            rw [h2, hh2, hrm2, hco2, ht, ht0]
            cases rv with
            | none => rfl
            | some hp => simp only [Option.map_some', List.foldl_cons, hco]

/-! ## The graph is not changed by releases -/

theorem same_graph_refl (a : database_t) : same_graph a a := ⟨rfl, rfl, rfl, rfl⟩

theorem same_graph_trans {a b c : database_t} (h1 : same_graph a b) (h2 : same_graph b c) :
    same_graph a c :=
  ⟨h1.1.trans h2.1, h1.2.1.trans h2.2.1, h1.2.2.1.trans h2.2.2.1, h1.2.2.2.trans h2.2.2.2⟩

theorem same_graph_symm {a b : database_t} (h : same_graph a b) : same_graph b a :=
  ⟨h.1.symm, h.2.1.symm, h.2.2.1.symm, h.2.2.2.symm⟩

theorem cgraph_strip (db : database_t) : cgraph (strip db) = cgraph db := by
  funext c
  simp only [cgraph, cs_strip]

theorem vgraph_strip (db : database_t) : vgraph (strip db) = vgraph db := rfl

theorem same_graph_strip (db : database_t) : same_graph (strip db) db :=
  ⟨vgraph_strip db, cgraph_strip db, rfl, rfl⟩

theorem cgraph_eq {a b : database_t} (h : cgraph a = cgraph b) (c : cs_ref) :
    ({ a.cs c with unready_count := 0 } : changeset_t) = { b.cs c with unready_count := 0 } :=
  congrFun h c

theorem cgraph_type {a b : database_t} (h : cgraph a = cgraph b) (c : cs_ref) :
    (a.cs c).type = (b.cs c).type := by
  have h1 := congrArg changeset_t.type (cgraph_eq h c)
  exact h1

theorem cgraph_versions {a b : database_t} (h : cgraph a = cgraph b) (c : cs_ref) :
    (a.cs c).versions = (b.cs c).versions := by
  have h1 := congrArg changeset_t.versions (cgraph_eq h c)
  exact h1

theorem cgraph_children {a b : database_t} (h : cgraph a = cgraph b) (c : cs_ref) :
    (a.cs c).children = (b.cs c).children := by
  have h1 := congrArg changeset_t.children (cgraph_eq h c)
  exact h1

theorem cgraph_time {a b : database_t} (h : cgraph a = cgraph b) (c : cs_ref) :
    (a.cs c).time = (b.cs c).time := by
  have h1 := congrArg changeset_t.time (cgraph_eq h c)
  exact h1

theorem changeset_release_same_graph (db db' : database_t) (cs : cs_ref)
    (h : changeset_release db cs = .ok db') : same_graph db' db := by
  obtain ⟨-, hv, hf, hc, -, -, hcs, -⟩ := changeset_release_ok db db' cs h
  refine ⟨vgraph_of_versions hv, ?_, hf, hc⟩
  funext d
  simp only [cgraph]
  rw [hcs d]
  split_ifs with hd
  · subst hd; rfl
  · rfl

theorem release_changesets_same_graph (T : List cs_ref) :
    ∀ (db db' : database_t), release_changesets db T = .ok db' → same_graph db' db := by
  induction T with
  | nil =>
    intro db db' h
    rw [release_changesets_nil] at h
    injection h with h
    subst h
    exact same_graph_refl _
  | cons c rest ih =>
    intro db db' h
    rw [release_changesets_cons] at h
    cases hc : changeset_release db c with
    | error e => rw [hc] at h; cases h
    | ok db1 =>
      rw [hc] at h
      exact same_graph_trans (ih db1 db' h) (changeset_release_same_graph db db1 c hc)

theorem cs_versions_same_graph {a b : database_t} (h : same_graph a b) (fuel : Nat) (c : cs_ref) :
    cs_versions fuel a c = cs_versions fuel b c := by
  simp only [cs_versions]
  rw [cgraph_versions h.2.1 c,
    chain_congr _ (fun x => (b.versions x).cs_sibling) (fun x => vgraph_cs_sibling h.1 x)]

theorem release_targets_same_graph {a b : database_t} (h : same_graph a b) (fuel : Nat)
    (c : cs_ref) : release_targets fuel a c = release_targets fuel b c := by
  simp only [release_targets]
  rw [cgraph_type h.2.1 c, cgraph_children h.2.1 c, cs_versions_same_graph h,
    (funext (fun j => children_of_vgraph h.1 fuel j) : children_of fuel a = children_of fuel b)]
  congr 1
  split_ifs
  · exact List.map_congr_left (fun k _ => vgraph_commit h.1 k)
  · rfl

theorem chains_end_same_graph {a b : database_t} (h : same_graph a b) (fuel : Nat)
    (c : cs_ref) (hb : chains_end fuel b c) : chains_end fuel a c := by
  obtain ⟨h1, h2⟩ := hb
  constructor
  · rw [cgraph_versions h.2.1 c,
      chain_congr _ (fun x => (b.versions x).cs_sibling) (fun x => vgraph_cs_sibling h.1 x)]
    exact h1
  · intro i hi
    rw [cs_versions_same_graph h] at hi
    rw [children_chain_vgraph h.1]
    exact h2 i hi

/-- A returning loop over the versions walked chains that end within the
fuel. -/
theorem emit_versions_ok_chain (fuel : Nat) (n : Nat) :
    ∀ (db : database_t) (rv : Option (List Nat)) (start : Option Nat)
      (r : database_t × Option (List Nat)),
      emit_versions fuel db rv n start = .ok r →
      ∃ L, chain (fun x => (db.versions x).cs_sibling) n start = some L ∧
        ∀ i ∈ L,
          (chain (fun x => (db.versions x).sibling) fuel (db.versions i).children).isSome := by
  induction n with
  | zero =>
    intro db rv start r hr
    cases start with
    | none => exact ⟨[], rfl, fun i hi => by cases hi⟩
    | some v => cases hr
  | succ n ih =>
    intro db rv start r hr
    cases start with
    | none => exact ⟨[], rfl, fun i hi => by cases hi⟩
    | some i =>
      rw [emit_versions_succ] at hr
      obtain ⟨hrm1, -⟩ := remove_step db rv i
      generalize (match rv with
        | some h => ((version_heap_remove db h i).1, some (version_heap_remove db h i).2)
        | none => (db, none)) = r0 at hrm1 hr
      have hg0 : vgraph r0.1 = vgraph db := vgraph_of_strip hrm1
      cases hrel : release_children r0.1 r0.2 fuel (r0.1.versions i).children with
      | error e => rw [hrel] at hr; cases hr
      | ok r2 =>
        rw [hrel] at hr
        have hki := release_children_ok_chain fuel _ _ _ _ hrel
        obtain ⟨Ki, hKi⟩ := Option.isSome_iff_exists.mp hki
        have hg2 := ((release_children_strip fuel r0.1 r0.2 _ Ki hKi).2 r2 hrel).1
        have hg : vgraph r2.1 = vgraph db := hg2.trans hg0
        obtain ⟨L1, hL1, hK1⟩ := ih _ _ _ _ hr
        rw [vgraph_cs_sibling hg i,
          chain_congr _ (fun x => (db.versions x).cs_sibling)
            (fun x => vgraph_cs_sibling hg x)] at hL1
        refine ⟨i :: L1, ?_, ?_⟩
        · rw [chain_succ_some, hL1]; rfl
        · intro j hj
          rcases List.mem_cons.mp hj with rfl | hj
          · rw [← children_chain_vgraph hg0]; exact hki
          · rw [← children_chain_vgraph hg]; exact hK1 j hj

theorem release_changesets_strip (T : List cs_ref) :
    ∀ db : database_t, release_changesets (strip db) T = (release_changesets db T).map strip := by
  induction T with
  | nil => intro db; rfl
  | cons c rest ih =>
    intro db
    rw [release_changesets_cons, release_changesets_cons, changeset_release_strip]
    cases changeset_release db c with
    | error e => rfl
    | ok db1 => exact ih db1

theorem same_graph_of_strip_ok {db r : database_t} {T : List cs_ref}
    (h : release_changesets (strip db) T = .ok (strip r)) : same_graph r db :=
  same_graph_trans (same_graph_symm (same_graph_strip r))
    (same_graph_trans (release_changesets_same_graph T _ _ h) (same_graph_strip db))

theorem cs_versions_chain (fuel : Nat) (db : database_t) (c : cs_ref)
    (h : (chain (fun v => (db.versions v).cs_sibling) fuel (db.cs c).versions).isSome) :
    chain (fun v => (db.versions v).cs_sibling) fuel (db.cs c).versions
      = some (cs_versions fuel db c) := by
  obtain ⟨L, hL⟩ := Option.isSome_iff_exists.mp h
  simp only [cs_versions, hL, Option.getD_some]

/-- Seen through `strip`, `changeset_emitted` is the sequence of releases
`release_targets`; the graph is unchanged, and the ready-versions heap of a
commit has each version removed and then its child versions inserted. -/
theorem changeset_emitted_strip (fuel : Nat) (db : database_t) (rv : Option (List Nat))
    (cs : cs_ref) (hE : (db.cs cs).type = .ct_commit → chains_end fuel db cs) :
    (changeset_emitted fuel db rv cs).map (fun r => strip r.1)
      = release_changesets (strip db) (release_targets fuel db cs) ∧
    ∀ r, changeset_emitted fuel db rv cs = .ok r →
      same_graph r.1 db ∧
      r.2 = if (db.cs cs).type = .ct_commit then
          rv.map (fun hp => (cs_versions fuel db cs).foldl (fun h i =>
            (children_of fuel db i).foldl (heap_insert (fun x => (db.versions x).time))
              (h.erase i)) hp)
        else rv := by
  by_cases ht : (db.cs cs).type = .ct_commit
  · obtain ⟨hc1, hc2⟩ := hE ht
    have hL := cs_versions_chain fuel db cs hc1
    obtain ⟨he1, he2⟩ := emit_versions_strip fuel fuel db rv _ _ hL hc2
    simp only [changeset_emitted, release_targets, if_pos ht, release_changesets_append]
    rw [← he1]
    cases hem : emit_versions fuel db rv fuel (db.cs cs).versions with
    | error e => exact ⟨rfl, fun r hr => by cases hr⟩
    | ok r1 =>
      rw [hem] at he1
      have hsg : same_graph r1.1 db := same_graph_of_strip_ok he1.symm
      have hch : (r1.1.cs cs).children = (db.cs cs).children := cgraph_children hsg.2.1 cs
      constructor
      · show Except.map (fun r => strip r.1)
            (match release_changesets r1.1 (r1.1.cs cs).children with
              | .error e => .error e
              | .ok db2 => .ok (db2, r1.2))
            = release_changesets (strip r1.1) (db.cs cs).children
        rw [hch, release_changesets_strip]
        cases release_changesets r1.1 (db.cs cs).children <;> rfl
      · intro r hr
        have hr1 : (match release_changesets r1.1 (r1.1.cs cs).children with
              | .error e => .error e
              | .ok db2 => .ok (db2, r1.2)) = Except.ok r := hr
        rw [hch] at hr1
        cases hrel : release_changesets r1.1 (db.cs cs).children with
        | error e => rw [hrel] at hr1; cases hr1
        | ok db2 =>
          rw [hrel] at hr1
          injection hr1 with hr1
          subst hr1
          exact ⟨same_graph_trans (release_changesets_same_graph _ _ _ hrel) hsg,
            (he2 r1 hem).2⟩
  · simp only [changeset_emitted, release_targets, if_neg ht, List.nil_append]
    rw [release_changesets_strip]
    cases hrel : release_changesets db (db.cs cs).children with
    | error e => exact ⟨rfl, fun r hr => by cases hr⟩
    | ok db2 =>
      refine ⟨rfl, ?_⟩
      intro r hr
      injection hr with hr
      subst hr
      exact ⟨release_changesets_same_graph _ _ _ hrel, rfl⟩

/-- A returning `changeset_emitted` on a commit walked chains that end within
the fuel. -/
theorem changeset_emitted_ok_chains (fuel : Nat) (db : database_t) (rv : Option (List Nat))
    (cs : cs_ref) (r : database_t × Option (List Nat))
    (h : changeset_emitted fuel db rv cs = .ok r) (ht : (db.cs cs).type = .ct_commit) :
    chains_end fuel db cs := by
  simp only [changeset_emitted, if_pos ht] at h
  cases hem : emit_versions fuel db rv fuel (db.cs cs).versions with
  | error e => rw [hem] at h; cases h
  | ok r1 =>
    obtain ⟨L, hL, hK⟩ := emit_versions_ok_chain fuel fuel _ _ _ _ hem
    have hcv : cs_versions fuel db cs = L := by
      simp only [cs_versions, hL, Option.getD_some]
    refine ⟨by rw [hL]; rfl, ?_⟩
    rw [hcv]
    exact hK

/-! ## Counting releases -/

theorem release_changesets_versions (T : List cs_ref) :
    ∀ (db db' : database_t), release_changesets db T = .ok db' → db'.versions = db.versions := by
  induction T with
  | nil =>
    intro db db' h
    rw [release_changesets_nil] at h
    injection h with h
    subst h
    rfl
  | cons c rest ih =>
    intro db db' h
    rw [release_changesets_cons] at h
    cases hc : changeset_release db c with
    | error e => rw [hc] at h; cases h
    | ok db1 =>
      rw [hc] at h
      rw [ih db1 db' h]
      exact (changeset_release_ok db db1 c hc).2.1

/-- A returning sequence of releases lowers every count by the number of
occurrences in the sequence. -/
theorem release_changesets_count (T : List cs_ref) :
    ∀ (db db' : database_t), release_changesets db T = .ok db' →
      ∀ d, (db'.cs d).unready_count + T.count d = (db.cs d).unready_count := by
  induction T with
  | nil =>
    intro db db' h d
    rw [release_changesets_nil] at h
    injection h with h
    subst h
    simp
  | cons c rest ih =>
    intro db db' h d
    rw [release_changesets_cons] at h
    cases hc : changeset_release db c with
    | error e => rw [hc] at h; cases h
    | ok db1 =>
      rw [hc] at h
      have h1 := ih db1 db' h d
      obtain ⟨h0, -, -, -, -, -, hcs, -⟩ := changeset_release_ok db db1 c hc
      rw [hcs d] at h1
      rw [List.count_cons]
      by_cases hd : d = c
      · subst hd
        rw [if_pos rfl] at h1
        simp only [beq_self_eq_true, if_true]
        have h2 : (db1.cs d).unready_count = (db.cs d).unready_count - 1 := by
          rw [hcs d, if_pos rfl]
        simp only at h1
        omega
      · rw [if_neg hd] at h1
        have : (c == d) = false := by
          simp only [beq_eq_false_iff_ne, ne_eq]
          exact fun h => hd h.symm
        simp only [this]
        simpa using h1

/-- A sequence of releases returns when every count covers its occurrences. -/
theorem release_changesets_total (T : List cs_ref) :
    ∀ (db : database_t), (∀ d ∈ T, T.count d ≤ (db.cs d).unready_count) →
      ∃ db', release_changesets db T = .ok db' := by
  induction T with
  | nil => intro db _; exact ⟨db, rfl⟩
  | cons c rest ih =>
    intro db h
    have hc0 : (db.cs c).unready_count ≠ 0 := by
      have := h c (List.mem_cons_self _ _)
      rw [List.count_cons_self] at this
      omega
    have hc := changeset_release_pos db c hc0
    rw [release_changesets_cons, hc]
    obtain ⟨-, -, -, -, -, -, hcs, -⟩ := changeset_release_ok db _ c hc
    apply ih
    intro d hd
    have hd1 := h d (List.mem_cons_of_mem _ hd)
    rw [List.count_cons] at hd1
    rw [hcs d]
    by_cases hdc : d = c
    · subst hdc
      rw [if_pos rfl]
      simp only [beq_self_eq_true, if_true] at hd1
      show _ ≤ (db.cs d).unready_count - 1
      omega
    · rw [if_neg hdc]
      have : (c == d) = false := by
        simp only [beq_eq_false_iff_ne, ne_eq]
        exact fun h => hdc h.symm
      simp only [this] at hd1
      simpa using hd1

theorem count_release_targets (fuel : Nat) (db : database_t) (cs d : cs_ref) :
    (release_targets fuel db cs).count d = released_by fuel db cs d := by
  simp only [release_targets, released_by, List.count_append]
  congr 1
  split_ifs
  · rw [List.count_eq_countP, List.countP_map]
    apply List.countP_congr
    intro v _
    simp only [Function.comp, beq_iff_eq, decide_eq_true_eq]
  · rfl

/-- C4: a returning `changeset_emitted` has lowered the count of every
changeset `d` by the number of child versions of the versions of `cs` that `d`
owns (counted only when `cs` is a commit) plus the number of occurrences of `d`
in `cs->children`.  For a commit with a ready-versions heap, the heap is the
old one after removing each version of `cs` and inserting its child versions,
in list order.  When `cs` is not a commit, the heap and the version store are
untouched and only the children array is released.  The call returns whenever
the chains end within the fuel and every count covers its releases. -/
theorem changeset_emitted_releases (fuel : Nat) (db : database_t) (rv : Option (List Nat))
    (cs : cs_ref) :
    (∀ r, changeset_emitted fuel db rv cs = .ok r →
      (∀ d, (r.1.cs d).unready_count + released_by fuel db cs d = (db.cs d).unready_count) ∧
      ((db.cs cs).type = .ct_commit → r.2 = rv.map (heap_after_emitted fuel db cs)) ∧
      ((db.cs cs).type ≠ .ct_commit →
        r.2 = rv ∧ r.1.versions = db.versions ∧
        ∀ d, (r.1.cs d).unready_count + (db.cs cs).children.count d
          = (db.cs d).unready_count)) ∧
    (((db.cs cs).type = .ct_commit → chains_end fuel db cs) →
      (∀ d ∈ release_targets fuel db cs,
        released_by fuel db cs d ≤ (db.cs d).unready_count) →
      ∃ r, changeset_emitted fuel db rv cs = .ok r) := by
  constructor
  · intro r hr
    have hE : (db.cs cs).type = .ct_commit → chains_end fuel db cs :=
      fun ht => changeset_emitted_ok_chains fuel db rv cs r hr ht
    obtain ⟨hs1, hs2⟩ := changeset_emitted_strip fuel db rv cs hE
    rw [hr] at hs1
    have hrel : release_changesets (strip db) (release_targets fuel db cs) = .ok (strip r.1) :=
      hs1.symm
    have hcount := release_changesets_count _ _ _ hrel
    have hall : ∀ d, (r.1.cs d).unready_count + released_by fuel db cs d
        = (db.cs d).unready_count := by
      intro d
      have := hcount d
      rw [cs_strip, cs_strip, count_release_targets] at this
      exact this
    refine ⟨hall, ?_, ?_⟩
    · intro ht
      have := (hs2 r hr).2
      rw [if_pos ht] at this
      exact this
    · intro ht
      have h2 := (hs2 r hr).2
      rw [if_neg ht] at h2
      refine ⟨h2, ?_, ?_⟩
      · simp only [changeset_emitted, if_neg ht] at hr
        cases hc : release_changesets db (db.cs cs).children with
        | error e => rw [hc] at hr; cases hr
        | ok db2 =>
          rw [hc] at hr
          injection hr with hr
          subst hr
          exact release_changesets_versions _ _ _ hc
      · intro d
        have := hall d
        simp only [released_by, if_neg ht, Nat.zero_add] at this
        exact this
  · intro hE hcov
    obtain ⟨hs1, -⟩ := changeset_emitted_strip fuel db rv cs hE
    have hcov1 : ∀ d ∈ release_targets fuel db cs,
        (release_targets fuel db cs).count d ≤ ((strip db).cs d).unready_count := by
      intro d hd
      rw [cs_strip, count_release_targets]
      exact hcov d hd
    obtain ⟨db1, hdb1⟩ := release_changesets_total _ _ hcov1
    rw [hdb1] at hs1
    cases hem : changeset_emitted fuel db rv cs with
    | error e => rw [hem] at hs1; cases hs1
    | ok r => exact ⟨r, rfl⟩

/-- Witness for C4: emitting changeset 0 of `emitted_db` with the heap `[0]`
returns; changeset 1 (owner of the child version) drops from 1 to 0, changeset
2 (listed in the children array) from 2 to 1, and the heap holds version 1
instead of version 0. -/
theorem changeset_emitted_releases_witness :
    ∃ r, changeset_emitted 2 emitted_db (some [0]) (.heap 0) = .ok r ∧
      (r.1.cs (.heap 1)).unready_count + 1 = 1 ∧
      (r.1.cs (.heap 2)).unready_count + 1 = 2 ∧
      r.2 = some [1] := by
  have h := changeset_emitted_releases 2 emitted_db (some [0]) (.heap 0)
  obtain ⟨r, hr⟩ := h.2 (fun _ => by decide) (by decide)
  exact ⟨r, hr, (h.1 r hr).1 (.heap 1), (h.1 r hr).1 (.heap 2), (h.1 r hr).2.1 (by decide)⟩

/-! ## The counting loops of `prepare_for_emission` -/

theorem wadd_add (c m : Nat) : ∀ n, wadd (wadd c m) n = wadd c (m + n) := by
  intro n
  induction n with
  | zero => rfl
  | succ n ih =>
    show (wadd (wadd c m) n + 1) % (SIZE_MAX + 1) = (wadd c (m + n) + 1) % (SIZE_MAX + 1)
    rw [ih]

/-- Without overflow the increments add up. -/
theorem wadd_fit (c : Nat) : ∀ n, c + n ≤ SIZE_MAX → wadd c n = c + n := by
  intro n
  induction n with
  | zero => intro _; rfl
  | succ n ih =>
    intro h
    show (wadd c n + 1) % (SIZE_MAX + 1) = c + (n + 1)
    rw [ih (by omega), Nat.mod_eq_of_lt (by omega)]
    rfl

/-- The increments of a `size_t` add up modulo `SIZE_MAX + 1`. -/
theorem wadd_mod (c : Nat) (hc : c ≤ SIZE_MAX) : ∀ n, wadd c n = (c + n) % (SIZE_MAX + 1) := by
  intro n
  induction n with
  | zero =>
    have h : c < SIZE_MAX + 1 := by omega
    exact (Nat.mod_eq_of_lt h).symm
  | succ n ih =>
    show (wadd c n + 1) % (SIZE_MAX + 1) = (c + (n + 1)) % (SIZE_MAX + 1)
    rw [ih, ← Nat.add_assoc, Nat.add_mod (c + n) 1, Nat.add_mod ((c + n) % (SIZE_MAX + 1)) 1,
      Nat.mod_mod]

theorem raised_refl (a : database_t) : raised a a (fun _ => 0) :=
  ⟨rfl, rfl, rfl, rfl, fun _ => rfl⟩

theorem raised_trans {a b c : database_t} {δ1 δ2 : cs_ref → Nat} (h1 : raised a b δ1)
    (h2 : raised b c δ2) : raised a c (fun d => δ1 d + δ2 d) := by
  obtain ⟨a1, a2, a3, a4, a5⟩ := h1
  obtain ⟨b1, b2, b3, b4, b5⟩ := h2
  refine ⟨b1.trans a1, b2.trans a2, b3.trans a3, b4.trans a4, ?_⟩
  intro d
  rw [b5 d, a5 d]
  show ({ a.cs d with unready_count := wadd (wadd (a.cs d).unready_count (δ1 d)) (δ2 d) }
    : changeset_t) = _
  rw [wadd_add]

theorem raised_congr {a b : database_t} {δ1 δ2 : cs_ref → Nat} (h : raised a b δ1)
    (e : ∀ d, δ1 d = δ2 d) : raised a b δ2 := by
  have : δ1 = δ2 := funext e
  rw [← this]; exact h

theorem raised_incr (db : database_t) (i : cs_ref) :
    raised db (db.incr i) (fun d => if d = i then 1 else 0) := by
  refine ⟨set_cs_versions _ _ _, set_cs_files _ _ _, set_cs_changesets _ _ _,
    set_cs_ready_changesets _ _ _, ?_⟩
  intro d
  simp only [database_t.incr]
  rw [cs_set_cs]
  split_ifs with h
  · subst h; rfl
  · rfl

theorem raised_same_graph {a b : database_t} {δ : cs_ref → Nat} (h : raised a b δ) :
    same_graph b a := by
  obtain ⟨h1, h2, h3, -, h5⟩ := h
  refine ⟨vgraph_of_versions h1, ?_, h2, h3⟩
  funext d
  simp only [cgraph]
  rw [h5 d]

theorem raised_wadd {a b : database_t} {δ : cs_ref → Nat} (h : raised a b δ) (d : cs_ref) :
    (b.cs d).unready_count = wadd (a.cs d).unready_count (δ d) := by
  rw [h.2.2.2.2 d]

theorem raised_count {a b : database_t} {δ : cs_ref → Nat} (h : raised a b δ) (d : cs_ref)
    (hfit : (a.cs d).unready_count + δ d ≤ SIZE_MAX) :
    (b.cs d).unready_count = (a.cs d).unready_count + δ d := by
  rw [raised_wadd h d, wadd_fit _ _ hfit]

theorem count_versions_none (i : cs_ref) (db : database_t) (n : Nat) :
    count_versions i db n none = .ok db := by
  cases n <;> rfl

theorem count_versions_succ (i : cs_ref) (db : database_t) (n j : Nat) :
    count_versions i db (n + 1) (some j)
      = count_versions i (db.incr i) n ((db.incr i).versions j).cs_sibling := rfl

/-- The loop over the versions of a commit adds the length of the chain. -/
theorem count_versions_spec (i : cs_ref) (n : Nat) :
    ∀ (db : database_t) (start : Option Nat),
      (∀ L, chain (fun x => (db.versions x).cs_sibling) n start = some L →
        ∃ db', count_versions i db n start = .ok db' ∧
          raised db db' (fun d => if d = i then L.length else 0)) ∧
      (chain (fun x => (db.versions x).cs_sibling) n start = none →
        count_versions i db n start = .error .out_of_fuel) := by
  induction n with
  | zero =>
    intro db start
    cases start with
    | none =>
      constructor
      · intro L hL
        rw [chain_none] at hL
        injection hL with hL
        subst hL
        exact ⟨db, rfl, raised_congr (raised_refl db) (fun d => by simp)⟩
      · intro h; rw [chain_none] at h; cases h
    | some v =>
      constructor
      · intro L hL; rw [chain_zero_some] at hL; cases hL
      · intro _; rfl
  | succ n ih =>
    intro db start
    cases start with
    | none =>
      constructor
      · intro L hL
        rw [chain_none] at hL
        injection hL with hL
        subst hL
        exact ⟨db, rfl, raised_congr (raised_refl db) (fun d => by simp)⟩
      · intro h; rw [chain_none] at h; cases h
    | some j =>
      have hv : (db.incr i).versions = db.versions := set_cs_versions _ _ _
      rw [count_versions_succ, chain_succ_some, hv]
      obtain ⟨ih1, ih2⟩ := ih (db.incr i) ((db.versions j).cs_sibling)
      rw [hv] at ih1 ih2
      constructor
      · intro L hL
        cases hc : chain (fun x => (db.versions x).cs_sibling) n ((db.versions j).cs_sibling) with
        | none => rw [hc] at hL; cases hL
        | some L1 =>
          rw [hc] at hL
          injection hL with hL
          subst hL
          obtain ⟨db', hdb', hr⟩ := ih1 L1 hc
          refine ⟨db', hdb', raised_congr (raised_trans (raised_incr db i) hr) ?_⟩
          intro d
          simp only [List.length_cons]
          split_ifs <;> omega
      · intro hnone
        cases hc : chain (fun x => (db.versions x).cs_sibling) n ((db.versions j).cs_sibling) with
        | none => exact ih2 hc
        | some L1 => rw [hc] at hnone; cases hnone

theorem count_children_spec (T : List cs_ref) :
    ∀ db : database_t, raised db (count_children db T) (fun d => T.count d) := by
  induction T with
  | nil => intro db; exact raised_congr (raised_refl db) (fun d => by simp)
  | cons c rest ih =>
    intro db
    refine raised_congr (raised_trans (raised_incr db c) (ih (db.incr c))) ?_
    intro d
    rw [List.count_cons]
    by_cases h : d = c
    · subst h; simp; omega
    · have : (c == d) = false := by
        simp only [beq_eq_false_iff_ne, ne_eq]
        exact fun e => h e.symm
      simp [h, this]

theorem base_count_same_graph {a b : database_t} (h : same_graph a b) (fuel : Nat)
    (D : List cs_ref) (d : cs_ref) : base_count fuel a D d = base_count fuel b D d := by
  simp only [base_count]
  congr 1
  apply List.map_congr_left
  intro i _
  rw [cgraph_type h.2.1 i, cgraph_children h.2.1 i, cs_versions_same_graph h]

theorem base_count_cons (fuel : Nat) (db : database_t) (i : cs_ref) (D : List cs_ref)
    (d : cs_ref) :
    base_count fuel db (i :: D) d
      = (if (db.cs i).type = .ct_commit ∧ i = d then (cs_versions fuel db i).length else 0)
        + (db.cs i).children.count d + base_count fuel db D d := by
  simp only [base_count, List.map_cons, List.sum_cons]

theorem prepare_counts_cons (fuel : Nat) (db : database_t) (i : cs_ref) (rest : List cs_ref) :
    prepare_counts fuel db (i :: rest) =
      match (if (db.cs i).type = .ct_commit then count_versions i db fuel (db.cs i).versions
        else .ok db) with
      | .error e => .error e
      | .ok db1 => prepare_counts fuel (count_children db1 (db1.cs i).children) rest := rfl

/-- The counting loop of `prepare_for_emission` adds `base_count` to the
counts held before, and returns when the version lists of the commits end
within the fuel. -/
theorem prepare_counts_spec (fuel : Nat) (D : List cs_ref) :
    ∀ db : database_t,
      (∀ db', prepare_counts fuel db D = .ok db' → raised db db' (base_count fuel db D)) ∧
      ((∀ i ∈ D, (db.cs i).type = .ct_commit →
          (chain (fun x => (db.versions x).cs_sibling) fuel (db.cs i).versions).isSome) →
        ∃ db', prepare_counts fuel db D = .ok db') := by
  induction D with
  | nil =>
    intro db
    constructor
    · intro db' h
      injection h with h
      subst h
      exact raised_congr (raised_refl db) (fun d => by simp [base_count])
    · intro _; exact ⟨db, rfl⟩
  | cons i rest ih =>
    intro db
    rw [prepare_counts_cons]
    have key : ∀ db1, raised db db1
        (fun d => if (db.cs i).type = .ct_commit ∧ i = d then (cs_versions fuel db i).length
          else 0) →
        (∀ db', prepare_counts fuel (count_children db1 (db1.cs i).children) rest = .ok db' →
          raised db db' (base_count fuel db (i :: rest))) ∧
        ((∀ j ∈ rest, (db.cs j).type = .ct_commit →
            (chain (fun x => (db.versions x).cs_sibling) fuel (db.cs j).versions).isSome) →
          ∃ db', prepare_counts fuel (count_children db1 (db1.cs i).children) rest
            = .ok db') := by
      intro db1 hr1
      have hg1 : same_graph db1 db := raised_same_graph hr1
      have hr2 := count_children_spec (db1.cs i).children db1
      rw [cgraph_children hg1.2.1 i] at hr2 ⊢
      have hg2 : same_graph (count_children db1 (db.cs i).children) db :=
        same_graph_trans (raised_same_graph hr2) hg1
      obtain ⟨ih1, ih2⟩ := ih (count_children db1 (db.cs i).children)
      constructor
      · intro db' hdb'
        have hr3 := ih1 db' hdb'
        refine raised_congr (raised_trans (raised_trans hr1 hr2) hr3) ?_
        intro d
        rw [base_count_cons, base_count_same_graph hg2]
      · intro hch
        apply ih2
        intro j hj ht
        rw [cgraph_type hg2.2.1 j] at ht
        rw [cgraph_versions hg2.2.1 j,
          chain_congr _ (fun x => (db.versions x).cs_sibling)
            (fun x => vgraph_cs_sibling hg2.1 x)]
        exact hch j hj ht
    by_cases ht : (db.cs i).type = .ct_commit
    · rw [if_pos ht]
      obtain ⟨cv1, cv2⟩ := count_versions_spec i fuel db (db.cs i).versions
      cases hc : chain (fun x => (db.versions x).cs_sibling) fuel (db.cs i).versions with
      | none =>
        rw [cv2 hc]
        constructor
        · intro db' h; cases h
        · intro hch
          have := hch i (List.mem_cons_self _ _) ht
          rw [hc] at this
          cases this
      | some L =>
        obtain ⟨db1, hdb1, hr1⟩ := cv1 L hc
        rw [hdb1]
        have hL : cs_versions fuel db i = L := by
          simp only [cs_versions, hc, Option.getD_some]
        have hr1' : raised db db1 (fun d =>
            if (db.cs i).type = .ct_commit ∧ i = d then (cs_versions fuel db i).length
            else 0) := by
          refine raised_congr hr1 ?_
          intro d
          rw [hL]
          by_cases hd : d = i
          · subst hd; simp [ht]
          · have : ¬ i = d := fun e => hd e.symm
            simp [hd, this]
        obtain ⟨k1, k2⟩ := key db1 hr1'
        exact ⟨k1, fun hch => k2 (fun j hj => hch j (List.mem_cons_of_mem _ hj))⟩
    · rw [if_neg ht]
      have hr1' : raised db db (fun d =>
          if (db.cs i).type = .ct_commit ∧ i = d then (cs_versions fuel db i).length
          else 0) :=
        raised_congr (raised_refl db) (fun d => by simp [ht])
      obtain ⟨k1, k2⟩ := key db hr1'
      exact ⟨k1, fun hch => k2 (fun j hj => hch j (List.mem_cons_of_mem _ hj))⟩

/-! ## The release loops of `prepare_for_emission` -/

theorem release_roots_cons (db : database_t) (rv : Option (List Nat)) (j : Nat)
    (rest : List Nat) :
    release_roots db rv (j :: rest) =
      if (db.versions j).parent.isNone then
        match version_release db rv j with
        | .error e => .error e
        | .ok r => release_roots r.1 r.2 rest
      else release_roots db rv rest := rfl

theorem root_filter_vgraph {a b : database_t} (h : vgraph a = vgraph b) (js : List Nat) :
    (js.filter (fun j => (a.versions j).parent.isNone)).map (fun j => (a.versions j).commit)
      = (js.filter (fun j => (b.versions j).parent.isNone)).map
          (fun j => (b.versions j).commit) := by
  have h1 : (fun j => (a.versions j).parent.isNone) = fun j => (b.versions j).parent.isNone :=
    funext (fun j => by rw [vgraph_parent h j])
  have h2 : (fun j => (a.versions j).commit) = fun j => (b.versions j).commit :=
    funext (fun j => vgraph_commit h j)
  rw [h1, h2]

/-- The loop over the versions of one file releases the owners of its root
versions, in order. -/
theorem release_roots_strip (js : List Nat) :
    ∀ (db : database_t) (rv : Option (List Nat)),
      (release_roots db rv js).map (fun r => strip r.1)
        = release_changesets (strip db)
            ((js.filter (fun j => (db.versions j).parent.isNone)).map
              (fun j => (db.versions j).commit)) ∧
      ∀ r, release_roots db rv js = .ok r → vgraph r.1 = vgraph db := by
  induction js with
  | nil =>
    intro db rv
    refine ⟨rfl, ?_⟩
    intro r hr
    injection hr with hr
    subst hr
    rfl
  | cons j rest ih =>
    intro db rv
    rw [release_roots_cons]
    by_cases hp : (db.versions j).parent.isNone = true
    · rw [if_pos hp]
      have hf : (j :: rest).filter (fun j => (db.versions j).parent.isNone)
          = j :: rest.filter (fun j => (db.versions j).parent.isNone) := by
        rw [List.filter_cons, if_pos hp]
      rw [hf, List.map_cons, release_changesets_cons, ← version_release_strip db rv j]
      cases hv : version_release db rv j with
      | error e => exact ⟨rfl, fun r hr => by cases hr⟩
      | ok r1 =>
        have hg := version_release_vgraph db rv j r1 hv
        obtain ⟨ih1, ih2⟩ := ih r1.1 r1.2
        rw [root_filter_vgraph hg] at ih1
        exact ⟨ih1, fun r hr => (ih2 r hr).trans hg⟩
    · rw [if_neg hp]
      have hf : (j :: rest).filter (fun j => (db.versions j).parent.isNone)
          = rest.filter (fun j => (db.versions j).parent.isNone) := by
        rw [List.filter_cons, if_neg hp]
      rw [hf]
      exact ih db rv

theorem release_files_cons (db : database_t) (rv : Option (List Nat)) (f : file_t)
    (rest : List file_t) :
    release_files db rv (f :: rest) =
      match release_roots db rv f.versions with
      | .error e => .error e
      | .ok r => release_files r.1 r.2 rest := rfl

/-- The loop over the files releases the owners of all root versions. -/
theorem release_files_strip (fs : List file_t) :
    ∀ (db : database_t) (rv : Option (List Nat)),
      (release_files db rv fs).map (fun r => strip r.1)
        = release_changesets (strip db)
            (((fs.flatMap (fun f => f.versions)).filter
              (fun j => (db.versions j).parent.isNone)).map
              (fun j => (db.versions j).commit)) ∧
      ∀ r, release_files db rv fs = .ok r → vgraph r.1 = vgraph db := by
  induction fs with
  | nil =>
    intro db rv
    refine ⟨rfl, ?_⟩
    intro r hr
    injection hr with hr
    subst hr
    rfl
  | cons f rest ih =>
    intro db rv
    rw [release_files_cons]
    obtain ⟨hr1, hr2⟩ := release_roots_strip f.versions db rv
    simp only [List.flatMap_cons, List.filter_append, List.map_append,
      release_changesets_append]
    rw [← hr1]
    cases hv : release_roots db rv f.versions with
    | error e => exact ⟨rfl, fun r hr => by cases hr⟩
    | ok r1 =>
      have hg := hr2 r1 hv
      obtain ⟨ih1, ih2⟩ := ih r1.1 r1.2
      rw [root_filter_vgraph hg] at ih1
      exact ⟨ih1, fun r hr => (ih2 r hr).trans hg⟩

/-- What a returning `prepare_for_emission` did: the counting loop raised the
counts by `base_count`, then the owners of the root versions were released. -/
theorem prepare_for_emission_ok (fuel : Nat) (db : database_t) (rv : Option (List Nat))
    (r : database_t × Option (List Nat)) (h : prepare_for_emission fuel db rv = .ok r) :
    ∃ db1, prepare_counts fuel db db.changesets = .ok db1 ∧
      raised db db1 (base_count fuel db db.changesets) ∧
      release_changesets (strip db1) (root_targets db) = .ok (strip r.1) := by
  simp only [prepare_for_emission] at h
  cases hc : prepare_counts fuel db db.changesets with
  | error e => rw [hc] at h; cases h
  | ok db1 =>
    rw [hc] at h
    have hr := (prepare_counts_spec fuel db.changesets db).1 db1 hc
    refine ⟨db1, rfl, hr, ?_⟩
    have hs := (release_files_strip db1.files db1 rv).1
    have h1 : release_files db1 rv db1.files = .ok r := h
    rw [h1] at hs
    have hg := raised_same_graph hr
    simp only [root_targets, all_versions]
    rw [← hg.2.2.1, ← root_filter_vgraph hg.1]
    exact hs.symm

/-- The counts after a returning `prepare_for_emission`: the count before,
incremented `base_count` times, minus one for every root version owned. -/
theorem prepare_for_emission_wadd (fuel : Nat) (db : database_t) (rv : Option (List Nat))
    (r : database_t × Option (List Nat)) (h : prepare_for_emission fuel db rv = .ok r)
    (d : cs_ref) :
    (r.1.cs d).unready_count + (root_targets db).count d
      = wadd (db.cs d).unready_count (base_count fuel db db.changesets d) := by
  obtain ⟨db1, -, hr, hrel⟩ := prepare_for_emission_ok fuel db rv r h
  have := release_changesets_count _ _ _ hrel d
  rw [cs_strip, cs_strip, raised_wadd hr] at this
  exact this

theorem mem_known_of_mem {db : database_t} {c : cs_ref} (h : c ∈ db.changesets) :
    c ∈ known db :=
  List.mem_append_left _ h

theorem mem_known_of_child {db : database_t} {i c : cs_ref} (hi : i ∈ db.changesets)
    (h : c ∈ (db.cs i).children) : c ∈ known db := by
  apply List.mem_append_right
  rw [List.mem_flatMap]
  exact ⟨i, hi, h⟩

/-- The counting loop adds nothing to a changeset it cannot reach. -/
theorem base_count_not_known (fuel : Nat) (db : database_t) (d : cs_ref) (h : d ∉ known db) :
    base_count fuel db db.changesets d = 0 := by
  simp only [base_count]
  apply List.sum_eq_zero
  intro x hx
  rw [List.mem_map] at hx
  obtain ⟨i, hi, rfl⟩ := hx
  have h1 : i ≠ d := fun e => h (mem_known_of_mem (e ▸ hi))
  have h2 : d ∉ (db.cs i).children := fun hm => h (mem_known_of_child hi hm)
  rw [if_neg (fun hc => h1 hc.2), List.count_eq_zero_of_not_mem h2]
  rfl

/-- The counts after a returning `prepare_for_emission` when no count wraps
around: the count before, plus `base_count`, minus one for every root version
owned. -/
theorem prepare_for_emission_count (fuel : Nat) (db : database_t) (rv : Option (List Nat))
    (r : database_t × Option (List Nat)) (h : prepare_for_emission fuel db rv = .ok r)
    (hfit : counts_fit fuel db) (d : cs_ref) :
    (r.1.cs d).unready_count + (root_targets db).count d
      = (db.cs d).unready_count + base_count fuel db db.changesets d := by
  rw [prepare_for_emission_wadd fuel db rv r h d]
  by_cases hd : d ∈ known db
  · exact wadd_fit _ _ (hfit d hd)
  · rw [base_count_not_known fuel db d hd]
    rfl

theorem prepare_for_emission_same_graph (fuel : Nat) (db : database_t) (rv : Option (List Nat))
    (r : database_t × Option (List Nat)) (h : prepare_for_emission fuel db rv = .ok r) :
    same_graph r.1 db := by
  obtain ⟨db1, -, hr, hrel⟩ := prepare_for_emission_ok fuel db rv r h
  exact same_graph_trans (same_graph_of_strip_ok hrel) (raised_same_graph hr)

theorem root_targets_same_graph {a b : database_t} (h : same_graph a b) :
    root_targets a = root_targets b := by
  simp only [root_targets, all_versions]
  rw [h.2.2.1]
  exact root_filter_vgraph h.1 _

theorem prior_db_same_graph (j k : Nat) : same_graph (prior_db j) (prior_db k) :=
  ⟨rfl, by funext c; cases c <;> rfl, rfl, rfl⟩

/-- C6 fails as stated: `prior_db 0` and `prior_db 3` hold the same graph and
differ only in the count of changeset 0 before the call, and
`prepare_for_emission` leaves them with different counts (0 and 3). -/
theorem prepare_for_emission_reset_counterexample :
    same_graph (prior_db 0) (prior_db 3) ∧
    (prior_db 0).ready_changesets = (prior_db 3).ready_changesets ∧
    ∃ ra rb, prepare_for_emission 1 (prior_db 0) none = .ok ra ∧
      prepare_for_emission 1 (prior_db 3) none = .ok rb ∧
      (ra.1.cs (.heap 0)).unready_count = 0 ∧
      (rb.1.cs (.heap 0)).unready_count = 3 ∧
      (ra.1.cs (.heap 0)).unready_count ≠ (rb.1.cs (.heap 0)).unready_count :=
  ⟨prior_db_same_graph 0 3, rfl, _, _, rfl, rfl, rfl, rfl, by decide⟩

/-- C6, amended: `prepare_for_emission` does not reset the counts, it adds to
them.  After a returning call the count of each changeset is the count held
before (a `size_t`), plus an amount given by the graph alone (`base_count`: its
versions when it is a commit of the changeset array, and its occurrences in
children arrays), taken modulo `SIZE_MAX + 1` because the counter wraps
around, minus the root versions it owns.  So two databases with the same graph
on which the call returns end, for a changeset whose count wraps in neither,
with counts that differ exactly as they did before. -/
theorem prepare_for_emission_adds (fuel : Nat) (db : database_t) (rv : Option (List Nat))
    (r : database_t × Option (List Nat)) (h : prepare_for_emission fuel db rv = .ok r) :
    (∀ d, (db.cs d).unready_count ≤ SIZE_MAX →
      (r.1.cs d).unready_count + (root_targets db).count d
        = ((db.cs d).unready_count + base_count fuel db db.changesets d) % (SIZE_MAX + 1)) ∧
    (∀ db2 rv2 r2, same_graph db2 db → prepare_for_emission fuel db2 rv2 = .ok r2 →
      ∀ d, (db.cs d).unready_count + base_count fuel db db.changesets d ≤ SIZE_MAX →
        (db2.cs d).unready_count + base_count fuel db db.changesets d ≤ SIZE_MAX →
        (r2.1.cs d).unready_count + (db.cs d).unready_count
          = (r.1.cs d).unready_count + (db2.cs d).unready_count) := by
  constructor
  · intro d hd
    rw [prepare_for_emission_wadd fuel db rv r h d, wadd_mod _ hd]
  · intro db2 rv2 r2 hg h2 d hf1 hf2
    have e1 := prepare_for_emission_wadd fuel db rv r h d
    have e2 := prepare_for_emission_wadd fuel db2 rv2 r2 h2 d
    rw [root_targets_same_graph hg, hg.2.2.2, base_count_same_graph hg, wadd_fit _ _ hf2] at e2
    rw [wadd_fit _ _ hf1] at e1
    omega

/-- Witness for the amended C6 on `prior_db 3` and `prior_db 0`, and on
`wrap_db`, where the count `SIZE_MAX` of commit 1 wraps around to zero. -/
theorem prepare_for_emission_adds_witness :
    ∃ r r2 r3, prepare_for_emission 1 (prior_db 3) none = .ok r ∧
      prepare_for_emission 1 (prior_db 0) none = .ok r2 ∧
      prepare_for_emission 2 wrap_db none = .ok r3 ∧
      (r.1.cs (.heap 0)).unready_count + 1 = (3 + 1) % (SIZE_MAX + 1) ∧
      (r2.1.cs (.heap 0)).unready_count + 3 = (r.1.cs (.heap 0)).unready_count + 0 ∧
      (r3.1.cs (.heap 1)).unready_count + 0 = (SIZE_MAX + 1) % (SIZE_MAX + 1) :=
  ⟨_, _, _, rfl, rfl, rfl,
    (prepare_for_emission_adds 1 (prior_db 3) none _ rfl).1 (.heap 0) (by decide),
    (prepare_for_emission_adds 1 (prior_db 3) none _ rfl).2 (prior_db 0) none _
      (prior_db_same_graph 0 3) rfl (.heap 0) (by decide) (by decide),
    (prepare_for_emission_adds 2 wrap_db none _ rfl).1 (.heap 1) (by decide)⟩

/-! ## Counting over lists without duplicates -/

theorem sum_map_indicator {α : Type} [DecidableEq α] (D : List α) (hD : D.Nodup) (y : α)
    (a : Nat) : (D.map (fun d => if y = d then a else 0)).sum = if y ∈ D then a else 0 := by
  induction D with
  | nil => simp
  | cons d rest ih =>
    have hd : d ∉ rest := (List.nodup_cons.mp hD).1
    rw [List.map_cons, List.sum_cons, ih (List.nodup_cons.mp hD).2]
    by_cases h : y = d
    · subst h
      simp [hd]
    · have : ¬ y ∈ rest → ¬ y ∈ d :: rest := fun h1 h2 => by
        rcases List.mem_cons.mp h2 with e | e
        · exact h e
        · exact h1 e
      by_cases hy : y ∈ rest
      · simp [h, hy]
      · simp [h, hy]

theorem sum_map_add_fn {α : Type} (D : List α) (f g : α → Nat) :
    (D.map (fun d => f d + g d)).sum = (D.map f).sum + (D.map g).sum := by
  induction D with
  | nil => rfl
  | cons d rest ih => simp only [List.map_cons, List.sum_cons, ih]; omega

theorem sum_map_zero {α : Type} (D : List α) : (D.map (fun _ => 0)).sum = 0 := by
  induction D with
  | nil => rfl
  | cons d rest ih => simp only [List.map_cons, List.sum_cons, ih]

/-- Splitting a weighted list by the value of `g` over a duplicate-free list
of values counts every entry whose value is listed once. -/
theorem sum_filter_partition {α β : Type} [DecidableEq α] (D : List α) (hD : D.Nodup)
    (g : β → α) (F : β → Nat) (T : List β) :
    (D.map (fun d => ((T.filter (fun x => decide (g x = d))).map F).sum)).sum
      = ((T.filter (fun x => decide (g x ∈ D))).map F).sum := by
  induction T with
  | nil => simp
  | cons x rest ih =>
    have h1 : ∀ d, (((x :: rest).filter (fun x => decide (g x = d))).map F).sum
        = (if g x = d then F x else 0)
          + ((rest.filter (fun x => decide (g x = d))).map F).sum := by
      intro d
      rw [List.filter_cons]
      by_cases h : g x = d
      · simp [h]
      · simp [h]
    rw [List.map_congr_left (fun d _ => h1 d), sum_map_add_fn, ih, sum_map_indicator D hD]
    rw [List.filter_cons]
    by_cases h : g x ∈ D
    · simp [h]
    · simp [h]

theorem countP_eq_sum_filter {β : Type} (p : β → Bool) (T : List β) :
    T.countP p = ((T.filter p).map (fun _ => 1)).sum := by
  rw [List.countP_eq_length_filter]
  induction T.filter p with
  | nil => rfl
  | cons x rest ih => simp only [List.length_cons, List.map_cons, List.sum_cons, ih]; omega

theorem countP_filter_and {β : Type} (p q : β → Bool) (T : List β) :
    (T.filter q).countP p = T.countP (fun x => q x && p x) := by
  induction T with
  | nil => rfl
  | cons x rest ih =>
    rw [List.filter_cons, List.countP_cons]
    by_cases hq : q x = true
    · rw [if_pos hq, List.countP_cons, ih]
      simp [hq]
    · rw [if_neg hq, ih]
      simp [hq]

/-- Counting by the value of `g` over a duplicate-free list of values. -/
theorem sum_countP_partition {α β : Type} [DecidableEq α] (D : List α) (hD : D.Nodup)
    (g : β → α) (p : β → Bool) (T : List β) :
    (D.map (fun d => T.countP (fun x => decide (g x = d) && p x))).sum
      = T.countP (fun x => decide (g x ∈ D) && p x) := by
  have h := sum_filter_partition D hD g (fun x => if p x then 1 else 0) T
  have e : ∀ (q : β → Bool), T.countP (fun x => q x && p x)
      = ((T.filter q).map (fun x => if p x then 1 else 0)).sum := by
    intro q
    rw [← countP_filter_and]
    induction T.filter q with
    | nil => rfl
    | cons x rest ih =>
      rw [List.countP_cons, List.map_cons, List.sum_cons, ih]
      by_cases hp : p x = true
      · simp [hp]; omega
      · simp [hp]
  rw [e, ← h]
  congr 1
  apply List.map_congr_left
  intro d _
  exact e _

theorem countP_split {β : Type} (p q : β → Bool) (T : List β) :
    T.countP p = T.countP (fun x => q x && p x) + T.countP (fun x => !q x && p x) := by
  induction T with
  | nil => rfl
  | cons x rest ih =>
    simp only [List.countP_cons, ih]
    cases q x <;> cases p x <;> simp <;> omega

theorem countP_flatMap_sum {β γ : Type} (p : γ → Bool) (f : β → List γ) (T : List β) :
    (T.flatMap f).countP p = (T.map (fun i => (f i).countP p)).sum := by
  induction T with
  | nil => rfl
  | cons x rest ih =>
    rw [List.flatMap_cons, List.countP_append, ih, List.map_cons, List.sum_cons]

theorem sum_count_subset {α : Type} [DecidableEq α] (D : List α) (hD : D.Nodup) (T : List α)
    (hT : ∀ x ∈ T, x ∈ D) : (D.map (fun d => T.count d)).sum = T.length := by
  have h := sum_countP_partition D hD (fun x : α => x) (fun _ => true) T
  have e1 : ∀ d, T.count d = T.countP (fun x => decide (x = d) && true) := by
    intro d
    rw [List.count_eq_countP]
    apply List.countP_congr
    intro x _
    simp
  rw [List.map_congr_left (fun d _ => e1 d), h]
  rw [List.countP_eq_length]
  intro x hx
  simp [hT x hx]

/-! ## Counting in a well-formed graph -/

theorem sum_map_swap {α β : Type} (D : List α) (E : List β) (f : β → α → Nat) :
    (D.map (fun c => (E.map (fun i => f i c)).sum)).sum
      = (E.map (fun i => (D.map (fun c => f i c)).sum)).sum := by
  induction D with
  | nil => simp only [List.map_nil, List.sum_nil]; exact (sum_map_zero E).symm
  | cons d rest ih =>
    simp only [List.map_cons, List.sum_cons, ih]
    exact (sum_map_add_fn E _ _).symm

theorem wf_mem_cs_versions {fuel : Nat} {db : database_t} (wf : well_formed fuel db)
    {c : cs_ref} (hc : c ∈ db.changesets) (ht : (db.cs c).type = .ct_commit) {i : Nat}
    (hi : i ∈ cs_versions fuel db c) :
    i ∈ all_versions db ∧ (db.versions i).commit = c := by
  have hp := (wf.2.2.2.1 c hc ht).2
  have := (hp.mem_iff).mp hi
  simpa using this

theorem wf_cs_versions_of_mem {fuel : Nat} {db : database_t} (wf : well_formed fuel db)
    {i : Nat} (hi : i ∈ all_versions db) :
    i ∈ cs_versions fuel db (db.versions i).commit := by
  obtain ⟨h1, h2, -⟩ := wf.2.2.1 i hi
  have hp := (wf.2.2.2.1 _ h1 h2).2
  apply (hp.mem_iff).mpr
  simp [hi]

theorem wf_mem_children_of {fuel : Nat} {db : database_t} (wf : well_formed fuel db)
    {i : Nat} (hi : i ∈ all_versions db) (k : Nat) :
    k ∈ children_of fuel db i ↔ k ∈ all_versions db ∧ (db.versions k).parent = some i := by
  have hp := (wf.2.2.2.2 i hi).2
  rw [hp.mem_iff]
  simp

theorem wf_chains_end {fuel : Nat} {db : database_t} (wf : well_formed fuel db)
    {c : cs_ref} (hc : c ∈ db.changesets) (ht : (db.cs c).type = .ct_commit) :
    chains_end fuel db c := by
  refine ⟨(wf.2.2.2.1 c hc ht).1, ?_⟩
  intro i hi
  exact (wf.2.2.2.2 i (wf_mem_cs_versions wf hc ht hi).1).1

/-- The versions a changeset owns are the entries of its version list when it
is a commit of the changeset array; no other changeset owns a version. -/
theorem wf_owned_length {fuel : Nat} {db : database_t} (wf : well_formed fuel db) (c : cs_ref) :
    (if c ∈ db.changesets ∧ (db.cs c).type = .ct_commit then (cs_versions fuel db c).length
      else 0)
      = (all_versions db).countP (fun v => decide ((db.versions v).commit = c)) := by
  by_cases h : c ∈ db.changesets ∧ (db.cs c).type = .ct_commit
  · rw [if_pos h, (wf.2.2.2.1 c h.1 h.2).2.length_eq, List.countP_eq_length_filter]
  · rw [if_neg h]
    symm
    rw [List.countP_eq_zero]
    intro v hv
    simp only [decide_eq_true_eq]
    intro e
    obtain ⟨h1, h2, -⟩ := wf.2.2.1 v hv
    rw [e] at h1 h2
    exact h ⟨h1, h2⟩

theorem wf_children_countP {fuel : Nat} {db : database_t} (wf : well_formed fuel db)
    {i : Nat} (hi : i ∈ all_versions db) (p : Nat → Bool) :
    (children_of fuel db i).countP p
      = (all_versions db).countP (fun k => decide ((db.versions k).parent = some i) && p k) := by
  rw [(wf.2.2.2.2 i hi).2.countP_eq, countP_filter_and]

/-- Over the whole changeset array, the child versions of the versions of the
commits are the versions with a parent. -/
theorem wf_sum_child_versions {fuel : Nat} {db : database_t} (wf : well_formed fuel db)
    (p : Nat → Bool) :
    (db.changesets.map (fun d =>
      if (db.cs d).type = .ct_commit then
        ((cs_versions fuel db d).flatMap (children_of fuel db)).countP p
      else 0)).sum
      = (all_versions db).countP (fun k => (db.versions k).parent.isSome && p k) := by
  have step1 : ∀ d ∈ db.changesets,
      (if (db.cs d).type = .ct_commit then
        ((cs_versions fuel db d).flatMap (children_of fuel db)).countP p
       else 0)
      = (((all_versions db).filter (fun v => decide ((db.versions v).commit = d))).map
          (fun i => (all_versions db).countP
            (fun k => decide ((db.versions k).parent = some i) && p k))).sum := by
    intro d hd
    by_cases ht : (db.cs d).type = .ct_commit
    · rw [if_pos ht, countP_flatMap_sum]
      have e : (cs_versions fuel db d).map (fun i => (children_of fuel db i).countP p)
          = (cs_versions fuel db d).map (fun i => (all_versions db).countP
              (fun k => decide ((db.versions k).parent = some i) && p k)) := by
        apply List.map_congr_left
        intro i hi
        exact wf_children_countP wf (wf_mem_cs_versions wf hd ht hi).1 p
      rw [e]
      exact ((wf.2.2.2.1 d hd ht).2.map _).sum_eq
    · rw [if_neg ht]
      have : (all_versions db).filter (fun v => decide ((db.versions v).commit = d)) = [] := by
        rw [List.filter_eq_nil_iff]
        intro v hv
        simp only [decide_eq_true_eq]
        intro e
        have h2 := (wf.2.2.1 v hv).2.1
        rw [e] at h2
        exact ht h2
      rw [this]
      rfl
  rw [List.map_congr_left step1, sum_filter_partition _ wf.2.1]
  have hall : (all_versions db).filter (fun x => decide ((db.versions x).commit ∈ db.changesets))
      = all_versions db := by
    rw [List.filter_eq_self]
    intro v hv
    simp [(wf.2.2.1 v hv).1]
  rw [hall]
  have hs := sum_countP_partition ((all_versions db).map some)
    (wf.1.map (fun a b h => Option.some.inj h)) (fun k => (db.versions k).parent) p
    (all_versions db)
  rw [List.map_map] at hs
  have e2 : ((fun o => (all_versions db).countP
      (fun x => decide ((db.versions x).parent = o) && p x)) ∘ some)
      = fun i => (all_versions db).countP
          (fun k => decide ((db.versions k).parent = some i) && p k) := rfl
  rw [e2] at hs
  rw [hs]
  apply List.countP_congr
  intro k hk
  have hpar := (wf.2.2.1 k hk).2.2
  cases hp : (db.versions k).parent with
  | none => simp
  | some q =>
    have : q ∈ all_versions db := hpar q (by rw [hp]; rfl)
    simp [this]

theorem base_count_nodup (fuel : Nat) (db : database_t) (D : List cs_ref) (hD : D.Nodup)
    (c : cs_ref) :
    base_count fuel db D c
      = (if c ∈ D ∧ (db.cs c).type = .ct_commit then (cs_versions fuel db c).length else 0)
        + (D.map (fun i => (db.cs i).children.count c)).sum := by
  simp only [base_count]
  rw [sum_map_add_fn]
  congr 1
  have e : ∀ i ∈ D,
      (if (db.cs i).type = .ct_commit ∧ i = c then (cs_versions fuel db i).length else 0)
      = if c = i then
          (if (db.cs c).type = .ct_commit then (cs_versions fuel db c).length else 0)
        else 0 := by
    intro i _
    by_cases h : c = i
    · subst h; simp
    · have : ¬ i = c := fun e => h e.symm
      simp [h, this]
  rw [List.map_congr_left e, sum_map_indicator D hD]
  by_cases h1 : c ∈ D <;> by_cases h2 : (db.cs c).type = .ct_commit <;> simp [h1, h2]

theorem root_targets_count (db : database_t) (c : cs_ref) :
    (root_targets db).count c
      = (all_versions db).countP
          (fun v => (db.versions v).parent.isNone && decide ((db.versions v).commit = c)) := by
  simp only [root_targets]
  rw [List.count_eq_countP, List.countP_map, countP_filter_and]
  apply List.countP_congr
  intro v _
  simp only [Function.comp, Bool.and_eq_true, beq_iff_eq, decide_eq_true_eq]

theorem countP_eq_sum_ite {β : Type} (p : β → Bool) (l : List β) :
    l.countP p = (l.map (fun x => if p x = true then 1 else 0)).sum := by
  induction l with
  | nil => rfl
  | cons x rest ih =>
    rw [List.map_cons, List.sum_cons, List.countP_cons, ih]
    by_cases hx : p x = true
    · simp [hx]; omega
    · simp [hx]

theorem pending_nil (fuel : Nat) (db : database_t) (c : cs_ref) :
    pending fuel db [] c = (db.changesets.map (fun d => released_by fuel db d c)).sum := by
  simp only [pending]
  congr 2
  rw [List.filter_eq_self]
  intro d _
  simp

/-- In a well-formed graph the amount added by the counting loop is the number
of root versions owned plus the releases caused by all changesets. -/
theorem wf_base_count {fuel : Nat} {db : database_t} (wf : well_formed fuel db) (c : cs_ref) :
    base_count fuel db db.changesets c = (root_targets db).count c + pending fuel db [] c := by
  rw [base_count_nodup fuel db _ wf.2.1, wf_owned_length wf, root_targets_count, pending_nil]
  simp only [released_by]
  rw [sum_map_add_fn, wf_sum_child_versions wf]
  rw [countP_split (fun v => decide ((db.versions v).commit = c))
    (fun v => (db.versions v).parent.isNone) (all_versions db)]
  have e : (all_versions db).countP
      (fun x => !(db.versions x).parent.isNone && decide ((db.versions x).commit = c))
      = (all_versions db).countP
      (fun k => (db.versions k).parent.isSome && decide ((db.versions k).commit = c)) := by
    apply List.countP_congr
    intro v _
    cases (db.versions v).parent <;> simp
  rw [e]
  omega

theorem wf_root_targets_mem {fuel : Nat} {db : database_t} (wf : well_formed fuel db)
    {d : cs_ref} (hd : d ∈ root_targets db) : d ∈ db.changesets := by
  simp only [root_targets, List.mem_map, List.mem_filter] at hd
  obtain ⟨v, ⟨hv, -⟩, rfl⟩ := hd
  exact (wf.2.2.1 v hv).1

/-- On a well-formed graph `prepare_for_emission` returns. -/
theorem wf_prepare_returns {fuel : Nat} {db : database_t} (wf : well_formed fuel db)
    (hfit : counts_fit fuel db)
    (rv : Option (List Nat)) : ∃ r, prepare_for_emission fuel db rv = .ok r := by
  obtain ⟨db1, hdb1⟩ := (prepare_counts_spec fuel db.changesets db).2
    (fun i hi ht => (wf.2.2.2.1 i hi ht).1)
  have hr := (prepare_counts_spec fuel db.changesets db).1 db1 hdb1
  have hg := raised_same_graph hr
  have hs := (release_files_strip db1.files db1 rv).1
  have hroots : ((db1.files.flatMap (fun f => f.versions)).filter
      (fun j => (db1.versions j).parent.isNone)).map (fun j => (db1.versions j).commit)
      = root_targets db := by
    simp only [root_targets, all_versions]
    rw [← hg.2.2.1, ← root_filter_vgraph hg.1]
  rw [hroots] at hs
  have hcov : ∀ d ∈ root_targets db,
      (root_targets db).count d ≤ ((strip db1).cs d).unready_count := by
    intro d hd
    rw [cs_strip, raised_count hr d (hfit d (mem_known_of_mem (wf_root_targets_mem wf hd))),
      wf_base_count wf]
    omega
  obtain ⟨db2, hdb2⟩ := release_changesets_total _ _ hcov
  rw [hdb2] at hs
  simp only [prepare_for_emission, hdb1]
  cases hrel : release_files db1 rv db1.files with
  | error e => rw [hrel] at hs; cases hs
  | ok r => exact ⟨r, rfl⟩

/-- C5, amended: take a database that satisfies the data-model invariants, and
any duplicate-free collection `L` of changesets that holds the changeset array
and every entry of the children arrays of its changesets, all with unready
count zero before the call and with no count growing past `SIZE_MAX`.  Then
`prepare_for_emission` returns and the sum of the unready counts over `L`
equals the number of non-root versions in commit changesets plus the number of
entries of the children arrays of the changesets of the changeset array. -/
theorem prepare_for_emission_total (fuel : Nat) (db : database_t) (rv : Option (List Nat))
    (L : List cs_ref) (wf : well_formed fuel db) (hfit : counts_fit fuel db) (hL : L.Nodup)
    (hk : ∀ c ∈ known db, c ∈ L) (h0 : ∀ c ∈ L, (db.cs c).unready_count = 0) :
    ∃ r, prepare_for_emission fuel db rv = .ok r ∧
      total_unready r.1 L = nonroot_versions fuel db + child_edges db := by
  obtain ⟨r, hr⟩ := wf_prepare_returns wf hfit rv
  refine ⟨r, hr, ?_⟩
  have hcount : ∀ c ∈ L,
      (r.1.cs c).unready_count + (root_targets db).count c
        = base_count fuel db db.changesets c := by
    intro c hc
    have := prepare_for_emission_count fuel db rv r hr hfit c
    rw [h0 c hc] at this
    omega
  have hsum : total_unready r.1 L
      + (L.map (fun c => (root_targets db).count c)).sum
      = (L.map (fun c => base_count fuel db db.changesets c)).sum := by
    simp only [total_unready]
    rw [← sum_map_add_fn]
    congr 1
    exact List.map_congr_left hcount
  rw [sum_count_subset _ hL _
    (fun d hd => hk d (mem_known_of_mem (wf_root_targets_mem wf hd)))] at hsum
  have hbase : (L.map (fun c => base_count fuel db db.changesets c)).sum
      = (all_versions db).length + child_edges db := by
    rw [List.map_congr_left (fun c _ => base_count_nodup fuel db _ wf.2.1 c), sum_map_add_fn]
    congr 1
    · rw [List.map_congr_left (fun c _ => wf_owned_length wf c)]
      have h := sum_countP_partition L hL (fun v => (db.versions v).commit)
        (fun _ => true) (all_versions db)
      simp only [Bool.and_true] at h
      rw [h, List.countP_eq_length]
      intro v hv
      simp [hk _ (mem_known_of_mem (wf.2.2.1 v hv).1)]
    · rw [sum_map_swap]
      simp only [child_edges]
      apply congrArg
      apply List.map_congr_left
      intro i hi
      exact sum_count_subset _ hL _ (fun d hd => hk d (mem_known_of_child hi hd))
  have hnon : nonroot_versions fuel db
      = (all_versions db).countP (fun v => (db.versions v).parent.isSome) := by
    simp only [nonroot_versions]
    have e : ∀ c ∈ db.changesets.filter (fun c => decide ((db.cs c).type = .ct_commit)),
        (cs_versions fuel db c).countP (fun v => (db.versions v).parent.isSome)
        = (((all_versions db).filter (fun v => decide ((db.versions v).commit = c))).map
            (fun v => if (db.versions v).parent.isSome then 1 else 0)).sum := by
      intro c hc
      rw [List.mem_filter] at hc
      have ht : (db.cs c).type = .ct_commit := by simpa using hc.2
      rw [(wf.2.2.2.1 c hc.1 ht).2.countP_eq, countP_eq_sum_ite]
    rw [List.map_congr_left e]
    have hnd : (db.changesets.filter (fun c => decide ((db.cs c).type = .ct_commit))).Nodup :=
      wf.2.1.filter _
    rw [sum_filter_partition _ hnd]
    have hall : (all_versions db).filter (fun x => decide ((db.versions x).commit ∈
        db.changesets.filter (fun c => decide ((db.cs c).type = .ct_commit))))
        = all_versions db := by
      rw [List.filter_eq_self]
      intro v hv
      simp [(wf.2.2.1 v hv).1, (wf.2.2.1 v hv).2.1]
    rw [hall, countP_eq_sum_ite]
  have hroot : (root_targets db).length
      = (all_versions db).countP (fun v => (db.versions v).parent.isNone) := by
    simp only [root_targets, List.length_map, List.countP_eq_length_filter]
  have hsplit := countP_split (fun _ => true) (fun v => (db.versions v).parent.isNone)
    (all_versions db)
  simp only [Bool.and_true] at hsplit
  rw [List.countP_eq_length.mpr (fun _ _ => rfl)] at hsplit
  have e : (all_versions db).countP (fun x => !(db.versions x).parent.isNone)
      = (all_versions db).countP (fun v => (db.versions v).parent.isSome) := by
    apply List.countP_congr
    intro v _
    cases (db.versions v).parent <;> simp
  rw [e] at hsplit
  rw [hbase, hroot] at hsum
  rw [hnon]
  omega

/-- Witness for the amended C5: in `leaf_tag_db` the commit has no non-root
version and lists a tag changeset; the counts of the commit and of the tag
changeset sum to 1. -/
theorem prepare_for_emission_total_witness :
    well_formed 1 leaf_tag_db ∧ counts_fit 1 leaf_tag_db ∧
    ∃ r, prepare_for_emission 1 leaf_tag_db none = .ok r ∧
      total_unready r.1 [.heap 0, .of_tag 0] = 0 + 1 :=
  ⟨by decide, by decide,
    prepare_for_emission_total 1 leaf_tag_db none [.heap 0, .of_tag 0] (by decide) (by decide)
      (by decide) (by decide) (by decide)⟩

/-- C5 fails as stated.  `prior_db 3` satisfies the data-model invariants, has
no non-root version and no child edge, and the sum of the unready counts after
`prepare_for_emission` is 3, the count held before the call.  In
`tagparent_db` all counts are zero before the call and the changeset of tag 0
lists commit 0 in its children array: there is one child edge and no non-root
version, and the sum of the counts of both changesets after the call is 0. -/
theorem prepare_for_emission_total_counterexample :
    (well_formed 1 (prior_db 3) ∧
      ∃ r, prepare_for_emission 1 (prior_db 3) none = .ok r ∧
        total_unready r.1 [.heap 0] = 3 ∧
        nonroot_versions 1 (prior_db 3) + child_edges_of (prior_db 3) [.heap 0] = 0) ∧
    (well_formed 1 tagparent_db ∧
      (∀ c ∈ [cs_ref.heap 0, cs_ref.of_tag 0], (tagparent_db.cs c).unready_count = 0) ∧
      ∃ r, prepare_for_emission 1 tagparent_db none = .ok r ∧
        total_unready r.1 [.heap 0, .of_tag 0] = 0 ∧
        nonroot_versions 1 tagparent_db
          + child_edges_of tagparent_db [.heap 0, .of_tag 0] = 1) :=
  ⟨⟨by decide, _, rfl, rfl, rfl⟩, ⟨by decide, by decide, _, rfl, rfl, rfl⟩⟩

/-! ## The scheduler invariant -/

theorem ready_inv_of_strip {D : List cs_ref} {a b : database_t} {E : List cs_ref}
    (h : strip a = strip b) (ha : ready_inv D a E) : ready_inv D b E := by
  obtain ⟨h1, h2, h3⟩ := ha
  rw [strip_ready h] at h1 h2 h3
  refine ⟨h1, h2, ?_⟩
  intro c hc
  rw [← strip_cs h c]
  exact h3 c hc

theorem ready_inv_release {D : List cs_ref} {s s' : database_t} {E : List cs_ref}
    (hi : ready_inv D s E) {c : cs_ref} (hc : c ∈ D) (h : changeset_release s c = .ok s') :
    ready_inv D s' E := by
  obtain ⟨h1, h2, h3⟩ := hi
  obtain ⟨h0, -, -, -, -, -, hcs, hr⟩ := changeset_release_ok s s' c h
  have hnr : c ∉ s.ready_changesets := fun hm => h0 (h3 c (Or.inl hm))
  have hnE : c ∉ E := fun hm => h0 (h3 c (Or.inr hm))
  by_cases h1c : (s.cs c).unready_count = 1
  · rw [if_pos h1c] at hr
    refine ⟨?_, ?_, ?_⟩
    · rw [hr, (heap_insert_perm _ _ _).nodup_iff]
      exact List.nodup_cons.mpr ⟨hnr, h1⟩
    · intro d hd
      rw [hr, mem_heap_insert] at hd
      rcases hd with rfl | hd
      · exact ⟨hc, hnE⟩
      · exact h2 d hd
    · intro d hd
      rw [hcs d]
      by_cases hdc : d = c
      · subst hdc
        rw [if_pos rfl]
        show (s.cs d).unready_count - 1 = 0
        omega
      · rw [if_neg hdc]
        apply h3
        rcases hd with hd | hd
        · rw [hr, mem_heap_insert] at hd
          rcases hd with e | hd
          · exact absurd e hdc
          · exact Or.inl hd
        · exact Or.inr hd
  · rw [if_neg h1c] at hr
    refine ⟨by rw [hr]; exact h1, by rw [hr]; exact h2, ?_⟩
    intro d hd
    rw [hr] at hd
    rw [hcs d]
    by_cases hdc : d = c
    · subst hdc
      rcases hd with hd | hd
      · exact absurd hd hnr
      · exact absurd hd hnE
    · rw [if_neg hdc]
      exact h3 d hd

theorem ready_inv_releases {D : List cs_ref} {E : List cs_ref} (T : List cs_ref) :
    ∀ (s s' : database_t), ready_inv D s E → (∀ c ∈ T, c ∈ D) →
      release_changesets s T = .ok s' → ready_inv D s' E := by
  induction T with
  | nil =>
    intro s s' hi _ h
    injection h with h
    subst h
    exact hi
  | cons c rest ih =>
    intro s s' hi hT h
    rw [release_changesets_cons] at h
    cases hc : changeset_release s c with
    | error e => rw [hc] at h; cases h
    | ok s1 =>
      rw [hc] at h
      exact ih s1 s' (ready_inv_release hi (hT c (List.mem_cons_self _ _)) hc)
        (fun d hd => hT d (List.mem_cons_of_mem _ hd)) h

theorem sum_map_remove {α : Type} [DecidableEq α] (l : List α) (hl : l.Nodup) (e : α)
    (he : e ∈ l) (f : α → Nat) :
    (l.map f).sum = f e + ((l.filter (fun d => decide (d ≠ e))).map f).sum := by
  induction l with
  | nil => cases he
  | cons x rest ih =>
    have hx : x ∉ rest := (List.nodup_cons.mp hl).1
    rw [List.map_cons, List.sum_cons, List.filter_cons]
    by_cases hxe : x = e
    · subst hxe
      have : rest.filter (fun d => decide (d ≠ x)) = rest := by
        rw [List.filter_eq_self]
        intro d hd
        simp only [ne_eq, decide_not, Bool.not_eq_true', decide_eq_false_iff_not]
        rintro rfl
        exact hx hd
      rw [this]
      simp
    · have he' : e ∈ rest := by
        rcases List.mem_cons.mp he with h | h
        · exact absurd h.symm hxe
        · exact h
      rw [ih (List.nodup_cons.mp hl).2 he']
      simp [hxe]
      omega

/-- Emitting `e` moves its releases out of the pending ones. -/
theorem pending_emit (fuel : Nat) (g : database_t) (hD : g.changesets.Nodup)
    (E : List cs_ref) (e : cs_ref) (he : e ∈ g.changesets) (hE : e ∉ E) (c : cs_ref) :
    pending fuel g E c = released_by fuel g e c + pending fuel g (E ++ [e]) c := by
  simp only [pending]
  have hmem : e ∈ g.changesets.filter (fun d => decide (d ∉ E)) := by
    rw [List.mem_filter]
    exact ⟨he, by simpa using hE⟩
  rw [sum_map_remove _ (hD.filter _) e hmem, List.filter_filter]
  congr 3
  apply List.filter_congr
  intro d _
  by_cases h1 : d = e <;> by_cases h2 : d ∈ E <;> simp [h1, h2]

theorem wf_release_targets_mem {fuel : Nat} {g : database_t} (wf : well_formed fuel g)
    {e : cs_ref} (he : e ∈ g.changesets) {d : cs_ref} (hd : d ∈ release_targets fuel g e) :
    d ∈ known g := by
  simp only [release_targets, List.mem_append] at hd
  rcases hd with hd | hd
  · by_cases ht : (g.cs e).type = .ct_commit
    · rw [if_pos ht] at hd
      simp only [List.mem_map, List.mem_flatMap] at hd
      obtain ⟨k, ⟨i, hi, hk⟩, rfl⟩ := hd
      have hiV := (wf_mem_cs_versions wf he ht hi).1
      have hkV := ((wf_mem_children_of wf hiV k).mp hk).1
      exact mem_known_of_mem (wf.2.2.1 k hkV).1
    · rw [if_neg ht] at hd
      cases hd
  · exact mem_known_of_child he hd

theorem sum_map_eq_zero {α : Type} (l : List α) (f : α → Nat) (h : (l.map f).sum = 0) :
    ∀ x ∈ l, f x = 0 := by
  induction l with
  | nil => intro x hx; cases hx
  | cons y rest ih =>
    rw [List.map_cons, List.sum_cons] at h
    intro x hx
    rcases List.mem_cons.mp hx with rfl | hx
    · omega
    · exact ih (by omega) x hx

/-- A changeset with no pending release has all its strict predecessors among
the emitted changesets. -/
theorem predecessors_of_pending_zero {fuel : Nat} {g : database_t} (wf : well_formed fuel g)
    (E : List cs_ref) (e : cs_ref) (h : pending fuel g E e = 0) : predecessors_in g e E := by
  have hz := sum_map_eq_zero _ _ h
  have key : ∀ d ∈ g.changesets, 0 < released_by fuel g d e → d ∈ E := by
    intro d hd hpos
    by_contra hn
    have := hz d (by rw [List.mem_filter]; exact ⟨hd, by simpa using hn⟩)
    omega
  constructor
  · intro v hv hce p hp
    have hpV : p ∈ all_versions g := (wf.2.2.1 v hv).2.2 p (by rw [hp]; rfl)
    obtain ⟨hd, ht, -⟩ := wf.2.2.1 p hpV
    apply key _ hd
    simp only [released_by, if_pos ht]
    apply Nat.lt_of_lt_of_le _ (Nat.le_add_right _ _)
    rw [List.countP_pos_iff]
    refine ⟨v, ?_, by simpa using hce⟩
    rw [List.mem_flatMap]
    exact ⟨p, wf_cs_versions_of_mem wf hpV, (wf_mem_children_of wf hpV v).mpr ⟨hv, hp⟩⟩
  · intro d hd hc
    apply key d hd
    simp only [released_by]
    apply Nat.lt_of_lt_of_le _ (Nat.le_add_left _ _)
    exact List.count_pos_iff.mpr hc

theorem strip_strip (db : database_t) : strip (strip db) = strip db := rfl

/-- The invariant holds after `prepare_for_emission` on a well-formed database
with nothing ready and no count that wraps around. -/
theorem sched_inv_prepare {fuel : Nat} {g : database_t} (wf : well_formed fuel g)
    (hrdy : g.ready_changesets = []) (hfit : counts_fit fuel g)
    (rv : Option (List Nat)) (r : database_t × Option (List Nat))
    (h : prepare_for_emission fuel g rv = .ok r) : sched_inv fuel g r.1 [] := by
  obtain ⟨db1, -, hr, hrel⟩ := prepare_for_emission_ok fuel g rv r h
  refine ⟨prepare_for_emission_same_graph fuel g rv r h, List.nodup_nil,
    fun e he => absurd he (List.not_mem_nil e), ?_, ?_⟩
  · have h1 : ready_inv (known g) (strip db1) [] := by
      refine ⟨?_, ?_, ?_⟩
      · show db1.ready_changesets.Nodup
        rw [hr.2.2.2.1, hrdy]
        exact List.nodup_nil
      · intro c hc
        have hc' : c ∈ db1.ready_changesets := hc
        rw [hr.2.2.2.1, hrdy] at hc'
        cases hc'
      · intro c hc
        rcases hc with hc | hc
        · have hc' : c ∈ db1.ready_changesets := hc
          rw [hr.2.2.2.1, hrdy] at hc'
          cases hc'
        · cases hc
    have h2 := ready_inv_releases _ _ _ h1
      (fun c hc => mem_known_of_mem (wf_root_targets_mem wf hc)) hrel
    exact ready_inv_of_strip (strip_strip r.1) h2
  · intro c
    have := prepare_for_emission_count fuel g rv r h hfit c
    rw [wf_base_count wf] at this
    omega

theorem next_changeset_some (s s1 : database_t) (e : cs_ref)
    (h : next_changeset s = (some e, s1)) :
    s.ready_changesets = e :: s1.ready_changesets ∧
    s1 = { s with ready_changesets := s1.ready_changesets } := by
  simp only [next_changeset, heap_empty, heap_pop] at h
  cases hr : s.ready_changesets with
  | nil => rw [hr] at h; simp at h
  | cons x rest =>
    rw [hr] at h
    simp only [List.isEmpty_cons, Bool.false_eq_true, if_false, List.head?_cons, List.tail_cons,
      Prod.mk.injEq, Option.some.injEq] at h
    obtain ⟨h1, h2⟩ := h
    subst h1
    subst h2
    exact ⟨rfl, rfl⟩

theorem next_changeset_none (s s1 : database_t) (h : next_changeset s = (none, s1)) :
    s.ready_changesets = [] ∧ s1 = s := by
  simp only [next_changeset, heap_empty, heap_pop] at h
  cases hr : s.ready_changesets with
  | nil =>
    rw [hr] at h
    simp only [List.isEmpty_nil, if_true, Prod.mk.injEq, true_and] at h
    exact ⟨rfl, h.symm⟩
  | cons x rest => rw [hr] at h; simp at h

/-- Emitting a changeset whose releases were counted moves them out of the
pending ones. -/
theorem pending_emit_accounted {fuel : Nat} {g : database_t} (hD : g.changesets.Nodup)
    (E : List cs_ref) (e : cs_ref) (ha : accounted fuel g e) (hE : e ∉ E) (c : cs_ref) :
    pending fuel g E c = (release_targets fuel g e).count c + pending fuel g (E ++ [e]) c := by
  by_cases he : e ∈ g.changesets
  · rw [pending_emit fuel g hD E e he hE c, count_release_targets]
  · have hq : release_targets fuel g e = [] := by
      rcases ha with ha | ha
      · exact absurd ha he
      · exact ha.1
    rw [hq, List.count_nil, Nat.zero_add]
    simp only [pending]
    congr 2
    apply List.filter_congr
    intro d hd
    have hde : d ≠ e := fun h => he (h ▸ hd)
    simp [hde]

/-- The changeset popped under the invariant is one the scheduler can reach,
was not emitted before, and has all its strict predecessors emitted. -/
theorem sched_inv_pop {fuel : Nat} {g : database_t} (wf : well_formed fuel g)
    {s s1 : database_t} {E : List cs_ref} (hi : sched_inv fuel g s E) {e : cs_ref}
    (hn : next_changeset s = (some e, s1)) :
    e ∈ known g ∧ e ∉ E ∧ (g.cs e).unready_count = 0 ∧ predecessors_in g e E := by
  obtain ⟨-, -, -, ⟨-, hr2, hr3⟩, hcnt⟩ := hi
  obtain ⟨hrdy, -⟩ := next_changeset_some s s1 e hn
  have heR : e ∈ s.ready_changesets := by rw [hrdy]; exact List.mem_cons_self _ _
  have he0 : (s.cs e).unready_count = 0 := hr3 e (Or.inl heR)
  have hc := hcnt e
  refine ⟨(hr2 e heR).1, (hr2 e heR).2, by omega, ?_⟩
  exact predecessors_of_pending_zero wf E e (by omega)

/-- One iteration of the emission loop under the invariant, for a changeset
whose releases were counted: `changeset_emitted` returns, and the invariant
holds again. -/
theorem sched_inv_step {fuel : Nat} {g : database_t} (wf : well_formed fuel g)
    {s s1 : database_t} {E : List cs_ref} (hi : sched_inv fuel g s E) {e : cs_ref}
    (hn : next_changeset s = (some e, s1)) (ha : accounted fuel g e) (rv : Option (List Nat)) :
    (∃ r, changeset_emitted fuel s1 rv e = .ok r) ∧
    ∀ r, changeset_emitted fuel s1 rv e = .ok r → sched_inv fuel g r.1 (E ++ [e]) := by
  obtain ⟨hg, hEn, hEs, ⟨hr1, hr2, hr3⟩, hcnt⟩ := hi
  obtain ⟨hrdy, hs1⟩ := next_changeset_some s s1 e hn
  have heR : e ∈ s.ready_changesets := by rw [hrdy]; exact List.mem_cons_self _ _
  have heK : e ∈ known g := (hr2 e heR).1
  have heE : e ∉ E := (hr2 e heR).2
  have hcs1 : ∀ c, s1.cs c = s.cs c := by
    intro c; rw [hs1]; exact cs_with_ready s _ c
  have hg1 : same_graph s1 g := by
    refine same_graph_trans ⟨?_, ?_, ?_, ?_⟩ hg
    · rw [hs1]; rfl
    · funext c; simp only [cgraph, hcs1]
    · rw [hs1]
    · rw [hs1]
  rw [hrdy] at hr1 hr2 hr3
  have hri1 : ready_inv (known g) s1 (E ++ [e]) := by
    refine ⟨(List.nodup_cons.mp hr1).2, ?_, ?_⟩
    · intro c hc
      refine ⟨(hr2 c (List.mem_cons_of_mem _ hc)).1, ?_⟩
      intro hm
      rcases List.mem_append.mp hm with hm | hm
      · exact (hr2 c (List.mem_cons_of_mem _ hc)).2 hm
      · rw [List.mem_singleton] at hm
        subst hm
        exact (List.nodup_cons.mp hr1).1 hc
    · intro c hc
      rw [hcs1]
      apply hr3
      rcases hc with hc | hc
      · exact Or.inl (List.mem_cons_of_mem _ hc)
      · rcases List.mem_append.mp hc with hc | hc
        · exact Or.inr hc
        · rw [List.mem_singleton] at hc
          subst hc
          exact Or.inl (List.mem_cons_self _ _)
  have hE1 : (g.cs e).type = .ct_commit → chains_end fuel g e := by
    intro ht
    rcases ha with ha | ha
    · exact wf_chains_end wf ha ht
    · exact ha.2 ht
  have hE : (s1.cs e).type = .ct_commit → chains_end fuel s1 e := by
    intro ht
    rw [cgraph_type hg1.2.1 e] at ht
    exact chains_end_same_graph hg1 fuel e (hE1 ht)
  obtain ⟨hs, -⟩ := changeset_emitted_strip fuel s1 rv e hE
  rw [release_targets_same_graph hg1] at hs
  have hT : ∀ d ∈ release_targets fuel g e, d ∈ known g := by
    intro d hd
    rcases ha with ha | ha
    · exact wf_release_targets_mem wf ha hd
    · rw [ha.1] at hd
      cases hd
  have hcov : ∀ d ∈ release_targets fuel g e,
      (release_targets fuel g e).count d ≤ ((strip s1).cs d).unready_count := by
    intro d _
    rw [cs_strip, hcs1, hcnt d, pending_emit_accounted wf.2.1 E e ha heE d]
    omega
  obtain ⟨db2, hdb2⟩ := release_changesets_total _ _ hcov
  refine ⟨?_, ?_⟩
  · rw [hdb2] at hs
    cases hem : changeset_emitted fuel s1 rv e with
    | error x => rw [hem] at hs; cases hs
    | ok r => exact ⟨r, rfl⟩
  · intro r hr
    rw [hr] at hs
    have hrel : release_changesets (strip s1) (release_targets fuel g e) = .ok (strip r.1) :=
      hs.symm
    refine ⟨same_graph_trans (same_graph_of_strip_ok hrel) hg1, ?_, ?_, ?_, ?_⟩
    · rw [List.nodup_append]
      refine ⟨hEn, List.nodup_singleton e, ?_⟩
      intro x hx hx2
      rw [List.mem_singleton] at hx2
      subst hx2
      exact heE hx
    · intro x hx
      rcases List.mem_append.mp hx with hx | hx
      · exact hEs x hx
      · rw [List.mem_singleton] at hx
        subst hx
        exact heK
    · have h2 := ready_inv_releases _ _ _
        (ready_inv_of_strip (strip_strip s1).symm hri1) hT hrel
      exact ready_inv_of_strip (strip_strip r.1) h2
    · intro c
      have := release_changesets_count _ _ _ hrel c
      rw [cs_strip, cs_strip, hcs1, hcnt c, pending_emit_accounted wf.2.1 E e ha heE c] at this
      omega

theorem dependency_ordered_nil (fuel : Nat) (g : database_t) : dependency_ordered fuel g [] := by
  intro pre c post h
  cases pre <;> cases h

theorem dependency_ordered_append {fuel : Nat} {g : database_t} {E : List cs_ref} {e : cs_ref}
    (h : dependency_ordered fuel g E)
    (he : (∀ x ∈ E, accounted fuel g x) → e ∈ known g ∧ predecessors_in g e E) :
    dependency_ordered fuel g (E ++ [e]) := by
  intro pre c post hsplit
  rcases List.eq_nil_or_concat post with rfl | ⟨post1, x, rfl⟩
  · have hl : ([e] : List cs_ref).length = [c].length := rfl
    obtain ⟨h1, h2⟩ := List.append_inj' hsplit hl
    injection h2 with h2
    subst h1
    subst h2
    exact he
  · rw [List.concat_eq_append] at hsplit
    have hsplit2 : E ++ [e] = (pre ++ c :: post1) ++ [x] := by
      rw [hsplit]; simp
    have hl : ([e] : List cs_ref).length = [x].length := rfl
    obtain ⟨h1, -⟩ := List.append_inj' hsplit2 hl
    exact h pre c post1 h1

theorem emission_loop_succ (fuel n : Nat) (s : emission_state) :
    emission_loop fuel (n + 1) s =
      match next_changeset s.db with
      | (none, db1) => { s with db := db1, stopped := some none }
      | (some c, db1) =>
          match changeset_emitted fuel db1 s.rv c with
          | .error e =>
              { db := db1, rv := s.rv, emitted := s.emitted ++ [c], stopped := some (some e) }
          | .ok r =>
              emission_loop fuel n
                { db := r.1, rv := r.2, emitted := s.emitted ++ [c], stopped := none } := rfl

/-- The emission loop only ever extends the emitted sequence in dependency
order, when the scheduler invariant holds as long as the releases of the
emitted changesets were counted. -/
theorem emission_loop_ordered {fuel : Nat} {g : database_t} (wf : well_formed fuel g)
    (n : Nat) :
    ∀ s : emission_state,
      ((∀ e ∈ s.emitted, accounted fuel g e) → sched_inv fuel g s.db s.emitted) →
      dependency_ordered fuel g s.emitted →
      dependency_ordered fuel g (emission_loop fuel n s).emitted := by
  induction n with
  | zero => intro s _ ho; exact ho
  | succ n ih =>
    intro s hi ho
    rw [emission_loop_succ]
    cases hnc : next_changeset s.db with
    | mk o db1 =>
      cases o with
      | none => exact ho
      | some c =>
        have ho2 : dependency_ordered fuel g (s.emitted ++ [c]) :=
          dependency_ordered_append ho (fun hacc =>
            ⟨(sched_inv_pop wf (hi hacc) hnc).1, (sched_inv_pop wf (hi hacc) hnc).2.2.2⟩)
        show dependency_ordered fuel g
          (match changeset_emitted fuel db1 s.rv c with
            | .error e =>
              ({ db := db1, rv := s.rv, emitted := s.emitted ++ [c],
                 stopped := some (some e) } : emission_state)
            | .ok r =>
              emission_loop fuel n
                { db := r.1, rv := r.2, emitted := s.emitted ++ [c], stopped := none }).emitted
        cases hem : changeset_emitted fuel db1 s.rv c with
        | error x => exact ho2
        | ok r =>
          apply ih _ _ ho2
          intro hacc
          have hE : ∀ e ∈ s.emitted, accounted fuel g e :=
            fun e he => hacc e (List.mem_append_left _ he)
          exact (sched_inv_step wf (hi hE) hnc
            (hacc c (List.mem_append_right _ (List.mem_singleton_self c))) s.rv).2 r hem

theorem dependency_ordered_init {fuel : Nat} {g : database_t} {E : List cs_ref}
    {x : cs_ref} (h : dependency_ordered fuel g (E ++ [x])) : dependency_ordered fuel g E := by
  intro pre c post hsplit
  apply h pre c (post ++ [x])
  rw [hsplit]
  simp

/-- When the releases of every changeset the scheduler can reach were
counted, those of every entry of a dependency-ordered sequence were. -/
theorem dependency_ordered_accounted {fuel : Nat} {g : database_t}
    (hall : ∀ c ∈ known g, accounted fuel g c) (E : List cs_ref) :
    dependency_ordered fuel g E → ∀ e ∈ E, accounted fuel g e := by
  induction E using List.reverseRecOn with
  | nil => intro _ e he; cases he
  | append_singleton E x ih =>
    intro h e he
    have hE := ih (dependency_ordered_init h)
    rcases List.mem_append.mp he with he | he
    · exact hE e he
    · rw [List.mem_singleton] at he
      subst he
      exact hall e (h E e [] rfl hE).1

/-- The emitted sequence of the loop that follows a returning
`prepare_for_emission` is dependency ordered. -/
theorem emission_trace_ordered {fuel : Nat} {db : database_t} (wf : well_formed fuel db)
    (hrdy : db.ready_changesets = []) (hfit : counts_fit fuel db) (rv : Option (List Nat))
    (n : Nat) : dependency_ordered fuel db (emission_trace fuel n db rv) := by
  obtain ⟨r, hr⟩ := wf_prepare_returns wf hfit rv
  have hp : prepared fuel db rv = r := by simp only [prepared, hr]
  have hinv := sched_inv_prepare wf hrdy hfit rv r hr
  have := emission_loop_ordered wf n
    { db := r.1, rv := r.2, emitted := [], stopped := none } (fun _ => hinv)
    (dependency_ordered_nil fuel db)
  simp only [emission_trace, hp]
  exact this

/-- C1 fails as stated.  In `tagparent_db` the changeset of tag 0 lists commit 0
in its children array and is never returned, yet the loop returns commit 0.
In `tag_order_db` the loop returns commit 2 before commit 1, which owns the
parent of the version of commit 2: the tag changeset returned before it is not
an entry of the changeset array, so the release of commit 2 it performs was
never counted.  Both databases satisfy the data-model invariants and have all
counts zero before the preparation. -/
theorem emission_order_counterexample :
    (well_formed 1 tagparent_db ∧ fresh tagparent_db ∧
      (∀ c, (tagparent_db.cs c).unready_count = 0) ∧
      cs_ref.heap 0 ∈ (tagparent_db.cs (.of_tag 0)).children ∧
      ∀ n, 2 ≤ n → emission_trace 1 n tagparent_db none = [.heap 0]) ∧
    (well_formed 3 tag_order_db ∧ fresh tag_order_db ∧
      (∀ c, (tag_order_db.cs c).unready_count = 0) ∧
      emission_trace 3 4 tag_order_db none = [.heap 0, .of_tag 0] ++ .heap 2 :: [.heap 1] ∧
      (tag_order_db.versions 2).commit = .heap 2 ∧
      (tag_order_db.versions 2).parent = some 1 ∧
      (tag_order_db.versions 1).commit ∉ [cs_ref.heap 0, .of_tag 0]) := by
  refine ⟨⟨by decide, by decide, ?_, by decide, ?_⟩, ⟨by decide, by decide, ?_, by decide,
    rfl, rfl, by decide⟩⟩
  · intro c
    cases c <;> rfl
  · intro n hn
    obtain ⟨k, rfl⟩ : ∃ k, n = k + 2 := ⟨n - 2, by omega⟩
    rfl
  · intro c
    cases c with
    | heap i =>
      show (tag_order_db.cs_mem i).unready_count = 0
      simp only [tag_order_db]
      split <;> rfl
    | of_tag t => rfl

/-- C1, amended: for every database that satisfies the data-model invariants,
with every unready count zero and nothing ready before `prepare_for_emission`
and no count growing past `SIZE_MAX`, the preparation returns.  In the sequence
of changesets returned by repeatedly calling `next_changeset` and then
`changeset_emitted`, every changeset returned after changesets whose releases
were counted (entries of the changeset array, and changesets that release
nothing) is an entry of the changeset array or of a children array of one, and
appears only after the changeset owning the parent of each version it owns and
after every changeset of the changeset array that lists it in its children
array.  When the releases of every such changeset are counted this holds for
every changeset of the sequence. -/
theorem emission_order (fuel : Nat) (db : database_t) (rv : Option (List Nat))
    (wf : well_formed fuel db) (fr : fresh db) (hfit : counts_fit fuel db) :
    (∃ r, prepare_for_emission fuel db rv = .ok r) ∧
    (∀ n pre c post, emission_trace fuel n db rv = pre ++ c :: post →
      (∀ e ∈ pre, accounted fuel db e) →
      c ∈ known db ∧
      (∀ v ∈ all_versions db, (db.versions v).commit = c →
        ∀ p, (db.versions v).parent = some p → (db.versions p).commit ∈ pre) ∧
      (∀ d ∈ db.changesets, c ∈ (db.cs d).children → d ∈ pre)) ∧
    ((∀ e ∈ known db, accounted fuel db e) →
      ∀ n pre c post, emission_trace fuel n db rv = pre ++ c :: post →
        (∀ v ∈ all_versions db, (db.versions v).commit = c →
          ∀ p, (db.versions v).parent = some p → (db.versions p).commit ∈ pre) ∧
        (∀ d ∈ db.changesets, c ∈ (db.cs d).children → d ∈ pre)) := by
  refine ⟨wf_prepare_returns wf hfit rv, ?_, ?_⟩
  · intro n pre c post hsplit hacc
    exact emission_trace_ordered wf fr.1 hfit rv n pre c post hsplit hacc
  · intro hall n pre c post hsplit
    have ho := emission_trace_ordered wf fr.1 hfit rv n
    have hacc := dependency_ordered_accounted hall _ ho
    refine (ho pre c post hsplit ?_).2
    intro e he
    apply hacc
    rw [hsplit]
    exact List.mem_append_left _ he

/-- Witness for the amended C1: on `leaf_tag_db` the loop returns commit 0 and
then the tag changeset that commit 0 lists in its children array. -/
theorem emission_order_witness :
    well_formed 1 leaf_tag_db ∧ fresh leaf_tag_db ∧ counts_fit 1 leaf_tag_db ∧
    emission_trace 1 3 leaf_tag_db none = [.heap 0] ++ .of_tag 0 :: [] ∧
    cs_ref.heap 0 ∈ [cs_ref.heap 0] :=
  ⟨by decide, by decide, by decide, by decide,
    ((emission_order 1 leaf_tag_db none (by decide) (by decide) (by decide)).2.1 3 [.heap 0]
      (.of_tag 0) [] (by decide) (by decide)).2.2 (.heap 0) (by decide) (by decide)⟩

/-! ## next_changeset_split -/

theorem heap_empty_iff {α : Type} (h : List α) : heap_empty h = true ↔ h = [] := by
  cases h <;> simp [heap_empty]

/-- C3 fails as stated: in `blocked_db` the ready-versions heap holds version 0
and no changeset is ready, but `next_changeset_split` yields no changeset:
`preceed` finds no blocked version in the commit and aborts (with no fuel at
all the search does not even start). -/
theorem next_changeset_split_counterexample :
    heap_empty ([0] : List Nat) = false ∧
    ∀ fuel, next_changeset_split fuel blocked_db [0]
      = .error (if fuel = 0 then .out_of_fuel else .aborted) := by
  refine ⟨rfl, ?_⟩
  intro fuel
  cases fuel with
  | zero => rfl
  | succ n =>
    have hp : preceed (n + 1) blocked_db 0 = .error .aborted := by
      simp only [preceed, preceed_loop, blocked_db, database_t.cs, SIZE_MAX]
      cases n <;> simp [preceed_loop]
    have e0 : heap_empty ([0] : List Nat) = false := rfl
    have e1 : heap_empty blocked_db.ready_changesets = true := rfl
    have e2 : heap_front ([0] : List Nat) = some 0 := rfl
    have e3 : cycle_find_loop (n + 1) blocked_db (n + 1) 0 0 = .error .aborted := by
      simp only [cycle_find_loop, hp]
    simp only [next_changeset_split, e0, e1, e2, e3, Bool.false_eq_true, if_false, if_true]
    simp

/-- With an empty ready-versions heap `next_changeset_split` returns null,
whatever the ready changesets; with a non-empty ready-versions heap it never
returns null, and when a changeset is ready it returns the front of the ready
heap. -/
theorem next_changeset_split_basic (fuel : Nat) (db : database_t) (rv : List Nat) :
    (rv = [] → next_changeset_split fuel db rv = .ok (none, db)) ∧
    (∀ r, next_changeset_split fuel db rv = .ok r → (r.1 = none ↔ rv = [])) ∧
    (rv ≠ [] → ∀ c rest, db.ready_changesets = c :: rest →
      next_changeset_split fuel db rv = .ok (some c, { db with ready_changesets := rest })) := by
  have hpop : ∀ (db1 : database_t), db1.ready_changesets ≠ [] →
      (heap_pop db1.ready_changesets).1 ≠ none := by
    intro db1 h
    cases hr : db1.ready_changesets with
    | nil => exact absurd hr h
    | cons x rest => simp [heap_pop]
  refine ⟨?_, ?_, ?_⟩
  · intro h
    subst h
    rfl
  · intro r hr
    by_cases hrv : rv = []
    · subst hrv
      have : next_changeset_split fuel db [] = .ok (none, db) := rfl
      rw [this] at hr
      injection hr with hr
      subst hr
      simp
    · have hne : heap_empty rv = false := by
        cases rv with
        | nil => exact absurd rfl hrv
        | cons x xs => rfl
      simp only [next_changeset_split, hne, Bool.false_eq_true, if_false] at hr
      constructor
      · intro hnone
        exfalso
        by_cases hrc : heap_empty db.ready_changesets = true
        · rw [if_pos hrc] at hr
          cases hf : heap_front rv with
          | none => rw [hf] at hr; cases hr
          | some front =>
            rw [hf] at hr
            simp only at hr
            cases h1 : cycle_find_loop fuel db fuel front front with
            | error e => rw [h1] at hr; cases hr
            | ok w0 =>
              rw [h1] at hr
              simp only at hr
              cases h2 : cycle_find fuel db front with
              | error e => rw [h2] at hr; cases hr
              | ok w =>
                rw [h2] at hr
                simp only at hr
                cases h3 : cycle_split fuel db (db.versions w).commit with
                | error e => rw [h3] at hr; cases hr
                | ok r3 =>
                  rw [h3] at hr
                  simp only at hr
                  by_cases h4 : heap_empty r3.2.ready_changesets = true
                  · rw [if_pos h4] at hr; cases hr
                  · rw [if_neg h4] at hr
                    simp only at hr
                    injection hr with hr
                    subst hr
                    apply hpop r3.2 _ hnone
                    intro e
                    exact h4 ((heap_empty_iff _).mpr e)
        · rw [if_neg hrc] at hr
          simp only at hr
          injection hr with hr
          subst hr
          apply hpop db _ hnone
          intro e
          exact hrc ((heap_empty_iff _).mpr e)
      · intro h; exact absurd h hrv
  · intro hrv c rest hc
    have hne : heap_empty rv = false := by
      cases rv with
      | nil => exact absurd rfl hrv
      | cons x xs => rfl
    simp only [next_changeset_split, hne, Bool.false_eq_true, if_false]
    simp only [hc, heap_empty, List.isEmpty_cons, heap_pop, List.head?_cons, List.tail_cons,
      Bool.false_eq_true, if_false]

/-! ## The loop of changeset_update_branch_versions -/

theorem set_branch_versions (db : database_t) (t : Nat) (b : Nat → Option Nat) :
    (db.set_branch t b).versions = db.versions := rfl

theorem set_branch_tag_self (db : database_t) (t : Nat) (b : Nat → Option Nat) :
    ((db.set_branch t b).tags t).branch_versions = some b := by
  simp [database_t.set_branch, upd]

theorem set_branch_set_branch (db : database_t) (t : Nat) (b1 b2 : Nat → Option Nat) :
    (db.set_branch t b1).set_branch t b2 = db.set_branch t b2 := by
  simp only [database_t.set_branch]
  congr 1
  funext x
  simp only [upd]
  split_ifs <;> rfl

theorem set_branch_self (db : database_t) (t : Nat) (b : Nat → Option Nat)
    (h : (db.tags t).branch_versions = some b) : db.set_branch t b = db := by
  have : upd db.tags t { db.tags t with branch_versions := some b } = db.tags := by
    funext x
    simp only [upd]
    split_ifs with hx
    · subst hx
      rw [← h]
    · rfl
  simp only [database_t.set_branch, this]

theorem branch_loop_none (t : Nat) (im : Bool) (db : database_t) (changes n : Nat) :
    branch_loop t im db changes n none = .ok (changes, db) := by
  cases n <;> rfl

theorem branch_loop_succ (t : Nat) (im : Bool) (db : database_t) (changes n i : Nat) :
    branch_loop t im db changes (n + 1) (some i) =
      if im && !(db.versions i).implicit_merge then
        branch_loop t im db changes n (db.versions i).cs_sibling
      else
        match (db.tags t).branch_versions with
        | none => .error .null_deref
        | some branch =>
            if branch (db.versions i).file ≠ (if (db.versions i).dead then none else some i) then
              branch_loop t im
                (db.set_branch t (upd branch (db.versions i).file
                  (if (db.versions i).dead then none else some i))) (changes + 1)
                n (db.versions i).cs_sibling
            else
              branch_loop t im db changes n (db.versions i).cs_sibling := rfl

theorem write_slots_set_branch (db : database_t) (t : Nat) (b0 : Nat → Option Nat)
    (s : (Nat → Option Nat) × Nat) (L : List Nat) :
    write_slots (db.set_branch t b0) s L = write_slots db s L := by
  induction L generalizing s with
  | nil => rfl
  | cons i rest ih =>
    simp only [write_slots, slot_value, set_branch_versions]
    split_ifs <;> exact ih _

/-- With an array to write to, the loop returns when the chain ends, with the
array and the count that `write_slots` gives for the effective versions. -/
theorem branch_loop_some (t : Nat) (im : Bool) (n : Nat) :
    ∀ (db : database_t) (changes : Nat) (start : Option Nat) (L : List Nat)
      (b : Nat → Option Nat),
      (db.tags t).branch_versions = some b →
      chain (fun x => (db.versions x).cs_sibling) n start = some L →
      branch_loop t im db changes n start
        = .ok ((write_slots db (b, changes) (effective_of db im L)).2,
            db.set_branch t (write_slots db (b, changes) (effective_of db im L)).1) := by
  induction n with
  | zero =>
    intro db changes start L b hb hL
    cases start with
    | none =>
      rw [chain_none] at hL
      injection hL with hL
      subst hL
      rw [branch_loop_none]
      simp only [effective_of, List.filter_nil, write_slots]
      rw [set_branch_self db t b hb]
    | some v => rw [chain_zero_some] at hL; cases hL
  | succ n ih =>
    intro db changes start L b hb hL
    cases start with
    | none =>
      rw [chain_none] at hL
      injection hL with hL
      subst hL
      rw [branch_loop_none]
      simp only [effective_of, List.filter_nil, write_slots]
      rw [set_branch_self db t b hb]
    | some i =>
      rw [chain_succ_some] at hL
      cases hc : chain (fun x => (db.versions x).cs_sibling) n ((db.versions i).cs_sibling) with
      | none => rw [hc] at hL; cases hL
      | some L1 =>
        rw [hc] at hL
        injection hL with hL
        subst hL
        rw [branch_loop_succ]
        by_cases hskip : (im && !(db.versions i).implicit_merge) = true
        · rw [if_pos hskip]
          have : effective_of db im (i :: L1) = effective_of db im L1 := by
            simp only [effective_of, List.filter_cons, hskip, Bool.not_true, Bool.false_eq_true,
              if_false]
          rw [this]
          exact ih db changes _ L1 b hb hc
        · rw [if_neg hskip, hb]
          have he : effective_of db im (i :: L1) = i :: effective_of db im L1 := by
            simp only [effective_of, List.filter_cons]
            simp [hskip]
          rw [he]
          simp only [write_slots, slot_value]
          by_cases hw : b (db.versions i).file ≠ (if (db.versions i).dead then none else some i)
          · rw [if_pos hw, if_pos hw]
            have := ih (db.set_branch t (upd b (db.versions i).file
              (if (db.versions i).dead then none else some i))) (changes + 1)
              ((db.versions i).cs_sibling) L1 _ (set_branch_tag_self _ _ _) hc
            rw [this, set_branch_set_branch, write_slots_set_branch]
            rfl
          · rw [if_neg hw, if_neg hw]
            exact ih db changes _ L1 b hb hc

/-- Without an array the loop returns only when it has nothing to write. -/
theorem branch_loop_no_array (t : Nat) (im : Bool) (n : Nat) :
    ∀ (db : database_t) (changes : Nat) (start : Option Nat) (L : List Nat),
      (db.tags t).branch_versions = none →
      chain (fun x => (db.versions x).cs_sibling) n start = some L →
      branch_loop t im db changes n start
        = if effective_of db im L = [] then .ok (changes, db) else .error .null_deref := by
  induction n with
  | zero =>
    intro db changes start L hb hL
    cases start with
    | none =>
      rw [chain_none] at hL
      injection hL with hL
      subst hL
      rfl
    | some v => rw [chain_zero_some] at hL; cases hL
  | succ n ih =>
    intro db changes start L hb hL
    cases start with
    | none =>
      rw [chain_none] at hL
      injection hL with hL
      subst hL
      rfl
    | some i =>
      rw [chain_succ_some] at hL
      cases hc : chain (fun x => (db.versions x).cs_sibling) n ((db.versions i).cs_sibling) with
      | none => rw [hc] at hL; cases hL
      | some L1 =>
        rw [hc] at hL
        injection hL with hL
        subst hL
        rw [branch_loop_succ]
        by_cases hskip : (im && !(db.versions i).implicit_merge) = true
        · rw [if_pos hskip]
          have : effective_of db im (i :: L1) = effective_of db im L1 := by
            simp only [effective_of, List.filter_cons, hskip, Bool.not_true, Bool.false_eq_true,
              if_false]
          rw [this]
          exact ih db changes _ L1 hb hc
        · rw [if_neg hskip, hb]
          have he : effective_of db im (i :: L1) = i :: effective_of db im L1 := by
            simp only [effective_of, List.filter_cons]
            simp [hskip]
          rw [he]
          simp

/-- A returning loop walked a chain that ends within the fuel. -/
theorem branch_loop_ok_chain (t : Nat) (im : Bool) (n : Nat) :
    ∀ (db : database_t) (changes : Nat) (start : Option Nat) (r : Nat × database_t),
      branch_loop t im db changes n start = .ok r →
      (chain (fun x => (db.versions x).cs_sibling) n start).isSome := by
  induction n with
  | zero =>
    intro db changes start r h
    cases start with
    | none => rfl
    | some v => cases h
  | succ n ih =>
    intro db changes start r h
    cases start with
    | none => rfl
    | some i =>
      rw [branch_loop_succ] at h
      rw [chain_succ_some]
      have key : (chain (fun x => (db.versions x).cs_sibling) n
          ((db.versions i).cs_sibling)).isSome := by
        by_cases hskip : (im && !(db.versions i).implicit_merge) = true
        · rw [if_pos hskip] at h
          exact ih _ _ _ _ h
        · rw [if_neg hskip] at h
          cases hb : (db.tags t).branch_versions with
          | none => rw [hb] at h; cases h
          | some b =>
            rw [hb] at h
            simp only at h
            split_ifs at h <;>
            · have := ih _ _ _ _ h
              exact this
      obtain ⟨L, hL⟩ := Option.isSome_iff_exists.mp key
      rw [hL]
      rfl

/-! ## What the writes leave in the array -/

theorem write_slots_cons (db : database_t) (s : (Nat → Option Nat) × Nat) (i : Nat)
    (rest : List Nat) :
    write_slots db s (i :: rest) =
      if s.1 (db.versions i).file ≠ slot_value db i then
        write_slots db (upd s.1 (db.versions i).file (slot_value db i), s.2 + 1) rest
      else write_slots db s rest := rfl

/-- Writing values that are already there changes nothing. -/
theorem write_slots_noop (db : database_t) (L : List Nat) (b : Nat → Option Nat) (c : Nat)
    (h : ∀ i ∈ L, b (db.versions i).file = slot_value db i) :
    write_slots db (b, c) L = (b, c) := by
  induction L with
  | nil => rfl
  | cons i rest ih =>
    rw [write_slots_cons]
    have hi := h i (List.mem_cons_self _ _)
    rw [if_neg (by simpa using hi)]
    exact ih (fun j hj => h j (List.mem_cons_of_mem _ hj))

/-- A slot of a file without a version in the list keeps its content. -/
theorem write_slots_frame (db : database_t) (L : List Nat) :
    ∀ (s : (Nat → Option Nat) × Nat) (f : Nat),
      f ∉ L.map (fun i => (db.versions i).file) → (write_slots db s L).1 f = s.1 f := by
  induction L with
  | nil => intro s f _; rfl
  | cons i rest ih =>
    intro s f hf
    rw [List.map_cons, List.mem_cons, not_or] at hf
    rw [write_slots_cons]
    split_ifs
    · rw [ih _ f hf.2]
      simp only [upd, if_neg hf.1]
    · exact ih s f hf.2

/-- With pairwise distinct files every version of the list ends up in its
slot. -/
theorem write_slots_value (db : database_t) (L : List Nat) :
    ∀ (s : (Nat → Option Nat) × Nat), (L.map (fun i => (db.versions i).file)).Nodup →
      ∀ i ∈ L, (write_slots db s L).1 (db.versions i).file = slot_value db i := by
  induction L with
  | nil => intro s _ i hi; cases hi
  | cons j rest ih =>
    intro s hnd i hi
    rw [List.map_cons, List.nodup_cons] at hnd
    rw [write_slots_cons]
    rcases List.mem_cons.mp hi with rfl | hi
    · split_ifs with hw
      · rw [write_slots_frame db rest _ _ hnd.1]
        simp only [upd, if_true]
      · rw [write_slots_frame db rest _ _ hnd.1]
        simpa using hw
    · split_ifs
      · exact ih _ hnd.2 i hi
      · exact ih _ hnd.2 i hi

/-- With pairwise distinct files the count grows by the number of versions
whose slot held something else. -/
theorem write_slots_count (db : database_t) (L : List Nat) :
    ∀ (s : (Nat → Option Nat) × Nat), (L.map (fun i => (db.versions i).file)).Nodup →
      (write_slots db s L).2
        = s.2 + L.countP (fun i => decide (s.1 (db.versions i).file ≠ slot_value db i)) := by
  induction L with
  | nil => intro s _; rfl
  | cons j rest ih =>
    intro s hnd
    rw [List.map_cons, List.nodup_cons] at hnd
    rw [write_slots_cons, List.countP_cons]
    by_cases hw : s.1 (db.versions j).file ≠ slot_value db j
    · rw [if_pos hw, ih _ hnd.2]
      have e : rest.countP (fun i => decide (upd s.1 (db.versions j).file (slot_value db j)
            (db.versions i).file ≠ slot_value db i))
          = rest.countP (fun i => decide (s.1 (db.versions i).file ≠ slot_value db i)) := by
        apply List.countP_congr
        intro i hi
        have hne : (db.versions i).file ≠ (db.versions j).file := by
          intro e
          apply hnd.1
          rw [← e]
          exact List.mem_map_of_mem _ hi
        simp only [upd, if_neg hne]
      simp only [e, decide_eq_true hw, if_true]
      omega
    · rw [if_neg hw, ih _ hnd.2]
      simp only [decide_eq_false hw, Bool.false_eq_true, if_false, Nat.add_zero]

theorem countP_range_eq (N d : Nat) (hd : d < N) (q : Nat → Bool) :
    (List.range N).countP (fun f => decide (f = d) && q f) = if q d = true then 1 else 0 := by
  induction N with
  | zero => omega
  | succ N ih =>
    rw [List.range_succ, List.countP_append]
    by_cases h : d < N
    · rw [ih h]
      have : ¬ N = d := by omega
      simp [this]
    · have hdN : d = N := by omega
      subst hdN
      have : (List.range d).countP (fun f => decide (f = d) && q f) = 0 := by
        rw [List.countP_eq_zero]
        intro f hf
        have := List.mem_range.mp hf
        have : ¬ f = d := by omega
        simp [this]
      rw [this]
      by_cases hq : q d = true
      · simp [hq]
      · simp [hq]

/-- With pairwise distinct files below `N`, the slots below `N` whose content
differs after the writes are as many as the versions whose slot held something
else. -/
theorem write_slots_changed (db : database_t) (L : List Nat) (s : (Nat → Option Nat) × Nat)
    (hnd : (L.map (fun i => (db.versions i).file)).Nodup) (N : Nat)
    (hN : ∀ i ∈ L, (db.versions i).file < N) :
    (List.range N).countP (fun f => decide ((write_slots db s L).1 f ≠ s.1 f))
      = L.countP (fun i => decide (s.1 (db.versions i).file ≠ slot_value db i)) := by
  have h := sum_countP_partition (L.map (fun i => (db.versions i).file)) hnd (fun f : Nat => f)
    (fun f => decide ((write_slots db s L).1 f ≠ s.1 f)) (List.range N)
  have hr : (List.range N).countP (fun f => decide (f ∈ L.map (fun i => (db.versions i).file))
        && decide ((write_slots db s L).1 f ≠ s.1 f))
      = (List.range N).countP (fun f => decide ((write_slots db s L).1 f ≠ s.1 f)) := by
    apply List.countP_congr
    intro f _
    by_cases hf : f ∈ L.map (fun i => (db.versions i).file)
    · simp [hf]
    · have := write_slots_frame db L s f hf
      simp [hf, this]
  rw [← hr, ← h, List.map_map, countP_eq_sum_ite]
  congr 1
  apply List.map_congr_left
  intro i hi
  simp only [Function.comp]
  rw [countP_range_eq N _ (hN i hi), write_slots_value db L s hnd i hi]
  by_cases hw : s.1 (db.versions i).file = slot_value db i
  · simp [hw]
  · have : ¬ slot_value db i = s.1 (db.versions i).file := fun e => hw e.symm
    simp [hw, this]

/-! ## changeset_update_branch_versions -/

theorem cs_set_branch (db : database_t) (t : Nat) (b : Nat → Option Nat) (c : cs_ref) :
    (db.set_branch t b).cs c = db.cs c := by
  cases c with
  | heap n => rfl
  | of_tag u =>
    simp only [database_t.cs, database_t.set_branch, upd]
    split_ifs with h
    · subst h; rfl
    · rfl

theorem set_branch_tags_ne (db : database_t) (t : Nat) (b : Nat → Option Nat) (u : Nat)
    (h : u ≠ t) : (db.set_branch t b).tags u = db.tags u := by
  simp only [database_t.set_branch, upd, if_neg h]

theorem set_branch_tag_name (db : database_t) (t : Nat) (b : Nat → Option Nat) (u : Nat) :
    ((db.set_branch t b).tags u).tag = (db.tags u).tag := by
  simp only [database_t.set_branch, upd]
  split_ifs with h
  · subst h; rfl
  · rfl

theorem slot_set_branch (db : database_t) (t : Nat) (b : Nat → Option Nat) (f : Nat) :
    slot (db.set_branch t b) t f = b f := by
  simp only [slot, set_branch_tag_self]

theorem effective_of_false (db : database_t) (L : List Nat) : effective_of db false L = L := by
  simp only [effective_of, Bool.false_and, Bool.not_false, List.filter_true]

theorem chain_some_ne_nil (next : Nat → Option Nat) (n v : Nat) (L : List Nat)
    (h : chain next n (some v) = some L) : L ≠ [] := by
  cases n with
  | zero => cases h
  | succ n =>
    rw [chain_succ_some] at h
    cases hc : chain next n (next v) with
    | none => rw [hc] at h; cases h
    | some L1 =>
      rw [hc] at h
      injection h with h
      subst h
      exact List.cons_ne_nil _ _

/-- A returning `changeset_update_branch_versions` with a target tag found an
array there and left it as `write_slots` gives for the effective versions. -/
theorem update_branch_versions_ok (fuel : Nat) (db : database_t) (cs : cs_ref) (k : Nat)
    (db' : database_t) (h : changeset_update_branch_versions fuel db cs = .ok (k, db'))
    (t : Nat) (ht : target_tag db cs = some t) :
    ∃ b, (db.tags t).branch_versions = some b ∧
      k = (write_slots db (b, 0) (effective_versions fuel db cs)).2 ∧
      db' = db.set_branch t (write_slots db (b, 0) (effective_versions fuel db cs)).1 := by
  by_cases him : (db.cs cs).type = .ct_implicit_merge
  · simp only [target_tag, if_pos him, Option.some.injEq] at ht
    subst ht
    simp only [changeset_update_branch_versions, if_pos him] at h
    split_ifs at h with h1 h2
    cases hp : (db.cs cs).parent with
    | none => rw [hp] at h; cases h
    | some p =>
      rw [hp] at h
      simp only at h
      obtain ⟨b, hb⟩ : ∃ b, (db.tags 0).branch_versions = some b := by
        cases hbv : (db.tags 0).branch_versions with
        | none => rw [hbv] at h2; exact absurd rfl h2
        | some b => exact ⟨b, rfl⟩
      have hch := branch_loop_ok_chain 0 true fuel db 0 _ _ h
      have hL := cs_versions_chain fuel db p hch
      rw [branch_loop_some 0 true fuel db 0 _ _ b hb hL] at h
      injection h with h
      injection h with hk hdb
      refine ⟨b, hb, ?_, ?_⟩
      · simp only [effective_versions, if_pos him, hp]; exact hk.symm
      · simp only [effective_versions, if_pos him, hp]; exact hdb.symm
  · simp only [target_tag, if_neg him] at ht
    simp only [changeset_update_branch_versions, if_neg him] at h
    cases hv : (db.cs cs).versions with
    | none => rw [hv] at h; cases h
    | some v0 =>
      rw [hv] at h ht
      simp only at h ht
      rw [ht] at h
      simp only at h
      have hch := branch_loop_ok_chain t false fuel db 0 _ _ h
      rw [← hv] at hch
      have hL := cs_versions_chain fuel db cs hch
      have heff : effective_versions fuel db cs = cs_versions fuel db cs := by
        simp only [effective_versions, if_neg him]
      cases hb : (db.tags t).branch_versions with
      | none =>
        rw [← hv, branch_loop_no_array t false fuel db 0 _ _ hb hL, effective_of_false] at h
        rw [hv] at hL
        rw [if_neg (chain_some_ne_nil _ _ _ _ hL)] at h
        cases h
      | some b =>
        rw [← hv, branch_loop_some t false fuel db 0 _ _ b hb hL, effective_of_false] at h
        injection h with h
        injection h with hk hdb
        exact ⟨b, rfl, by rw [heff]; exact hk.symm, by rw [heff]; exact hdb.symm⟩

/-- A returning `changeset_update_branch_versions` without a target tag is the
no-op on an anonymous branch. -/
theorem update_branch_versions_anonymous (fuel : Nat) (db : database_t) (cs : cs_ref) (k : Nat)
    (db' : database_t) (h : changeset_update_branch_versions fuel db cs = .ok (k, db'))
    (ht : target_tag db cs = none) : k = 0 ∧ db' = db := by
  by_cases him : (db.cs cs).type = .ct_implicit_merge
  · simp only [target_tag, if_pos him] at ht
    cases ht
  · simp only [target_tag, if_neg him] at ht
    simp only [changeset_update_branch_versions, if_neg him] at h
    cases hv : (db.cs cs).versions with
    | none => rw [hv] at h; cases h
    | some v0 =>
      rw [hv] at h ht
      simp only at h ht
      rw [ht] at h
      simp only at h
      injection h with h
      injection h with hk hdb
      exact ⟨hk.symm, hdb.symm⟩

/-- The call only reads the graph, the tag names and the target array, so it
takes the same path on the database it returned. -/
theorem update_branch_versions_again (fuel : Nat) (db : database_t) (cs : cs_ref) (k : Nat)
    (db' : database_t) (h : changeset_update_branch_versions fuel db cs = .ok (k, db'))
    (t : Nat) (ht : target_tag db cs = some t) (b' : Nat → Option Nat) :
    changeset_update_branch_versions fuel (db.set_branch t b') cs
      = .ok ((write_slots db (b', 0) (effective_versions fuel db cs)).2,
          db.set_branch t (write_slots db (b', 0) (effective_versions fuel db cs)).1) := by
  by_cases him : (db.cs cs).type = .ct_implicit_merge
  · simp only [target_tag, if_pos him, Option.some.injEq] at ht
    subst ht
    simp only [changeset_update_branch_versions, if_pos him] at h
    split_ifs at h with h1 h2
    cases hp : (db.cs cs).parent with
    | none => rw [hp] at h; cases h
    | some p =>
      rw [hp] at h
      simp only at h
      have hch := branch_loop_ok_chain 0 true fuel db 0 _ _ h
      have hL := cs_versions_chain fuel db p hch
      simp only [changeset_update_branch_versions, cs_set_branch, if_pos him, set_branch_tag_name,
        set_branch_tag_self, hp]
      rw [if_neg h1]
      simp only [Option.isNone_some, Bool.false_eq_true, if_false]
      have hL' : chain (fun x => ((db.set_branch 0 b').versions x).cs_sibling) fuel
          (db.cs p).versions = some (cs_versions fuel db p) := hL
      rw [branch_loop_some 0 true fuel (db.set_branch 0 b') 0 _ _ b'
        (set_branch_tag_self _ _ _) hL', set_branch_set_branch, write_slots_set_branch]
      simp only [effective_versions, if_pos him, hp]
      rfl
  · simp only [target_tag, if_neg him] at ht
    simp only [changeset_update_branch_versions, if_neg him] at h
    cases hv : (db.cs cs).versions with
    | none => rw [hv] at h; cases h
    | some v0 =>
      rw [hv] at h ht
      simp only at h ht
      rw [ht] at h
      simp only at h
      have hch := branch_loop_ok_chain t false fuel db 0 _ _ h
      rw [← hv] at hch
      have hL := cs_versions_chain fuel db cs hch
      simp only [changeset_update_branch_versions, cs_set_branch, if_neg him, hv,
        set_branch_versions, ht]
      have hL' : chain (fun x => ((db.set_branch t b').versions x).cs_sibling) fuel
          (some v0) = some (cs_versions fuel db cs) := by rw [← hv]; exact hL
      rw [branch_loop_some t false fuel (db.set_branch t b') 0 _ _ b'
        (set_branch_tag_self _ _ _) hL', set_branch_set_branch, write_slots_set_branch,
        effective_of_false]
      simp only [effective_versions, if_neg him]

/-- C7 fails as stated: changeset 0 of `same_file_db` has two live versions of
the same file; the first call writes the slot twice and returns 2, and the
second call, run on the database the first one left, again writes twice and
returns 2. -/
theorem update_branch_versions_idempotent_counterexample :
    ∃ db1 db2, changeset_update_branch_versions 2 same_file_db (.heap 0) = .ok (2, db1) ∧
      changeset_update_branch_versions 2 db1 (.heap 0) = .ok (2, db2) ∧
      slot db1 0 0 = some 1 ∧ (2 : Nat) ≠ 0 :=
  ⟨_, _, rfl, rfl, rfl, by decide⟩

/-- C7, amended: for a changeset whose effective versions lie on pairwise
distinct files, calling `changeset_update_branch_versions` twice in a row, the
second call returns 0 and leaves the database, and with it every
`branch_versions` array, unchanged. -/
theorem update_branch_versions_idempotent (fuel : Nat) (db : database_t) (cs : cs_ref) (k : Nat)
    (db' : database_t) (h : changeset_update_branch_versions fuel db cs = .ok (k, db'))
    (hnd : ((effective_versions fuel db cs).map (fun i => (db.versions i).file)).Nodup) :
    changeset_update_branch_versions fuel db' cs = .ok (0, db') := by
  cases ht : target_tag db cs with
  | none =>
    obtain ⟨hk, hdb⟩ := update_branch_versions_anonymous fuel db cs k db' h ht
    subst hk
    subst hdb
    exact h
  | some t =>
    obtain ⟨b, hb, hk, hdb⟩ := update_branch_versions_ok fuel db cs k db' h t ht
    rw [hdb, update_branch_versions_again fuel db cs k db' h t ht]
    have hno := write_slots_noop db (effective_versions fuel db cs)
      (write_slots db (b, 0) (effective_versions fuel db cs)).1 0
      (fun i hi => write_slots_value db _ _ hnd i hi)
    rw [hno]

/-- Witness for the amended C7 on `branch_db`. -/
theorem update_branch_versions_idempotent_witness :
    ∃ db1, changeset_update_branch_versions 2 branch_db (.heap 0) = .ok (2, db1) ∧
      changeset_update_branch_versions 2 db1 (.heap 0) = .ok (0, db1) :=
  ⟨_, rfl, update_branch_versions_idempotent 2 branch_db (.heap 0) 2 _ rfl (by decide)⟩

/-- C9: `changeset_update_branch_versions` on a changeset that is not an
implicit merge and whose first version has no branch returns 0 and changes
nothing.  A returning call with a target tag, for effective versions on
pairwise distinct files, leaves in the slot of the file of each effective
version null if the version is dead and the version otherwise, leaves every
other slot and every other tag unchanged, and returns the number of slots
whose content differs from before.  The target is tag 0 and the effective
versions are the flagged versions of the parent for an implicit merge;
otherwise the target is the branch of the first version and the effective
versions are the versions of the changeset.  The call returns when the array
of the target exists and the list ends within the fuel. -/
theorem update_branch_versions_writes (fuel : Nat) (db : database_t) (cs : cs_ref) :
    ((db.cs cs).type ≠ .ct_implicit_merge → ∀ v0, (db.cs cs).versions = some v0 →
      (db.versions v0).branch = none →
      changeset_update_branch_versions fuel db cs = .ok (0, db)) ∧
    ((db.cs cs).type = .ct_implicit_merge →
      target_tag db cs = some 0 ∧
      ∀ p, (db.cs cs).parent = some p →
        effective_versions fuel db cs
          = (cs_versions fuel db p).filter (fun i => (db.versions i).implicit_merge)) ∧
    ((db.cs cs).type ≠ .ct_implicit_merge →
      effective_versions fuel db cs = cs_versions fuel db cs ∧
      ∀ v0, (db.cs cs).versions = some v0 → target_tag db cs = (db.versions v0).branch) ∧
    (∀ k db', changeset_update_branch_versions fuel db cs = .ok (k, db') →
      ∀ t, target_tag db cs = some t →
      ((effective_versions fuel db cs).map (fun i => (db.versions i).file)).Nodup →
      (∀ i ∈ effective_versions fuel db cs,
        slot db' t (db.versions i).file = if (db.versions i).dead then none else some i) ∧
      (∀ f, f ∉ (effective_versions fuel db cs).map (fun i => (db.versions i).file) →
        slot db' t f = slot db t f) ∧
      (∀ u, u ≠ t → db'.tags u = db.tags u) ∧
      (∀ N, (∀ i ∈ effective_versions fuel db cs, (db.versions i).file < N) →
        k = (List.range N).countP (fun f => decide (slot db' t f ≠ slot db t f)))) ∧
    (∀ t b, target_tag db cs = some t → (db.tags t).branch_versions = some b →
      ((db.cs cs).type = .ct_implicit_merge →
        (db.tags 0).tag = "" ∧ ∃ p, (db.cs cs).parent = some p ∧
          (chain (fun x => (db.versions x).cs_sibling) fuel (db.cs p).versions).isSome) →
      ((db.cs cs).type ≠ .ct_implicit_merge →
        (chain (fun x => (db.versions x).cs_sibling) fuel (db.cs cs).versions).isSome) →
      ∃ r, changeset_update_branch_versions fuel db cs = .ok r) := by
  refine ⟨?_, ?_, ?_, ?_, ?_⟩
  · intro him v0 hv hb
    simp only [changeset_update_branch_versions, if_neg him, hv, hb]
  · intro him
    refine ⟨by simp only [target_tag, if_pos him], ?_⟩
    intro p hp
    simp only [effective_versions, if_pos him, hp, effective_of]
    apply List.filter_congr
    intro i _
    cases (db.versions i).implicit_merge <;> rfl
  · intro him
    refine ⟨by simp only [effective_versions, if_neg him], ?_⟩
    intro v0 hv
    simp only [target_tag, if_neg him, hv]
  · intro k db' h t ht hnd
    obtain ⟨b, hb, hk, hdb⟩ := update_branch_versions_ok fuel db cs k db' h t ht
    have hslot : ∀ f, slot db t f = b f := by
      intro f; simp only [slot, hb]
    have hslot' : ∀ f, slot db' t f
        = (write_slots db (b, 0) (effective_versions fuel db cs)).1 f := by
      intro f; rw [hdb, slot_set_branch]
    refine ⟨?_, ?_, ?_, ?_⟩
    · intro i hi
      rw [hslot']
      exact write_slots_value db _ _ hnd i hi
    · intro f hf
      rw [hslot', hslot]
      exact write_slots_frame db _ _ f hf
    · intro u hu
      rw [hdb]
      exact set_branch_tags_ne db t _ u hu
    · intro N hN
      rw [hk, write_slots_count db _ _ hnd, Nat.zero_add,
        ← write_slots_changed db _ (b, 0) hnd N hN]
      apply List.countP_congr
      intro f _
      rw [hslot', hslot]
  · intro t b ht hb hIM hC
    by_cases him : (db.cs cs).type = .ct_implicit_merge
    · obtain ⟨hname, p, hp, hch⟩ := hIM him
      simp only [target_tag, if_pos him, Option.some.injEq] at ht
      subst ht
      have hL := cs_versions_chain fuel db p hch
      simp only [changeset_update_branch_versions, if_pos him, hname, hb, hp, ne_eq,
        not_true_eq_false, if_false, Option.isNone_some, Bool.false_eq_true]
      rw [branch_loop_some 0 true fuel db 0 _ _ b hb hL]
      exact ⟨_, rfl⟩
    · have hch := hC him
      have hL := cs_versions_chain fuel db cs hch
      simp only [target_tag, if_neg him] at ht
      cases hv : (db.cs cs).versions with
      | none => rw [hv] at ht; cases ht
      | some v0 =>
        rw [hv] at ht
        simp only at ht
        simp only [changeset_update_branch_versions, if_neg him, hv, ht]
        rw [hv] at hL
        rw [branch_loop_some t false fuel db 0 _ _ b hb hL]
        exact ⟨_, rfl⟩

/-- Witness for C9 on `branch_db`: the live version 0 of file 0 and the dead
version 1 of file 1 are written to the snapshot of tag 0, which held nothing
in slot 0 and version 7 in slot 1; both slots change and the call returns 2. -/
theorem update_branch_versions_writes_witness :
    ∃ db1, changeset_update_branch_versions 2 branch_db (.heap 0) = .ok (2, db1) ∧
      slot db1 0 0 = some 0 ∧ slot db1 0 1 = none ∧
      2 = (List.range 2).countP (fun f => decide (slot db1 0 f ≠ slot branch_db 0 f)) :=
  ⟨_, rfl,
    ((update_branch_versions_writes 2 branch_db (.heap 0)).2.2.2.1 2 _ rfl 0 rfl
      (by decide)).1 0 (by decide),
    ((update_branch_versions_writes 2 branch_db (.heap 0)).2.2.2.1 2 _ rfl 0 rfl
      (by decide)).1 1 (by decide),
    ((update_branch_versions_writes 2 branch_db (.heap 0)).2.2.2.1 2 _ rfl 0 rfl
      (by decide)).2.2.2 2 (by decide)⟩

/-! ## The loop over the matching tags -/

theorem tag_loop_cons (cs : cs_ref) (db : database_t) (i : Nat) (rest : List Nat) :
    tag_loop cs db (i :: rest) = tag_loop cs (tag_step cs db i) rest := rfl

theorem tags_set_cs_heap (db : database_t) (n : Nat) (c : changeset_t) :
    (db.set_cs (.heap n) c).tags = db.tags := rfl

theorem tags_set_cs_of_tag (db : database_t) (t : Nat) (c : changeset_t) (u : Nat) :
    (db.set_cs (.of_tag t) c).tags u
      = if u = t then { db.tags t with changeset := c } else db.tags u := rfl

/-- The parts of a tag that `set_cs` cannot change. -/
theorem set_cs_tag_fields (db : database_t) (p : cs_ref) (c : changeset_t) (u : Nat) :
    ((db.set_cs p c).tags u).is_released = (db.tags u).is_released ∧
    ((db.set_cs p c).tags u).exact_match = (db.tags u).exact_match ∧
    ((db.set_cs p c).tags u).branch_versions = (db.tags u).branch_versions ∧
    ((db.set_cs p c).tags u).hash = (db.tags u).hash ∧
    ((db.set_cs p c).tags u).tag = (db.tags u).tag := by
  cases p with
  | heap n => exact ⟨rfl, rfl, rfl, rfl, rfl⟩
  | of_tag t =>
    rw [tags_set_cs_of_tag]
    split_ifs with h
    · subst h; exact ⟨rfl, rfl, rfl, rfl, rfl⟩
    · exact ⟨rfl, rfl, rfl, rfl, rfl⟩

theorem set_cs_tag_ne (db : database_t) (p : cs_ref) (c : changeset_t) (u : Nat)
    (h : p ≠ .of_tag u) : (db.set_cs p c).tags u = db.tags u := by
  cases p with
  | heap n => rfl
  | of_tag t =>
    rw [tags_set_cs_of_tag]
    have : u ≠ t := fun e => h (by rw [e])
    rw [if_neg this]

theorem tag_changeset_eq (db : database_t) (u : Nat) :
    (db.tags u).changeset = db.cs (.of_tag u) := rfl

/-- The fields of every tag after `changeset_add_child`, with the child the
changeset of tag `i`. -/
theorem add_child_tag_fields (db : database_t) (cs : cs_ref) (i u : Nat) :
    ((changeset_add_child db cs (.of_tag i)).tags u).is_released = (db.tags u).is_released ∧
    ((changeset_add_child db cs (.of_tag i)).tags u).exact_match = (db.tags u).exact_match ∧
    ((changeset_add_child db cs (.of_tag i)).tags u).branch_versions
      = (db.tags u).branch_versions ∧
    ((changeset_add_child db cs (.of_tag i)).tags u).hash = (db.tags u).hash ∧
    ((changeset_add_child db cs (.of_tag i)).tags u).changeset.parent
      = (if u = i then some cs else (db.tags u).changeset.parent) ∧
    ((changeset_add_child db cs (.of_tag i)).tags u).changeset.time
      = (db.tags u).changeset.time ∧
    (u ≠ i → cs ≠ .of_tag u → (changeset_add_child db cs (.of_tag i)).tags u = db.tags u) ∧
    (changeset_add_child db cs (.of_tag i)).ready_tags = db.ready_tags := by
  simp only [changeset_add_child]
  obtain ⟨a1, a2, a3, a4, -⟩ := set_cs_tag_fields
    (db.set_cs (.of_tag i) { db.cs (.of_tag i) with parent := some cs }) cs
    { (db.set_cs (.of_tag i) { db.cs (.of_tag i) with parent := some cs }).cs cs with
      children := ((db.set_cs (.of_tag i) { db.cs (.of_tag i) with parent := some cs }).cs
        cs).children ++ [.of_tag i] } u
  obtain ⟨b1, b2, b3, b4, -⟩ := set_cs_tag_fields db (.of_tag i)
    { db.cs (.of_tag i) with parent := some cs } u
  refine ⟨a1.trans b1, a2.trans b2, a3.trans b3, a4.trans b4, ?_, ?_, ?_, ?_⟩
  · rw [tag_changeset_eq, cs_set_cs]
    split_ifs with h1 h2 h2
    · show (((db.set_cs (.of_tag i) _).cs cs)).parent = some cs
      rw [← h1, cs_set_cs, if_pos (by rw [h2])]
    · show (((db.set_cs (.of_tag i) _).cs cs)).parent = (db.tags u).changeset.parent
      rw [← h1, cs_set_cs, if_neg (fun e => h2 (cs_ref.of_tag.inj e))]
      rfl
    · rw [cs_set_cs, if_pos (by rw [h2])]
    · rw [cs_set_cs, if_neg (fun e => h2 (cs_ref.of_tag.inj e))]
      rfl
  · rw [tag_changeset_eq, cs_set_cs]
    split_ifs with h1
    · show (((db.set_cs (.of_tag i) _).cs cs)).time = _
      rw [← h1, cs_set_cs]
      split_ifs with h2
      · have : u = i := cs_ref.of_tag.inj h2
        subst this; rfl
      · rfl
    · rw [cs_set_cs]
      split_ifs with h2
      · have : u = i := cs_ref.of_tag.inj h2
        subst this; rfl
      · rfl
  · intro hui hcs
    rw [set_cs_tag_ne _ _ _ _ hcs, set_cs_tag_ne _ _ _ _ (fun e => hui (cs_ref.of_tag.inj e).symm)]
  · rw [set_cs_ready_tags, set_cs_ready_tags]

/-- The fields of every tag after one iteration of the loop, for the tag `i`. -/
theorem tag_step_fields (cs : cs_ref) (db : database_t) (i u : Nat) :
    ((tag_step cs db i).tags u).is_released
      = (if u = i then true else (db.tags u).is_released) ∧
    ((tag_step cs db i).tags u).exact_match
      = (if u = i ∧ (db.tags i).changeset.parent = none then true
          else (db.tags u).exact_match) ∧
    ((tag_step cs db i).tags u).branch_versions = (db.tags u).branch_versions ∧
    ((tag_step cs db i).tags u).hash = (db.tags u).hash ∧
    ((tag_step cs db i).tags u).changeset.parent
      = (if u = i ∧ (db.tags i).changeset.parent = none then some cs
          else (db.tags u).changeset.parent) ∧
    (u ≠ i → cs ≠ .of_tag u → (tag_step cs db i).tags u = db.tags u) ∧
    (tag_step cs db i).ready_tags.Perm
      (if (db.tags i).is_released = true then db.ready_tags else i :: db.ready_tags) := by
  -- the state after the optional `changeset_add_child`
  have h1 : ∃ db1 : database_t,
      (if (db.tags i).changeset.parent.isNone then
        changeset_add_child
          { db with tags := upd db.tags i { db.tags i with exact_match := true } }
          cs (.of_tag i)
       else db) = db1 ∧
      (db1.tags u).is_released = (db.tags u).is_released ∧
      (db1.tags u).exact_match
        = (if u = i ∧ (db.tags i).changeset.parent = none then true
            else (db.tags u).exact_match) ∧
      (db1.tags u).branch_versions = (db.tags u).branch_versions ∧
      (db1.tags u).hash = (db.tags u).hash ∧
      (db1.tags u).changeset.parent
        = (if u = i ∧ (db.tags i).changeset.parent = none then some cs
            else (db.tags u).changeset.parent) ∧
      (u ≠ i → cs ≠ .of_tag u → db1.tags u = db.tags u) ∧
      db1.ready_tags = db.ready_tags ∧
      (db1.tags i).is_released = (db.tags i).is_released := by
    refine ⟨_, rfl, ?_⟩
    by_cases hp : (db.tags i).changeset.parent = none
    · have hp' : (db.tags i).changeset.parent.isNone = true := by rw [hp]; rfl
      rw [if_pos hp']
      obtain ⟨a1, a2, a3, a4, a5, -, a7, a8⟩ := add_child_tag_fields
        { db with tags := upd db.tags i { db.tags i with exact_match := true } } cs i u
      obtain ⟨c1, -⟩ := add_child_tag_fields
        { db with tags := upd db.tags i { db.tags i with exact_match := true } } cs i i
      have hu : ∀ w, (upd db.tags i { db.tags i with exact_match := true } w).is_released
          = (db.tags w).is_released := by
        intro w
        simp only [upd]
        split_ifs with h
        · subst h; rfl
        · rfl
      refine ⟨a1.trans (hu u), ?_, ?_, ?_, ?_, ?_, a8, c1.trans (hu i)⟩
      · rw [a2]
        simp only [upd]
        by_cases h : u = i
        · subst h; simp [hp]
        · simp [h]
      · rw [a3]
        simp only [upd]
        split_ifs with h
        · subst h; rfl
        · rfl
      · rw [a4]
        simp only [upd]
        split_ifs with h
        · subst h; rfl
        · rfl
      · rw [a5]
        by_cases h : u = i
        · subst h; simp [hp]
        · simp [upd, h]
      · intro hui hcs
        rw [a7 hui hcs]
        simp only [upd, if_neg hui]
    · have hp' : ¬ (db.tags i).changeset.parent.isNone = true := by
        cases hq : (db.tags i).changeset.parent with
        | none => exact absurd hq hp
        | some q => simp
      rw [if_neg hp']
      simp [hp]
  obtain ⟨db1, hdb1, b1, b2, b3, b4, b5, b6, b7, b8⟩ := h1
  have hstep : tag_step cs db i =
      if !(db1.tags i).is_released then
        { db1 with
          tags := upd db1.tags i { db1.tags i with is_released := true }
          ready_tags := heap_insert (fun t => (db1.tags t).changeset.time) db1.ready_tags i }
      else db1 := by
    simp only [tag_step, hdb1]
  rw [hstep]
  by_cases hr : (db.tags i).is_released = true
  · have : (!(db1.tags i).is_released) = false := by rw [b8, hr]; rfl
    rw [this]
    simp only [Bool.false_eq_true, if_false, hr, if_true]
    refine ⟨?_, b2, b3, b4, b5, b6, by rw [b7]⟩
    rw [b1]
    split_ifs with h
    · subst h; exact hr
    · rfl
  · have : (!(db1.tags i).is_released) = true := by
      rw [b8]; cases hq : (db.tags i).is_released
      · rfl
      · exact absurd hq hr
    rw [this]
    simp only [if_true, hr, if_false]
    have hupd : ∀ w, upd db1.tags i { db1.tags i with is_released := true } w
        = if w = i then { db1.tags i with is_released := true } else db1.tags w :=
      fun w => rfl
    refine ⟨?_, ?_, ?_, ?_, ?_, ?_, ?_⟩
    · show (upd db1.tags i { db1.tags i with is_released := true } u).is_released = _
      rw [hupd]
      by_cases h : u = i
      · rw [if_pos h, if_pos h]
      · rw [if_neg h, if_neg h]; exact b1
    · show (upd db1.tags i { db1.tags i with is_released := true } u).exact_match = _
      rw [hupd]
      by_cases h : u = i
      · rw [if_pos h]; subst h; exact b2
      · rw [if_neg h]; exact b2
    · show (upd db1.tags i { db1.tags i with is_released := true } u).branch_versions = _
      rw [hupd]
      by_cases h : u = i
      · rw [if_pos h]; subst h; exact b3
      · rw [if_neg h]; exact b3
    · show (upd db1.tags i { db1.tags i with is_released := true } u).hash = _
      rw [hupd]
      by_cases h : u = i
      · rw [if_pos h]; subst h; exact b4
      · rw [if_neg h]; exact b4
    · show (upd db1.tags i { db1.tags i with is_released := true } u).changeset.parent = _
      rw [hupd]
      by_cases h : u = i
      · rw [if_pos h]; subst h; exact b5
      · rw [if_neg h]; exact b5
    · intro hui hcs
      show upd db1.tags i { db1.tags i with is_released := true } u = _
      rw [hupd, if_neg hui]
      exact b6 hui hcs
    · show (heap_insert _ db1.ready_tags i).Perm _
      rw [b7]
      exact heap_insert_perm _ _ _

/-- The fields of every tag after the loop over a duplicate-free list of
matching tags. -/
theorem tag_loop_fields (cs : cs_ref) (L : List Nat) (hL : L.Nodup) :
    ∀ (db : database_t) (u : Nat),
      ((tag_loop cs db L).tags u).is_released
        = (if u ∈ L then true else (db.tags u).is_released) ∧
      ((tag_loop cs db L).tags u).exact_match
        = (if u ∈ L ∧ (db.tags u).changeset.parent = none then true
            else (db.tags u).exact_match) ∧
      ((tag_loop cs db L).tags u).branch_versions = (db.tags u).branch_versions ∧
      ((tag_loop cs db L).tags u).changeset.parent
        = (if u ∈ L ∧ (db.tags u).changeset.parent = none then some cs
            else (db.tags u).changeset.parent) ∧
      (u ∉ L → cs ≠ .of_tag u → (tag_loop cs db L).tags u = db.tags u) ∧
      (tag_loop cs db L).ready_tags.count u
        = db.ready_tags.count u
          + (if u ∈ L ∧ (db.tags u).is_released = false then 1 else 0) := by
  induction L with
  | nil =>
    intro db u
    simp [tag_loop]
  | cons i rest ih =>
    intro db u
    have hi : i ∉ rest := (List.nodup_cons.mp hL).1
    obtain ⟨s1, s2, s3, -, s5, s6, s7⟩ := tag_step_fields cs db i u
    obtain ⟨r1, r2, r3, r4, r5, r6⟩ := ih (List.nodup_cons.mp hL).2 (tag_step cs db i) u
    rw [tag_loop_cons]
    have hcount : (tag_step cs db i).ready_tags.count u
        = db.ready_tags.count u
          + (if u = i ∧ (db.tags i).is_released = false then 1 else 0) := by
      rw [s7.count_eq]
      by_cases hr : (db.tags i).is_released = true
      · simp [hr]
      · have hf : (db.tags i).is_released = false := by
          cases hq : (db.tags i).is_released
          · rfl
          · exact absurd hq hr
        rw [if_neg hr, List.count_cons]
        by_cases hui : u = i
        · subst hui; simp [hf]
        · have : (i == u) = false := by
            simp only [beq_eq_false_iff_ne, ne_eq]
            exact fun e => hui e.symm
          simp [hui, this]
    by_cases hui : u = i
    · subst hui
      refine ⟨?_, ?_, ?_, ?_, ?_, ?_⟩
      · rw [r1, s1]; simp [hi]
      · rw [r2, s2]; simp [hi]
      · rw [r3, s3]
      · rw [r4, s5]; simp [hi]
      · intro hn; exact absurd (List.mem_cons_self _ _) hn
      · rw [r6, hcount]; simp [hi]
    · have hmem : u ∈ i :: rest ↔ u ∈ rest := by
        simp [hui]
      refine ⟨?_, ?_, ?_, ?_, ?_, ?_⟩
      · rw [r1, s1]; simp [hui]
      · rw [r2, s2, s5]; simp [hui]
      · rw [r3, s3]
      · rw [r4, s5]; simp [hui]
      · intro hn hcs
        rw [r5 (fun h => hn (List.mem_cons_of_mem _ h)) hcs, s6 hui hcs]
      · rw [r6, hcount, s1]; simp [hui]

theorem database_tag_hash_find_nodup (db : database_t) (hash : Nat) :
    (database_tag_hash_find db hash).Nodup :=
  (List.nodup_range db.tags_end).filter _

/-! ## changeset_update_branch_hash -/

theorem update_branch_hash_zero (sha1 : List Nat → Nat) (fuel : Nat) (db : database_t)
    (cs : cs_ref) (db1 : database_t)
    (h : changeset_update_branch_versions fuel db cs = .ok (0, db1)) :
    changeset_update_branch_hash sha1 fuel db cs = .ok (0, db1) := by
  simp only [changeset_update_branch_hash, h, if_true]

/-- A returning `changeset_update_branch_hash`: the branch update returned the
same count, and when the count is not zero the loop over the tags of the
bucket of the new branch state ran on the database the update left. -/
theorem update_branch_hash_ok (sha1 : List Nat → Nat) (fuel : Nat) (db : database_t)
    (cs : cs_ref) (k : Nat) (db2 : database_t)
    (h : changeset_update_branch_hash sha1 fuel db cs = .ok (k, db2)) :
    ∃ db1, changeset_update_branch_versions fuel db cs = .ok (k, db1) ∧
      (k = 0 → db2 = db1) ∧
      (k ≠ 0 → ∃ t b, target_tag db cs = some t ∧ (db1.tags t).branch_versions = some b ∧
        db2 = tag_loop cs db1 (database_tag_hash_find db1 (sha1 (branch_state db1 b)))) := by
  simp only [changeset_update_branch_hash] at h
  cases hv : changeset_update_branch_versions fuel db cs with
  | error e => rw [hv] at h; cases h
  | ok r =>
    obtain ⟨changes, db1⟩ := r
    rw [hv] at h
    simp only at h
    by_cases h0 : changes = 0
    · rw [if_pos h0] at h
      injection h with h
      injection h with hk hdb
      subst h0
      subst hk
      subst hdb
      exact ⟨db1, rfl, fun _ => rfl, fun hne => absurd rfl hne⟩
    · rw [if_neg h0] at h
      -- the branch update had a target and wrote to its array
      cases ht : target_tag db cs with
      | none =>
        exact absurd (update_branch_versions_anonymous fuel db cs changes db1 hv ht).1 h0
      | some t0 =>
        obtain ⟨b0, hb0, -, hdb1⟩ := update_branch_versions_ok fuel db cs changes db1 hv t0 ht
        have hcs : db1.cs cs = db.cs cs := by rw [hdb1]; exact cs_set_branch _ _ _ _
        have hvs : db1.versions = db.versions := by rw [hdb1]; rfl
        have hbv : (db1.tags t0).branch_versions
            = some (write_slots db (b0, 0) (effective_versions fuel db cs)).1 := by
          rw [hdb1]; exact set_branch_tag_self _ _ _
        rw [hcs, hvs] at h
        by_cases hc : (db.cs cs).type = .ct_commit
        · have him : (db.cs cs).type ≠ .ct_implicit_merge := by rw [hc]; decide
          rw [if_pos hc] at h
          simp only [target_tag, if_neg him] at ht
          cases hv0 : (db.cs cs).versions with
          | none => rw [hv0] at ht; cases ht
          | some v0 =>
            rw [hv0] at h ht
            simp only at h ht
            rw [ht] at h
            simp only at h
            rw [hbv] at h
            simp only at h
            injection h with h
            injection h with hk hdb
            subst hk
            refine ⟨db1, rfl, fun e => absurd e h0, fun _ => ⟨t0, _, rfl, hbv, hdb.symm⟩⟩
        · rw [if_neg hc] at h
          by_cases him : (db.cs cs).type = .ct_implicit_merge
          · rw [if_pos him] at h
            simp only [target_tag, if_pos him, Option.some.injEq] at ht
            subst ht
            rw [hbv] at h
            simp only at h
            injection h with h
            injection h with hk hdb
            subst hk
            refine ⟨db1, rfl, fun e => absurd e h0, fun _ => ⟨0, _, ?_, hbv, hdb.symm⟩⟩
            simp only [target_tag, if_pos him]
          · rw [if_neg him] at h
            cases h

/-- C8: `changeset_update_branch_hash` returns 0 exactly when
`changeset_update_branch_versions`, run from the same state, returns 0; and
whenever it returns, the branch update returns the same count and leaves the
same `branch_versions` array in every tag. -/
theorem update_branch_hash_refines (sha1 : List Nat → Nat) (fuel : Nat) (db : database_t)
    (cs : cs_ref) :
    ((∃ db2, changeset_update_branch_hash sha1 fuel db cs = .ok (0, db2)) ↔
      (∃ db1, changeset_update_branch_versions fuel db cs = .ok (0, db1))) ∧
    (∀ k db2, changeset_update_branch_hash sha1 fuel db cs = .ok (k, db2) →
      ∃ db1, changeset_update_branch_versions fuel db cs = .ok (k, db1) ∧
        ∀ u, (db2.tags u).branch_versions = (db1.tags u).branch_versions) := by
  have main : ∀ k db2, changeset_update_branch_hash sha1 fuel db cs = .ok (k, db2) →
      ∃ db1, changeset_update_branch_versions fuel db cs = .ok (k, db1) ∧
        ∀ u, (db2.tags u).branch_versions = (db1.tags u).branch_versions := by
    intro k db2 h
    obtain ⟨db1, hv, h0, hn⟩ := update_branch_hash_ok sha1 fuel db cs k db2 h
    refine ⟨db1, hv, ?_⟩
    intro u
    by_cases hk : k = 0
    · rw [h0 hk]
    · obtain ⟨t, b, -, -, hdb2⟩ := hn hk
      rw [hdb2]
      exact (tag_loop_fields cs _ (database_tag_hash_find_nodup _ _) db1 u).2.2.1
  refine ⟨⟨?_, ?_⟩, main⟩
  · rintro ⟨db2, h⟩
    obtain ⟨db1, hv, -⟩ := main 0 db2 h
    exact ⟨db1, hv⟩
  · rintro ⟨db1, h⟩
    exact ⟨db1, update_branch_hash_zero sha1 fuel db cs db1 h⟩

/-- Witness for C8 on `branch_db`, with the sum of the version addresses as
the digest. -/
theorem update_branch_hash_refines_witness :
    ∃ db2, changeset_update_branch_hash List.sum 2 branch_db (.heap 0) = .ok (2, db2) ∧
      ∃ db1, changeset_update_branch_versions 2 branch_db (.heap 0) = .ok (2, db1) ∧
        ∀ u, (db2.tags u).branch_versions = (db1.tags u).branch_versions :=
  ⟨_, rfl, (update_branch_hash_refines List.sum 2 branch_db (.heap 0)).2 2 _ rfl⟩

/-- C11 fails on the code: for the implicit merge of `merge_db`, whose parent
commit has the flagged version 0 (file `A`) and the unflagged version 1 (file
`B`), `print_implicit_merge` prints a line for both versions, because the loop
tests the flag of the first version instead of the current one; the record
should hold the line of version 0 only. -/
theorem print_implicit_merge_unflagged :
    print_implicit_merge (fun _ => "DATE") 2 merge_db (.heap 1)
      = .ok ["DATE   ", "", "\tA 1.1", "\tB 1.2", ""] ∧
    flagged_lines 2 merge_db (.heap 0) = [.ok "\tA 1.1"] ∧
    (changeset_update_branch_versions 2 merge_db (.heap 1)).map Prod.fst = .ok 1 := by
  exact ⟨rfl, rfl, rfl⟩

/-! ## Count zero and the ready heap -/

theorem changeset_release_cs_alloc (db db' : database_t) (cs : cs_ref)
    (h : changeset_release db cs = .ok db') : db'.cs_alloc = db.cs_alloc := by
  have h0 := (changeset_release_ok db db' cs h).1
  rw [changeset_release_pos db cs h0] at h
  injection h with h
  subst h
  split_ifs <;> cases cs <;> rfl

theorem zero_inv_release {s s' : database_t} {E : List cs_ref} (hi : zero_inv s E)
    {c : cs_ref} (h : changeset_release s c = .ok s') : zero_inv s' E := by
  obtain ⟨h0, -, -, -, -, -, hcs, hr⟩ := changeset_release_ok s s' c h
  intro d hd
  rw [hcs d]
  by_cases hdc : d = c
  · subst hdc
    rw [if_pos rfl]
    by_cases h1 : (s.cs d).unready_count = 1
    · show (s.cs d).unready_count - 1 = 0
      omega
    · rw [hr, if_neg h1] at hd
      exact absurd (hi d hd) h0
  · rw [if_neg hdc]
    apply hi
    rcases hd with hd | hd
    · rw [hr] at hd
      split_ifs at hd
      · rw [mem_heap_insert] at hd
        rcases hd with e | hd
        · exact absurd e hdc
        · exact Or.inl hd
      · exact Or.inl hd
    · exact Or.inr hd

theorem complete_inv_release {M : cs_ref → Prop} {s s' : database_t} {E : List cs_ref}
    (hi : complete_inv M s E) {c : cs_ref} (h : changeset_release s c = .ok s') :
    complete_inv M s' E := by
  obtain ⟨h0, -, -, -, -, -, hcs, hr⟩ := changeset_release_ok s s' c h
  intro d hM hd
  rw [hcs d] at hd
  by_cases hdc : d = c
  · subst hdc
    rw [if_pos rfl] at hd
    have h1 : (s.cs d).unready_count = 1 := by
      have : (s.cs d).unready_count - 1 = 0 := hd
      omega
    left
    rw [hr, if_pos h1, mem_heap_insert]
    exact Or.inl rfl
  · rw [if_neg hdc] at hd
    rcases hi d hM hd with hm | hm
    · left
      rw [hr]
      split_ifs
      · rw [mem_heap_insert]; exact Or.inr hm
      · exact hm
    · exact Or.inr hm

theorem zero_inv_releases {E : List cs_ref} (T : List cs_ref) :
    ∀ (s s' : database_t), zero_inv s E → release_changesets s T = .ok s' → zero_inv s' E := by
  induction T with
  | nil =>
    intro s s' hi h
    injection h with h
    subst h
    exact hi
  | cons c rest ih =>
    intro s s' hi h
    rw [release_changesets_cons] at h
    cases hc : changeset_release s c with
    | error e => rw [hc] at h; cases h
    | ok s1 =>
      rw [hc] at h
      exact ih s1 s' (zero_inv_release hi hc) h

theorem complete_inv_releases {M : cs_ref → Prop} {E : List cs_ref} (T : List cs_ref) :
    ∀ (s s' : database_t), complete_inv M s E → release_changesets s T = .ok s' →
      complete_inv M s' E := by
  induction T with
  | nil =>
    intro s s' hi h
    injection h with h
    subst h
    exact hi
  | cons c rest ih =>
    intro s s' hi h
    rw [release_changesets_cons] at h
    cases hc : changeset_release s c with
    | error e => rw [hc] at h; cases h
    | ok s1 =>
      rw [hc] at h
      exact ih s1 s' (complete_inv_release hi hc) h

theorem release_changesets_cs_alloc (T : List cs_ref) :
    ∀ (s s' : database_t), release_changesets s T = .ok s' → s'.cs_alloc = s.cs_alloc := by
  induction T with
  | nil =>
    intro s s' h
    injection h with h
    subst h
    rfl
  | cons c rest ih =>
    intro s s' h
    rw [release_changesets_cons] at h
    cases hc : changeset_release s c with
    | error e => rw [hc] at h; cases h
    | ok s1 =>
      rw [hc] at h
      rw [ih s1 s' h, changeset_release_cs_alloc s s1 c hc]

theorem zero_inv_of_strip {a b : database_t} {E : List cs_ref} (h : strip a = strip b)
    (ha : zero_inv a E) : zero_inv b E := by
  intro c hc
  rw [← strip_ready h] at hc
  rw [← strip_cs h c]
  exact ha c hc

theorem complete_inv_of_strip {M : cs_ref → Prop} {a b : database_t} {E : List cs_ref}
    (h : strip a = strip b) (ha : complete_inv M a E) : complete_inv M b E := by
  intro c hM hc
  rw [← strip_cs h c] at hc
  rw [← strip_ready h]
  exact ha c hM hc

/-- A returning `changeset_emitted` is, seen through `strip`, a returning
sequence of releases. -/
theorem changeset_emitted_as_releases (fuel : Nat) (db : database_t) (rv : Option (List Nat))
    (cs : cs_ref) (r : database_t × Option (List Nat))
    (h : changeset_emitted fuel db rv cs = .ok r) :
    release_changesets (strip db) (release_targets fuel db cs) = .ok (strip r.1) := by
  have hE : (db.cs cs).type = .ct_commit → chains_end fuel db cs :=
    fun ht => changeset_emitted_ok_chains fuel db rv cs r h ht
  obtain ⟨hs, -⟩ := changeset_emitted_strip fuel db rv cs hE
  rw [h] at hs
  exact hs.symm

theorem version_release_as_release (db : database_t) (rv : Option (List Nat)) (v : Nat)
    (r : database_t × Option (List Nat)) (h : version_release db rv v = .ok r) :
    changeset_release (strip db) (db.versions v).commit = .ok (strip r.1) := by
  have hs := version_release_strip db rv v
  rw [h] at hs
  exact hs.symm

theorem zero_inv_emitted {fuel : Nat} {db : database_t} {rv : Option (List Nat)} {cs : cs_ref}
    {r : database_t × Option (List Nat)} {E : List cs_ref} (hi : zero_inv db E)
    (h : changeset_emitted fuel db rv cs = .ok r) : zero_inv r.1 E := by
  have h1 := changeset_emitted_as_releases fuel db rv cs r h
  have h2 : zero_inv (strip db) E := zero_inv_of_strip (strip_strip db).symm hi
  exact zero_inv_of_strip (strip_strip r.1) (zero_inv_releases _ _ _ h2 h1)

theorem complete_inv_emitted {M : cs_ref → Prop} {fuel : Nat} {db : database_t}
    {rv : Option (List Nat)} {cs : cs_ref} {r : database_t × Option (List Nat)}
    {E : List cs_ref} (hi : complete_inv M db E)
    (h : changeset_emitted fuel db rv cs = .ok r) : complete_inv M r.1 E := by
  have h1 := changeset_emitted_as_releases fuel db rv cs r h
  have h2 : complete_inv M (strip db) E := complete_inv_of_strip (strip_strip db).symm hi
  exact complete_inv_of_strip (strip_strip r.1) (complete_inv_releases _ _ _ h2 h1)

theorem changeset_emitted_cs_alloc {fuel : Nat} {db : database_t} {rv : Option (List Nat)}
    {cs : cs_ref} {r : database_t × Option (List Nat)}
    (h : changeset_emitted fuel db rv cs = .ok r) : r.1.cs_alloc = db.cs_alloc := by
  have h1 := changeset_emitted_as_releases fuel db rv cs r h
  exact release_changesets_cs_alloc _ (strip db) (strip r.1) h1

theorem zero_inv_version_release {db : database_t} {rv : Option (List Nat)} {v : Nat}
    {r : database_t × Option (List Nat)} {E : List cs_ref} (hi : zero_inv db E)
    (h : version_release db rv v = .ok r) : zero_inv r.1 E := by
  have h1 := version_release_as_release db rv v r h
  have h2 : zero_inv (strip db) E := zero_inv_of_strip (strip_strip db).symm hi
  exact zero_inv_of_strip (strip_strip r.1) (zero_inv_release h2 h1)

theorem complete_inv_version_release {M : cs_ref → Prop} {db : database_t}
    {rv : Option (List Nat)} {v : Nat} {r : database_t × Option (List Nat)} {E : List cs_ref}
    (hi : complete_inv M db E) (h : version_release db rv v = .ok r) :
    complete_inv M r.1 E := by
  have h1 := version_release_as_release db rv v r h
  have h2 : complete_inv M (strip db) E := complete_inv_of_strip (strip_strip db).symm hi
  exact complete_inv_of_strip (strip_strip r.1) (complete_inv_release h2 h1)

theorem version_release_cs_alloc {db : database_t} {rv : Option (List Nat)} {v : Nat}
    {r : database_t × Option (List Nat)} (h : version_release db rv v = .ok r) :
    r.1.cs_alloc = db.cs_alloc := by
  have h1 := version_release_as_release db rv v r h
  exact changeset_release_cs_alloc (strip db) (strip r.1) _ h1

theorem zero_inv_next {s s1 : database_t} {E : List cs_ref} {e : cs_ref} (hi : zero_inv s E)
    (h : next_changeset s = (some e, s1)) : zero_inv s1 (E ++ [e]) := by
  obtain ⟨hr, hs1⟩ := next_changeset_some s s1 e h
  intro c hc
  have hcs : s1.cs c = s.cs c := by rw [hs1]; exact cs_with_ready s _ c
  rw [hcs]
  apply hi
  rw [hr]
  rcases hc with hc | hc
  · exact Or.inl (List.mem_cons_of_mem _ hc)
  · rw [List.mem_append, List.mem_singleton] at hc
    rcases hc with hc | hc
    · exact Or.inr hc
    · left; rw [hc]; exact List.mem_cons_self _ _

theorem complete_inv_next {M : cs_ref → Prop} {s s1 : database_t} {E : List cs_ref} {e : cs_ref}
    (hi : complete_inv M s E) (h : next_changeset s = (some e, s1)) :
    complete_inv M s1 (E ++ [e]) := by
  obtain ⟨hr, hs1⟩ := next_changeset_some s s1 e h
  intro c hM hc
  have hcs : s1.cs c = s.cs c := by rw [hs1]; exact cs_with_ready s _ c
  rw [hcs] at hc
  rcases hi c hM hc with hm | hm
  · rw [hr, List.mem_cons] at hm
    rcases hm with hm | hm
    · right; rw [hm]; simp
    · exact Or.inl hm
  · right; simp [hm]

theorem next_changeset_cs_alloc {s s1 : database_t} {o : Option cs_ref}
    (h : next_changeset s = (o, s1)) : s1.cs_alloc = s.cs_alloc := by
  cases o with
  | none => rw [(next_changeset_none s s1 h).2]
  | some e => rw [(next_changeset_some s s1 e h).2]

/-- After `prepare_for_emission` on a database with an empty ready heap, the
ready changesets have count zero, and every changeset whose count the counting
loop raised is on the ready heap once its count is zero again. -/
theorem prepare_zero_complete {fuel : Nat} {db : database_t} {rv : Option (List Nat)}
    {r : database_t × Option (List Nat)} (hr0 : db.ready_changesets = [])
    (hfit : counts_fit fuel db) (h : prepare_for_emission fuel db rv = .ok r) :
    zero_inv r.1 [] ∧
    complete_inv (fun c => base_count fuel db db.changesets c ≠ 0) r.1 [] := by
  obtain ⟨db1, hpc, hr, hrel⟩ := prepare_for_emission_ok fuel db rv r h
  have hz : zero_inv (strip db1) [] := by
    intro c hc
    rcases hc with hc | hc
    · have hc' : c ∈ db1.ready_changesets := hc
      rw [hr.2.2.2.1, hr0] at hc'
      exact absurd hc' (List.not_mem_nil c)
    · exact absurd hc (List.not_mem_nil c)
  have hc : complete_inv (fun c => base_count fuel db db.changesets c ≠ 0) (strip db1) [] := by
    intro c hM h0
    have h1 : (db1.cs c).unready_count = 0 := by rw [← cs_strip db1]; exact h0
    have hk : c ∈ known db := by
      by_contra hn
      exact hM (base_count_not_known fuel db c hn)
    rw [raised_count hr c (hfit c hk)] at h1
    exact absurd (by omega) hM
  exact ⟨zero_inv_of_strip (strip_strip r.1) (zero_inv_releases _ _ _ hz hrel),
    complete_inv_of_strip (strip_strip r.1) (complete_inv_releases _ _ _ hc hrel)⟩

theorem emission_loop_step_none {fuel n : Nat} {s : emission_state} {db1 : database_t}
    (h1 : next_changeset s.db = (none, db1)) :
    emission_loop fuel (n + 1) s = { s with db := db1, stopped := some none } := by
  rw [emission_loop_succ, h1]

theorem emission_loop_step_error {fuel n : Nat} {s : emission_state} {db1 : database_t}
    {c : cs_ref} {x : fault} (h1 : next_changeset s.db = (some c, db1))
    (h2 : changeset_emitted fuel db1 s.rv c = .error x) :
    emission_loop fuel (n + 1) s
      = { db := db1, rv := s.rv, emitted := s.emitted ++ [c], stopped := some (some x) } := by
  rw [emission_loop_succ, h1]
  show (match changeset_emitted fuel db1 s.rv c with
    | .error e =>
      ({ db := db1, rv := s.rv, emitted := s.emitted ++ [c],
         stopped := some (some e) } : emission_state)
    | .ok r =>
      emission_loop fuel n
        { db := r.1, rv := r.2, emitted := s.emitted ++ [c], stopped := none }) = _
  rw [h2]

theorem emission_loop_step_ok {fuel n : Nat} {s : emission_state} {db1 : database_t}
    {c : cs_ref} {r : database_t × Option (List Nat)}
    (h1 : next_changeset s.db = (some c, db1))
    (h2 : changeset_emitted fuel db1 s.rv c = .ok r) :
    emission_loop fuel (n + 1) s
      = emission_loop fuel n
          { db := r.1, rv := r.2, emitted := s.emitted ++ [c], stopped := none } := by
  rw [emission_loop_succ, h1]
  show (match changeset_emitted fuel db1 s.rv c with
    | .error e =>
      ({ db := db1, rv := s.rv, emitted := s.emitted ++ [c],
         stopped := some (some e) } : emission_state)
    | .ok r =>
      emission_loop fuel n
        { db := r.1, rv := r.2, emitted := s.emitted ++ [c], stopped := none }) = _
  rw [h2]

/-- The emission loop only appends to the emitted sequence. -/
theorem emission_loop_extends (fuel n : Nat) :
    ∀ s : emission_state, ∃ t, (emission_loop fuel n s).emitted = s.emitted ++ t := by
  induction n with
  | zero => intro s; exact ⟨[], (List.append_nil _).symm⟩
  | succ n ih =>
    intro s
    cases hnc : next_changeset s.db with
    | mk o db1 =>
      cases o with
      | none =>
        rw [emission_loop_step_none hnc]
        exact ⟨[], (List.append_nil _).symm⟩
      | some c =>
        cases hem : changeset_emitted fuel db1 s.rv c with
        | error x =>
          rw [emission_loop_step_error hnc hem]
          exact ⟨[c], rfl⟩
        | ok r =>
          rw [emission_loop_step_ok hnc hem]
          obtain ⟨t, ht⟩ := ih { db := r.1, rv := r.2, emitted := s.emitted ++ [c], stopped := none }
          exact ⟨c :: t, by rw [ht]; simp⟩

/-- The emission loop keeps the scheduler invariant and the completeness of
the ready heap, and it does not stop with a fault, as long as the releases of
every changeset it returns were counted: it either has not stopped, or stopped
on the null result with an empty ready heap. -/
theorem emission_loop_inv {fuel : Nat} {g : database_t} (wf : well_formed fuel g)
    (M : cs_ref → Prop) (n : Nat) :
    ∀ s : emission_state, sched_inv fuel g s.db s.emitted →
      complete_inv M s.db s.emitted → s.stopped = none →
      (∀ e ∈ (emission_loop fuel n s).emitted, accounted fuel g e) →
      sched_inv fuel g (emission_loop fuel n s).db (emission_loop fuel n s).emitted ∧
      complete_inv M (emission_loop fuel n s).db (emission_loop fuel n s).emitted ∧
      ((emission_loop fuel n s).stopped = none ∨
        ((emission_loop fuel n s).stopped = some none ∧
          (emission_loop fuel n s).db.ready_changesets = [])) := by
  induction n with
  | zero => intro s hi hc hs _; exact ⟨hi, hc, Or.inl hs⟩
  | succ n ih =>
    intro s hi hc hs hacc
    cases hnc : next_changeset s.db with
    | mk o db1 =>
      cases o with
      | none =>
        rw [emission_loop_step_none hnc]
        obtain ⟨h1, h2⟩ := next_changeset_none s.db db1 hnc
        subst h2
        exact ⟨hi, hc, Or.inr ⟨rfl, h1⟩⟩
      | some c =>
        cases hem : changeset_emitted fuel db1 s.rv c with
        | error x =>
          rw [emission_loop_step_error hnc hem] at hacc
          have hac : accounted fuel g c :=
            hacc c (List.mem_append_right _ (List.mem_singleton_self c))
          obtain ⟨⟨r, hr⟩, -⟩ := sched_inv_step wf hi hnc hac s.rv
          rw [hem] at hr
          cases hr
        | ok r =>
          rw [emission_loop_step_ok hnc hem] at hacc ⊢
          have hac : accounted fuel g c := by
            obtain ⟨t, ht⟩ := emission_loop_extends fuel n
              { db := r.1, rv := r.2, emitted := s.emitted ++ [c], stopped := none }
            apply hacc
            rw [ht]
            exact List.mem_append_left _
              (List.mem_append_right _ (List.mem_singleton_self c))
          have hstep := (sched_inv_step wf hi hnc hac s.rv).2 r hem
          have hc1 := complete_inv_next hc hnc
          have hc2 := complete_inv_emitted hc1 hem
          exact ih _ hstep hc2 rfl hacc

/-- On a well-formed graph the pending releases of `c` are the versions it
owns whose parent is owned by an unemitted changeset, plus its occurrences in
the children arrays of the unemitted changesets. -/
theorem wf_pending_eq {fuel : Nat} {g : database_t} (wf : well_formed fuel g)
    (E : List cs_ref) (c : cs_ref) :
    pending fuel g E c
      = (all_versions g).countP
          (fun k => parent_unemitted g E k && decide ((g.versions k).commit = c))
        + ((g.changesets.filter (fun d => decide (d ∉ E))).map
            (fun d => (g.cs d).children.count c)).sum := by
  simp only [pending, released_by]
  rw [sum_map_add_fn]
  congr 1
  have hsub : ∀ d ∈ g.changesets.filter (fun d => decide (d ∉ E)), d ∈ g.changesets :=
    fun d hd => (List.mem_filter.mp hd).1
  have hnd : (g.changesets.filter (fun d => decide (d ∉ E))).Nodup := wf.2.1.filter _
  have step1 : ∀ d ∈ g.changesets.filter (fun d => decide (d ∉ E)),
      (if (g.cs d).type = .ct_commit then
        ((cs_versions fuel g d).flatMap (children_of fuel g)).countP
          (fun v => decide ((g.versions v).commit = c))
       else 0)
      = (((all_versions g).filter (fun v => decide ((g.versions v).commit = d))).map
          (fun i => (all_versions g).countP
            (fun k => decide ((g.versions k).parent = some i)
              && decide ((g.versions k).commit = c)))).sum := by
    intro d hd'
    have hd := hsub d hd'
    by_cases ht : (g.cs d).type = .ct_commit
    · rw [if_pos ht, countP_flatMap_sum]
      have e : (cs_versions fuel g d).map (fun i => (children_of fuel g i).countP
            (fun v => decide ((g.versions v).commit = c)))
          = (cs_versions fuel g d).map (fun i => (all_versions g).countP
              (fun k => decide ((g.versions k).parent = some i)
                && decide ((g.versions k).commit = c))) := by
        apply List.map_congr_left
        intro i hi
        exact wf_children_countP wf (wf_mem_cs_versions wf hd ht hi).1 _
      rw [e]
      exact ((wf.2.2.2.1 d hd ht).2.map _).sum_eq
    · rw [if_neg ht]
      have : (all_versions g).filter (fun v => decide ((g.versions v).commit = d)) = [] := by
        rw [List.filter_eq_nil_iff]
        intro v hv
        simp only [decide_eq_true_eq]
        intro e
        have h2 := (wf.2.2.1 v hv).2.1
        rw [e] at h2
        exact ht h2
      rw [this]
      rfl
  rw [List.map_congr_left step1, sum_filter_partition _ hnd]
  have hs := sum_countP_partition
    (((all_versions g).filter
      (fun x => decide ((g.versions x).commit ∈ g.changesets.filter (fun d => decide (d ∉ E))))).map
        some)
    ((wf.1.filter _).map (fun a b h => Option.some.inj h)) (fun k => (g.versions k).parent)
    (fun k => decide ((g.versions k).commit = c)) (all_versions g)
  rw [List.map_map] at hs
  have e2 : ((fun o => (all_versions g).countP
      (fun x => decide ((g.versions x).parent = o) && decide ((g.versions x).commit = c))) ∘ some)
      = fun i => (all_versions g).countP
          (fun k => decide ((g.versions k).parent = some i)
            && decide ((g.versions k).commit = c)) := rfl
  rw [e2] at hs
  rw [hs]
  apply List.countP_congr
  intro k hk
  have hpar := (wf.2.2.1 k hk).2.2
  simp only [parent_unemitted]
  cases hp : (g.versions k).parent with
  | none => simp
  | some q =>
    have hq : q ∈ all_versions g := hpar q (by rw [hp]; rfl)
    have hqD := (wf.2.2.1 q hq).1
    simp [hq, hqD]

theorem sum_count_nodup {α : Type} [DecidableEq α] (D : List α) (f : α → List α) (c : α)
    (h : ∀ d ∈ D, (f d).Nodup) :
    (D.map (fun d => (f d).count c)).sum = (D.filter (fun d => decide (c ∈ f d))).length := by
  induction D with
  | nil => rfl
  | cons d rest ih =>
    rw [List.map_cons, List.sum_cons, ih (fun x hx => h x (List.mem_cons_of_mem _ hx)),
      List.filter_cons]
    by_cases hc : c ∈ f d
    · rw [List.count_eq_one_of_mem (h d (List.mem_cons_self _ _)) hc]
      simp [hc]
      omega
    · rw [List.count_eq_zero_of_not_mem hc]
      simp [hc]

theorem wf_owned_countP {fuel : Nat} {g : database_t} (wf : well_formed fuel g) (c : cs_ref)
    (p : Nat → Bool) :
    (all_versions g).countP (fun k => p k && decide ((g.versions k).commit = c))
      = if c ∈ g.changesets ∧ (g.cs c).type = .ct_commit then (cs_versions fuel g c).countP p
        else 0 := by
  by_cases h : c ∈ g.changesets ∧ (g.cs c).type = .ct_commit
  · rw [if_pos h, (wf.2.2.2.1 c h.1 h.2).2.countP_eq, countP_filter_and]
    apply List.countP_congr
    intro k _
    simp [Bool.and_comm]
  · rw [if_neg h, List.countP_eq_zero]
    intro v hv
    simp only [Bool.and_eq_true, decide_eq_true_eq, not_and]
    intro _ e
    apply h
    rw [← e]
    exact ⟨(wf.2.2.1 v hv).1, (wf.2.2.1 v hv).2.1⟩

/-- The state after `n` iterations is the loop run from the prepared state. -/
theorem emission_run_eq {fuel : Nat} {db : database_t} {rv : Option (List Nat)}
    {r : database_t × Option (List Nat)} (hr : prepare_for_emission fuel db rv = .ok r)
    (n : Nat) :
    emission_run fuel n db rv
      = emission_loop fuel n { db := r.1, rv := r.2, emitted := [], stopped := none } := by
  have hp : prepared fuel db rv = r := by simp only [prepared, hr]
  simp only [emission_run, hp]

/-- When the releases of every changeset the scheduler can reach were counted,
those of every changeset the loop returns were. -/
theorem emission_run_accounted {fuel : Nat} {db : database_t} (wf : well_formed fuel db)
    (hrdy : db.ready_changesets = []) (hfit : counts_fit fuel db)
    (hall : ∀ c ∈ known db, accounted fuel db c) (rv : Option (List Nat)) (n : Nat) :
    ∀ e ∈ (emission_run fuel n db rv).emitted, accounted fuel db e :=
  dependency_ordered_accounted hall _ (emission_trace_ordered wf hrdy hfit rv n)

/-- The scheduler invariant, the completeness of the ready heap and the
absence of a fault after `n` iterations of the loop that follows
`prepare_for_emission`, as long as the releases of every changeset returned
were counted. -/
theorem emission_run_inv {fuel : Nat} {db : database_t} (wf : well_formed fuel db)
    (hrdy : db.ready_changesets = []) (hfit : counts_fit fuel db) (rv : Option (List Nat))
    (n : Nat) (hacc : ∀ e ∈ (emission_run fuel n db rv).emitted, accounted fuel db e) :
    sched_inv fuel db (emission_run fuel n db rv).db (emission_run fuel n db rv).emitted ∧
    complete_inv (fun c => base_count fuel db db.changesets c ≠ 0)
      (emission_run fuel n db rv).db (emission_run fuel n db rv).emitted ∧
    ((emission_run fuel n db rv).stopped = none ∨
      ((emission_run fuel n db rv).stopped = some none ∧
        (emission_run fuel n db rv).db.ready_changesets = [])) := by
  obtain ⟨r, hr⟩ := wf_prepare_returns wf hfit rv
  have hinv := sched_inv_prepare wf hrdy hfit rv r hr
  obtain ⟨-, hcomp⟩ := prepare_zero_complete hrdy hfit hr
  rw [emission_run_eq hr] at hacc ⊢
  exact emission_loop_inv wf _ n _ hinv hcomp rfl hacc

/-- C14 fails as stated.  In `tagparent_db` the changeset of tag 0 lists
commit 0 in its children array and has not been emitted after the preparation,
yet the count of commit 0 is zero.  In `tag_order_db`, after two iterations the
count of commit 2 is zero although the parent of its version is owned by
commit 1, which has not been emitted: the tag changeset returned second is not
an entry of the changeset array, so the release of commit 2 it performs was
never counted.  Both databases satisfy the data-model invariants and have all
counts zero before the preparation. -/
theorem unready_count_counterexample :
    (well_formed 1 tagparent_db ∧ fresh tagparent_db ∧
      (emission_run 1 0 tagparent_db none).emitted = [] ∧
      cs_ref.heap 0 ∈ (tagparent_db.cs (.of_tag 0)).children ∧
      ((emission_run 1 0 tagparent_db none).db.cs (.heap 0)).unready_count = 0) ∧
    (well_formed 3 tag_order_db ∧ fresh tag_order_db ∧
      (emission_run 3 2 tag_order_db none).emitted = [.heap 0, .of_tag 0] ∧
      (emission_run 3 2 tag_order_db none).stopped = none ∧
      (tag_order_db.cs (.heap 2)).type = .ct_commit ∧
      (cs_versions 3 tag_order_db (.heap 2)).countP
        (parent_unemitted tag_order_db [.heap 0, .of_tag 0]) = 1 ∧
      ((emission_run 3 2 tag_order_db none).db.cs (.heap 2)).unready_count = 0) :=
  ⟨⟨by decide, by decide, rfl, by decide, rfl⟩,
    ⟨by decide, by decide, rfl, rfl, rfl, rfl, rfl⟩⟩

/-- C14, amended: take a database that satisfies the data-model invariants,
with every count zero and nothing ready, and no count growing past `SIZE_MAX`.
Then `prepare_for_emission` returns, and after any number of iterations of the
loop `next_changeset` / `changeset_emitted` in which only changesets whose
releases were counted were returned (entries of the changeset array, and
changesets that release nothing), the count of every changeset of the array or
of a children array of it is the number of versions in its version list whose
parent is owned by a changeset not yet emitted (none for a changeset that is
not a commit of the array; a root version counts as released) plus its
occurrences in the children arrays of the changesets of the array not yet
emitted, which is the number of such changesets listing it when no children
array has a duplicate.  A commit with at least one version, all of them roots,
that no children array lists has the length of its version list as count after
the counting loop, is released that many times by the initial
`version_release` calls, and is on the ready heap with count zero after the
preparation. -/
theorem unready_count_invariant (fuel : Nat) (db : database_t) (rv : Option (List Nat))
    (wf : well_formed fuel db) (fr : fresh db) (hfit : counts_fit fuel db) :
    (∃ r, prepare_for_emission fuel db rv = .ok r) ∧
    (∃ db1, prepare_counts fuel db db.changesets = .ok db1) ∧
    (∀ n, (∀ e ∈ (emission_run fuel n db rv).emitted, accounted fuel db e) →
      ∀ c ∈ known db,
        ((emission_run fuel n db rv).db.cs c).unready_count
          = (if c ∈ db.changesets ∧ (db.cs c).type = .ct_commit then
              (cs_versions fuel db c).countP
                (parent_unemitted db (emission_run fuel n db rv).emitted)
             else 0)
            + ((db.changesets.filter
                  (fun d => decide (d ∉ (emission_run fuel n db rv).emitted))).map
                (fun d => (db.cs d).children.count c)).sum) ∧
    ((∀ d ∈ db.changesets, (db.cs d).children.Nodup) →
      ∀ n, (∀ e ∈ (emission_run fuel n db rv).emitted, accounted fuel db e) →
        ∀ c ∈ known db,
          ((emission_run fuel n db rv).db.cs c).unready_count
            = (if c ∈ db.changesets ∧ (db.cs c).type = .ct_commit then
                (cs_versions fuel db c).countP
                  (parent_unemitted db (emission_run fuel n db rv).emitted)
               else 0)
              + ((db.changesets.filter
                  (fun d => decide (d ∉ (emission_run fuel n db rv).emitted))).filter
                    (fun d => decide (c ∈ (db.cs d).children))).length) ∧
    (∀ c ∈ db.changesets, (db.cs c).type = .ct_commit → cs_versions fuel db c ≠ [] →
      (∀ v ∈ cs_versions fuel db c, (db.versions v).parent = none) →
      (∀ d ∈ db.changesets, c ∉ (db.cs d).children) →
      ((counted fuel db).cs c).unready_count = (cs_versions fuel db c).length ∧
      (root_targets db).count c = (cs_versions fuel db c).length ∧
      (((prepared fuel db rv).1).cs c).unready_count = 0 ∧
      c ∈ ((prepared fuel db rv).1).ready_changesets) := by
  obtain ⟨r, hr⟩ := wf_prepare_returns wf hfit rv
  obtain ⟨db1, hdb1, hraised, -⟩ := prepare_for_emission_ok fuel db rv r hr
  have hp : prepared fuel db rv = r := by simp only [prepared, hr]
  have hcd : counted fuel db = db1 := by simp only [counted, hdb1]
  have hinv := sched_inv_prepare wf fr.1 hfit rv r hr
  obtain ⟨-, hcomp⟩ := prepare_zero_complete fr.1 hfit hr
  have main : ∀ n, (∀ e ∈ (emission_run fuel n db rv).emitted, accounted fuel db e) →
      ∀ c ∈ known db,
      ((emission_run fuel n db rv).db.cs c).unready_count
        = (if c ∈ db.changesets ∧ (db.cs c).type = .ct_commit then
            (cs_versions fuel db c).countP (parent_unemitted db (emission_run fuel n db rv).emitted)
           else 0)
          + ((db.changesets.filter
                (fun d => decide (d ∉ (emission_run fuel n db rv).emitted))).map
              (fun d => (db.cs d).children.count c)).sum := by
    intro n hacc c hc
    have h1 := (emission_run_inv wf fr.1 hfit rv n hacc).1
    rw [h1.2.2.2.2 c, fr.2 c hc, Nat.zero_add, wf_pending_eq wf, wf_owned_countP wf]
  refine ⟨⟨r, hr⟩, ⟨db1, hdb1⟩, main, ?_, ?_⟩
  · intro hnd n hacc c hc
    rw [main n hacc c hc, sum_count_nodup _ (fun d => (db.cs d).children) c
      (fun d hd => hnd d (List.mem_filter.mp hd).1)]
  · intro c hc ht hne hroot hnoc
    have hlen : (root_targets db).count c = (cs_versions fuel db c).length := by
      rw [root_targets_count, wf_owned_countP wf, if_pos ⟨hc, ht⟩, List.countP_eq_length]
      intro v hv
      rw [hroot v hv]
      rfl
    have hpend : pending fuel db [] c = 0 := by
      rw [wf_pending_eq wf, wf_owned_countP wf, if_pos ⟨hc, ht⟩]
      have e1 : (cs_versions fuel db c).countP (parent_unemitted db []) = 0 := by
        rw [List.countP_eq_zero]
        intro v hv
        simp only [parent_unemitted, hroot v hv]
        simp
      have e2 : ((db.changesets.filter (fun d => decide (d ∉ ([] : List cs_ref)))).map
          (fun d => (db.cs d).children.count c)).sum = 0 := by
        apply List.sum_eq_zero
        intro x hx
        rw [List.mem_map] at hx
        obtain ⟨d, hd, rfl⟩ := hx
        exact List.count_eq_zero_of_not_mem (hnoc d (List.mem_filter.mp hd).1)
      rw [e1, e2]
    have hbase : base_count fuel db db.changesets c = (cs_versions fuel db c).length := by
      rw [wf_base_count wf, hlen, hpend]
      rfl
    have hpos : (cs_versions fuel db c).length ≠ 0 := by
      intro h0
      exact hne (List.length_eq_zero.mp h0)
    have hck : c ∈ known db := mem_known_of_mem hc
    have h0 : (r.1.cs c).unready_count = 0 := by
      rw [hinv.2.2.2.2 c, hpend, fr.2 c hck]
    refine ⟨?_, hlen, ?_, ?_⟩
    · rw [hcd, raised_count hraised c (hfit c hck), fr.2 c hck, hbase]
      omega
    · rw [hp]; exact h0
    · rw [hp]
      have hM : base_count fuel db db.changesets c ≠ 0 := by rw [hbase]; exact hpos
      rcases hcomp c hM h0 with h | h
      · exact h
      · exact absurd h (List.not_mem_nil c)

/-- Witness for the amended C14: in `leaf_tag_db` the tag changeset that
commit 0 lists has count 1 after the preparation; and the two-file
simultaneous commit of `two_file_db`. -/
theorem unready_count_invariant_witness :
    (well_formed 1 leaf_tag_db ∧ fresh leaf_tag_db ∧ counts_fit 1 leaf_tag_db ∧
      ((emission_run 1 0 leaf_tag_db none).db.cs (.of_tag 0)).unready_count = 0 + 1) ∧
    (well_formed 2 two_file_db ∧ fresh two_file_db ∧ counts_fit 2 two_file_db ∧
      ((counted 2 two_file_db).cs (.heap 0)).unready_count = 2 ∧
      (root_targets two_file_db).count (.heap 0) = 2 ∧
      (((prepared 2 two_file_db none).1).cs (.heap 0)).unready_count = 0 ∧
      cs_ref.heap 0 ∈ ((prepared 2 two_file_db none).1).ready_changesets) :=
  ⟨⟨by decide, by decide, by decide,
    (unready_count_invariant 1 leaf_tag_db none (by decide) (by decide) (by decide)).2.2.1 0
      (by decide) (.of_tag 0) (by decide)⟩,
   ⟨by decide, by decide, by decide,
    (unready_count_invariant 2 two_file_db none (by decide) (by decide) (by decide)).2.2.2.2
      (.heap 0) (by decide) rfl (by decide) (by decide) (by decide)⟩⟩

/-- C16 fails as stated: `tag_edge_db` meets the listed conditions (every
version once in the version list of its commit, no parents, all counts zero),
but commit 0 releases the changeset of tag 0, whose own children array was not
counted because the tag changeset is not an entry of the changeset array; when
that tag changeset is emitted it releases commit 1, whose count is zero, and
the assertion of `changeset_release` fails. -/
theorem release_underflow_counterexample :
    listed_once 1 tag_edge_db ∧ child_listed 1 tag_edge_db ∧
    (∀ c, (tag_edge_db.cs c).unready_count = 0) ∧ tag_edge_db.ready_changesets = [] ∧
    (∃ r, prepare_for_emission 1 tag_edge_db none = .ok r) ∧
    (emission_run 1 2 tag_edge_db none).emitted = [.heap 0, .of_tag 0] ∧
    (emission_run 1 2 tag_edge_db none).stopped = some (some .assertion) := by
  refine ⟨by decide, by decide, ?_, rfl, ⟨_, rfl⟩, rfl, rfl⟩
  intro c
  cases c with
  | heap n =>
    cases n with
    | zero => rfl
    | succ m => rfl
  | of_tag t => rfl

/-- C16, amended: on a database that satisfies the data-model invariants, with
every count zero and nothing ready and no count growing past `SIZE_MAX`,
`prepare_for_emission` returns, and the loop `next_changeset` /
`changeset_emitted` does not end in a fault as long as only changesets whose
releases were counted are returned (entries of the changeset array, and
changesets that release nothing): after any number of such iterations the
loop is still running or has stopped on the null result, so the assertion of
`changeset_release` never failed.  When every entry of a children array of the
changeset array is such a changeset, no iteration ever ends in a fault. -/
theorem release_never_underflows (fuel : Nat) (db : database_t) (rv : Option (List Nat))
    (wf : well_formed fuel db) (fr : fresh db) (hfit : counts_fit fuel db) :
    (∃ r, prepare_for_emission fuel db rv = .ok r) ∧
    (∀ n, (∀ e ∈ (emission_run fuel n db rv).emitted, accounted fuel db e) →
      (emission_run fuel n db rv).stopped = none ∨
        (emission_run fuel n db rv).stopped = some none) ∧
    ((∀ c ∈ known db, accounted fuel db c) →
      ∀ n, (emission_run fuel n db rv).stopped = none ∨
        (emission_run fuel n db rv).stopped = some none) := by
  have key : ∀ n, (∀ e ∈ (emission_run fuel n db rv).emitted, accounted fuel db e) →
      (emission_run fuel n db rv).stopped = none ∨
        (emission_run fuel n db rv).stopped = some none := by
    intro n hacc
    rcases (emission_run_inv wf fr.1 hfit rv n hacc).2.2 with h | h
    · exact Or.inl h
    · exact Or.inr h.1
  exact ⟨wf_prepare_returns wf hfit rv, key,
    fun hall n => key n (emission_run_accounted wf fr.1 hfit hall rv n)⟩

/-- Witness for the amended C16: the loop on `leaf_tag_db` returns commit 0 and
the tag changeset it lists, and stops on the null result. -/
theorem release_never_underflows_witness :
    well_formed 1 leaf_tag_db ∧ fresh leaf_tag_db ∧ counts_fit 1 leaf_tag_db ∧
    (∀ c ∈ known leaf_tag_db, accounted 1 leaf_tag_db c) ∧
    (emission_run 1 3 leaf_tag_db none).emitted = [.heap 0, .of_tag 0] ∧
    (emission_run 1 3 leaf_tag_db none).stopped = some none ∧
    ((emission_run 1 3 leaf_tag_db none).stopped = none ∨
      (emission_run 1 3 leaf_tag_db none).stopped = some none) :=
  ⟨by decide, by decide, by decide, by decide, rfl, rfl,
    (release_never_underflows 1 leaf_tag_db none (by decide) (by decide) (by decide)).2.2
      (by decide) 3⟩

/-! ## cycle_split: what it leaves alone -/

theorem same_sched_refl (a : database_t) : same_sched a a :=
  ⟨fun _ => rfl, fun _ => rfl, fun _ => rfl, rfl, rfl, rfl⟩

theorem same_sched_trans {a b c : database_t} (h1 : same_sched a b) (h2 : same_sched b c) :
    same_sched a c :=
  ⟨fun x => (h1.1 x).trans (h2.1 x), fun x => (h1.2.1 x).trans (h2.2.1 x),
    fun x => (h1.2.2.1 x).trans (h2.2.2.1 x), h1.2.2.2.1.trans h2.2.2.2.1,
    h1.2.2.2.2.1.trans h2.2.2.2.2.1, h1.2.2.2.2.2.trans h2.2.2.2.2.2⟩

theorem cs_with_versions (db : database_t) (vs : Nat → version_t) (c : cs_ref) :
    ({ db with versions := vs } : database_t).cs c = db.cs c := by
  cases c <;> rfl

theorem set_cs_ready (db : database_t) (p : cs_ref) (c : changeset_t) :
    (db.set_cs p c).ready_changesets = db.ready_changesets := by cases p <;> rfl

theorem set_cs_cs_alloc (db : database_t) (p : cs_ref) (c : changeset_t) :
    (db.set_cs p c).cs_alloc = db.cs_alloc := by cases p <;> rfl

theorem same_sched_with_versions (db : database_t) (vs : Nat → version_t) :
    same_sched ({ db with versions := vs } : database_t) db :=
  ⟨fun c => by rw [cs_with_versions], fun c => by rw [cs_with_versions],
    fun c => by rw [cs_with_versions], rfl, rfl, rfl⟩

theorem same_sched_store_slot (db : database_t) (slot : version_slot) (val : Option Nat) :
    same_sched (db.store_slot slot val) db := by
  cases slot with
  | next v => exact same_sched_with_versions db _
  | head c =>
    simp only [database_t.store_slot]
    refine ⟨?_, ?_, ?_, set_cs_ready _ _ _, set_cs_cs_alloc _ _ _, set_cs_files _ _ _⟩ <;>
    · intro d
      rw [cs_set_cs]
      split_ifs with h
      · rw [h]
      · rfl

theorem cycle_split_loop_same_sched (nw : cs_ref) (n : Nat) :
    ∀ (db : database_t) (cs_v new_v : version_slot) (cur : Option Nat)
      (r : database_t × version_slot × version_slot),
      cycle_split_loop nw db cs_v new_v n cur = .ok r → same_sched r.1 db := by
  induction n with
  | zero =>
    intro db cs_v new_v cur r h
    cases cur with
    | none =>
      simp only [cycle_split_loop] at h
      injection h with h
      subst h
      exact same_sched_refl db
    | some v => simp [cycle_split_loop] at h
  | succ n ih =>
    intro db cs_v new_v cur r h
    cases cur with
    | none =>
      simp only [cycle_split_loop] at h
      injection h with h
      subst h
      exact same_sched_refl db
    | some v =>
      simp only [cycle_split_loop] at h
      split_ifs at h with h1 h2
      · exact same_sched_trans (ih _ _ _ _ r h) (same_sched_store_slot db cs_v (some v))
      · exact same_sched_trans (ih _ _ _ _ r h)
          (same_sched_trans (same_sched_store_slot _ new_v (some v))
            (same_sched_with_versions db _))

theorem split_start_cs (db : database_t) (cs c : cs_ref) :
    (split_start db cs).cs c =
      if c = .heap db.cs_alloc then
        { type := .ct_commit, time := if cs = .heap db.cs_alloc then 0 else (db.cs cs).time,
          unready_count := 0, versions := none, parent := none, children := [] }
      else db.cs c := by
  simp only [split_start, database_new_changeset, cs_set_cs]
  by_cases hc : c = .heap db.cs_alloc
  · simp only [hc, if_true]
    by_cases hcs : cs = .heap db.cs_alloc
    · simp [hcs, database_t.cs, upd]
    · simp [hcs, database_t.cs, upd]
      cases cs with
      | heap n =>
        have : n ≠ db.cs_alloc := fun e => hcs (by rw [e])
        simp [this]
      | of_tag t => rfl
  · simp only [hc, if_false]
    cases c with
    | heap n =>
      have : n ≠ db.cs_alloc := fun e => hc (by rw [e])
      simp [database_t.cs, upd, this]
    | of_tag t => rfl

theorem split_start_fields (db : database_t) (cs : cs_ref) :
    (split_start db cs).versions = db.versions ∧ (split_start db cs).files = db.files ∧
    (split_start db cs).ready_changesets = db.ready_changesets ∧
    (split_start db cs).cs_alloc = db.cs_alloc + 1 :=
  ⟨rfl, rfl, rfl, rfl⟩

/-- What a returning `cycle_split` does to the scheduler state: the new
changeset is the next arena slot, has count zero, type commit and the time of
`cs`, and is inserted into the ready heap; nothing else changes. -/
theorem cycle_split_sched (fuel : Nat) (db : database_t) (cs nw : cs_ref) (r : database_t)
    (h : cycle_split fuel db cs = .ok (nw, r)) :
    nw = .heap db.cs_alloc ∧ r.cs_alloc = db.cs_alloc + 1 ∧ r.files = db.files ∧
    r.ready_changesets = heap_insert (fun c => (r.cs c).time) db.ready_changesets nw ∧
    (r.cs nw).unready_count = 0 ∧ (r.cs nw).type = .ct_commit ∧
    (cs ≠ nw → (r.cs nw).time = (db.cs cs).time) ∧
    ∀ c, c ≠ nw → (r.cs c).unready_count = (db.cs c).unready_count ∧
      (r.cs c).time = (db.cs c).time ∧ (r.cs c).type = (db.cs c).type := by
  have hdef : cycle_split fuel db cs =
      match cycle_split_loop (.heap db.cs_alloc) (split_start db cs) (.head cs)
          (.head (.heap db.cs_alloc)) fuel ((split_start db cs).cs cs).versions with
      | .error e => .error e
      | .ok (db3, cs_v, new_v) =>
          if (((db3.store_slot cs_v none).store_slot new_v none).cs cs).versions.isNone then
            .error .assertion
          else if (((db3.store_slot cs_v none).store_slot new_v none).cs
              (.heap db.cs_alloc)).versions.isNone then .error .assertion
          else
            .ok (.heap db.cs_alloc,
              { ((db3.store_slot cs_v none).store_slot new_v none) with
                ready_changesets :=
                  heap_insert
                    (fun c => (((db3.store_slot cs_v none).store_slot new_v none).cs c).time)
                    ((db3.store_slot cs_v none).store_slot new_v none).ready_changesets
                    (.heap db.cs_alloc) }) := rfl
  rw [hdef] at h
  cases hl : cycle_split_loop (.heap db.cs_alloc) (split_start db cs) (.head cs)
      (.head (.heap db.cs_alloc)) fuel ((split_start db cs).cs cs).versions with
  | error e => rw [hl] at h; cases h
  | ok res =>
    obtain ⟨db3, cs_v, new_v⟩ := res
    rw [hl] at h
    simp only at h
    split_ifs at h
    injection h with h
    simp only [Prod.mk.injEq] at h
    obtain ⟨hnw, hr⟩ := h
    have hs : same_sched ((db3.store_slot cs_v none).store_slot new_v none)
        (split_start db cs) :=
      same_sched_trans (same_sched_store_slot _ _ _)
        (same_sched_trans (same_sched_store_slot _ _ _)
          (cycle_split_loop_same_sched _ _ _ _ _ _ _ hl))
    have hcs : ∀ c, r.cs c = ((db3.store_slot cs_v none).store_slot new_v none).cs c := by
      intro c; rw [← hr]; exact cs_with_ready _ _ c
    subst hnw
    refine ⟨rfl, ?_, ?_, ?_, ?_, ?_, ?_, ?_⟩
    · rw [← hr]
      exact hs.2.2.2.2.1
    · rw [← hr]
      exact hs.2.2.2.2.2
    · have e : (fun c => (r.cs c).time)
          = fun c => (((db3.store_slot cs_v none).store_slot new_v none).cs c).time := by
        funext c; rw [hcs]
      rw [e, ← hr]
      show heap_insert _ ((db3.store_slot cs_v none).store_slot new_v none).ready_changesets _ = _
      rw [hs.2.2.2.1]
      rfl
    · rw [hcs, hs.1, split_start_cs, if_pos rfl]
    · rw [hcs, hs.2.2.1, split_start_cs, if_pos rfl]
    · intro hne
      rw [hcs, hs.2.1, split_start_cs, if_pos rfl]
      show (if cs = .heap db.cs_alloc then 0 else (db.cs cs).time) = _
      rw [if_neg hne]
    · intro c hc
      rw [hcs, hs.1, hs.2.1, hs.2.2.1, split_start_cs, if_neg hc]
      exact ⟨rfl, rfl, rfl⟩

/-! ## The emission operations keep count zero and the ready heap together -/

theorem complete_inv_congr {M N : cs_ref → Prop} {s : database_t} {E : List cs_ref}
    (h : ∀ c, N c → M c) (hi : complete_inv M s E) : complete_inv N s E :=
  fun c hN h0 => hi c (h c hN) h0

theorem marked_of_cs_alloc {fuel : Nat} {g : database_t} {a0 : Nat} {s s' : database_t}
    (h : s'.cs_alloc = s.cs_alloc) (c : cs_ref) (hm : marked fuel g a0 s' c) :
    marked fuel g a0 s c := by
  simp only [marked] at hm ⊢
  rw [h] at hm
  exact hm

theorem zero_inv_pop {s : database_t} {E : List cs_ref} (hi : zero_inv s E) :
    zero_inv { s with ready_changesets := (heap_pop s.ready_changesets).2 }
      (E ++ (heap_pop s.ready_changesets).1.toList) := by
  intro c hc
  rw [cs_with_ready]
  apply hi
  simp only [heap_pop] at hc
  cases hr : s.ready_changesets with
  | nil =>
    rw [hr] at hc
    simpa using hc
  | cons x rest =>
    rw [hr] at hc
    simp only [List.tail_cons, List.head?_cons, Option.toList_some, List.mem_append,
      List.mem_singleton] at hc
    rcases hc with hc | hc | hc
    · exact Or.inl (List.mem_cons_of_mem _ hc)
    · exact Or.inr hc
    · left; rw [hc]; exact List.mem_cons_self _ _

theorem complete_inv_pop {M : cs_ref → Prop} {s : database_t} {E : List cs_ref}
    (hi : complete_inv M s E) :
    complete_inv M { s with ready_changesets := (heap_pop s.ready_changesets).2 }
      (E ++ (heap_pop s.ready_changesets).1.toList) := by
  intro c hM hc
  rw [cs_with_ready] at hc
  simp only [heap_pop]
  rcases hi c hM hc with h | h
  · cases hr : s.ready_changesets with
    | nil => rw [hr] at h; cases h
    | cons x rest =>
      rw [hr, List.mem_cons] at h
      simp only [List.tail_cons, List.head?_cons, Option.toList_some, List.mem_append,
        List.mem_singleton]
      rcases h with h | h
      · exact Or.inr (Or.inr h)
      · exact Or.inl h
  · right
    exact List.mem_append_left _ h

theorem next_changeset_eq_pop (s : database_t) :
    (next_changeset s).1 = (heap_pop s.ready_changesets).1 ∧
    (next_changeset s).2 = { s with ready_changesets := (heap_pop s.ready_changesets).2 } := by
  simp only [next_changeset, heap_empty, heap_pop]
  cases hr : s.ready_changesets with
  | nil =>
    simp only [List.isEmpty_nil, if_true, List.head?_nil, List.tail_nil, true_and]
    rw [← hr]
  | cons x rest => simp

theorem zero_inv_split {fuel : Nat} {db r : database_t} {cs nw : cs_ref} {E : List cs_ref}
    (hi : zero_inv db E) (h : cycle_split fuel db cs = .ok (nw, r)) : zero_inv r E := by
  obtain ⟨-, -, -, hrdy, h0, -, -, hfr⟩ := cycle_split_sched fuel db cs nw r h
  intro c hc
  by_cases hcn : c = nw
  · rw [hcn]; exact h0
  · rw [(hfr c hcn).1]
    apply hi
    rcases hc with hc | hc
    · rw [hrdy, mem_heap_insert] at hc
      rcases hc with hc | hc
      · exact absurd hc hcn
      · exact Or.inl hc
    · exact Or.inr hc

theorem complete_inv_split {fuel fuel' : Nat} {g : database_t} {a0 : Nat} {db r : database_t}
    {cs nw : cs_ref} {E : List cs_ref} (hi : complete_inv (marked fuel' g a0 db) db E)
    (h : cycle_split fuel db cs = .ok (nw, r)) : complete_inv (marked fuel' g a0 r) r E := by
  obtain ⟨hnw, hal, -, hrdy, h0, -, -, hfr⟩ := cycle_split_sched fuel db cs nw r h
  intro c hM hc
  by_cases hcn : c = nw
  · left
    rw [hrdy, mem_heap_insert]
    exact Or.inl hcn
  · rw [(hfr c hcn).1] at hc
    have hM' : marked fuel' g a0 db c := by
      rcases hM with hM | ⟨n, hn, h1, h2⟩
      · exact Or.inl hM
      · right
        refine ⟨n, hn, h1, ?_⟩
        rw [hal] at h2
        have : n ≠ db.cs_alloc := by
          intro e
          apply hcn
          rw [hn, hnw, e]
        omega
    rcases hi c hM' hc with h1 | h1
    · left
      rw [hrdy, mem_heap_insert]
      exact Or.inr h1
    · exact Or.inr h1

/-- The result of `next_changeset_split` is a pop, preceded by a cycle split
when a split was needed. -/
theorem next_changeset_split_cases (fuel : Nat) (db : database_t) (rv : List Nat)
    (r : Option cs_ref × database_t) (h : next_changeset_split fuel db rv = .ok r) :
    r = (none, db) ∨
    ∃ db1, (db1 = db ∨ ∃ cs nw, cycle_split fuel db cs = .ok (nw, db1)) ∧
      r = ((heap_pop db1.ready_changesets).1,
           { db1 with ready_changesets := (heap_pop db1.ready_changesets).2 }) := by
  simp only [next_changeset_split] at h
  split_ifs at h with h1 h2
  · left
    injection h with h
    exact h.symm
  · right
    cases hf : heap_front rv with
    | none => rw [hf] at h; cases h
    | some front =>
      rw [hf] at h
      simp only at h
      cases hl : cycle_find_loop fuel db fuel front front with
      | error e => rw [hl] at h; cases h
      | ok x =>
        rw [hl] at h
        simp only at h
        cases hc : cycle_find fuel db front with
        | error e => rw [hc] at h; cases h
        | ok w =>
          rw [hc] at h
          simp only at h
          cases hs : cycle_split fuel db (db.versions w).commit with
          | error e => rw [hs] at h; cases h
          | ok res =>
            rw [hs] at h
            simp only at h
            split_ifs at h
            injection h with h
            exact ⟨res.2, Or.inr ⟨_, res.1, hs⟩, h.symm⟩
  · right
    injection h with h
    exact ⟨db, Or.inl rfl, h.symm⟩

theorem op_inv_step {fuel : Nat} {g : database_t} {a0 : Nat} {s s' : emission_state}
    (hi : op_inv fuel g a0 s) (op : emission_op) (h : apply_op fuel s op = some s') :
    op_inv fuel g a0 s' := by
  obtain ⟨hz, hc, ha⟩ := hi
  cases op with
  | release cs =>
    simp only [apply_op] at h
    cases hr : changeset_release s.db cs with
    | error e => rw [hr] at h; cases h
    | ok d =>
      rw [hr] at h
      injection h with h
      subst h
      have hal := changeset_release_cs_alloc _ _ _ hr
      refine ⟨zero_inv_release hz hr, ?_, by show a0 ≤ d.cs_alloc; rw [hal]; exact ha⟩
      exact complete_inv_congr (marked_of_cs_alloc hal) (complete_inv_release hc hr)
  | release_version v =>
    simp only [apply_op] at h
    cases hr : version_release s.db s.rv v with
    | error e => rw [hr] at h; cases h
    | ok r =>
      rw [hr] at h
      injection h with h
      subst h
      have hal := version_release_cs_alloc hr
      refine ⟨zero_inv_version_release hz hr, ?_, by show a0 ≤ r.1.cs_alloc; rw [hal]; exact ha⟩
      exact complete_inv_congr (marked_of_cs_alloc hal) (complete_inv_version_release hc hr)
  | emitted cs =>
    simp only [apply_op] at h
    cases hr : changeset_emitted fuel s.db s.rv cs with
    | error e => rw [hr] at h; cases h
    | ok r =>
      rw [hr] at h
      injection h with h
      subst h
      have hal := changeset_emitted_cs_alloc hr
      refine ⟨zero_inv_emitted hz hr, ?_, by show a0 ≤ r.1.cs_alloc; rw [hal]; exact ha⟩
      exact complete_inv_congr (marked_of_cs_alloc hal) (complete_inv_emitted hc hr)
  | next =>
    simp only [apply_op] at h
    injection h with h
    subst h
    obtain ⟨e1, e2⟩ := next_changeset_eq_pop s.db
    show zero_inv (next_changeset s.db).2 (s.emitted ++ (next_changeset s.db).1.toList) ∧
      complete_inv (marked fuel g a0 (next_changeset s.db).2) (next_changeset s.db).2
        (s.emitted ++ (next_changeset s.db).1.toList) ∧ a0 ≤ (next_changeset s.db).2.cs_alloc
    rw [e1, e2]
    exact ⟨zero_inv_pop hz, complete_inv_pop hc, ha⟩
  | next_split =>
    simp only [apply_op] at h
    cases hrv : s.rv with
    | none => rw [hrv] at h; cases h
    | some hp =>
      rw [hrv] at h
      simp only at h
      cases hr : next_changeset_split fuel s.db hp with
      | error e => rw [hr] at h; cases h
      | ok r =>
        rw [hr] at h
        injection h with h
        subst h
        show zero_inv r.2 (s.emitted ++ r.1.toList) ∧
          complete_inv (marked fuel g a0 r.2) r.2 (s.emitted ++ r.1.toList) ∧ a0 ≤ r.2.cs_alloc
        rcases next_changeset_split_cases fuel s.db hp r hr with h1 | ⟨db1, hdb1, h1⟩
        · rw [h1]
          simp only [Option.toList_none, List.append_nil]
          exact ⟨hz, hc, ha⟩
        · rw [h1]
          rcases hdb1 with hdb1 | ⟨cs, nw, hsp⟩
          · rw [hdb1]
            exact ⟨zero_inv_pop hz, complete_inv_pop hc, ha⟩
          · have hal := (cycle_split_sched fuel s.db cs nw db1 hsp).2.1
            refine ⟨zero_inv_pop (zero_inv_split hz hsp),
              complete_inv_pop (complete_inv_split hc hsp), ?_⟩
            show a0 ≤ db1.cs_alloc
            omega

theorem op_inv_run {fuel : Nat} {g : database_t} {a0 : Nat} (ops : List emission_op) :
    ∀ (s s' : emission_state), op_inv fuel g a0 s → run_ops fuel s ops = some s' →
      op_inv fuel g a0 s' := by
  induction ops with
  | nil =>
    intro s s' hi h
    simp only [run_ops] at h
    injection h with h
    subst h
    exact hi
  | cons op rest ih =>
    intro s s' hi h
    simp only [run_ops] at h
    cases ha : apply_op fuel s op with
    | none => rw [ha] at h; cases h
    | some s1 =>
      rw [ha] at h
      exact ih s1 s' (op_inv_step hi op ha) h

/-- C15 fails as stated.  In `lone_tag_db` the changeset of tag 0 waits for
nothing, so after `prepare_for_emission` (a state reached with no further
operation) its count is zero although it is neither on the ready heap nor
emitted; nothing ever releases it.  In `wrap_db` the count of commit 1 is
`SIZE_MAX` before the preparation; the counting loop raises it once for its
version, which wraps it around to zero, and the commit is neither on the ready
heap nor emitted although the parent of its version was not released. -/
theorem count_zero_counterexample :
    (lone_tag_db.ready_changesets = [] ∧
      ∃ r, prepare_for_emission 2 lone_tag_db none = .ok r ∧
        run_ops 2 { db := r.1, rv := r.2, emitted := [], stopped := none } []
          = some { db := r.1, rv := r.2, emitted := [], stopped := none } ∧
        (r.1.cs (.of_tag 0)).unready_count = 0 ∧
        cs_ref.of_tag 0 ∉ r.1.ready_changesets) ∧
    (wrap_db.ready_changesets = [] ∧ well_formed 2 wrap_db ∧
      (wrap_db.cs (.heap 1)).unready_count = SIZE_MAX ∧
      base_count 2 wrap_db wrap_db.changesets (.heap 1) = 1 ∧
      ∃ r, prepare_for_emission 2 wrap_db none = .ok r ∧
        run_ops 2 { db := r.1, rv := r.2, emitted := [], stopped := none } []
          = some { db := r.1, rv := r.2, emitted := [], stopped := none } ∧
        (r.1.cs (.heap 1)).unready_count = 0 ∧
        cs_ref.heap 1 ∉ r.1.ready_changesets) :=
  ⟨⟨rfl, _, rfl, rfl, rfl, by decide⟩,
    ⟨rfl, by decide, rfl, by decide, _, rfl, rfl, by decide, by decide⟩⟩

/-- C15, amended: start from a database with an empty ready heap in which no
count grows past `SIZE_MAX` in the counting loop, run `prepare_for_emission`
and then any sequence of `changeset_release`, `version_release`,
`changeset_emitted`, `next_changeset` and `next_changeset_split` calls that
return.  In the state reached, every changeset on the ready heap or already
returned by `next_changeset` / `next_changeset_split` has count zero; and for
every changeset that something releases (the counting loop of the preparation
raised its count: a commit of the changeset array with a version, or an entry
of a children array of the changeset array) or that a cycle split created
after the preparation, the count is zero if and only if the changeset is on
the ready heap or was returned. -/
theorem count_zero_iff_ready_or_emitted (fuel : Nat) (db : database_t) (rv : Option (List Nat))
    (r : database_t × Option (List Nat)) (h0 : db.ready_changesets = [])
    (hfit : counts_fit fuel db)
    (hr : prepare_for_emission fuel db rv = .ok r) (ops : List emission_op)
    (s : emission_state)
    (hs : run_ops fuel { db := r.1, rv := r.2, emitted := [], stopped := none } ops = some s) :
    (∀ c, c ∈ s.db.ready_changesets ∨ c ∈ s.emitted → (s.db.cs c).unready_count = 0) ∧
    ∀ c, marked fuel db r.1.cs_alloc s.db c →
      ((s.db.cs c).unready_count = 0 ↔ c ∈ s.db.ready_changesets ∨ c ∈ s.emitted) := by
  obtain ⟨hz, hc⟩ := prepare_zero_complete h0 hfit hr
  have hi : op_inv fuel db r.1.cs_alloc
      { db := r.1, rv := r.2, emitted := [], stopped := none } := by
    refine ⟨hz, ?_, le_refl _⟩
    apply complete_inv_congr _ hc
    intro c hm
    rcases hm with hm | ⟨n, -, h1, h2⟩
    · exact hm
    · have h3 : n < r.1.cs_alloc := h2
      omega
  obtain ⟨hz', hc', -⟩ := op_inv_run ops _ s hi hs
  exact ⟨hz', fun c hm => ⟨hc' c hm, hz' c⟩⟩

/-- Witness for the amended C15: `cycle_db` is emitted with one cycle split;
the changeset created by the split (arena slot 2) has count zero and was
returned, and commit 0 was returned after its count reached zero. -/
theorem count_zero_iff_ready_or_emitted_witness :
    cycle_db.ready_changesets = [] ∧ counts_fit 4 cycle_db ∧
    prepare_for_emission 4 cycle_db (some []) = .ok (prepared 4 cycle_db (some [])) ∧
    run_ops 4 { db := (prepared 4 cycle_db (some [])).1, rv := (prepared 4 cycle_db (some [])).2,
                emitted := [], stopped := none } cycle_ops
      = some (run_state 4 cycle_db (some []) cycle_ops) ∧
    (run_state 4 cycle_db (some []) cycle_ops).emitted = [.heap 2, .heap 1, .heap 0] ∧
    (((run_state 4 cycle_db (some []) cycle_ops).db.cs (.heap 2)).unready_count = 0 ↔
      cs_ref.heap 2 ∈ (run_state 4 cycle_db (some []) cycle_ops).db.ready_changesets ∨
      cs_ref.heap 2 ∈ (run_state 4 cycle_db (some []) cycle_ops).emitted) :=
  ⟨rfl, by decide, rfl, rfl, rfl,
    (count_zero_iff_ready_or_emitted 4 cycle_db (some []) (prepared 4 cycle_db (some [])) rfl
      (by decide) rfl cycle_ops (run_state 4 cycle_db (some []) cycle_ops) rfl).2 (.heap 2)
      (Or.inr ⟨2, rfl, by decide, by decide⟩)⟩

/-! ## Pointer chains and slots -/

theorem is_chain_of_chain (next : Nat → Option Nat) (n : Nat) :
    ∀ (s : Option Nat) (L : List Nat), chain next n s = some L → is_chain next s L := by
  induction n with
  | zero =>
    intro s L h
    cases s with
    | none =>
      rw [chain_none] at h
      injection h with h
      subst h
      rfl
    | some v => cases h
  | succ n ih =>
    intro s L h
    cases s with
    | none =>
      rw [chain_none] at h
      injection h with h
      subst h
      rfl
    | some v =>
      rw [chain_succ_some] at h
      cases hc : chain next n (next v) with
      | none => rw [hc] at h; cases h
      | some L1 =>
        rw [hc] at h
        injection h with h
        subst h
        exact ⟨rfl, ih _ _ hc⟩

theorem chain_of_is_chain (next : Nat → Option Nat) :
    ∀ (L : List Nat) (s : Option Nat) (n : Nat), is_chain next s L → L.length ≤ n →
      chain next n s = some L := by
  intro L
  induction L with
  | nil =>
    intro s n h _
    have h1 : s = none := h
    rw [h1, chain_none]
  | cons v rest ih =>
    intro s n h hn
    obtain ⟨h1, h2⟩ := h
    cases n with
    | zero => simp at hn
    | succ n =>
      rw [h1, chain_succ_some, ih _ n h2 (by simpa using hn)]
      rfl

theorem chain_length_le (next : Nat → Option Nat) (n : Nat) :
    ∀ (s : Option Nat) (L : List Nat), chain next n s = some L → L.length ≤ n := by
  induction n with
  | zero =>
    intro s L h
    cases s with
    | none =>
      rw [chain_none] at h
      injection h with h
      subst h
      simp
    | some v => cases h
  | succ n ih =>
    intro s L h
    cases s with
    | none =>
      rw [chain_none] at h
      injection h with h
      subst h
      simp
    | some v =>
      rw [chain_succ_some] at h
      cases hc : chain next n (next v) with
      | none => rw [hc] at h; cases h
      | some L1 =>
        rw [hc] at h
        injection h with h
        subst h
        have := ih _ _ hc
        simp only [List.length_cons]
        omega

theorem is_chain_det (next : Nat → Option Nat) :
    ∀ (L L' : List Nat) (s : Option Nat), is_chain next s L → is_chain next s L' → L = L' := by
  intro L
  induction L with
  | nil =>
    intro L' s h h'
    have h1 : s = none := h
    cases L' with
    | nil => rfl
    | cons v rest =>
      have h2 : s = some v := h'.1
      rw [h1] at h2
      cases h2
  | cons v rest ih =>
    intro L' s h h'
    obtain ⟨h1, h2⟩ := h
    cases L' with
    | nil =>
      have h3 : s = none := h'
      rw [h1] at h3
      cases h3
    | cons w rest' =>
      obtain ⟨h3, h4⟩ := h'
      rw [h1] at h3
      injection h3 with h3
      subst h3
      rw [ih rest' _ h2 h4]

theorem is_chain_suffix (next : Nat → Option Nat) :
    ∀ (p : List Nat) (s : Option Nat) (v : Nat) (q : List Nat),
      is_chain next s (p ++ v :: q) → is_chain next (some v) (v :: q) := by
  intro p
  induction p with
  | nil =>
    intro s v q h
    exact ⟨rfl, h.2⟩
  | cons a rest ih =>
    intro s v q h
    exact ih _ v q h.2

theorem is_chain_nodup (next : Nat → Option Nat) :
    ∀ (L : List Nat) (s : Option Nat), is_chain next s L → L.Nodup := by
  intro L
  induction L with
  | nil => intro s _; exact List.nodup_nil
  | cons v rest ih =>
    intro s h
    rw [List.nodup_cons]
    refine ⟨?_, ih _ h.2⟩
    intro hv
    obtain ⟨p, q, hpq⟩ := List.append_of_mem hv
    have h1 : is_chain next (next v) (p ++ v :: q) := by rw [← hpq]; exact h.2
    have h2 := is_chain_suffix next p _ v q h1
    have h3 : is_chain next (some v) (v :: rest) := ⟨rfl, h.2⟩
    have h4 := is_chain_det next _ _ _ h2 h3
    have h5 := congrArg List.length h4
    rw [hpq] at h5
    simp only [List.length_cons, List.length_append] at h5
    omega

theorem is_chain_congr (f g : Nat → Option Nat) :
    ∀ (L : List Nat) (s : Option Nat), (∀ x ∈ L, f x = g x) → is_chain f s L →
      is_chain g s L := by
  intro L
  induction L with
  | nil => intro s _ h; exact h
  | cons v rest ih =>
    intro s hfg h
    refine ⟨h.1, ?_⟩
    rw [← hfg v (List.mem_cons_self _ _)]
    exact ih _ (fun x hx => hfg x (List.mem_cons_of_mem _ hx)) h.2

theorem slot_get_store_slot (db : database_t) (e : version_slot) (val : Option Nat)
    (x : version_slot) :
    slot_get (db.store_slot e val) x = if x = e then val else slot_get db x := by
  cases e with
  | head c =>
    cases x with
    | head c' =>
      simp only [slot_get, database_t.store_slot, cs_set_cs, version_slot.head.injEq]
      split_ifs <;> rfl
    | next v =>
      simp only [slot_get, database_t.store_slot, set_cs_versions]
      rw [if_neg (by simp)]
  | next w =>
    cases x with
    | head c' =>
      simp only [slot_get, database_t.store_slot, cs_with_versions]
      rw [if_neg (by simp)]
    | next v =>
      simp only [slot_get, database_t.store_slot, upd, version_slot.next.injEq]
      split_ifs <;> rfl

theorem slot_get_with_commit (db : database_t) (v : Nat) (nw : cs_ref) (x : version_slot) :
    slot_get ({ db with versions := upd db.versions v { db.versions v with commit := nw } })
      x = slot_get db x := by
  cases x with
  | head c => simp only [slot_get, cs_with_versions]
  | next w =>
    simp only [slot_get, upd]
    split_ifs with h
    · rw [h]
    · rfl

theorem end_slot_nil (s : version_slot) : end_slot s [] = s := rfl

theorem end_slot_cons (s : version_slot) (a : Nat) (A : List Nat) :
    end_slot s (a :: A) = end_slot (.next a) A := by
  cases A with
  | nil => rfl
  | cons b rest =>
    simp only [end_slot, List.getLast?_cons_cons]
    cases h : (b :: rest).getLast? with
    | none => simp at h
    | some x => rfl

theorem end_slot_snoc (s : version_slot) (A : List Nat) (v : Nat) :
    end_slot s (A ++ [v]) = .next v := by
  simp [end_slot]

theorem read_slots_mem (A : List Nat) :
    ∀ (s x : version_slot), x ∈ read_slots s A → x = s ∨ ∃ a ∈ A, x = .next a := by
  induction A with
  | nil => intro s x h; cases h
  | cons a rest ih =>
    intro s x h
    simp only [read_slots, List.mem_cons] at h
    rcases h with h | h
    · exact Or.inl h
    · right
      rcases ih _ _ h with h1 | ⟨b, hb, h1⟩
      · exact ⟨a, List.mem_cons_self _ _, h1⟩
      · exact ⟨b, List.mem_cons_of_mem _ hb, h1⟩

theorem end_slot_cases (A : List Nat) :
    ∀ (s : version_slot), end_slot s A = s ∨ ∃ a ∈ A, end_slot s A = .next a := by
  induction A with
  | nil => intro s; exact Or.inl rfl
  | cons a rest ih =>
    intro s
    right
    rw [end_slot_cons]
    rcases ih (.next a) with h | ⟨b, hb, h⟩
    · exact ⟨a, List.mem_cons_self _ _, h⟩
    · exact ⟨b, List.mem_cons_of_mem _ hb, h⟩

theorem end_slot_not_read (A : List Nat) :
    ∀ (s : version_slot), A.Nodup → (∀ a ∈ A, s ≠ .next a) → end_slot s A ∉ read_slots s A := by
  induction A with
  | nil => intro s _ _ h; cases h
  | cons a rest ih =>
    intro s hn hs h
    rw [end_slot_cons] at h
    simp only [read_slots, List.mem_cons] at h
    have hn' := List.nodup_cons.mp hn
    rcases h with h | h
    · rcases end_slot_cases rest (.next a) with h1 | ⟨b, hb, h1⟩
      · rw [h1] at h
        exact hs a (List.mem_cons_self _ _) h.symm
      · rw [h1] at h
        exact hs b (List.mem_cons_of_mem _ hb) h.symm
    · refine ih (.next a) hn'.2 ?_ h
      intro b hb e
      injection e with e
      rw [e] at hn'
      exact hn'.1 hb

theorem linked_frame (d d' : database_t) (A : List Nat) :
    ∀ (s : version_slot), (∀ x ∈ read_slots s A, slot_get d' x = slot_get d x) →
      linked d s A → linked d' s A := by
  induction A with
  | nil => intro s _ _; trivial
  | cons a rest ih =>
    intro s hf h
    refine ⟨?_, ih _ (fun x hx => hf x (List.mem_cons_of_mem _ hx)) h.2⟩
    rw [hf s (List.mem_cons_self _ _)]
    exact h.1

theorem linked_snoc (d : database_t) (A : List Nat) (v : Nat) :
    ∀ (s : version_slot), linked d s A → slot_get d (end_slot s A) = some v →
      linked d s (A ++ [v]) := by
  induction A with
  | nil =>
    intro s _ h
    exact ⟨h, trivial⟩
  | cons a rest ih =>
    intro s h he
    rw [end_slot_cons] at he
    exact ⟨h.1, ih _ h.2 he⟩

theorem linked_is_chain (d : database_t) (A : List Nat) :
    ∀ (s : version_slot), linked d s A → slot_get d (end_slot s A) = none →
      is_chain (fun v => (d.versions v).cs_sibling) (slot_get d s) A := by
  induction A with
  | nil =>
    intro s _ h
    exact h
  | cons a rest ih =>
    intro s h he
    rw [end_slot_cons] at he
    exact ⟨h.1, ih _ h.2 he⟩

/-! ## The partition loop of cycle_split -/

theorem same_but_links_refl (a : database_t) : same_but_links a a := fun _ => rfl

theorem same_but_links_trans {a b c : database_t} (h1 : same_but_links a b)
    (h2 : same_but_links b c) : same_but_links a c := fun x => (h1 x).trans (h2 x)

theorem same_but_links_ready_index {a b : database_t} (h : same_but_links a b) (x : Nat) :
    (a.versions x).ready_index = (b.versions x).ready_index := by
  have h1 := congrArg version_t.ready_index (h x)
  exact h1

theorem same_but_links_implicit_merge {a b : database_t} (h : same_but_links a b) (x : Nat) :
    (a.versions x).implicit_merge = (b.versions x).implicit_merge := by
  have h1 := congrArg version_t.implicit_merge (h x)
  exact h1

theorem same_but_links_parent {a b : database_t} (h : same_but_links a b) (x : Nat) :
    (a.versions x).parent = (b.versions x).parent := by
  have h1 := congrArg version_t.parent (h x)
  exact h1

theorem same_but_links_blocked {a b : database_t} (h : same_but_links a b) :
    blocked a = blocked b := by
  funext x
  simp only [blocked, same_but_links_ready_index h x]

theorem same_but_links_store_slot (db : database_t) (e : version_slot) (val : Option Nat) :
    same_but_links (db.store_slot e val) db := by
  intro x
  cases e with
  | head c => simp only [database_t.store_slot, set_cs_versions]
  | next v =>
    simp only [database_t.store_slot, upd]
    split_ifs with h
    · rw [h]
    · rfl

theorem same_but_links_with_commit (db : database_t) (v : Nat) (nw : cs_ref) :
    same_but_links
      ({ db with versions := upd db.versions v { db.versions v with commit := nw } }) db := by
  intro x
  simp only [upd]
  split_ifs with h
  · rw [h]
  · rfl

theorem store_slot_commit (db : database_t) (e : version_slot) (val : Option Nat) (x : Nat) :
    ((db.store_slot e val).versions x).commit = (db.versions x).commit := by
  cases e with
  | head c => simp only [database_t.store_slot, set_cs_versions]
  | next v =>
    simp only [database_t.store_slot, upd]
    split_ifs with h
    · rw [h]
    · rfl

theorem cycle_split_loop_none (nw : cs_ref) (d : database_t) (a b : version_slot) (n : Nat) :
    cycle_split_loop nw d a b n none = .ok (d, a, b) := by
  cases n <;> rfl

theorem cycle_split_loop_blocked (nw : cs_ref) (d : database_t) (a b : version_slot) (n v : Nat)
    (hm : (d.versions v).implicit_merge = false) (hb : blocked d v = true) :
    cycle_split_loop nw d a b (n + 1) (some v)
      = cycle_split_loop nw (d.store_slot a (some v)) (.next v) b n
          ((d.store_slot a (some v)).versions v).cs_sibling := by
  have h1 : (d.versions v).ready_index = SIZE_MAX := by simpa [blocked] using hb
  simp only [cycle_split_loop, hm, h1]
  simp

theorem cycle_split_loop_ready (nw : cs_ref) (d : database_t) (a b : version_slot) (n v : Nat)
    (hm : (d.versions v).implicit_merge = false) (hb : blocked d v = false) :
    cycle_split_loop nw d a b (n + 1) (some v)
      = cycle_split_loop nw
          (({ d with versions := upd d.versions v { d.versions v with commit := nw } }
            : database_t).store_slot b (some v)) a (.next v) n
          ((({ d with versions := upd d.versions v { d.versions v with commit := nw } }
            : database_t).store_slot b (some v)).versions v).cs_sibling := by
  have h1 : ¬ (d.versions v).ready_index = SIZE_MAX := by simpa [blocked] using hb
  simp only [cycle_split_loop, hm, h1]
  simp

theorem end_slot_ne_next (s : version_slot) (A : List Nat) (x : Nat) (hs : s ≠ .next x)
    (hx : x ∉ A) : end_slot s A ≠ .next x := by
  rcases end_slot_cases A s with h | ⟨a, ha, h⟩
  · rw [h]; exact hs
  · rw [h]
    intro e
    injection e with e
    rw [e] at ha
    exact hx ha

theorem read_slots_ne_end (sA sB : version_slot) (A B : List Nat) (h1 : sB ≠ sA)
    (hA : ∀ a ∈ A, sB ≠ .next a) (hB : ∀ b ∈ B, sA ≠ .next b) (hd : ∀ a ∈ A, a ∉ B) :
    ∀ x ∈ read_slots sB B, x ≠ end_slot sA A := by
  intro x hx
  rcases read_slots_mem B sB x hx with h | ⟨b, hb, h⟩
  · rw [h]
    rcases end_slot_cases A sA with h2 | ⟨a, ha, h2⟩
    · rw [h2]; exact h1
    · rw [h2]; exact hA a ha
  · rw [h]
    intro e
    exact end_slot_ne_next sA A b (hB b hb) (fun hba => hd b hba hb) e.symm

/-- The partition loop of `cycle_split`, started with the lists `A` and `B`
already linked from the two head slots: it returns, and appends the blocked
versions of the rest `R` to `A` and the others to `B`, setting the commit of
the latter to `nw`. -/
theorem cycle_split_loop_spec (nw cs : cs_ref) (hne : cs ≠ nw) :
    ∀ (R : List Nat) (n : Nat) (d : database_t) (P A B : List Nat) (cur : Option Nat),
      is_chain (fun v => (d.versions v).cs_sibling) cur R → R.length ≤ n →
      (P ++ R).Nodup → (∀ a ∈ A, a ∈ P) → (∀ b ∈ B, b ∈ P) → A.Nodup → B.Nodup →
      (∀ a ∈ A, a ∉ B) → linked d (.head cs) A → linked d (.head nw) B →
      (∀ v ∈ R, (d.versions v).implicit_merge = false) →
      ∃ d', cycle_split_loop nw d (end_slot (.head cs) A) (end_slot (.head nw) B) n cur
          = .ok (d', end_slot (.head cs) (A ++ R.filter (blocked d)),
                 end_slot (.head nw) (B ++ R.filter (fun v => !blocked d v))) ∧
        linked d' (.head cs) (A ++ R.filter (blocked d)) ∧
        linked d' (.head nw) (B ++ R.filter (fun v => !blocked d v)) ∧
        same_but_links d' d ∧
        ∀ x, (d'.versions x).commit
          = if x ∈ R ∧ blocked d x = false then nw else (d.versions x).commit := by
  intro R
  induction R with
  | nil =>
    intro n d P A B cur hch _ _ _ _ _ _ _ hlA hlB _
    have hc : cur = none := hch
    refine ⟨d, ?_, ?_, ?_, same_but_links_refl d, ?_⟩
    · rw [hc, cycle_split_loop_none]
      simp
    · simpa using hlA
    · simpa using hlB
    · intro x
      simp
  | cons v R' ih =>
    intro n d P A B cur hch hlen hnd hAP hBP hAn hBn hdisj hlA hlB him
    obtain ⟨hcur, hch'⟩ := hch
    cases n with
    | zero => simp at hlen
    | succ n =>
      have hlen' : R'.length ≤ n := by simpa using hlen
      have hvP : v ∉ P := by
        intro h
        exact (List.disjoint_of_nodup_append hnd) h (List.mem_cons_self _ _)
      have hRP : ∀ x ∈ R', x ∉ P := by
        intro x hx h
        exact (List.disjoint_of_nodup_append hnd) h (List.mem_cons_of_mem _ hx)
      have hvR : v ∉ R' := (List.nodup_cons.mp (List.Nodup.of_append_right hnd)).1
      have hvA : v ∉ A := fun h => hvP (hAP v h)
      have hvB : v ∉ B := fun h => hvP (hBP v h)
      have hnd' : ((P ++ [v]) ++ R').Nodup := by
        rw [List.append_assoc]
        exact hnd
      have hvm := him v (List.mem_cons_self _ _)
      subst hcur
      by_cases hb : blocked d v = true
      · -- the version stays in `cs`
        have hsl : ∀ x, x ≠ end_slot (.head cs) A →
            slot_get (d.store_slot (end_slot (.head cs) A) (some v)) x = slot_get d x := by
          intro x hx
          rw [slot_get_store_slot, if_neg hx]
        have hsib : ∀ x, x ∉ A →
            ((d.store_slot (end_slot (.head cs) A) (some v)).versions x).cs_sibling
              = (d.versions x).cs_sibling := by
          intro x hx
          exact hsl (.next x) (fun e => end_slot_ne_next _ A x (by simp) hx e.symm)
        have hsbl := same_but_links_store_slot d (end_slot (.head cs) A) (some v)
        obtain ⟨d', h1, h2, h3, h4, h5⟩ := ih n (d.store_slot (end_slot (.head cs) A) (some v))
          (P ++ [v]) (A ++ [v]) B
          ((d.store_slot (end_slot (.head cs) A) (some v)).versions v).cs_sibling
          (by
            rw [hsib v hvA]
            apply is_chain_congr _ _ R' _ _ hch'
            intro x hx
            exact (hsib x (fun h => hRP x hx (hAP x h))).symm)
          hlen' hnd'
          (by
            intro a ha
            rw [List.mem_append] at ha ⊢
            rcases ha with ha | ha
            · exact Or.inl (hAP a ha)
            · exact Or.inr ha)
          (fun b hb' => List.mem_append_left _ (hBP b hb'))
          (by
            rw [List.nodup_append]
            refine ⟨hAn, List.nodup_singleton v, ?_⟩
            intro a ha hav
            rw [List.mem_singleton] at hav
            rw [hav] at ha
            exact hvA ha)
          hBn
          (by
            intro a ha
            rw [List.mem_append, List.mem_singleton] at ha
            rcases ha with ha | ha
            · exact hdisj a ha
            · rw [ha]; exact hvB)
          (by
            apply linked_snoc
            · apply linked_frame d _ A _ _ hlA
              intro x hx
              apply hsl
              intro e
              rw [e] at hx
              exact end_slot_not_read A _ hAn (by simp) hx
            · rw [slot_get_store_slot, if_pos rfl])
          (by
            apply linked_frame d _ B _ _ hlB
            intro x hx
            apply hsl
            exact read_slots_ne_end (.head cs) (.head nw) A B
              (by intro e; injection e with e; exact hne e.symm) (by simp) (by simp) hdisj x hx)
          (by
            intro x hx
            rw [same_but_links_implicit_merge hsbl]
            exact him x (List.mem_cons_of_mem _ hx))
        rw [same_but_links_blocked hsbl] at h1 h2 h3 h5
        rw [end_slot_snoc] at h1
        have eA : A ++ (v :: R').filter (blocked d) = (A ++ [v]) ++ R'.filter (blocked d) := by
          rw [List.filter_cons, if_pos hb]
          simp
        have eB : (v :: R').filter (fun v => !blocked d v)
            = R'.filter (fun v => !blocked d v) := by
          rw [List.filter_cons, if_neg (by simp [hb])]
        refine ⟨d', ?_, ?_, ?_, same_but_links_trans h4 hsbl, ?_⟩
        · rw [cycle_split_loop_blocked nw d _ _ n v hvm hb, h1, eA, eB]
        · rw [eA]; exact h2
        · rw [eB]; exact h3
        · intro x
          rw [h5 x, store_slot_commit]
          by_cases hx : x = v
          · subst hx
            simp [hb]
          · simp [hx]
      · -- the version moves to `nw`
        have hb' : blocked d v = false := by simpa using hb
        have hsl : ∀ x, x ≠ end_slot (.head nw) B →
            slot_get (({ d with versions := upd d.versions v { d.versions v with commit := nw } }
              : database_t).store_slot (end_slot (.head nw) B) (some v)) x = slot_get d x := by
          intro x hx
          rw [slot_get_store_slot, if_neg hx, slot_get_with_commit]
        have hsib : ∀ x, x ∉ B →
            ((({ d with versions := upd d.versions v { d.versions v with commit := nw } }
              : database_t).store_slot (end_slot (.head nw) B) (some v)).versions x).cs_sibling
              = (d.versions x).cs_sibling := by
          intro x hx
          exact hsl (.next x) (fun e => end_slot_ne_next _ B x (by simp) hx e.symm)
        have hsbl : same_but_links
            (({ d with versions := upd d.versions v { d.versions v with commit := nw } }
              : database_t).store_slot (end_slot (.head nw) B) (some v)) d :=
          same_but_links_trans (same_but_links_store_slot _ _ _)
            (same_but_links_with_commit d v nw)
        obtain ⟨d', h1, h2, h3, h4, h5⟩ := ih n
          (({ d with versions := upd d.versions v { d.versions v with commit := nw } }
              : database_t).store_slot (end_slot (.head nw) B) (some v))
          (P ++ [v]) A (B ++ [v])
          ((({ d with versions := upd d.versions v { d.versions v with commit := nw } }
              : database_t).store_slot (end_slot (.head nw) B) (some v)).versions v).cs_sibling
          (by
            rw [hsib v hvB]
            apply is_chain_congr _ _ R' _ _ hch'
            intro x hx
            exact (hsib x (fun h => hRP x hx (hBP x h))).symm)
          hlen' hnd'
          (fun a ha => List.mem_append_left _ (hAP a ha))
          (by
            intro a ha
            rw [List.mem_append] at ha ⊢
            rcases ha with ha | ha
            · exact Or.inl (hBP a ha)
            · exact Or.inr ha)
          hAn
          (by
            rw [List.nodup_append]
            refine ⟨hBn, List.nodup_singleton v, ?_⟩
            intro a ha hav
            rw [List.mem_singleton] at hav
            rw [hav] at ha
            exact hvB ha)
          (by
            intro a ha hab
            rw [List.mem_append, List.mem_singleton] at hab
            rcases hab with hab | hab
            · exact hdisj a ha hab
            · rw [hab] at ha; exact hvA ha)
          (by
            apply linked_frame d _ A _ _ hlA
            intro x hx
            apply hsl
            exact read_slots_ne_end (.head nw) (.head cs) B A
              (by intro e; injection e with e; exact hne e) (by simp) (by simp)
              (fun b hb2 ha => hdisj b ha hb2) x hx)
          (by
            apply linked_snoc
            · apply linked_frame d _ B _ _ hlB
              intro x hx
              apply hsl
              intro e
              rw [e] at hx
              exact end_slot_not_read B _ hBn (by simp) hx
            · rw [slot_get_store_slot, if_pos rfl])
          (by
            intro x hx
            rw [same_but_links_implicit_merge hsbl]
            exact him x (List.mem_cons_of_mem _ hx))
        rw [same_but_links_blocked hsbl] at h1 h2 h3 h5
        rw [end_slot_snoc] at h1
        have eA : (v :: R').filter (blocked d) = R'.filter (blocked d) := by
          rw [List.filter_cons, if_neg hb]
        have eB : B ++ (v :: R').filter (fun v => !blocked d v)
            = (B ++ [v]) ++ R'.filter (fun v => !blocked d v) := by
          rw [List.filter_cons, if_pos (by simp [hb'])]
          simp
        refine ⟨d', ?_, ?_, ?_, same_but_links_trans h4 hsbl, ?_⟩
        · rw [cycle_split_loop_ready nw d _ _ n v hvm hb', h1, eA, eB]
        · rw [eA]; exact h2
        · rw [eB]; exact h3
        · intro x
          rw [h5 x, store_slot_commit]
          by_cases hx : x = v
          · subst hx
            simp [hb', hvR, upd]
          · simp [hx, upd]

theorem end_slot_ne_end (sA sB : version_slot) (A B : List Nat) (h1 : sA ≠ sB)
    (hA : ∀ a ∈ A, sB ≠ .next a) (hB : ∀ b ∈ B, sA ≠ .next b) (hd : ∀ a ∈ A, a ∉ B) :
    end_slot sA A ≠ end_slot sB B := by
  rcases end_slot_cases B sB with h | ⟨b, hb, h⟩
  · rw [h]
    rcases end_slot_cases A sA with h2 | ⟨a, ha, h2⟩
    · rw [h2]; exact h1
    · rw [h2]; exact (hA a ha).symm
  · rw [h]
    exact end_slot_ne_next sA A b (hB b hb) (fun hba => hd b hba hb)

theorem is_chain_head_ne_nil (next : Nat → Option Nat) (s : Option Nat) (L : List Nat)
    (h : is_chain next s L) (hne : L ≠ []) : s.isNone = false := by
  cases L with
  | nil => exact absurd rfl hne
  | cons v rest =>
    rw [h.1]
    rfl

/-- What `cycle_split` does when it returns: the pointer-level partition. -/
theorem cycle_split_spec (fuel : Nat) (db : database_t) (cs : cs_ref) (L : List Nat)
    (hL : chain (fun v => (db.versions v).cs_sibling) fuel (db.cs cs).versions = some L)
    (hfresh : cs ≠ .heap db.cs_alloc)
    (hm : ∀ v ∈ L, (db.versions v).implicit_merge = false)
    (hA : L.filter (blocked db) ≠ [])
    (hB : L.filter (fun v => !blocked db v) ≠ []) :
    ∃ r, cycle_split fuel db cs = .ok (.heap db.cs_alloc, r) ∧
      chain (fun v => (r.versions v).cs_sibling) fuel (r.cs cs).versions
        = some (L.filter (blocked db)) ∧
      chain (fun v => (r.versions v).cs_sibling) fuel (r.cs (.heap db.cs_alloc)).versions
        = some (L.filter (fun v => !blocked db v)) ∧
      same_but_links r db ∧
      ∀ x, (r.versions x).commit
        = if x ∈ L ∧ blocked db x = false then .heap db.cs_alloc else (db.versions x).commit := by
  have hdef : cycle_split fuel db cs =
      match cycle_split_loop (.heap db.cs_alloc) (split_start db cs) (.head cs)
          (.head (.heap db.cs_alloc)) fuel ((split_start db cs).cs cs).versions with
      | .error e => .error e
      | .ok (db3, cs_v, new_v) =>
          if (((db3.store_slot cs_v none).store_slot new_v none).cs cs).versions.isNone then
            .error .assertion
          else if (((db3.store_slot cs_v none).store_slot new_v none).cs
              (.heap db.cs_alloc)).versions.isNone then .error .assertion
          else
            .ok (.heap db.cs_alloc,
              { ((db3.store_slot cs_v none).store_slot new_v none) with
                ready_changesets :=
                  heap_insert
                    (fun c => (((db3.store_slot cs_v none).store_slot new_v none).cs c).time)
                    ((db3.store_slot cs_v none).store_slot new_v none).ready_changesets
                    (.heap db.cs_alloc) }) := rfl
  have hch := is_chain_of_chain _ _ _ _ hL
  have hnd := is_chain_nodup _ _ _ hch
  have hlen := chain_length_le _ _ _ _ hL
  have hstart : ((split_start db cs).cs cs).versions = (db.cs cs).versions := by
    rw [split_start_cs, if_neg hfresh]
  obtain ⟨d3, h1, h2, h3, h4, h5⟩ := cycle_split_loop_spec (.heap db.cs_alloc) cs hfresh L fuel
    (split_start db cs) [] [] [] ((split_start db cs).cs cs).versions
    (by rw [hstart]; exact hch) hlen (by simpa using hnd)
    (fun a ha => absurd ha (List.not_mem_nil a)) (fun a ha => absurd ha (List.not_mem_nil a))
    List.nodup_nil List.nodup_nil (fun a ha => absurd ha (List.not_mem_nil a)) trivial trivial hm
  have hbl : blocked (split_start db cs) = blocked db := rfl
  rw [hbl] at h1 h2 h3 h5
  simp only [List.nil_append, end_slot_nil] at h1 h2 h3
  have hAn : (L.filter (blocked db)).Nodup := hnd.filter _
  have hBn : (L.filter (fun v => !blocked db v)).Nodup := hnd.filter _
  have hdisj : ∀ a ∈ L.filter (blocked db), a ∉ L.filter (fun v => !blocked db v) := by
    intro a ha hb
    rw [List.mem_filter] at ha hb
    have := ha.2
    have := hb.2
    simp_all
  have hdisj' : ∀ b ∈ L.filter (fun v => !blocked db v), b ∉ L.filter (blocked db) :=
    fun b hb ha => hdisj b ha hb
  have hne1 : (version_slot.head cs) ≠ .head (.heap db.cs_alloc) := by
    intro e; injection e with e; exact hfresh e
  have hee := end_slot_ne_end (.head cs) (.head (.heap db.cs_alloc)) _ _ hne1
    (by simp) (by simp) hdisj
  -- the two terminating stores
  obtain ⟨d5, hd5⟩ : ∃ d5, d5 = (d3.store_slot (end_slot (.head cs) (L.filter (blocked db)))
        none).store_slot (end_slot (.head (.heap db.cs_alloc))
          (L.filter (fun v => !blocked db v))) none := ⟨_, rfl⟩
  have hg5 : ∀ x, slot_get d5 x
      = if x = end_slot (.head (.heap db.cs_alloc)) (L.filter (fun v => !blocked db v))
          then none
        else if x = end_slot (.head cs) (L.filter (blocked db)) then none
        else slot_get d3 x := by
    intro x
    rw [hd5, slot_get_store_slot, slot_get_store_slot]
  have hlA : linked d5 (.head cs) (L.filter (blocked db)) := by
    apply linked_frame d3 _ _ _ _ h2
    intro x hx
    rw [hg5, if_neg, if_neg]
    · intro e
      rw [e] at hx
      exact end_slot_not_read _ _ hAn (by simp) hx
    · exact read_slots_ne_end (.head (.heap db.cs_alloc)) (.head cs) _ _ hne1
        (by simp) (by simp) hdisj' x hx
  have hlB : linked d5 (.head (.heap db.cs_alloc)) (L.filter (fun v => !blocked db v)) := by
    apply linked_frame d3 _ _ _ _ h3
    intro x hx
    rw [hg5, if_neg, if_neg]
    · exact read_slots_ne_end (.head cs) (.head (.heap db.cs_alloc)) _ _ hne1.symm
        (by simp) (by simp) hdisj x hx
    · intro e
      rw [e] at hx
      exact end_slot_not_read _ _ hBn (by simp) hx
  have hcA := linked_is_chain _ _ _ hlA (by rw [hg5, if_neg hee, if_pos rfl])
  have hcB := linked_is_chain _ _ _ hlB (by rw [hg5, if_pos rfl])
  have hA0 := is_chain_head_ne_nil _ _ _ hcA hA
  have hB0 := is_chain_head_ne_nil _ _ _ hcB hB
  have hlenA : (L.filter (blocked db)).length ≤ fuel :=
    le_trans (List.length_filter_le _ _) hlen
  have hlenB : (L.filter (fun v => !blocked db v)).length ≤ fuel :=
    le_trans (List.length_filter_le _ _) hlen
  refine ⟨{ d5 with
             ready_changesets :=
               heap_insert (fun c => (d5.cs c).time) d5.ready_changesets (.heap db.cs_alloc) },
    ?_, ?_, ?_, ?_, ?_⟩
  · rw [hdef, h1]
    simp only
    rw [← hd5, if_neg, if_neg]
    · intro h
      have h' : (slot_get d5 (.head (.heap db.cs_alloc))).isNone = true := h
      rw [hB0] at h'
      cases h'
    · intro h
      have h' : (slot_get d5 (.head cs)).isNone = true := h
      rw [hA0] at h'
      cases h'
  · rw [cs_with_ready]
    exact chain_of_is_chain _ _ _ _ hcA hlenA
  · rw [cs_with_ready]
    exact chain_of_is_chain _ _ _ _ hcB hlenB
  · show same_but_links d5 db
    rw [hd5]
    exact same_but_links_trans (same_but_links_store_slot _ _ _)
      (same_but_links_trans (same_but_links_store_slot _ _ _) h4)
  · intro x
    show (d5.versions x).commit = _
    rw [hd5, store_slot_commit, store_slot_commit, h5 x]
    rfl

/-- The two lists and the commit pointers after a returning `cycle_split`,
with the assertions stated on the `ready_index` fields. -/
theorem cycle_split_lists (fuel : Nat) (db : database_t) (cs : cs_ref) (L : List Nat)
    (hL : chain (fun v => (db.versions v).cs_sibling) fuel (db.cs cs).versions = some L)
    (hfresh : cs ≠ .heap db.cs_alloc)
    (hm : ∀ v ∈ L, (db.versions v).implicit_merge = false)
    (hA : ∃ v ∈ L, (db.versions v).ready_index = SIZE_MAX)
    (hB : ∃ v ∈ L, (db.versions v).ready_index ≠ SIZE_MAX) :
    ∃ r, cycle_split fuel db cs = .ok (.heap db.cs_alloc, r) ∧ same_but_links r db ∧
      chain (fun v => (r.versions v).cs_sibling) fuel (r.cs cs).versions
        = some (L.filter (blocked db)) ∧
      chain (fun v => (r.versions v).cs_sibling) fuel (r.cs (.heap db.cs_alloc)).versions
        = some (L.filter (fun v => !blocked db v)) ∧
      (∀ v ∈ L.filter (fun v => !blocked db v), (r.versions v).commit = .heap db.cs_alloc) ∧
      (∀ v ∈ L.filter (blocked db), (r.versions v).commit = (db.versions v).commit) := by
  have hA' : L.filter (blocked db) ≠ [] := by
    obtain ⟨v, hv, h⟩ := hA
    intro e
    have : v ∈ L.filter (blocked db) := by
      rw [List.mem_filter]
      exact ⟨hv, by simp [blocked, h]⟩
    rw [e] at this
    cases this
  have hB' : L.filter (fun v => !blocked db v) ≠ [] := by
    obtain ⟨v, hv, h⟩ := hB
    intro e
    have : v ∈ L.filter (fun v => !blocked db v) := by
      rw [List.mem_filter]
      exact ⟨hv, by simp [blocked, h]⟩
    rw [e] at this
    cases this
  obtain ⟨r, h1, h2, h3, h4, h5⟩ := cycle_split_spec fuel db cs L hL hfresh hm hA' hB'
  refine ⟨r, h1, h4, h2, h3, ?_, ?_⟩
  · intro v hv
    rw [List.mem_filter] at hv
    rw [h5 v, if_pos ⟨hv.1, by simpa using hv.2⟩]
  · intro v hv
    rw [List.mem_filter] at hv
    rw [h5 v, if_neg]
    intro hc
    rw [hc.2] at hv
    exact absurd hv.2 (by simp)

/-- C12: let the version list of `cs` end and hold `L`, let `cs` be an
allocated changeset (not the arena slot the split is about to allocate), and
let the assertions of `cycle_split` hold: no version of `L` is flagged
`implicit_merge`, one has the sentinel `ready_index` (is `blocked`) and one has
not.  Then `cycle_split` returns the next arena slot as the new changeset, no
`ready_index` changes, the version list of `cs` is the null-terminated
subsequence of the blocked versions of `L`, the version list of the new
changeset is the null-terminated subsequence of the other versions, both in
the order of `L` and together a permutation of `L`; every version of the new
list has the new changeset as commit and every version left in `cs` keeps its
commit (which is `cs` when every version of `L` had commit `cs`); the new
changeset has type commit and the time of `cs`, and the ready heap is the old
one with the new changeset inserted. -/
theorem cycle_split_partitions (fuel : Nat) (db : database_t) (cs : cs_ref) (L : List Nat)
    (hL : chain (fun v => (db.versions v).cs_sibling) fuel (db.cs cs).versions = some L)
    (hfresh : cs ≠ .heap db.cs_alloc)
    (hm : ∀ v ∈ L, (db.versions v).implicit_merge = false)
    (hA : ∃ v ∈ L, (db.versions v).ready_index = SIZE_MAX)
    (hB : ∃ v ∈ L, (db.versions v).ready_index ≠ SIZE_MAX) :
    ∃ r, cycle_split fuel db cs = .ok (.heap db.cs_alloc, r) ∧
      (∀ x, (r.versions x).ready_index = (db.versions x).ready_index) ∧
      chain (fun v => (r.versions v).cs_sibling) fuel (r.cs cs).versions
        = some (L.filter (blocked db)) ∧
      chain (fun v => (r.versions v).cs_sibling) fuel (r.cs (.heap db.cs_alloc)).versions
        = some (L.filter (fun v => !blocked db v)) ∧
      (L.filter (blocked db) ++ L.filter (fun v => !blocked db v)).Perm L ∧
      (∀ v ∈ L.filter (fun v => !blocked db v), (r.versions v).commit = .heap db.cs_alloc) ∧
      (∀ v ∈ L.filter (blocked db), (r.versions v).commit = (db.versions v).commit) ∧
      ((∀ v ∈ L, (db.versions v).commit = cs) →
        ∀ v ∈ L.filter (blocked db), (r.versions v).commit = cs) ∧
      (r.cs (.heap db.cs_alloc)).type = .ct_commit ∧
      (r.cs (.heap db.cs_alloc)).time = (db.cs cs).time ∧
      r.ready_changesets
        = heap_insert (fun c => (r.cs c).time) db.ready_changesets (.heap db.cs_alloc) := by
  obtain ⟨r, h1, h2, h3, h4, h5, h6⟩ := cycle_split_lists fuel db cs L hL hfresh hm hA hB
  obtain ⟨-, -, -, s4, -, s6, s7, -⟩ := cycle_split_sched fuel db cs _ r h1
  refine ⟨r, h1, same_but_links_ready_index h2, h3, h4, List.filter_append_perm _ L, h5, h6,
    ?_, s6, s7 hfresh, s4⟩
  intro hall v hv
  rw [h6 v hv]
  exact hall v (List.mem_filter.mp hv).1

/-- Witness for C12: the split of commit 0 of `cycle_db` after the
preparation: A 1.1 (version 0) is ready and moves to the new changeset 2,
B 1.2 (version 3) is blocked and stays. -/
theorem cycle_split_partitions_witness :
    ∃ r, cycle_split 4 (prepared 4 cycle_db (some [])).1 (.heap 0) = .ok (.heap 2, r) ∧
      cs_versions 4 r (.heap 0) = [3] ∧ cs_versions 4 r (.heap 2) = [0] ∧
      (r.versions 0).commit = .heap 2 ∧ (r.versions 3).commit = .heap 0 := by
  obtain ⟨r, h1, -, h3, h4, -, h6, h7, -⟩ :=
    cycle_split_partitions 4 (prepared 4 cycle_db (some [])).1 (.heap 0) [0, 3] rfl
      (by decide) (by decide) ⟨3, by decide, rfl⟩ ⟨0, by decide, by decide⟩
  refine ⟨r, h1, ?_, ?_, h6 0 (by decide), h7 3 (by decide)⟩
  · simp only [cs_versions, h3]
    rfl
  · have h4' : chain (fun v => (r.versions v).cs_sibling) 4 (r.cs (.heap 2)).versions
        = some [0] := h4
    simp only [cs_versions, h4']
    rfl

/-! ## cycle_find -/

theorem preceed_iter_add (fuel : Nat) (db : database_t) (j m : Nat) :
    ∀ (v w : Nat), preceed_iter fuel db (j + m) v = .ok w ↔
      ∃ u, preceed_iter fuel db j v = .ok u ∧ preceed_iter fuel db m u = .ok w := by
  induction j with
  | zero =>
    intro v w
    rw [Nat.zero_add]
    constructor
    · intro h
      exact ⟨v, rfl, h⟩
    · rintro ⟨u, h1, h2⟩
      simp only [preceed_iter] at h1
      injection h1 with h1
      rw [h1]
      exact h2
  | succ j ih =>
    intro v w
    rw [Nat.add_right_comm]
    simp only [preceed_iter]
    cases hp : preceed fuel db v with
    | error e => simp
    | ok u => exact ih u w

theorem preceed_iter_one (fuel : Nat) (db : database_t) (v : Nat) :
    preceed_iter fuel db 1 v = preceed fuel db v := by
  simp only [preceed_iter]
  cases preceed fuel db v <;> rfl

/-- A returning Floyd loop returns a meeting point: the version reached from
`slow` in `k` steps and from `fast` in `2 * k` steps, for some `k ≥ 1`. -/
theorem cycle_find_loop_sound (fuel : Nat) (db : database_t) (n : Nat) :
    ∀ (slow fast w : Nat), cycle_find_loop fuel db n slow fast = .ok w →
      ∃ k, 1 ≤ k ∧ k ≤ n ∧ preceed_iter fuel db k slow = .ok w ∧
        preceed_iter fuel db (2 * k) fast = .ok w := by
  induction n with
  | zero => intro slow fast w h; cases h
  | succ n ih =>
    intro slow fast w h
    simp only [cycle_find_loop] at h
    cases h1 : preceed fuel db slow with
    | error e => rw [h1] at h; cases h
    | ok slow1 =>
      rw [h1] at h
      simp only at h
      cases h2 : preceed fuel db fast with
      | error e => rw [h2] at h; cases h
      | ok fast0 =>
        rw [h2] at h
        simp only at h
        cases h3 : preceed fuel db fast0 with
        | error e => rw [h3] at h; cases h
        | ok fast1 =>
          rw [h3] at h
          simp only at h
          split_ifs at h with he
          · injection h with h
            subst h
            refine ⟨1, le_refl _, by omega, ?_, ?_⟩
            · rw [preceed_iter_one, h1]
            · simp only [preceed_iter, h2, h3, he]
          · obtain ⟨k, hk1, hk2, hk3, hk4⟩ := ih slow1 fast1 w h
            refine ⟨k + 1, by omega, by omega, ?_, ?_⟩
            · simp only [preceed_iter, h1]
              exact hk3
            · have e : 2 * (k + 1) = (2 * k) + 1 + 1 := by ring
              rw [e]
              simp only [preceed_iter, h2, h3]
              exact hk4

/-- The Floyd loop returns when a meeting point exists within its fuel. -/
theorem cycle_find_loop_complete (fuel : Nat) (db : database_t) (n : Nat) :
    ∀ (k slow fast a : Nat), 1 ≤ k → k ≤ n → preceed_iter fuel db k slow = .ok a →
      preceed_iter fuel db (2 * k) fast = .ok a →
      ∃ w, cycle_find_loop fuel db n slow fast = .ok w := by
  induction n with
  | zero => intro k slow fast a h1 h2; omega
  | succ n ih =>
    intro k slow fast a hk1 hk2 hs hf
    obtain ⟨k', rfl⟩ : ∃ k', k = k' + 1 := ⟨k - 1, by omega⟩
    have e : 2 * (k' + 1) = (2 * k') + 1 + 1 := by ring
    rw [e] at hf
    simp only [preceed_iter] at hs hf
    simp only [cycle_find_loop]
    cases h1 : preceed fuel db slow with
    | error e => rw [h1] at hs; cases hs
    | ok slow1 =>
      rw [h1] at hs
      simp only at hs
      cases h2 : preceed fuel db fast with
      | error e => rw [h2] at hf; cases hf
      | ok fast0 =>
        rw [h2] at hf
        simp only at hf
        cases h3 : preceed fuel db fast0 with
        | error e => rw [h3] at hf; cases hf
        | ok fast1 =>
          rw [h3] at hf
          simp only at hf ⊢
          rw [h3]
          simp only
          by_cases he : slow1 = fast1
          · exact ⟨slow1, by rw [if_pos he]⟩
          · rw [if_neg he]
            have hk' : 1 ≤ k' := by
              rcases Nat.eq_zero_or_pos k' with h0 | h0
              · subst h0
                simp only [preceed_iter] at hs hf
                injection hs with hs
                injection hf with hf
                exact absurd (hs.trans hf.symm) he
              · exact h0
            exact ih k' slow1 fast1 a hk' (by omega) hs hf

theorem iterate_period (f : Nat → Nat) (v i l : Nat) (h : f^[i + l] v = f^[i] v) :
    ∀ t m, i ≤ m → f^[m + t * l] v = f^[m] v := by
  have step : ∀ m, i ≤ m → f^[m + l] v = f^[m] v := by
    intro m hm
    obtain ⟨d, rfl⟩ : ∃ d, m = d + i := ⟨m - i, by omega⟩
    rw [Nat.add_assoc, Function.iterate_add_apply, h, ← Function.iterate_add_apply]
  intro t
  induction t with
  | zero => intro m _; simp
  | succ t ih =>
    intro m hm
    have e : m + (t + 1) * l = (m + t * l) + l := by ring
    rw [e, step _ (by omega), ih m hm]

/-- A function that maps a finite set into itself meets Floyd's condition
within as many steps as the set has elements. -/
theorem floyd_meet (f : Nat → Nat) (S : List Nat) (hS : ∀ x ∈ S, f x ∈ S) (v : Nat)
    (hv : v ∈ S) : ∃ k, 1 ≤ k ∧ k ≤ S.length ∧ f^[k] v = f^[2 * k] v := by
  have hmem : ∀ i, f^[i] v ∈ S := by
    intro i
    induction i with
    | zero => exact hv
    | succ i ih =>
      rw [Function.iterate_succ_apply']
      exact hS _ ih
  have hcard : S.toFinset.card < (Finset.range (S.length + 1)).card := by
    rw [Finset.card_range]
    exact Nat.lt_succ_of_le (List.toFinset_card_le S)
  obtain ⟨a, ha, b, hb, hab, heq⟩ := Finset.exists_ne_map_eq_of_card_lt_of_maps_to hcard
    (fun i _ => List.mem_toFinset.mpr (hmem i))
  rw [Finset.mem_range] at ha hb
  have key : ∀ i j, i < j → j ≤ S.length → f^[i] v = f^[j] v →
      ∃ k, 1 ≤ k ∧ k ≤ S.length ∧ f^[k] v = f^[2 * k] v := by
    intro i j hij hj he
    have hl : 0 < j - i := by omega
    have hper := iterate_period f v i (j - i) (by
      have : i + (j - i) = j := by omega
      rw [this]
      exact he.symm)
    have h1 : i / (j - i) * (j - i) ≤ i := Nat.div_mul_le_self i (j - i)
    have h2 : i < (i / (j - i) + 1) * (j - i) := by
      have := Nat.lt_div_mul_add hl (a := i)
      rw [Nat.add_mul, Nat.one_mul]
      exact this
    refine ⟨(i / (j - i) + 1) * (j - i), by omega, ?_, ?_⟩
    · rw [Nat.add_mul, Nat.one_mul]
      omega
    · have e : 2 * ((i / (j - i) + 1) * (j - i))
          = (i / (j - i) + 1) * (j - i) + (i / (j - i) + 1) * (j - i) := by ring
      rw [e, hper (i / (j - i) + 1) _ (by omega)]
  rcases Nat.lt_or_gt_of_ne hab with h | h
  · exact key a b h (by omega) heq
  · exact key b a h (by omega) heq.symm

theorem preceed_iter_eq_iterate (fuel : Nat) (db : database_t) (S : List Nat)
    (hS : ∀ x ∈ S, ∃ y ∈ S, preceed fuel db x = .ok y) (k : Nat) :
    ∀ v ∈ S, preceed_iter fuel db k v = .ok ((preceed_fn fuel db)^[k] v) := by
  induction k with
  | zero => intro v _; rfl
  | succ k ih =>
    intro v hv
    obtain ⟨y, hy, hp⟩ := hS v hv
    have hf : preceed_fn fuel db v = y := by simp only [preceed_fn, hp]
    simp only [preceed_iter, hp, Function.iterate_succ_apply, hf]
    exact ih y hy

/-- C18: let `S` be a finite set of versions on each of which `preceed`
returns a version of `S`, and let the fuel cover the size of `S`.  Then for
every `v` of `S` the call `cycle_find (v)` returns, and the version `w` it
returns is reached from `v` by at least one application of `preceed` and
returns to itself after at least one application of `preceed`. -/
theorem cycle_find_locates_cycle (fuel : Nat) (db : database_t) (S : List Nat)
    (hS : ∀ x ∈ S, ∃ y ∈ S, preceed fuel db x = .ok y) (hfuel : S.length ≤ fuel)
    (v : Nat) (hv : v ∈ S) :
    ∃ w, cycle_find fuel db v = .ok w ∧
      (∃ n, 1 ≤ n ∧ preceed_iter fuel db n v = .ok w) ∧
      (∃ k, 1 ≤ k ∧ preceed_iter fuel db k w = .ok w) := by
  have hfS : ∀ x ∈ S, preceed_fn fuel db x ∈ S := by
    intro x hx
    obtain ⟨y, hy, hp⟩ := hS x hx
    simp only [preceed_fn, hp]
    exact hy
  obtain ⟨k, hk1, hk2, hk3⟩ := floyd_meet (preceed_fn fuel db) S hfS v hv
  have h1 := preceed_iter_eq_iterate fuel db S hS k v hv
  have h2 := preceed_iter_eq_iterate fuel db S hS (2 * k) v hv
  rw [← hk3] at h2
  obtain ⟨w, hw⟩ := cycle_find_loop_complete fuel db fuel k v v _ hk1 (by omega) h1 h2
  refine ⟨w, hw, ?_⟩
  obtain ⟨j, hj1, -, hj3, hj4⟩ := cycle_find_loop_sound fuel db fuel v v w hw
  refine ⟨⟨j, hj1, hj3⟩, j, hj1, ?_⟩
  have e : 2 * j = j + j := by ring
  rw [e, preceed_iter_add] at hj4
  obtain ⟨u, hu1, hu2⟩ := hj4
  rw [hj3] at hu1
  injection hu1 with hu1
  rw [← hu1] at hu2
  exact hu2

/-- Witness for C18: in `cycle_db` after the preparation the ready versions 0
and 2 are mapped to each other by `preceed`, and `cycle_find (0)` returns 0. -/
theorem cycle_find_locates_cycle_witness :
    cycle_find 4 (prepared 4 cycle_db (some [])).1 0 = .ok 0 ∧
    ∃ w, cycle_find 4 (prepared 4 cycle_db (some [])).1 0 = .ok w ∧
      (∃ n, 1 ≤ n ∧ preceed_iter 4 (prepared 4 cycle_db (some [])).1 n 0 = .ok w) ∧
      (∃ k, 1 ≤ k ∧ preceed_iter 4 (prepared 4 cycle_db (some [])).1 k w = .ok w) :=
  ⟨rfl, cycle_find_locates_cycle 4 (prepared 4 cycle_db (some [])).1 [0, 2]
    (by
      intro x hx
      simp only [List.mem_cons, List.mem_singleton, List.not_mem_nil, or_false] at hx
      rcases hx with rfl | rfl
      · exact ⟨2, by decide, rfl⟩
      · exact ⟨0, by decide, rfl⟩)
    (by decide) 0 (by decide)⟩

/-! ## preceed -/

theorem preceed_up_unblocked (db : database_t) (n : Nat) :
    ∀ (p : Option Nat) (r : Nat), preceed_up db n p = .ok (some r) → blocked db r = false := by
  induction n with
  | zero =>
    intro p r h
    cases p with
    | none => simp [preceed_up] at h
    | some v => simp [preceed_up] at h
  | succ n ih =>
    intro p r h
    cases p with
    | none => simp [preceed_up] at h
    | some v =>
      simp only [preceed_up] at h
      split_ifs at h with h1
      · injection h with h
        injection h with h
        subst h
        simp [blocked, h1]
      · exact ih _ r h

theorem preceed_loop_ok (fuel : Nat) (db : database_t) (n : Nat) :
    ∀ (s : Option Nat) (u : Nat) (L : List Nat), preceed_loop fuel db n s = .ok u →
      is_chain (fun v => (db.versions v).cs_sibling) s L →
      blocked db u = false ∧ ∃ csv ∈ L, blocked db csv = true := by
  induction n with
  | zero =>
    intro s u L h _
    cases s with
    | none => simp [preceed_loop] at h
    | some v => simp [preceed_loop] at h
  | succ n ih =>
    intro s u L h hch
    cases s with
    | none => simp [preceed_loop] at h
    | some csv =>
      cases L with
      | nil => cases hch
      | cons x rest =>
        obtain ⟨hx, hrest⟩ := hch
        injection hx with hx
        subst hx
        simp only [preceed_loop] at h
        split_ifs at h with h1
        · cases hp : preceed_up db fuel (db.versions csv).parent with
          | error e => rw [hp] at h; cases h
          | ok o =>
            rw [hp] at h
            cases o with
            | some r =>
              simp only at h
              injection h with h
              subst h
              exact ⟨preceed_up_unblocked db fuel _ _ hp,
                csv, List.mem_cons_self _ _, by simp [blocked, h1]⟩
            | none =>
              simp only at h
              obtain ⟨h2, c, hc, h3⟩ := ih _ u rest h hrest
              exact ⟨h2, c, List.mem_cons_of_mem _ hc, h3⟩
        · obtain ⟨h2, c, hc, h3⟩ := ih _ u rest h hrest
          exact ⟨h2, c, List.mem_cons_of_mem _ hc, h3⟩

/-- A returning `preceed (v)` returns a version that is not blocked, and the
version list of the commit of `v` holds a blocked version. -/
theorem preceed_ok (fuel : Nat) (db : database_t) (v u : Nat) (L : List Nat)
    (h : preceed fuel db v = .ok u)
    (hL : chain (fun x => (db.versions x).cs_sibling) fuel (db.cs (db.versions v).commit).versions
      = some L) :
    blocked db u = false ∧ ∃ csv ∈ L, blocked db csv = true :=
  preceed_loop_ok fuel db fuel _ u L h (is_chain_of_chain _ _ _ _ hL)

theorem preceed_ok_unblocked (fuel : Nat) (db : database_t) (v u : Nat)
    (h : preceed fuel db v = .ok u) : blocked db u = false := by
  have key : ∀ n s, preceed_loop fuel db n s = .ok u → blocked db u = false := by
    intro n
    induction n with
    | zero =>
      intro s h
      cases s <;> simp [preceed_loop] at h
    | succ n ih =>
      intro s h
      cases s with
      | none => simp [preceed_loop] at h
      | some csv =>
        simp only [preceed_loop] at h
        split_ifs at h with h1
        · cases hp : preceed_up db fuel (db.versions csv).parent with
          | error e => rw [hp] at h; cases h
          | ok o =>
            rw [hp] at h
            cases o with
            | some r =>
              simp only at h
              injection h with h
              subst h
              exact preceed_up_unblocked db fuel _ _ hp
            | none => exact ih _ h
        · exact ih _ h
  exact key fuel _ h

/-- The version returned by `cycle_find` is the result of a `preceed` call and
`preceed` returns on it. -/
theorem cycle_find_ok (fuel : Nat) (db : database_t) (v w : Nat)
    (h : cycle_find fuel db v = .ok w) :
    (∃ u, preceed fuel db u = .ok w) ∧ ∃ u, preceed fuel db w = .ok u := by
  obtain ⟨k, hk1, -, hk3, hk4⟩ := cycle_find_loop_sound fuel db fuel v v w h
  have e : 2 * k = k + k := by ring
  rw [e, preceed_iter_add] at hk4
  obtain ⟨u, hu1, hu2⟩ := hk4
  rw [hk3] at hu1
  injection hu1 with hu1
  rw [← hu1] at hu2
  obtain ⟨j, rfl⟩ : ∃ j, k = j + 1 := ⟨k - 1, by omega⟩
  constructor
  · rw [preceed_iter_add] at hk3
    obtain ⟨u', -, h2⟩ := hk3
    rw [preceed_iter_one] at h2
    exact ⟨u', h2⟩
  · simp only [preceed_iter] at hu2
    cases hp : preceed fuel db w with
    | error e => rw [hp] at hu2; cases hu2
    | ok x => exact ⟨x, rfl⟩

/-- C17: let `cycle_find (v)` return `w`, in a state where the version list of
the commit of `w` lists `w`.  Then `w` does not have the sentinel
`ready_index`, and that version list holds a version with the sentinel.  So if
the commit of `w` is an allocated changeset and none of its versions is
flagged `implicit_merge` (the third assertion of `cycle_split`), `cycle_split`
on the commit of `w` returns with both version lists non-empty and a non-empty
ready heap, and `next_changeset_split` with `v` at the front of the
ready-versions heap and an empty ready heap returns a changeset. -/
theorem split_sides_nonempty (fuel : Nat) (db : database_t) (v w : Nat)
    (hw : cycle_find fuel db v = .ok w)
    (hlisted : w ∈ cs_versions fuel db (db.versions w).commit) :
    (db.versions w).ready_index ≠ SIZE_MAX ∧
    (∃ x ∈ cs_versions fuel db (db.versions w).commit,
      (db.versions x).ready_index = SIZE_MAX) ∧
    ((db.versions w).commit ≠ .heap db.cs_alloc →
      (∀ x ∈ cs_versions fuel db (db.versions w).commit,
        (db.versions x).implicit_merge = false) →
      ∃ r, cycle_split fuel db (db.versions w).commit = .ok (.heap db.cs_alloc, r) ∧
        cs_versions fuel r (db.versions w).commit ≠ [] ∧
        cs_versions fuel r (.heap db.cs_alloc) ≠ [] ∧
        r.ready_changesets ≠ [] ∧
        ∀ rv, heap_front rv = some v → db.ready_changesets = [] →
          ∃ c d, next_changeset_split fuel db rv = .ok (some c, d)) := by
  obtain ⟨⟨u, hu⟩, ⟨u', hu'⟩⟩ := cycle_find_ok fuel db v w hw
  have hwb := preceed_ok_unblocked fuel db u w hu
  have hL : chain (fun x => (db.versions x).cs_sibling) fuel
      (db.cs (db.versions w).commit).versions
      = some (cs_versions fuel db (db.versions w).commit) := by
    apply cs_versions_chain
    cases hc : chain (fun x => (db.versions x).cs_sibling) fuel
        (db.cs (db.versions w).commit).versions with
    | none =>
      simp only [cs_versions, hc] at hlisted
      cases hlisted
    | some l => rfl
  obtain ⟨-, csv, hcsv, hcb⟩ := preceed_ok fuel db w u' _ hu' hL
  have hw1 : (db.versions w).ready_index ≠ SIZE_MAX := by simpa [blocked] using hwb
  have hc1 : (db.versions csv).ready_index = SIZE_MAX := by simpa [blocked] using hcb
  refine ⟨hw1, ⟨csv, hcsv, hc1⟩, ?_⟩
  intro hfresh hm
  obtain ⟨r, h1, -, h3, h4, -⟩ := cycle_split_lists fuel db (db.versions w).commit _ hL
    hfresh hm ⟨csv, hcsv, hc1⟩ ⟨w, hlisted, hw1⟩
  have hrdy := (cycle_split_sched fuel db _ _ r h1).2.2.2.1
  have hne : r.ready_changesets ≠ [] := by
    intro e
    have : cs_ref.heap db.cs_alloc ∈ r.ready_changesets := by
      rw [hrdy, mem_heap_insert]
      exact Or.inl rfl
    rw [e] at this
    cases this
  refine ⟨r, h1, ?_, ?_, hne, ?_⟩
  · have e3 : cs_versions fuel r (db.versions w).commit
        = (cs_versions fuel db (db.versions w).commit).filter (blocked db) :=
      congrArg (fun o => o.getD []) h3
    rw [e3]
    intro e
    have : csv ∈ (cs_versions fuel db (db.versions w).commit).filter (blocked db) := by
      rw [List.mem_filter]
      exact ⟨hcsv, hcb⟩
    rw [e] at this
    cases this
  · have e4 : cs_versions fuel r (.heap db.cs_alloc)
        = (cs_versions fuel db (db.versions w).commit).filter (fun x => !blocked db x) :=
      congrArg (fun o => o.getD []) h4
    rw [e4]
    intro e
    have : w ∈ (cs_versions fuel db (db.versions w).commit).filter
        (fun x => !blocked db x) := by
      rw [List.mem_filter]
      exact ⟨hlisted, by simp [hwb]⟩
    rw [e] at this
    cases this
  · intro rv hrv h0
    have hw' : cycle_find_loop fuel db fuel v v = .ok w := hw
    have he1 : heap_empty rv = false := by
      cases rv with
      | nil => cases hrv
      | cons a b => rfl
    have he2 : heap_empty r.ready_changesets = false := by
      cases hr : r.ready_changesets with
      | nil => exact absurd hr hne
      | cons a b => rfl
    cases hr : r.ready_changesets with
    | nil => exact absurd hr hne
    | cons a b =>
      refine ⟨a, { r with ready_changesets := b }, ?_⟩
      have hrv0 : rv ≠ [] := by
        intro e
        rw [e] at hrv
        cases hrv
      simp only [next_changeset_split, he1, h0, heap_empty, List.isEmpty_nil, hrv, hw', hw, h1,
        hr, heap_pop]
      simp [hrv0, hr]

/-- Witness for C17: in `cycle_db` after the preparation `cycle_find (0)`
returns version 0, whose commit 0 holds the ready version 0 and the blocked
version 3. -/
theorem split_sides_nonempty_witness :
    cycle_find 4 (prepared 4 cycle_db (some [])).1 0 = .ok 0 ∧
    ((prepared 4 cycle_db (some [])).1.versions 0).ready_index ≠ SIZE_MAX ∧
    ∃ x ∈ cs_versions 4 (prepared 4 cycle_db (some [])).1
        ((prepared 4 cycle_db (some [])).1.versions 0).commit,
      ((prepared 4 cycle_db (some [])).1.versions x).ready_index = SIZE_MAX :=
  ⟨rfl, (split_sides_nonempty 4 (prepared 4 cycle_db (some [])).1 0 0 rfl (by decide)).1,
    (split_sides_nonempty 4 (prepared 4 cycle_db (some [])).1 0 0 rfl (by decide)).2.1⟩

/-- When `preceed` maps a finite set of versions into itself and the fuel
covers its size, `cycle_find` returns a version of the set. -/
theorem cycle_find_returns (fuel : Nat) (db : database_t) (S : List Nat)
    (hS : ∀ x ∈ S, ∃ y ∈ S, preceed fuel db x = .ok y) (hfuel : S.length ≤ fuel)
    (v : Nat) (hv : v ∈ S) : ∃ w ∈ S, cycle_find fuel db v = .ok w := by
  have hfS : ∀ x ∈ S, preceed_fn fuel db x ∈ S := by
    intro x hx
    obtain ⟨y, hy, hp⟩ := hS x hx
    simp only [preceed_fn, hp]
    exact hy
  have hmem : ∀ i, (preceed_fn fuel db)^[i] v ∈ S := by
    intro i
    induction i with
    | zero => exact hv
    | succ i ih =>
      rw [Function.iterate_succ_apply']
      exact hfS _ ih
  obtain ⟨k, hk1, hk2, hk3⟩ := floyd_meet (preceed_fn fuel db) S hfS v hv
  have h1 := preceed_iter_eq_iterate fuel db S hS k v hv
  have h2 := preceed_iter_eq_iterate fuel db S hS (2 * k) v hv
  rw [← hk3] at h2
  obtain ⟨w, hw⟩ := cycle_find_loop_complete fuel db fuel k v v _ hk1 (by omega) h1 h2
  refine ⟨w, ?_, hw⟩
  obtain ⟨j, -, -, hj3, -⟩ := cycle_find_loop_sound fuel db fuel v v w hw
  rw [preceed_iter_eq_iterate fuel db S hS j v hv] at hj3
  injection hj3 with hj3
  rw [← hj3]
  exact hmem j

/-- With no ready changeset, `next_changeset_split` returns a changeset when
`cycle_find` returns on the front of the ready-versions heap a version that
its commit lists, the commit is an allocated changeset, and none of its
versions is flagged `implicit_merge`. -/
theorem next_changeset_split_returns (fuel : Nat) (db : database_t) (rv : List Nat)
    (v w : Nat) (hrv : heap_front rv = some v) (h0 : db.ready_changesets = [])
    (hw : cycle_find fuel db v = .ok w)
    (hlisted : w ∈ cs_versions fuel db (db.versions w).commit)
    (hfresh : (db.versions w).commit ≠ .heap db.cs_alloc)
    (hm : ∀ x ∈ cs_versions fuel db (db.versions w).commit,
      (db.versions x).implicit_merge = false) :
    ∃ c d, next_changeset_split fuel db rv = .ok (some c, d) := by
  obtain ⟨⟨u, hu⟩, ⟨u', hu'⟩⟩ := cycle_find_ok fuel db v w hw
  have hwb := preceed_ok_unblocked fuel db u w hu
  have hL : chain (fun x => (db.versions x).cs_sibling) fuel
      (db.cs (db.versions w).commit).versions
      = some (cs_versions fuel db (db.versions w).commit) := by
    apply cs_versions_chain
    cases hc : chain (fun x => (db.versions x).cs_sibling) fuel
        (db.cs (db.versions w).commit).versions with
    | none =>
      simp only [cs_versions, hc] at hlisted
      cases hlisted
    | some l => rfl
  obtain ⟨-, csv, hcsv, hcb⟩ := preceed_ok fuel db w u' _ hu' hL
  have hw1 : (db.versions w).ready_index ≠ SIZE_MAX := by simpa [blocked] using hwb
  have hc1 : (db.versions csv).ready_index = SIZE_MAX := by simpa [blocked] using hcb
  obtain ⟨r, h1, -⟩ := cycle_split_lists fuel db (db.versions w).commit _ hL
    hfresh hm ⟨csv, hcsv, hc1⟩ ⟨w, hlisted, hw1⟩
  have hrdy := (cycle_split_sched fuel db _ _ r h1).2.2.2.1
  have hne : r.ready_changesets ≠ [] := by
    intro e
    have : cs_ref.heap db.cs_alloc ∈ r.ready_changesets := by
      rw [hrdy, mem_heap_insert]
      exact Or.inl rfl
    rw [e] at this
    cases this
  have hw' : cycle_find_loop fuel db fuel v v = .ok w := hw
  have he1 : heap_empty rv = false := by
    cases rv with
    | nil => cases hrv
    | cons a b => rfl
  cases hr : r.ready_changesets with
  | nil => exact absurd hr hne
  | cons a b =>
    refine ⟨a, { r with ready_changesets := b }, ?_⟩
    have hrv0 : rv ≠ [] := by
      intro e
      rw [e] at hrv
      cases hrv
    simp only [next_changeset_split, he1, h0, heap_empty, List.isEmpty_nil, hrv, hw', hw, h1,
      hr, heap_pop]
    simp [hrv0, hr]

/-- C3, amended: with an empty ready-versions heap `next_changeset_split`
returns null, whatever the ready changesets; with a non-empty ready-versions
heap it never returns null, and when a changeset is ready it returns the front
of the ready heap.  When no changeset is ready, it yields a changeset provided
that `preceed` returns on every version the search can reach from the front
`v` of the ready-versions heap (a finite set `S` of versions that holds `v`
and on each of which `preceed` returns a version of `S`), and that every
version of `S` is listed by its commit, which is an allocated changeset with
no version flagged `implicit_merge`.  Otherwise the call may abort, fail an
assertion or search forever instead of returning. -/
theorem next_changeset_split_null (fuel : Nat) (db : database_t) (rv : List Nat) :
    (rv = [] → next_changeset_split fuel db rv = .ok (none, db)) ∧
    (∀ r, next_changeset_split fuel db rv = .ok r → (r.1 = none ↔ rv = [])) ∧
    (rv ≠ [] → ∀ c rest, db.ready_changesets = c :: rest →
      next_changeset_split fuel db rv = .ok (some c, { db with ready_changesets := rest })) ∧
    (∀ (v : Nat) (S : List Nat), heap_front rv = some v → db.ready_changesets = [] → v ∈ S →
      (∀ x ∈ S, ∃ y ∈ S, preceed fuel db x = .ok y) → S.length ≤ fuel →
      (∀ w ∈ S, w ∈ cs_versions fuel db (db.versions w).commit ∧
        (db.versions w).commit ≠ cs_ref.heap db.cs_alloc ∧
        ∀ x ∈ cs_versions fuel db (db.versions w).commit,
          (db.versions x).implicit_merge = false) →
      ∃ c d, next_changeset_split fuel db rv = .ok (some c, d)) := by
  obtain ⟨h1, h2, h3⟩ := next_changeset_split_basic fuel db rv
  refine ⟨h1, h2, h3, ?_⟩
  intro v S hrv h0 hv hS hfuel hW
  obtain ⟨w, hwS, hw⟩ := cycle_find_returns fuel db S hS hfuel v hv
  obtain ⟨hl, hf, hm⟩ := hW w hwS
  exact next_changeset_split_returns fuel db rv v w hrv h0 hw hl hf hm

/-- Witness for the amended C3: `release_db` with changeset 1 made ready and
version 0 in the ready-versions heap; and `cycle_db` after the preparation,
where no changeset is ready, the ready versions 0 and 2 are mapped to each
other by `preceed`, and the call splits commit 0 and returns the new
changeset. -/
theorem next_changeset_split_null_witness :
    next_changeset_split 1 { release_db with ready_changesets := [.heap 1] } [0]
      = .ok (some (.heap 1),
          { { release_db with ready_changesets := [.heap 1] } with ready_changesets := [] }) ∧
    (prepared 4 cycle_db (some [])).1.ready_changesets = [] ∧
    heap_front [0, 2] = some 0 ∧
    ∃ c d, next_changeset_split 4 (prepared 4 cycle_db (some [])).1 [0, 2] = .ok (some c, d) :=
  ⟨(next_changeset_split_null 1 { release_db with ready_changesets := [.heap 1] } [0]).2.2.1
    (by decide) (.heap 1) [] rfl, rfl, rfl,
    (next_changeset_split_null 4 (prepared 4 cycle_db (some [])).1 [0, 2]).2.2.2 0 [0, 2] rfl rfl
      (by decide)
      (by
        intro x hx
        simp only [List.mem_cons, List.mem_singleton, List.not_mem_nil, or_false] at hx
        rcases hx with rfl | rfl
        · exact ⟨2, by decide, rfl⟩
        · exact ⟨0, by decide, rfl⟩)
      (by decide) (by decide)⟩

/-- A `version_release` on a version whose commit has a non-zero count
returns; to the scheduler it is a `changeset_release` of that commit. -/
theorem version_release_sched (db : database_t) (rv : Option (List Nat)) (v : Nat)
    (h0 : (db.cs (db.versions v).commit).unready_count ≠ 0) :
    ∃ r, version_release db rv v = .ok r ∧ vgraph r.1 = vgraph db ∧
      (∀ d, r.1.cs d =
        if d = (db.versions v).commit then
          { db.cs (db.versions v).commit with
            unready_count := (db.cs (db.versions v).commit).unready_count - 1 }
        else db.cs d) ∧
      r.1.ready_changesets =
        if (db.cs (db.versions v).commit).unready_count = 1 then
          heap_insert (fun c => (db.cs c).time) db.ready_changesets (db.versions v).commit
        else db.ready_changesets := by
  have hs := version_release_strip db rv v
  have h0' : ((strip db).cs (db.versions v).commit).unready_count ≠ 0 := by
    rw [cs_strip]; exact h0
  cases hv : version_release db rv v with
  | error e =>
    rw [hv, changeset_release_pos _ _ h0'] at hs
    cases hs
  | ok r =>
    rw [hv] at hs
    have hs' : changeset_release (strip db) (db.versions v).commit = .ok (strip r.1) := hs.symm
    obtain ⟨-, -, -, -, -, -, hcs, hrd⟩ := changeset_release_ok _ _ _ hs'
    refine ⟨r, rfl, version_release_vgraph db rv v r hv, ?_, ?_⟩
    · intro d
      have := hcs d
      rw [cs_strip, cs_strip, cs_strip] at this
      exact this
    · have e : (fun c => ((strip db).cs c).time) = fun c => (db.cs c).time := by
        funext c; rw [cs_strip]
      rw [cs_strip, e] at hrd
      exact hrd

/-- Releasing the versions `A`, all owned by `c`, when the count of `c` is the
length of `A` plus `m`: every call returns, the count ends at `m`, and `c` is
inserted into the ready heap by the last call exactly when `m` is zero. -/
theorem release_versions_run (fuel : Nat) (c : cs_ref) (m : Nat) (A : List Nat) :
    ∀ (s : emission_state), (∀ v ∈ A, (s.db.versions v).commit = c) →
      (s.db.cs c).unready_count = A.length + m →
      ∃ s', run_ops fuel s (A.map emission_op.release_version) = some s' ∧
        (s'.db.cs c).unready_count = m ∧
        ((m ≠ 0 ∨ A = []) → s'.db.ready_changesets = s.db.ready_changesets) ∧
        (m = 0 → A ≠ [] → s'.db.ready_changesets.Perm (c :: s.db.ready_changesets)) := by
  induction A with
  | nil =>
    intro s _ hc
    refine ⟨s, rfl, by simpa using hc, fun _ => rfl, fun _ h => absurd rfl h⟩
  | cons v rest ih =>
    intro s hown hc
    have hv : (s.db.versions v).commit = c := hown v (List.mem_cons_self _ _)
    have h0 : (s.db.cs (s.db.versions v).commit).unready_count ≠ 0 := by
      rw [hv, hc]
      simp
    obtain ⟨r, hr, hvg, hcs, hrd⟩ := version_release_sched s.db s.rv v h0
    rw [hv] at hcs hrd
    have hc1 : (r.1.cs c).unready_count = rest.length + m := by
      rw [hcs c, if_pos rfl]
      show (s.db.cs c).unready_count - 1 = _
      rw [hc]
      simp only [List.length_cons]
      omega
    obtain ⟨s', h1, h2, h3, h4⟩ := ih { s with db := r.1, rv := r.2 }
      (by
        intro x hx
        show (r.1.versions x).commit = c
        rw [vgraph_commit hvg x]
        exact hown x (List.mem_cons_of_mem _ hx))
      hc1
    refine ⟨s', ?_, h2, ?_, ?_⟩
    · simp only [List.map_cons, run_ops, apply_op, hr]
      exact h1
    · intro hm
      rcases hm with hm | hm
      · rw [h3 (Or.inl hm)]
        show r.1.ready_changesets = _
        rw [hrd, if_neg]
        rw [hc]
        simp only [List.length_cons]
        omega
      · cases hm
    · intro hm _
      by_cases hrest : rest = []
      · rw [h3 (Or.inr hrest)]
        show r.1.ready_changesets.Perm _
        rw [hrd, if_pos]
        · exact heap_insert_perm _ _ _
        · rw [hc, hrest, hm]
          rfl
      · refine (h4 hm hrest).trans ?_
        show (c :: r.1.ready_changesets).Perm _
        rw [hrd, if_neg]
        rw [hc]
        simp only [List.length_cons]
        have : rest.length ≠ 0 := fun h => hrest (List.length_eq_zero.mp h)
        omega

/-- C20: under the conditions on which `cycle_split` returns (the version list
`L` of the allocated changeset `cs` ends, no version is flagged
`implicit_merge`, one is blocked and one is not), the count of `cs` is the
same after the split and the new changeset has count zero.  If the count of
`cs` was the number of blocked versions of `L`, it is afterwards the length of
the version list left in `cs`; and when every version of `L` had commit `cs`,
releasing the remaining versions one by one with `version_release` returns
each time, leaves the ready heap unchanged while a version remains, and puts
`cs` on the ready heap with the release of the last one. -/
theorem cycle_split_count_exact (fuel : Nat) (db : database_t) (cs : cs_ref) (L : List Nat)
    (hL : chain (fun v => (db.versions v).cs_sibling) fuel (db.cs cs).versions = some L)
    (hfresh : cs ≠ .heap db.cs_alloc)
    (hm : ∀ v ∈ L, (db.versions v).implicit_merge = false)
    (hA : ∃ v ∈ L, (db.versions v).ready_index = SIZE_MAX)
    (hB : ∃ v ∈ L, (db.versions v).ready_index ≠ SIZE_MAX) :
    ∃ r, cycle_split fuel db cs = .ok (.heap db.cs_alloc, r) ∧
      (r.cs cs).unready_count = (db.cs cs).unready_count ∧
      (r.cs (.heap db.cs_alloc)).unready_count = 0 ∧
      ((db.cs cs).unready_count = L.countP (blocked db) →
        (r.cs cs).unready_count = (cs_versions fuel r cs).length ∧
        ((∀ v ∈ L, (db.versions v).commit = cs) →
          ∀ (A1 A2 : List Nat) (rv : Option (List Nat)) (E : List cs_ref),
            cs_versions fuel r cs = A1 ++ A2 →
            ∃ s, run_ops fuel { db := r, rv := rv, emitted := E, stopped := none }
                (A1.map emission_op.release_version) = some s ∧
              (s.db.cs cs).unready_count = A2.length ∧
              (A2 ≠ [] → s.db.ready_changesets = r.ready_changesets) ∧
              (A2 = [] → s.db.ready_changesets.Perm (cs :: r.ready_changesets)))) := by
  obtain ⟨r, h1, -, h3, -, -, h6⟩ := cycle_split_lists fuel db cs L hL hfresh hm hA hB
  have h8 : (∀ v ∈ L, (db.versions v).commit = cs) →
      ∀ v ∈ L.filter (blocked db), (r.versions v).commit = cs := by
    intro hall v hv
    rw [h6 v hv]
    exact hall v (List.mem_filter.mp hv).1
  obtain ⟨-, -, -, -, s5, -, -, s8⟩ := cycle_split_sched fuel db cs _ r h1
  have e3 : cs_versions fuel r cs = L.filter (blocked db) := congrArg (fun o => o.getD []) h3
  refine ⟨r, h1, (s8 cs hfresh).1, s5, ?_⟩
  intro hcount
  have hlen : (r.cs cs).unready_count = (cs_versions fuel r cs).length := by
    rw [(s8 cs hfresh).1, hcount, e3, List.countP_eq_length_filter]
  refine ⟨hlen, ?_⟩
  intro hown A1 A2 rv E hsplit
  have hne : cs_versions fuel r cs ≠ [] := by
    rw [e3]
    obtain ⟨v, hv, h⟩ := hA
    intro e
    have : v ∈ L.filter (blocked db) := by
      rw [List.mem_filter]
      exact ⟨hv, by simp [blocked, h]⟩
    rw [e] at this
    cases this
  obtain ⟨s, hs1, hs2, hs3, hs4⟩ := release_versions_run fuel cs A2.length A1
    { db := r, rv := rv, emitted := E, stopped := none }
    (by
      intro v hv
      apply h8 hown v
      rw [← e3, hsplit]
      exact List.mem_append_left _ hv)
    (by
      show (r.cs cs).unready_count = _
      rw [hlen, hsplit, List.length_append])
  refine ⟨s, hs1, hs2, ?_, ?_⟩
  · intro h2
    exact hs3 (Or.inl (fun h => h2 (List.length_eq_zero.mp h)))
  · intro h2
    apply hs4 (by rw [h2]; rfl)
    intro h1'
    rw [h1', h2] at hsplit
    exact hne hsplit

/-- Witness for C20: after the split of commit 0 of `cycle_db` its count is
still 1, the length of the list [3] left in it, and the new changeset 2 has
count zero. -/
theorem cycle_split_count_exact_witness :
    ((prepared 4 cycle_db (some [])).1.cs (.heap 0)).unready_count = 1 ∧
    ∃ r, cycle_split 4 (prepared 4 cycle_db (some [])).1 (.heap 0) = .ok (.heap 2, r) ∧
      (r.cs (.heap 0)).unready_count = 1 ∧ (r.cs (.heap 2)).unready_count = 0 ∧
      (r.cs (.heap 0)).unready_count = (cs_versions 4 r (.heap 0)).length := by
  obtain ⟨r, h1, h2, h3, h4⟩ :=
    cycle_split_count_exact 4 (prepared 4 cycle_db (some [])).1 (.heap 0) [0, 3] rfl
      (by decide) (by decide) ⟨3, by decide, rfl⟩ ⟨0, by decide, by decide⟩
  refine ⟨rfl, r, h1, ?_, h3, (h4 rfl).1⟩
  rw [h2]
  rfl

/-! ## preceed is the search `preceed_spec` -/

theorem preceed_up_spec (db : database_t) :
    ∀ (anc : List Nat) (n : Nat) (p : Option Nat),
      is_chain (fun y => (db.versions y).parent) p anc → anc.length ≤ n →
      preceed_up db n p = .ok (anc.find? (fun x => !blocked db x)) := by
  intro anc
  induction anc with
  | nil =>
    intro n p h _
    have hp : p = none := h
    rw [hp]
    cases n <;> rfl
  | cons a rest ih =>
    intro n p h hn
    obtain ⟨hp, hrest⟩ := h
    cases n with
    | zero => simp at hn
    | succ n =>
      rw [hp]
      simp only [preceed_up, List.find?_cons]
      by_cases hb : (db.versions a).ready_index = SIZE_MAX
      · have hb' : blocked db a = true := by simp [blocked, hb]
        simp only [hb, ne_eq, not_true_eq_false, if_false, hb', Bool.not_true]
        exact ih n _ hrest (by simpa using hn)
      · have hb' : blocked db a = false := by simp [blocked, hb]
        simp [hb, hb']

theorem preceed_up_ancestors (fuel : Nat) (db : database_t) (csv : Nat)
    (h : (chain (fun y => (db.versions y).parent) fuel (db.versions csv).parent).isSome) :
    preceed_up db fuel (db.versions csv).parent = .ok (nearest_ready fuel db csv) := by
  obtain ⟨anc, hanc⟩ := Option.isSome_iff_exists.mp h
  have e : ancestors fuel db csv = anc := by simp only [ancestors, hanc, Option.getD_some]
  simp only [nearest_ready, e]
  exact preceed_up_spec db anc fuel _ (is_chain_of_chain _ _ _ _ hanc)
    (chain_length_le _ _ _ _ hanc)

theorem preceed_loop_spec (fuel : Nat) (db : database_t) :
    ∀ (L : List Nat) (n : Nat) (s : Option Nat),
      is_chain (fun v => (db.versions v).cs_sibling) s L → L.length ≤ n →
      (∀ csv ∈ L, blocked db csv = true →
        (chain (fun y => (db.versions y).parent) fuel (db.versions csv).parent).isSome) →
      preceed_loop fuel db n s =
        match (L.filter (blocked db)).findSome? (nearest_ready fuel db) with
        | some r => .ok r
        | none => .error .aborted := by
  intro L
  induction L with
  | nil =>
    intro n s h _ _
    have hs : s = none := h
    rw [hs]
    cases n <;> rfl
  | cons csv rest ih =>
    intro n s h hn hanc
    obtain ⟨hs, hrest⟩ := h
    cases n with
    | zero => simp at hn
    | succ n =>
      have hn' : rest.length ≤ n := by simpa using hn
      have hanc' : ∀ c ∈ rest, blocked db c = true →
          (chain (fun y => (db.versions y).parent) fuel (db.versions c).parent).isSome :=
        fun c hc => hanc c (List.mem_cons_of_mem _ hc)
      rw [hs]
      simp only [preceed_loop]
      by_cases hb : (db.versions csv).ready_index = SIZE_MAX
      · have hb' : blocked db csv = true := by simp [blocked, hb]
        rw [if_pos hb, preceed_up_ancestors fuel db csv (hanc csv (List.mem_cons_self _ _) hb'),
          List.filter_cons, if_pos hb', List.findSome?_cons]
        cases hnr : nearest_ready fuel db csv with
        | some r => rfl
        | none => exact ih n _ hrest hn' hanc'
      · have hb' : ¬ blocked db csv = true := by simp [blocked, hb]
        rw [if_neg hb, List.filter_cons, if_neg hb']
        exact ih n _ hrest hn' hanc'

/-- When the version list of the commit of `v` ends and the parent chains of
its blocked versions end, `preceed (v)` returns the result of the search, and
aborts when the search finds nothing. -/
theorem preceed_refines (fuel : Nat) (db : database_t) (v : Nat)
    (hL : (chain (fun x => (db.versions x).cs_sibling) fuel
      (db.cs (db.versions v).commit).versions).isSome)
    (hanc : ∀ csv ∈ cs_versions fuel db (db.versions v).commit, blocked db csv = true →
      (chain (fun y => (db.versions y).parent) fuel (db.versions csv).parent).isSome) :
    preceed fuel db v =
      match preceed_spec fuel db v with
      | some r => .ok r
      | none => .error .aborted := by
  have hc := cs_versions_chain fuel db _ hL
  exact preceed_loop_spec fuel db _ fuel _ (is_chain_of_chain _ _ _ _ hc)
    (chain_length_le _ _ _ _ hc) hanc

theorem find_eq_head_filter {α : Type} (p : α → Bool) (L : List α) :
    L.find? p = (L.filter p).head? := by
  induction L with
  | nil => rfl
  | cons a rest ih =>
    rw [List.find?_cons, List.filter_cons]
    cases hp : p a with
    | true => simp
    | false => simp

theorem nearest_ready_exists {db : database_t} {E : List cs_ref} (hs : main_pass_state db E) :
    ∀ (anc : List Nat) (x : Nat), x ∈ all_versions db → (db.versions x).commit ∉ E →
      blocked db x = true → is_chain (fun y => (db.versions y).parent) (db.versions x).parent anc →
      ∃ r, anc.find? (fun y => !blocked db y) = some r := by
  intro anc
  induction anc with
  | nil =>
    intro x hx hE hb hch
    have hp : (db.versions x).parent = none := hch
    have h1 := (hs x hx).2.mpr ⟨hE, by rw [hp]; intro p hp'; cases hp'⟩
    have h2 : (db.versions x).ready_index = SIZE_MAX := by simpa [blocked] using hb
    exact absurd h2 h1
  | cons p rest ih =>
    intro x hx hE hb hch
    obtain ⟨hp, hrest⟩ := hch
    have hpV : p ∈ all_versions db := (hs x hx).1 p (by rw [hp]; rfl)
    have h2 : (db.versions x).ready_index = SIZE_MAX := by simpa [blocked] using hb
    have hpE : (db.versions p).commit ∉ E := by
      intro hin
      apply (hs x hx).2.mpr ⟨hE, ?_⟩ h2
      intro q hq
      rw [hp] at hq
      cases hq
      exact hin
    rw [List.find?_cons]
    cases hbp : blocked db p with
    | false => exact ⟨p, by simp⟩
    | true =>
      simp only [Bool.not_true]
      exact ih p hpV hpE hbp hrest

/-- C19: in a state of the main pass in which the changesets `E` have been
emitted, let `v` be a version in the ready-versions heap (a version of the
database whose `ready_index` is not the sentinel, as every argument that
`cycle_find` and `next_changeset_split` pass), and let the version list `L` of
its commit end, hold versions of the database that the commit owns, and hold a
version with the sentinel `ready_index`; let the parent chains end.  Then
`preceed (v)` returns a version `r` whose `ready_index` is not the sentinel:
the nearest proper ancestor without the sentinel of the first version with the
sentinel in `L`, which is also the first one in list order that has such an
ancestor. -/
theorem preceed_returns_blocker (fuel : Nat) (db : database_t) (E : List cs_ref) (v : Nat)
    (L : List Nat) (hs : main_pass_state db E)
    (hv : v ∈ all_versions db) (hrdy : (db.versions v).ready_index ≠ SIZE_MAX)
    (hL : chain (fun x => (db.versions x).cs_sibling) fuel
      (db.cs (db.versions v).commit).versions = some L)
    (hLV : ∀ x ∈ L, x ∈ all_versions db ∧ (db.versions x).commit = (db.versions v).commit)
    (hanc : ∀ x ∈ all_versions db,
      (chain (fun y => (db.versions y).parent) fuel (db.versions x).parent).isSome)
    (hb : ∃ x ∈ L, (db.versions x).ready_index = SIZE_MAX) :
    ∃ r csv, preceed fuel db v = .ok r ∧ (db.versions r).ready_index ≠ SIZE_MAX ∧
      L.find? (blocked db) = some csv ∧ csv ∈ L ∧
      (db.versions csv).ready_index = SIZE_MAX ∧
      r ∈ ancestors fuel db csv ∧ nearest_ready fuel db csv = some r ∧
      preceed_spec fuel db v = some r := by
  have hE : (db.versions v).commit ∉ E := ((hs v hv).2.mp hrdy).1
  have hcs : cs_versions fuel db (db.versions v).commit = L := by
    simp only [cs_versions, hL, Option.getD_some]
  have href := preceed_refines fuel db v (by rw [hL]; rfl)
    (fun csv hcsv _ => hanc csv (hLV csv (by rw [← hcs]; exact hcsv)).1)
  obtain ⟨x, hx, hxb⟩ := hb
  cases hf : L.filter (blocked db) with
  | nil =>
    have : x ∈ L.filter (blocked db) := by
      rw [List.mem_filter]
      exact ⟨hx, by simp [blocked, hxb]⟩
    rw [hf] at this
    cases this
  | cons csv rest =>
    have hmem : csv ∈ L.filter (blocked db) := by rw [hf]; exact List.mem_cons_self _ _
    rw [List.mem_filter] at hmem
    obtain ⟨hcsvL, hcsvb⟩ := hmem
    have hfind : L.find? (blocked db) = some csv := by
      rw [find_eq_head_filter, hf]
      rfl
    obtain ⟨anc, hanc'⟩ := Option.isSome_iff_exists.mp (hanc csv (hLV csv hcsvL).1)
    have eanc : ancestors fuel db csv = anc := by
      simp only [ancestors, hanc', Option.getD_some]
    obtain ⟨r, hr⟩ := nearest_ready_exists hs anc csv (hLV csv hcsvL).1
      (by rw [(hLV csv hcsvL).2]; exact hE) hcsvb (is_chain_of_chain _ _ _ _ hanc')
    have hnr : nearest_ready fuel db csv = some r := by
      simp only [nearest_ready, eanc]
      exact hr
    have hspec : preceed_spec fuel db v = some r := by
      simp only [preceed_spec, hcs, hf, List.findSome?_cons, hnr]
    rw [hspec] at href
    have hrb := List.find?_some hr
    refine ⟨r, csv, href, ?_, hfind, hcsvL, by simpa [blocked] using hcsvb, ?_, hnr, hspec⟩
    · simpa [blocked] using hrb
    · rw [eanc]
      exact List.mem_of_find?_eq_some hr

/-- Witness for C19: in `cycle_db` after the preparation, `preceed (0)`
returns version 2 (B 1.1), the parent of the blocked version 3 (B 1.2) of
commit 0. -/
theorem preceed_returns_blocker_witness :
    main_pass_state (prepared 4 cycle_db (some [])).1 [] ∧
    ∃ r csv, preceed 4 (prepared 4 cycle_db (some [])).1 0 = .ok r ∧
      ((prepared 4 cycle_db (some [])).1.versions r).ready_index ≠ SIZE_MAX ∧
      [0, 3].find? (blocked (prepared 4 cycle_db (some [])).1) = some csv ∧ csv ∈ [0, 3] ∧
      ((prepared 4 cycle_db (some [])).1.versions csv).ready_index = SIZE_MAX ∧
      r ∈ ancestors 4 (prepared 4 cycle_db (some [])).1 csv ∧
      nearest_ready 4 (prepared 4 cycle_db (some [])).1 csv = some r ∧
      preceed_spec 4 (prepared 4 cycle_db (some [])).1 0 = some r :=
  ⟨by decide,
    preceed_returns_blocker 4 (prepared 4 cycle_db (some [])).1 [] 0 [0, 3] (by decide)
      (by decide) (by decide) rfl (by decide) (by decide) ⟨3, by decide, rfl⟩⟩

/-! ## Linear history -/

end Crap
